import Mathlib

/-!
# vtfs: a shallow embedding of `vtfs.c`

The kernel module keeps a tree of directories (`struct vtfs_dir`, a linked list of
`struct vtfs_file`) and, for regular files, a `data` pointer into the kernel heap.
Hard links are separate `vtfs_file` records that carry the same `ino` and a copy of
the `data` pointer.

Modelling conventions.

* A directory is the list of its entries in list order (`list_add_tail` appends).
  `dir_data` is `none` for the C `NULL` pointer.
* Pointers to file content are natural numbers: `0` is `NULL`, `16` is the kernel's
  `ZERO_SIZE_PTR` (what `kmalloc(0)` and `krealloc(p, 0)` return), every other live
  address names a block of the heap `kmem`.
* A "pointer to a `vtfs_file`" obtained from `vtfs_find_file_by_ino` is the first
  record with that ino in the traversal order of that function; assignments through
  such a pointer are `modify_file_by_ino`.
* Locks (`rw_semaphore`) are not modelled: one operation runs at a time.
* Integers: `ino_t`, `size_t` and `loff_t` are natural numbers; the host bounds
  offsets and lengths so that `*offset + len` does not wrap, and the local counter
  `next_ino`, which moves by one per call, stays below `2^64`.  The link counter is an
  `unsigned int`: the increment in `vtfs_link` (`nlink_inc`) and the decrement in
  `vtfs_unlink` (`nlink_dec`) wrap at `2^32`.  A number that comes from the remote
  store is parsed into its C type, and the assignment `next_ino = new_ino + 1` after
  a remote creation wraps at `2^64`.  The passage of an ino through the `int i_ino`
  parameter of `vtfs_get_inode` is kept (`int_ino`, for a 64-bit `unsigned long` and
  a 32-bit `int`): it changes every ino from `2^31` on.
* A name is a C string, a sequence of bytes other than NUL.  It is kept as the string
  whose characters are its bytes: the character with code `b` stands for the byte `b`
  (`name_of_bytes`, `bytes_of_name`), so a name of ASCII characters is written as
  usual.  `strlen` is the number of characters and `strcmp` is equality.  `vtfs_link`
  stores a name through `strncpy` without a length check: `strncpy_name` keeps the
  first 255 bytes.
* Allocation of the small fixed-size records (`struct vtfs_file`, `struct vtfs_dir`,
  an inode) succeeds; the heap model for file content never runs out of memory, the
  `-ENOMEM` exits are kept where the source tests the returned pointer.
* An access outside a live block is a fault: operations that dereference `data`
  return `Option`, with `none` for the fault.
* `copy_to_user` and `copy_from_user` succeed; the temporary buffer of `vtfs_write`
  (allocated and freed inside the call) is left out.
* In remote mode the result of the `vtfs_server_*` call an operation makes is an
  argument of the operation (for `vtfs_write` the outcome of the push, for `vtfs_read`
  a function from the number of bytes asked for to the outcome).  The `vtfs_server_*`
  functions are functions of what `vtfs_http_call` returned and left in the response
  buffer; the kernel's `sscanf` is modelled for the formats `"%lu,%u"` and
  `"%lu,%255[^,],%u,%lu"`, and `be64_to_cpu` for a little-endian CPU.  A response
  buffer is the list of its bytes from the start; where the source reads it as a C
  string, the string ends at the first NUL or at the end of the list.
* `vtfs_server_load_files` calls itself for every directory it loads; the model
  carries a bound on the depth of these calls.
-/

namespace Vtfs

/-! ## Constants -/

def VTFS_ROOT_INO : Nat := 100
def VTFS_MAX_NAME : Nat := 256

def S_IFMT : Nat := 0o170000
def S_IFDIR : Nat := 0o040000
def S_IFREG : Nat := 0o100000

def S_ISDIR (m : Nat) : Bool := (m &&& S_IFMT) == S_IFDIR
def S_ISREG (m : Nat) : Bool := (m &&& S_IFMT) == S_IFREG

def O_TRUNC : Nat := 0o1000
def O_APPEND : Nat := 0o2000
def ATTR_SIZE : Nat := 8

def DT_DIR : Nat := 4
def DT_REG : Nat := 8

def EPERM : Int := 1
def ENOENT : Int := 2
def EIO : Int := 5
def ENOMEM : Int := 12
def EFAULT : Int := 14
def EEXIST : Int := 17
def ENOTDIR : Int := 20
def EISDIR : Int := 21
def EINVAL : Int := 22
def ENOTEMPTY : Int := 39

def NULL : Nat := 0
def ZERO_SIZE_PTR : Nat := 16

/-! ## The tree -/

/-- Record `struct vtfs_file`: `dir_data` is the child directory (its entry list),
`data` the address of the content buffer. -/
inductive vtfs_file where
  | mk (ino : Nat) (mode : Nat) (name : String) (dir_data : Option (List vtfs_file))
       (data : Nat) (data_size : Nat) (nlink : Nat)

/-- Directory `struct vtfs_dir`: the `files` list. -/
abbrev vtfs_dir := List vtfs_file

namespace vtfs_file

def ino : vtfs_file → Nat
  | mk i _ _ _ _ _ _ => i

def mode : vtfs_file → Nat
  | mk _ m _ _ _ _ _ => m

def name : vtfs_file → String
  | mk _ _ n _ _ _ _ => n

def dir_data : vtfs_file → Option (List vtfs_file)
  | mk _ _ _ d _ _ _ => d

def data : vtfs_file → Nat
  | mk _ _ _ _ p _ _ => p

def data_size : vtfs_file → Nat
  | mk _ _ _ _ _ s _ => s

def nlink : vtfs_file → Nat
  | mk _ _ _ _ _ _ l => l

/-- Assignment `file->nlink = l`. -/
def set_nlink (l : Nat) : vtfs_file → vtfs_file
  | mk i m n d p s _ => mk i m n d p s l

/-- Assignments `file->data = p; file->data_size = s`. -/
def set_data (p s : Nat) : vtfs_file → vtfs_file
  | mk i m n d _ _ l => mk i m n d p s l

/-- Assignment `file->data_size = s`. -/
def set_data_size (s : Nat) : vtfs_file → vtfs_file
  | mk i m n d p _ l => mk i m n d p s l

/-- Replace the entry list behind `file->dir_data`. -/
def set_dir (d : Option (List vtfs_file)) : vtfs_file → vtfs_file
  | mk i m n _ p s l => mk i m n d p s l

end vtfs_file

/-- The scalar fields of a record, without the subtree below it. -/
structure entry_info where
  ino : Nat
  mode : Nat
  name : String
  is_dir : Bool
  data : Nat
  data_size : Nat
  nlink : Nat
  deriving DecidableEq, Repr

/-- Scalar view of a record; `is_dir` says whether `dir_data` is non-NULL. -/
def vtfs_file.info (f : vtfs_file) : entry_info :=
  ⟨f.ino, f.mode, f.name, f.dir_data.isSome, f.data, f.data_size, f.nlink⟩

mutual
/-- Lookup `vtfs_find_file_by_ino`: depth-first, an entry before its children, the
children before the next sibling. -/
def vtfs_find_file_by_ino : List vtfs_file → Nat → Option vtfs_file
  | [], _ => none
  | f :: rest, ino =>
    if f.ino = ino then some f
    else match find_in_dir_data f ino with
      | some g => some g
      | none => vtfs_find_file_by_ino rest ino
/-- The recursive call of `vtfs_find_file_by_ino` on `file->dir_data`. -/
def find_in_dir_data : vtfs_file → Nat → Option vtfs_file
  | .mk _ _ _ (some d) _ _ _, ino => vtfs_find_file_by_ino d ino
  | .mk _ _ _ none _ _ _, _ => none
end

mutual
/-- Apply `g` to the record `vtfs_find_file_by_ino` returns (an assignment through
the returned pointer); `none` when there is no such record. -/
def modify_file_by_ino (g : vtfs_file → vtfs_file) : List vtfs_file → Nat → Option (List vtfs_file)
  | [], _ => none
  | f :: rest, ino =>
    if f.ino = ino then some (g f :: rest)
    else match modify_in_dir_data g f ino with
      | some f1 => some (f1 :: rest)
      | none => (modify_file_by_ino g rest ino).map (fun r => f :: r)
/-- The descent of `modify_file_by_ino` into `file->dir_data`. -/
def modify_in_dir_data (g : vtfs_file → vtfs_file) : vtfs_file → Nat → Option vtfs_file
  | .mk i m n (some d) p s l, ino =>
    (modify_file_by_ino g d ino).map (fun d1 => .mk i m n (some d1) p s l)
  | .mk _ _ _ none _ _ _, _ => none
end

mutual
/-- All records of a tree in the traversal order of `vtfs_find_file_by_ino`. -/
def all_entries : List vtfs_file → List entry_info
  | [] => []
  | f :: rest => (f.info :: entries_below f) ++ all_entries rest
/-- The records below one record. -/
def entries_below : vtfs_file → List entry_info
  | .mk _ _ _ (some d) _ _ _ => all_entries d
  | .mk _ _ _ none _ _ _ => []
end

mutual
/-- Function `vtfs_update_nlink_all`: set `nlink` on every record with this ino. -/
def vtfs_update_nlink_all : List vtfs_file → Nat → Nat → List vtfs_file
  | [], _, _ => []
  | f :: rest, ino, nlink =>
    update_nlink_file f ino nlink :: vtfs_update_nlink_all rest ino nlink
/-- One record of `vtfs_update_nlink_all`, with its subtree. -/
def update_nlink_file : vtfs_file → Nat → Nat → vtfs_file
  | .mk i m n (some d) p s l, ino, nlink =>
    .mk i m n (some (vtfs_update_nlink_all d ino nlink)) p s (if i = ino then nlink else l)
  | .mk i m n none p s l, ino, nlink =>
    .mk i m n none p s (if i = ino then nlink else l)
end

mutual
/-- Function `vtfs_update_data_all`: every record with this ino whose `data` is
`old_data` gets `new_data` and `new_size`. -/
def vtfs_update_data_all : List vtfs_file → Nat → Nat → Nat → Nat → List vtfs_file
  | [], _, _, _, _ => []
  | f :: rest, ino, old_data, new_data, new_size =>
    update_data_file f ino old_data new_data new_size ::
      vtfs_update_data_all rest ino old_data new_data new_size
/-- One record of `vtfs_update_data_all`, with its subtree. -/
def update_data_file : vtfs_file → Nat → Nat → Nat → Nat → vtfs_file
  | .mk i m n (some d) p s l, ino, old_data, new_data, new_size =>
    .mk i m n (some (vtfs_update_data_all d ino old_data new_data new_size))
      (if i = ino ∧ p = old_data then new_data else p)
      (if i = ino ∧ p = old_data then new_size else s) l
  | .mk i m n none p s l, ino, old_data, new_data, new_size =>
    .mk i m n none
      (if i = ino ∧ p = old_data then new_data else p)
      (if i = ino ∧ p = old_data then new_size else s) l
end

mutual
/-- Function `vtfs_remove_all_by_ino`: drop every record with this ino from every
directory that is still reachable. -/
def vtfs_remove_all_by_ino : List vtfs_file → Nat → List vtfs_file
  | [], _ => []
  | f :: rest, ino =>
    if f.ino = ino then vtfs_remove_all_by_ino rest ino
    else remove_in_dir_data f ino :: vtfs_remove_all_by_ino rest ino
/-- The recursive call of `vtfs_remove_all_by_ino` on `file->dir_data`. -/
def remove_in_dir_data : vtfs_file → Nat → vtfs_file
  | .mk i m n (some d) p s l, ino => .mk i m n (some (vtfs_remove_all_by_ino d ino)) p s l
  | .mk i m n none p s l, _ => .mk i m n none p s l
end

/-- Function `strlen` on a name: the number of its bytes, one character each. -/
def strlen (name : String) : Nat := name.length

/-- The bytes of a name: the codes of its characters. -/
def bytes_of_name (name : String) : List Nat := name.data.map Char.toNat

/-- Lookup `vtfs_find_file`: first entry of the directory with this name. -/
def vtfs_find_file (dir : List vtfs_file) (name : String) : Option vtfs_file :=
  dir.find? (fun f => f.name == name)

/-- Unlink `list_del(file)` for the record `vtfs_find_file dir name` points to. -/
def list_del (dir : List vtfs_file) (name : String) : List vtfs_file :=
  dir.eraseP (fun f => f.name == name)

/-- Function `vtfs_create_file`: the record it appends to the directory with
`list_add_tail`, or `none` for the `NULL` return (name too long or already present). -/
def vtfs_create_file (dir : List vtfs_file) (name : String) (mode ino : Nat) :
    Option vtfs_file :=
  if strlen name ≥ VTFS_MAX_NAME then none
  else if (vtfs_find_file dir name).isSome then none
  else some (.mk ino mode name (if S_ISDIR mode then some [] else none) NULL 0 1)

/-- The name that `strncpy(file->name, name, VTFS_MAX_NAME - 1)` and the terminating
NUL at index 255 leave in a record: the first 255 bytes of `name`. -/
def strncpy_name (name : String) : String :=
  ⟨name.data.take (VTFS_MAX_NAME - 1)⟩

/-- Lookup `vtfs_get_dir`: the entry list of the directory with this ino. -/
def vtfs_get_dir (root : List vtfs_file) (ino : Nat) : Option (List vtfs_file) :=
  if ino = VTFS_ROOT_INO then some root
  else match vtfs_find_file_by_ino root ino with
    | some file => if S_ISDIR file.mode then file.dir_data else none
    | none => none

/-- Mutation of a directory through the pointer `vtfs_get_dir root ino` returned:
`g` is applied to the entry list behind that pointer. -/
def modify_dir (g : List vtfs_file → List vtfs_file) (root : List vtfs_file) (ino : Nat) :
    List vtfs_file :=
  if ino = VTFS_ROOT_INO then g root
  else (modify_file_by_ino (fun f => f.set_dir (f.dir_data.map g)) root ino).getD root

mutual
/-- The content pointers `vtfs_cleanup_dir` hands to `kfree` for a directory and
everything below it. -/
def cleanup_ptrs : List vtfs_file → List Nat
  | [] => []
  | f :: rest => (f.data :: cleanup_ptrs_below f) ++ cleanup_ptrs rest
/-- The pointers freed by the recursive call of `vtfs_cleanup_dir`. -/
def cleanup_ptrs_below : vtfs_file → List Nat
  | .mk _ _ _ (some d) _ _ _ => cleanup_ptrs d
  | .mk _ _ _ none _ _ _ => []
end

/-- A block after `bytes` are written at offset `off` (inside the block). -/
def patch (blk : List Nat) (off : Nat) (bytes : List Nat) : List Nat :=
  blk.take off ++ bytes ++ blk.drop (off + bytes.length)

/-! ## The kernel heap for file content -/

/-- Heap of content buffers: the live blocks by address (the bytes of a block are its
whole usable size), the number of allocations made so far, the extra usable bytes a
request of a given size gets from its size class, and the byte found in memory
that was never written. -/
structure kmem where
  blocks : List (Nat × List Nat)
  nalloc : Nat
  slack : Nat → Nat
  junk : Nat

namespace kmem

/-- The live block at an address; `ZERO_SIZE_PTR` stands for a block of no bytes. -/
def find (m : kmem) (p : Nat) : Option (List Nat) :=
  if p = ZERO_SIZE_PTR then some [] else m.blocks.lookup p

/-- Release `kfree(p)`; `NULL` and `ZERO_SIZE_PTR` name no block. -/
def kfree (m : kmem) (p : Nat) : kmem :=
  { m with blocks := m.blocks.filter (fun b => b.1 != p) }

/-- An address above `ZERO_SIZE_PTR`, above every address handed out so far and above
every live block. -/
def fresh_addr (m : kmem) : Nat :=
  m.blocks.foldl (fun a b => max a (b.1 + 1)) (17 + m.nalloc)

/-- A new block at a fresh address. -/
def alloc_block (m : kmem) (blk : List Nat) : Nat × kmem :=
  (m.fresh_addr, { m with blocks := (m.fresh_addr, blk) :: m.blocks, nalloc := m.nalloc + 1 })

/-- Allocation `kmalloc(n, GFP_KERNEL)`: `ZERO_SIZE_PTR` for `n = 0`, otherwise a
fresh block of unwritten bytes. -/
def kmalloc (m : kmem) (n : Nat) : Nat × kmem :=
  if n = 0 then (ZERO_SIZE_PTR, m)
  else m.alloc_block (List.replicate (n + m.slack n) m.junk)

/-- Reallocation `krealloc(p, n, GFP_KERNEL)`: frees for `n = 0`, allocates for a
`NULL` or zero-size `p`, stays in place when the block is large enough, otherwise
moves the bytes to a fresh block and frees the old one.  `none`: `p` is not live. -/
def krealloc (m : kmem) (p n : Nat) : Option (Nat × kmem) :=
  if n = 0 then some (ZERO_SIZE_PTR, m.kfree p)
  else if p = NULL then some (m.kmalloc n)
  else match m.find p with
    | none => none
    | some blk =>
      if n ≤ blk.length then some (p, m)
      else
        let r := m.alloc_block (blk ++ List.replicate (n + m.slack n - blk.length) m.junk)
        some (r.1, r.2.kfree p)

/-- Write `bytes` at `p + off` (`memset`, `memcpy`); `none` when the range is not
inside a live block.  Writing no bytes touches nothing. -/
def store (m : kmem) (p off : Nat) (bytes : List Nat) : Option kmem :=
  if bytes = [] then some m
  else match m.blocks.lookup p with
    | none => none
    | some blk =>
      if off + bytes.length ≤ blk.length then
        some { m with blocks := (p, patch blk off bytes) :: m.blocks.filter (fun b => b.1 != p) }
      else none

/-- Read `n` bytes at `p + off`; `none` when the range is not inside a live block. -/
def load (m : kmem) (p off n : Nat) : Option (List Nat) :=
  if n = 0 then some []
  else match m.blocks.lookup p with
    | none => none
    | some blk => if off + n ≤ blk.length then some ((blk.drop off).take n) else none

end kmem

/-! ## Mount state and host objects -/

/-- State `struct vtfs_fs_info` (without `token` and `sb`), together with the heap
that holds the content buffers. -/
structure vtfs_fs_info where
  root_dir : List vtfs_file
  next_ino : Nat
  use_server : Bool
  mem : kmem

/-- The fields of the host `struct inode` the module reads or fills. -/
structure inode where
  i_ino : Nat
  i_mode : Nat
  i_size : Nat
  deriving DecidableEq, Repr

/-- One `dir_emit` call: name, ino, type. -/
structure dirent where
  name : String
  ino : Nat
  d_type : Nat
  deriving DecidableEq, Repr

/-- What `vtfs_read` and `vtfs_write` leave behind: the state, the return value, the
bytes copied to the user buffer, and `*offset`. -/
structure io_result where
  st : vtfs_fs_info
  ret : Int
  out : List Nat
  pos : Nat

/-- The state `vtfs_fill_super` builds before it loads anything from the remote
store; with `use_server = false` this is the mounted file system. -/
def empty_mount (use_server : Bool) (mem : kmem) : vtfs_fs_info :=
  { root_dir := [], next_ino := 200, use_server := use_server, mem := mem }

/-- Function `vtfs_get_file_by_inode`. -/
def vtfs_get_file_by_inode (st : vtfs_fs_info) (i : inode) : Option vtfs_file :=
  vtfs_find_file_by_ino st.root_dir i.i_ino

/-- The number that arrives in `inode->i_ino` (`unsigned long`, 64 bits) when an
`ino_t` is passed through a parameter of type `int` (32 bits): the low 32 bits,
sign-extended. -/
def int_ino (ino : Nat) : Nat :=
  if ino % 4294967296 < 2147483648 then ino % 4294967296
  else 18446744069414584320 + ino % 4294967296

/-- Function `vtfs_get_inode`: the inode made for a record (`i_size` starts at 0); the
parameter `i_ino` has type `int`. -/
def vtfs_get_inode (mode i_ino : Nat) : inode :=
  { i_ino := int_ino i_ino, i_mode := mode, i_size := 0 }

/-- Function `vtfs_lookup`: the inode attached to the dentry, `none` when the dentry
stays negative. -/
def vtfs_lookup (st : vtfs_fs_info) (parent_ino : Nat) (name : String) : Option inode :=
  match vtfs_get_dir st.root_dir parent_ino with
  | none => none
  | some dir =>
    match vtfs_find_file dir name with
    | none => none
    | some file =>
      let i := vtfs_get_inode file.mode file.ino
      some (if S_ISREG file.mode then { i with i_size := file.data_size } else i)

/-- The `list_for_each_entry` loop of `vtfs_iterate`: skip `files_to_skip` entries,
then emit until the consumer refuses (`room` is how many entries it still takes). -/
def iterate_files : List vtfs_file → Nat → Nat → Nat → Nat → List dirent × Nat
  | [], _, _, _, pos => ([], pos)
  | f :: rest, file_index, files_to_skip, room, pos =>
    if file_index < files_to_skip then
      iterate_files rest (file_index + 1) files_to_skip room pos
    else
      match room with
      | 0 => ([], pos)
      | room1 + 1 =>
        let r := iterate_files rest (file_index + 1) files_to_skip room1 (pos + 1)
        (⟨f.name, f.ino, if S_ISDIR f.mode then DT_DIR else DT_REG⟩ :: r.1, r.2)

/-- Function `vtfs_iterate` on the directory `i_ino` whose parent is `parent_ino`,
from cursor `pos`, for a consumer that accepts `room` entries: the entries emitted
and the cursor afterwards. -/
def vtfs_iterate (st : vtfs_fs_info) (i_ino parent_ino pos room : Nat) : List dirent × Nat :=
  match vtfs_get_dir st.root_dir i_ino with
  | none => ([], pos)
  | some dir =>
    if pos = 0 ∧ room = 0 then ([], pos)
    else
      let out0 : List dirent := if pos = 0 then [⟨".", i_ino, DT_DIR⟩] else []
      let room0 := if pos = 0 then room - 1 else room
      let pos0 := if pos = 0 then 1 else pos
      if pos0 = 1 ∧ room0 = 0 then (out0, pos0)
      else
        let out1 : List dirent := if pos0 = 1 then out0 ++ [⟨"..", parent_ino, DT_DIR⟩] else out0
        let room1 := if pos0 = 1 then room0 - 1 else room0
        let pos1 := if pos0 = 1 then 2 else pos0
        let files_to_skip := if pos1 > 2 then pos1 - 2 else 0
        let r := iterate_files dir 0 files_to_skip room1 pos1
        (out1 ++ r.1, r.2)

/-! ## Operations on names -/

/-- The mode `vtfs_create` gives a new regular file. -/
def create_mode (mode : Nat) : Nat :=
  if ((S_IFREG ||| (mode &&& 0o777)) &&& 0o777) = 0 then S_IFREG ||| 0o666
  else S_IFREG ||| (mode &&& 0o777)

/-- The mode `vtfs_mkdir` gives a new directory. -/
def mkdir_mode (mode : Nat) : Nat :=
  if ((S_IFDIR ||| (mode &&& 0o777)) &&& 0o777) = 0 then S_IFDIR ||| 0o755
  else S_IFDIR ||| (mode &&& 0o777)

/-- The part `vtfs_create` and `vtfs_mkdir` share once the mode is fixed: choose the
ino (the remote one, `srv = (ret, ino)` being the outcome of `vtfs_server_create_file`
or `vtfs_server_mkdir`, or the local counter), then `vtfs_create_file`. -/
def create_entry (st : vtfs_fs_info) (parent_ino : Nat) (name : String) (file_mode : Nat)
    (srv : Int × Nat) : vtfs_fs_info × Int :=
  match vtfs_get_dir st.root_dir parent_ino with
  | none => (st, -ENOENT)
  | some dir =>
    if st.use_server = true ∧ srv.1 ≠ 0 then (st, srv.1)
    else
      let new_ino := if st.use_server then srv.2 else st.next_ino
      let st1 : vtfs_fs_info :=
        if st.use_server then
          (if new_ino ≥ st.next_ino then
            { st with next_ino := (new_ino + 1) % 18446744073709551616 } else st)
        else { st with next_ino := st.next_ino + 1 }
      match vtfs_create_file dir name file_mode new_ino with
      | none =>
        if (vtfs_find_file dir name).isSome then (st1, -EEXIST) else (st1, -ENOMEM)
      | some file =>
        let root1 := modify_dir (fun d => d ++ [file]) st1.root_dir parent_ino
        ({ st1 with root_dir := root1 }, 0)

/-- Function `vtfs_create`. -/
def vtfs_create (st : vtfs_fs_info) (parent_ino : Nat) (name : String) (mode : Nat)
    (srv : Int × Nat) : vtfs_fs_info × Int :=
  create_entry st parent_ino name (create_mode mode) srv

/-- Function `vtfs_mkdir`. -/
def vtfs_mkdir (st : vtfs_fs_info) (parent_ino : Nat) (name : String) (mode : Nat)
    (srv : Int × Nat) : vtfs_fs_info × Int :=
  create_entry st parent_ino name (mkdir_mode mode) srv

/-- The unsigned decrement `main_file->nlink - 1`. -/
def nlink_dec (n : Nat) : Nat := if n = 0 then 4294967295 else n - 1

/-- The increment `file->nlink++` of an `unsigned int`. -/
def nlink_inc (n : Nat) : Nat := (n + 1) % 4294967296

/-- Function `vtfs_unlink`; `d_inode` is `child_dentry->d_inode`. -/
def vtfs_unlink (st : vtfs_fs_info) (parent_ino : Nat) (name : String) (d_inode : Option inode) :
    vtfs_fs_info × Int :=
  match vtfs_get_dir st.root_dir parent_ino with
  | none => (st, -ENOENT)
  | some dir =>
    match d_inode with
    | none => (st, -ENOENT)
    | some i =>
      match vtfs_get_file_by_inode st i with
      | none => (st, -ENOENT)
      | some main_file =>
        match vtfs_find_file dir name with
        | none => (st, -ENOENT)
        | some file =>
          if file.ino ≠ i.i_ino then (st, -ENOENT)
          else
            let new_nlink := nlink_dec main_file.nlink
            let root1 := modify_dir (fun d => list_del d name) st.root_dir parent_ino
            let root2 := vtfs_update_nlink_all root1 i.i_ino new_nlink
            if new_nlink = 0 then
              let root3 := vtfs_remove_all_by_ino root2 i.i_ino
              let mem1 := (cleanup_ptrs_below file).foldl kmem.kfree st.mem
              let mem2 := mem1.kfree file.data
              ({ st with root_dir := root3, mem := mem2 }, 0)
            else ({ st with root_dir := root2 }, 0)

/-- Function `vtfs_rmdir`. -/
def vtfs_rmdir (st : vtfs_fs_info) (parent_ino : Nat) (name : String) : vtfs_fs_info × Int :=
  match vtfs_get_dir st.root_dir parent_ino with
  | none => (st, -ENOENT)
  | some dir =>
    match vtfs_find_file dir name with
    | none => (st, -ENOENT)
    | some file =>
      if ¬ S_ISDIR file.mode then (st, -ENOTDIR)
      else
        match file.dir_data with
        | some [] =>
          let root1 := modify_dir (fun d => list_del d name) st.root_dir parent_ino
          ({ st with root_dir := root1 }, 0)
        | _ => (st, -ENOTEMPTY)

/-- Function `vtfs_link`; `old_inode` is `old_dentry->d_inode`, `srv = (ret, nlink)` the
outcome of `vtfs_server_link`. -/
def vtfs_link (st : vtfs_fs_info) (old_inode : Option inode) (parent_ino : Nat) (name : String)
    (srv : Int × Nat) : vtfs_fs_info × Int :=
  match old_inode with
  | none => (st, -ENOENT)
  | some i =>
    if S_ISDIR i.i_mode then (st, -EPERM)
    else
      match vtfs_get_file_by_inode st i with
      | none => (st, -ENOENT)
      | some file =>
        match vtfs_get_dir st.root_dir parent_ino with
        | none => (st, -ENOENT)
        | some dir =>
          if (vtfs_find_file dir name).isSome then (st, -EEXIST)
          else
            let nlink1 := nlink_inc file.nlink
            let new_file := vtfs_file.mk file.ino file.mode (strncpy_name name) none file.data
              file.data_size nlink1
            let root1 := (modify_file_by_ino (vtfs_file.set_nlink nlink1) st.root_dir i.i_ino).getD
              st.root_dir
            let root2 := modify_dir (fun d => d ++ [new_file]) root1 parent_ino
            let root3 := vtfs_update_nlink_all root2 file.ino nlink1
            if st.use_server = true ∧ srv.1 = 0 then
              let root4 := vtfs_update_nlink_all root3 file.ino srv.2
              ({ st with root_dir := root4 }, 0)
            else ({ st with root_dir := root3 }, 0)

/-- Function `vtfs_getattr`: the size, link count and mode it copies from the record
into the `kstat`; `none` when the record is not found and the host values stay. -/
def vtfs_getattr (st : vtfs_fs_info) (i : inode) : Option (Nat × Nat × Nat) :=
  (vtfs_get_file_by_inode st i).map (fun file => (file.data_size, file.nlink, file.mode))

/-! ## Operations on content -/

/-- The block "Load data from server if needed" of `vtfs_read`; `srv needed` is the
outcome `(ret, bytes)` of `vtfs_server_read_file` asked for `needed` bytes from
offset 0 (`bytes` is what it copied into the buffer, `*out_len` their number).
Returns the state and the record `file` points to afterwards. -/
def read_fill (st : vtfs_fs_info) (i : inode) (file : vtfs_file) (len offset : Nat)
    (srv : Nat → Int × List Nat) : Option (vtfs_fs_info × vtfs_file) :=
  if st.use_server = true ∧ (file.data = NULL ∨ offset + len > file.data_size) then
    let needed := offset + len
    if needed > file.data_size ∨ file.data = NULL then
      let a := st.mem.kmalloc needed
      if a.1 = NULL then some (st, file)
      else
        let r := srv needed
        if r.1 = 0 then
          match a.2.store a.1 0 r.2 with
          | none => none
          | some mem2 =>
            if r.2.length > 0 then
              let mem3 := if file.data ≠ NULL then mem2.kfree file.data else mem2
              let root1 := (modify_file_by_ino (vtfs_file.set_data a.1 r.2.length)
                st.root_dir i.i_ino).getD st.root_dir
              some ({ st with root_dir := root1, mem := mem3 }, file.set_data a.1 r.2.length)
            else some ({ st with mem := mem2.kfree a.1 }, file)
        else some ({ st with mem := a.2.kfree a.1 }, file)
    else some (st, file)
  else some (st, file)

/-- Function `vtfs_read` for `len` bytes at `*offset = offset`. -/
def vtfs_read (st : vtfs_fs_info) (i : inode) (len offset : Nat)
    (srv : Nat → Int × List Nat) : Option io_result :=
  match vtfs_get_file_by_inode st i with
  | none => some ⟨st, 0, [], offset⟩
  | some file0 =>
    match read_fill st i file0 len offset srv with
    | none => none
    | some (st1, file) =>
      if file.data = NULL then some ⟨st1, 0, [], offset⟩
      else if offset ≥ file.data_size then some ⟨st1, 0, [], offset⟩
      else
        let to_read := if offset + len > file.data_size then file.data_size - offset else len
        if to_read = 0 then some ⟨st1, 0, [], offset⟩
        else
          match st1.mem.load file.data offset to_read with
          | none => none
          | some bytes => some ⟨st1, to_read, bytes, offset + to_read⟩

/-- The assignments that follow `krealloc` in `vtfs_write`: through
`vtfs_update_data_all` and a fresh `vtfs_get_file_by_inode` when there was a buffer
and it moved, on the record itself otherwise.  Returns the state and the record
`file` points to afterwards; the inner `none` is the exit with `-ENOMEM`. -/
def write_store (st : vtfs_fs_info) (i : inode) (file : vtfs_file)
    (old_data new_data new_size : Nat) (mem2 : kmem) : vtfs_fs_info × Option vtfs_file :=
  if old_data ≠ NULL ∧ old_data ≠ new_data then
    let root1 := vtfs_update_data_all st.root_dir i.i_ino old_data new_data new_size
    let st1 : vtfs_fs_info := { st with root_dir := root1, mem := mem2 }
    match vtfs_get_file_by_inode st1 i with
    | none => (st1, none)
    | some file1 => if file1.data = NULL then (st1, none) else (st1, some file1)
  else
    let root1 := (modify_file_by_ino (vtfs_file.set_data new_data new_size)
      st.root_dir i.i_ino).getD st.root_dir
    ({ st with root_dir := root1, mem := mem2 }, some (file.set_data new_data new_size))

/-- The block of `vtfs_write` that resizes the buffer to `new_size = off + len`:
`krealloc`, zero-fill of the gap between the old size and `off`, then the
assignments of `write_store`. -/
def write_grow (st : vtfs_fs_info) (i : inode) (file : vtfs_file) (off new_size : Nat) :
    Option (vtfs_fs_info × Option vtfs_file) :=
  if new_size > file.data_size ∨ file.data = NULL then
    match st.mem.krealloc file.data new_size with
    | none => none
    | some (new_data, mem1) =>
      if new_data = NULL then some (st, none)
      else
        let zeroed :=
          if file.data_size < off then
            mem1.store new_data file.data_size (List.replicate (off - file.data_size) 0)
          else some mem1
        match zeroed with
        | none => none
        | some mem2 => some (write_store st i file file.data new_data new_size mem2)
  else some (st, some file)

/-- Function `vtfs_write` of the bytes `buf` at `*offset = offset` on a handle with
flags `f_flags`; `push` is the outcome of `vtfs_server_write_file`, consulted in remote
mode only. -/
def vtfs_write (st : vtfs_fs_info) (i : inode) (f_flags : Nat) (buf : List Nat) (offset : Nat)
    (push : Int) : Option io_result :=
  match vtfs_get_file_by_inode st i with
  | none => some ⟨st, -ENOENT, [], offset⟩
  | some file0 =>
    let off := if f_flags &&& O_APPEND ≠ 0 then file0.data_size else offset
    match write_grow st i file0 off (off + buf.length) with
    | none => none
    | some (st1, none) => some ⟨st1, -ENOMEM, [], off⟩
    | some (st1, some file) =>
      if file.data = NULL then some ⟨st1, -ENOMEM, [], off⟩
      else
        match st1.mem.store file.data off buf with
        | none => none
        | some mem2 =>
          let st2 : vtfs_fs_info := { st1 with mem := mem2 }
          let server_ret : Int := if st2.use_server then push else 0
          if server_ret ≠ 0 then some ⟨st2, buf.length, [], off + buf.length⟩
          else some ⟨st2, buf.length, [], off + buf.length⟩

/-- The two assignments that follow `krealloc` in `vtfs_setattr`: through
`vtfs_update_data_all` when the buffer moved, on the record itself otherwise. -/
def setattr_store (st : vtfs_fs_info) (i : inode) (old_data new_data new_size : Nat)
    (mem1 : kmem) : vtfs_fs_info :=
  if old_data ≠ new_data then
    { st with root_dir := vtfs_update_data_all st.root_dir i.i_ino old_data new_data new_size,
              mem := mem1 }
  else
    { st with root_dir := (modify_file_by_ino (vtfs_file.set_data new_data new_size)
                st.root_dir i.i_ino).getD st.root_dir,
              mem := mem1 }

/-- Function `vtfs_setattr` with `attr->ia_valid` and `attr->ia_size` (it always
returns 0; the result is the state). -/
def vtfs_setattr (st : vtfs_fs_info) (i : inode) (ia_valid ia_size : Nat) : Option vtfs_fs_info :=
  if ia_valid &&& ATTR_SIZE ≠ 0 then
    match vtfs_get_file_by_inode st i with
    | none => some st
    | some file =>
      if ia_size < file.data_size then
        match st.mem.krealloc file.data ia_size with
        | none => none
        | some (new_data, mem1) =>
          if new_data = NULL then some st
          else some (setattr_store st i file.data new_data ia_size mem1)
      else if ia_size > file.data_size then
        match st.mem.krealloc file.data ia_size with
        | none => none
        | some (new_data, mem1) =>
          if new_data = NULL then some st
          else
            match mem1.store new_data file.data_size
                (List.replicate (ia_size - file.data_size) 0) with
            | none => none
            | some mem2 => some (setattr_store st i file.data new_data ia_size mem2)
      else some st
  else some st

/-- Function `vtfs_open` on a handle with flags `f_flags` (it always returns 0). -/
def vtfs_open (st : vtfs_fs_info) (i : inode) (f_flags : Nat) : vtfs_fs_info :=
  if f_flags &&& O_TRUNC ≠ 0 then
    match vtfs_get_file_by_inode st i with
    | none => st
    | some file =>
      if file.data ≠ NULL then
        let root1 := vtfs_update_data_all st.root_dir i.i_ino file.data NULL 0
        let root2 := (modify_file_by_ino (vtfs_file.set_data NULL 0) root1 i.i_ino).getD root1
        { st with root_dir := root2, mem := st.mem.kfree file.data }
      else
        { st with root_dir := (modify_file_by_ino (vtfs_file.set_data NULL 0)
            st.root_dir i.i_ino).getD st.root_dir }
  else st

/-! ## The host calling the module (local mode) -/

/-- Calls on names that the host passes to the module. -/
inductive host_call where
  | create (parent_ino : Nat) (name : String) (mode : Nat)
  | mkdir (parent_ino : Nat) (name : String) (mode : Nat)
  | unlink (parent_ino : Nat) (name : String)
  | rmdir (parent_ino : Nat) (name : String)
  | link (old_parent : Nat) (old_name : String) (parent_ino : Nat) (name : String)

/-- One call in local mode (no server outcome is consulted).  The child inode of
`unlink` and the source inode of `link` are the ones `vtfs_lookup` attached to the
dentry; as the host does, `unlink` is refused with `-ENOENT` on a negative dentry and
with `-EISDIR` on a directory before the module is entered. -/
def local_step (st : vtfs_fs_info) : host_call → vtfs_fs_info × Int
  | .create p n m => vtfs_create st p n m (0, 0)
  | .mkdir p n m => vtfs_mkdir st p n m (0, 0)
  | .unlink p n =>
    match vtfs_lookup st p n with
    | none => (st, -ENOENT)
    | some i => if S_ISDIR i.i_mode then (st, -EISDIR) else vtfs_unlink st p n (some i)
  | .rmdir p n => vtfs_rmdir st p n
  | .link op oname p n => vtfs_link st (vtfs_lookup st op oname) p n (0, 0)

/-- A sequence of calls in local mode. -/
def local_run (st : vtfs_fs_info) : List host_call → vtfs_fs_info
  | [] => st
  | c :: cs => local_run (local_step st c).1 cs

/-- Whether a call is a `link`. -/
def host_call.is_link : host_call → Bool
  | .link _ _ _ _ => true
  | _ => false

/-- Number of records in a list of records that carry the ino. -/
def ino_count (es : List entry_info) (ino : Nat) : Nat :=
  es.countP (fun x => x.ino == ino)

/-- What `vtfs_update_nlink_all` does to one record. -/
def set_nlink_if (ino nlink : Nat) (e : entry_info) : entry_info :=
  if e.ino = ino then { e with nlink := nlink } else e

/-- What `vtfs_update_data_all` does to one record. -/
def set_data_if (ino old_data new_data new_size : Nat) (e : entry_info) : entry_info :=
  if e.ino = ino ∧ e.data = old_data then { e with data := new_data, data_size := new_size }
  else e

/-- Consistency of the records of a tree with the ino counter: link counts are
counts of records, inos come from the counter, records of one ino agree on the mode,
only directories have a child list, and a directory has one record. -/
structure entries_inv (es : List entry_info) (next_ino : Nat) : Prop where
  nlink_count : ∀ e ∈ es, e.nlink = ino_count es e.ino
  ino_lt : ∀ e ∈ es, e.ino < next_ino
  same_mode : ∀ e ∈ es, ∀ e1 ∈ es, e.ino = e1.ino → e.mode = e1.mode
  dir_mode : ∀ e ∈ es, e.is_dir = true → S_ISDIR e.mode = true
  dir_single : ∀ e ∈ es, S_ISDIR e.mode = true → ino_count es e.ino = 1

/-- The consistency of a local-mode state. -/
def tree_inv (st : vtfs_fs_info) : Prop :=
  st.use_server = false ∧ entries_inv (all_entries st.root_dir) st.next_ino

/-- The inos of a local-mode tree come from the counter, which started at 200. -/
def ino_range (st : vtfs_fs_info) : Prop :=
  st.use_server = false ∧ 200 ≤ st.next_ino ∧
    ∀ e ∈ all_entries st.root_dir, 200 ≤ e.ino ∧ e.ino < st.next_ino

/-- Calls on the names of one directory. -/
inductive name_call where
  | create (name : String) (mode : Nat)
  | mkdir (name : String) (mode : Nat)
  | unlink (name : String)
  | rmdir (name : String)

/-- The call on directory `p`. -/
def name_call.on_dir (p : Nat) : name_call → host_call
  | .create n m => .create p n m
  | .mkdir n m => .mkdir p n m
  | .unlink n => .unlink p n
  | .rmdir n => .rmdir p n

/-- The list of linked names after one call that returned `ret`: a successful
creation adds the name, a successful removal takes it away. -/
def linked_after (names : List String) (c : name_call) (ret : Int) : List String :=
  if ret = 0 then
    match c with
    | .create n _ => names ++ [n]
    | .mkdir n _ => names ++ [n]
    | .unlink n => names.erase n
    | .rmdir n => names.erase n
  else names

/-- Run calls on directory `p` in local mode and keep the list of linked names. -/
def run_names (p : Nat) : vtfs_fs_info → List String → List name_call →
    vtfs_fs_info × List String
  | st, names, [] => (st, names)
  | st, names, c :: cs =>
    run_names p (local_step st (c.on_dir p)).1
      (linked_after names c (local_step st (c.on_dir p)).2) cs

/-- A sequence of `vtfs_link` calls for one inode, each to a directory and a name;
the state afterwards and the number of calls that returned 0. -/
def link_calls (i : inode) : vtfs_fs_info → List (Nat × String) → vtfs_fs_info × Nat
  | st, [] => (st, 0)
  | st, t :: rest =>
    ((link_calls i (vtfs_link st (some i) t.1 t.2 (0, 0)).1 rest).1,
     (link_calls i (vtfs_link st (some i) t.1 t.2 (0, 0)).1 rest).2 +
       (if (vtfs_link st (some i) t.1 t.2 (0, 0)).2 = 0 then 1 else 0))

/-- A sequence of `vtfs_unlink` calls for one inode, each on a directory and a name;
the state afterwards and the number of calls that returned 0. -/
def unlink_calls (i : inode) : vtfs_fs_info → List (Nat × String) → vtfs_fs_info × Nat
  | st, [] => (st, 0)
  | st, t :: rest =>
    ((unlink_calls i (vtfs_unlink st t.1 t.2 (some i)).1 rest).1,
     (unlink_calls i (vtfs_unlink st t.1 t.2 (some i)).1 rest).2 +
       (if (vtfs_unlink st t.1 t.2 (some i)).2 = 0 then 1 else 0))

/-- The content of a record: the first `data_size` bytes of the block behind `data`
(no bytes for a `NULL` pointer of size 0); `none` when `data` does not point to a
live block of at least `data_size` bytes. -/
def file_content (m : kmem) (f : vtfs_file) : Option (List Nat) :=
  if f.data = NULL then (if f.data_size = 0 then some [] else none)
  else match m.find f.data with
    | some blk => if f.data_size ≤ blk.length then some (blk.take f.data_size) else none
    | none => none

/-- The bytes of a file with content `D` after `B` is written at offset `o`: `D`
padded with zeros up to `o`, then `B`, then what `D` holds behind the written range. -/
def written (D : List Nat) (o : Nat) (B : List Nat) : List Nat :=
  (D ++ List.replicate (o - D.length) 0).take o ++ B ++ D.drop (o + B.length)

/-- The bytes of a file with content `D` after its size is set to `n`. -/
def resized (D : List Nat) (n : Nat) : List Nat :=
  D.take n ++ List.replicate (n - D.length) 0

mutual
/-- The tree with link counts and content fields blanked: what is left are the
names, inos, modes and the nesting of the directories. -/
def strip : List vtfs_file → List vtfs_file
  | [] => []
  | f :: rest => strip_file f :: strip rest
/-- One record of `strip`, with its subtree. -/
def strip_file : vtfs_file → vtfs_file
  | .mk i m n (some d) _ _ _ => .mk i m n (some (strip d)) 0 0 0
  | .mk i m n none _ _ _ => .mk i m n none 0 0 0
end

/-- The names of a directory with the ino each name leads to, in list order. -/
def dir_names (root : List vtfs_file) (p : Nat) : Option (List (String × Nat)) :=
  (vtfs_get_dir root p).map (fun d => d.map (fun f => (f.name, f.ino)))

mutual
/-- The tree with the content fields `data` and `data_size` blanked: what is left are
the names, inos, modes, link counts, the order of the entries and the nesting of the
directories. -/
def blank_content : List vtfs_file → List vtfs_file
  | [] => []
  | f :: rest => blank_content_file f :: blank_content rest
/-- One record of `blank_content`, with its subtree. -/
def blank_content_file : vtfs_file → vtfs_file
  | .mk i m n (some d) _ _ l => .mk i m n (some (blank_content d)) 0 0 l
  | .mk i m n none _ _ l => .mk i m n none 0 0 l
end

/-- The listing of a directory: "." with the ino of the directory, ".." with the ino
of its parent, then the entries in list order, each with its ino and type. -/
def dir_listing (i_ino parent_ino : Nat) (dir : List vtfs_file) : List dirent :=
  ⟨".", i_ino, DT_DIR⟩ :: ⟨"..", parent_ino, DT_DIR⟩ ::
    dir.map (fun f => ⟨f.name, f.ino, if S_ISDIR f.mode then DT_DIR else DT_REG⟩)

/-! ## Replies of the remote store -/

/-- The C string that starts a byte buffer: the bytes before the first NUL. -/
def cstr (buf : List Nat) : List Nat :=
  buf.takeWhile (fun b => b != 0)

/-- Kernel `isspace` on a byte: TAB to CR, space, and the no-break space 0xA0. -/
def isspace (c : Nat) : Bool :=
  (decide (9 ≤ c) && decide (c ≤ 13)) || c == 32 || c == 160

/-- Kernel `isdigit` on a byte. -/
def isdigit (c : Nat) : Bool :=
  decide (48 ≤ c) && decide (c ≤ 57)

/-- Kernel `skip_spaces`. -/
def skip_spaces : List Nat → List Nat
  | [] => []
  | c :: cs => if isspace c then skip_spaces cs else c :: cs

/-- The digit loop of `simple_strntoull` in base 10: the value so far and the rest of
the string; the value wraps at 64 bits. -/
def scan_digits : List Nat → Nat → Nat × List Nat
  | [], acc => (acc, [])
  | c :: cs, acc =>
    if isdigit c then scan_digits cs ((acc * 10 + (c - 48)) % 18446744073709551616)
    else (acc, c :: cs)

/-- One unsigned decimal conversion of `vsscanf` (`%lu`, `%u`): the conversion stops
the scan (`none`) at the end of the string and when, after white space, no digit
follows. -/
def scan_unsigned (str : List Nat) : Option (Nat × List Nat) :=
  match str with
  | [] => none
  | _ =>
    match skip_spaces str with
    | [] => none
    | c :: cs => if isdigit c then some (scan_digits (c :: cs) 0) else none

/-- The call `sscanf(str, "%lu,%u", &a, &b) == 2`: both values, or `none` when fewer
than two conversions succeed.  The second value is stored in an `unsigned int`. -/
def sscanf_lu_u (str : List Nat) : Option (Nat × Nat) :=
  match scan_unsigned str with
  | none => none
  | some (a, rest) =>
    match rest with
    | 44 :: rest1 =>
      match scan_unsigned rest1 with
      | none => none
      | some (b, _) => some (a, b % 4294967296)
    | _ => none

/-- The loop `error_code = (error_code << 8) | (unsigned char)response[i]`, `i < 8`, of
`vtfs_server_create_file`, as the bit pattern of the `int64_t`. -/
def status_loop (response : List Nat) : Nat :=
  (List.range 8).foldl
    (fun acc i => ((acc <<< 8) ||| (response.getD i 0 % 256)) % 18446744073709551616) 0

/-- The load `*(int64_t*)response` on a little-endian CPU, as a bit pattern. -/
def load_int64 (response : List Nat) : Nat :=
  (List.range 8).foldr (fun i acc => acc * 256 + response.getD i 0 % 256) 0

/-- Function `be64_to_cpu` on a little-endian CPU: the eight bytes in reverse order. -/
def be64_to_cpu (x : Nat) : Nat :=
  (List.range 8).foldl (fun acc i => acc * 256 + x / 256 ^ i % 256) 0

/-- Function `vtfs_server_create_file` after `vtfs_http_call` returned `ret` and left
`response` in the buffer (`response` is the content of the whole buffer, a NUL ends
the payload): the return value and `*out_ino` (which keeps `out_ino` when the function
does not assign it). -/
def vtfs_server_create_file (ret : Int) (response : List Nat) (out_ino : Nat) : Int × Nat :=
  if ret < 0 ∨ ret < 8 then (- EIO, out_ino)
  else if status_loop response ≠ 0 then (- EIO, out_ino)
  else
    match sscanf_lu_u (cstr (response.drop 8)) with
    | none => (- EIO, out_ino)
    | some (ino, _) => (0, ino)

/-- Function `vtfs_server_mkdir` after `vtfs_http_call` returned `ret` and left
`response` in the buffer: the return value and `*out_ino`. -/
def vtfs_server_mkdir (ret : Int) (response : List Nat) (out_ino : Nat) : Int × Nat :=
  if ret < 0 ∨ ret < 8 then (- EIO, out_ino)
  else if be64_to_cpu (load_int64 response) ≠ 0 then (- EIO, out_ino)
  else
    match sscanf_lu_u (cstr (response.drop 8)) with
    | none => (- EIO, out_ino)
    | some (ino, _) => (0, ino)

/-- A reply with status 0 and the payload "77,33188". -/
def reply_ok : List Nat := [0, 0, 0, 0, 0, 0, 0, 0, 55, 55, 44, 51, 51, 49, 56, 56, 0]

/-- A reply with status 1. -/
def reply_status : List Nat := [0, 0, 0, 0, 0, 0, 0, 1, 55, 55, 44, 51, 51, 49, 56, 56, 0]

/-- A reply with status 0 and the payload "x". -/
def reply_garbled : List Nat := [0, 0, 0, 0, 0, 0, 0, 0, 120, 0]

/-- The value `(size_t)(ret - 8)` of the payload length for the `int64_t ret`: below
8 the subtraction wraps around. -/
def payload_len (ret : Int) : Nat :=
  if ret ≥ 8 then (ret - 8).toNat else 18446744073709551616 - (8 - ret).toNat

/-- Function `vtfs_server_write_file` for `len` bytes after `vtfs_http_call` returned
`ret` and left `response` in the buffer (no call is made for `len = 0`). -/
def vtfs_server_write_file (len : Nat) (ret : Int) (response : List Nat) : Int :=
  if len = 0 then 0
  else if ret < 0 then - EIO
  else if be64_to_cpu (load_int64 response) ≠ 0 then - EIO
  else 0

/-- Function `vtfs_server_read_file` asked for `len` bytes, after `vtfs_http_call`
returned `ret` and left `response` in the buffer (`response` is the content of the
whole buffer of `8 + len + 1024` bytes; no call is made for `len = 0`): the return
value and the bytes copied to `buffer`, whose number is `*out_len`. -/
def vtfs_server_read_file (len : Nat) (ret : Int) (response : List Nat) : Int × List Nat :=
  if len = 0 then (0, [])
  else if ret < 0 then (- EIO, [])
  else if be64_to_cpu (load_int64 response) ≠ 0 then (- EIO, [])
  else
    let data_len := if payload_len ret > len then len else payload_len ret
    (0, (response.drop 8).take data_len)

/-- Function `vtfs_server_delete_file` after `vtfs_http_call` returned `ret` and left
`response` in the buffer. -/
def vtfs_server_delete_file (ret : Int) (response : List Nat) : Int :=
  if ret < 0 then - EIO
  else if be64_to_cpu (load_int64 response) ≠ 0 then - EIO
  else 0

/-- Function `vtfs_server_rmdir` after `vtfs_http_call` returned `ret` and left
`response` in the buffer. -/
def vtfs_server_rmdir (ret : Int) (response : List Nat) : Int :=
  if ret < 0 then - EIO
  else if be64_to_cpu (load_int64 response) ≠ 0 then - EIO
  else 0

/-- Function `vtfs_server_unlink` after `vtfs_http_call` returned `ret` and left
`response` in the buffer. -/
def vtfs_server_unlink (ret : Int) (response : List Nat) : Int :=
  if ret < 0 then - EIO
  else if be64_to_cpu (load_int64 response) ≠ 0 then - EIO
  else 0

/-- Function `vtfs_server_link` after `vtfs_http_call` returned `ret` and left
`response` in the buffer: the return value and `*out_nlink` (which keeps `out_nlink`
when the function does not assign it). -/
def vtfs_server_link (ret : Int) (response : List Nat) (out_nlink : Nat) : Int × Nat :=
  if ret < 0 ∨ ret < 8 then (- EIO, out_nlink)
  else if be64_to_cpu (load_int64 response) ≠ 0 then (- EIO, out_nlink)
  else
    match sscanf_lu_u (cstr (response.drop 8)) with
    | none => (- EIO, out_nlink)
    | some (_, nlink) => (0, nlink)

/-- The outcome of `vtfs_server_read_file` as `vtfs_read` sees it, when `http needed`
is what `vtfs_http_call` returns and leaves in the buffer for a request of `needed`
bytes from offset 0. -/
def remote_read (http : Nat → Int × List Nat) (needed : Nat) : Int × List Nat :=
  vtfs_server_read_file needed (http needed).1 (http needed).2

/-! ## Hydration from the remote listing -/

/-- The name a record gets from the bytes of a C string: byte `b` is the character
with code `b`. -/
def name_of_bytes (bs : List Nat) : String :=
  ⟨bs.map Char.ofNat⟩

/-- The conversion `%255[^,]` of `vsscanf`: a non-empty run of at most 255 bytes other
than the comma (the string holds no NUL); the run and the rest of the string. -/
def scan_name (str : List Nat) : Option (List Nat × List Nat) :=
  match str with
  | [] => none
  | c :: _ =>
    if c = 44 then none
    else
      some ((str.takeWhile (fun b => b != 44)).take 255,
        str.drop ((str.takeWhile (fun b => b != 44)).take 255).length)

/-- The two `sscanf` calls of `vtfs_server_load_files` on one line, formats
`"%lu,%255[^,],%u,%lu"` and `"%lu,%255[^,],%u"`: `none` when `parse_result < 3`,
otherwise ino, name, mode and `data_size` (0 when the fourth conversion fails). -/
def sscanf_line (line : List Nat) : Option (Nat × List Nat × Nat × Nat) :=
  match scan_unsigned line with
  | none => none
  | some (ino, r1) =>
    match r1 with
    | 44 :: r2 =>
      match scan_name r2 with
      | none => none
      | some (name, r3) =>
        match r3 with
        | 44 :: r4 =>
          match scan_unsigned r4 with
          | none => none
          | some (mode, r5) =>
            match r5 with
            | 44 :: r6 =>
              match scan_unsigned r6 with
              | none => some (ino, name, mode % 4294967296, 0)
              | some (data_size, _) => some (ino, name, mode % 4294967296, data_size)
            | _ => some (ino, name, mode % 4294967296, 0)
        | _ => none
    | _ => none

/-- The lines the `while` loop of `vtfs_server_load_files` handles, as a scan over the
payload (a C string): `cur` holds the bytes of the current line in reverse, `start` is
the offset of the line.  The loop stops at a line that starts at or behind `data_len`,
at the end of the string, and at a line without a newline (`strchr` returns `NULL`). -/
def load_lines (data_len : Nat) : List Nat → List Nat → Nat → List (List Nat)
  | [], _, _ => []
  | c :: cs, cur, start =>
    if ¬ start < data_len then []
    else if c = 10 then cur.reverse :: load_lines data_len cs [] (start + cur.length + 1)
    else load_lines data_len cs (c :: cur) start

/-- The mode `vtfs_server_load_files` gives a record with declared mode `mode`. -/
def load_mode (mode : Nat) : Nat :=
  if mode ≥ 16384 then S_IFDIR ||| (mode &&& 0o777) else S_IFREG ||| (mode &&& 0o777)

/-- The directory `vtfs_server_load_files` inserts into: the ino through which
`modify_dir` reaches it, and its entry list. -/
def load_target (root : List vtfs_file) (parent_ino : Nat) : Nat × List vtfs_file :=
  match vtfs_get_dir root parent_ino with
  | some dir => (parent_ino, dir)
  | none =>
    if parent_ino = VTFS_ROOT_INO then (VTFS_ROOT_INO, root)
    else
      match vtfs_find_file_by_ino root parent_ino with
      | some parent_file =>
        match parent_file.dir_data with
        | some d => (parent_ino, d)
        | none => (VTFS_ROOT_INO, root)
      | none => (VTFS_ROOT_INO, root)

/-- The body of the `while` loop of `vtfs_server_load_files` for one line: the state
afterwards, and the ino of the directory to descend into when the new record is a
directory. -/
def load_line (st : vtfs_fs_info) (parent_ino : Nat) (line : List Nat) :
    vtfs_fs_info × Option Nat :=
  match sscanf_line line with
  | none => (st, none)
  | some (ino, name, mode, data_size) =>
    match vtfs_create_file (load_target st.root_dir parent_ino).2 (name_of_bytes name)
        (load_mode mode) ino with
    | none => (st, none)
    | some file =>
      ({ st with root_dir := (modify_dir (fun d => d ++ [file.set_data_size data_size])
          st.root_dir (load_target st.root_dir parent_ino).1) },
        if S_ISDIR (load_mode mode) then some ino else none)

/-- Function `vtfs_server_load_files`; `srv parent_ino` is what `vtfs_http_call` returns
and leaves in the buffer for the `list` call on `parent_ino`.  The first argument
bounds the depth of the recursion (the kernel stack is finite); `none` means the
bound was hit. -/
def vtfs_server_load_files (srv : Nat → Int × List Nat) :
    Nat → vtfs_fs_info → Nat → Option (vtfs_fs_info × Int)
  | 0, _, _ => none
  | depth + 1, st, parent_ino =>
    if (srv parent_ino).1 < 0 then some (st, - EIO)
    else if be64_to_cpu (load_int64 (srv parent_ino).2) ≠ 0 then some (st, - EIO)
    else
      ((load_lines (payload_len (srv parent_ino).1)
          (cstr ((srv parent_ino).2.drop 8)) [] 0).foldl
        (fun acc line =>
          match acc with
          | none => none
          | some st1 =>
            match (load_line st1 parent_ino line).2 with
            | none => some (load_line st1 parent_ino line).1
            | some ino =>
              (vtfs_server_load_files srv depth (load_line st1 parent_ino line).1 ino).map
                (fun r => r.1))
        (some st)).map (fun st1 => (st1, 0))

/-- Function `vtfs_fill_super`: the mounted state; `token` says whether a non-empty
token was given, which selects remote mode and loads the listing of the root. -/
def vtfs_fill_super (token : Bool) (mem : kmem) (srv : Nat → Int × List Nat) (depth : Nat) :
    Option vtfs_fs_info :=
  if token then
    (vtfs_server_load_files srv depth (empty_mount true mem) VTFS_ROOT_INO).map (fun r => r.1)
  else some (empty_mount false mem)

/-! ## Well-formed payloads -/

/-- The number a string of decimal digits denotes. -/
def dec_value (ds : List Nat) : Nat :=
  ds.foldl (fun acc c => acc * 10 + (c - 48)) 0

/-- A decimal numeral below `bound`: a non-empty string of digits. -/
def numeral (ds : List Nat) (bound : Nat) : Prop :=
  ds ≠ [] ∧ (∀ c ∈ ds, isdigit c = true) ∧ dec_value ds < bound

instance (ds : List Nat) (bound : Nat) : Decidable (numeral ds bound) := by
  unfold numeral
  infer_instance

/-- The value of a string of bytes read as a big-endian integer. -/
def big_endian (bytes : List Nat) : Nat :=
  bytes.foldl (fun acc b => acc * 256 + b) 0

/-- One line of a listing as the remote store writes it: the decimal digits of the
ino, the bytes of the name, the decimal digits of the mode and, when the field is
present, the decimal digits of the size. -/
structure list_line where
  ino : List Nat
  name : List Nat
  mode : List Nat
  size : Option (List Nat)

/-- The optional last field of a line, with the comma before it. -/
def size_field : Option (List Nat) → List Nat
  | none => []
  | some s => 44 :: s

/-- The bytes of the line `"<ino>,<name>,<mode>[,<size>]"`. -/
def list_line.bytes (l : list_line) : List Nat :=
  l.ino ++ 44 :: (l.name ++ 44 :: (l.mode ++ size_field l.size))

/-- A line the hydration can take: numerals that fit their C types, and a name of 1 to
255 bytes without NUL, newline and comma. -/
def list_line.well_formed (l : list_line) : Prop :=
  numeral l.ino 18446744073709551616 ∧ l.name ≠ [] ∧ l.name.length ≤ 255 ∧
    (∀ b ∈ l.name, b ≠ 0 ∧ b ≠ 10 ∧ b ≠ 44 ∧ b < 256) ∧
    numeral l.mode 4294967296 ∧
    ∀ s ∈ l.size, numeral s 18446744073709551616

instance (l : list_line) : Decidable l.well_formed := by
  unfold list_line.well_formed
  infer_instance

/-- The record hydration makes for a line. -/
def list_line.entry (l : list_line) : vtfs_file :=
  .mk (dec_value l.ino) (load_mode (dec_value l.mode)) (name_of_bytes l.name)
    (if S_ISDIR (load_mode (dec_value l.mode)) then some [] else none) NULL
    ((l.size.map dec_value).getD 0) 1

/-- The payload of a listing: every line followed by a newline. -/
def listing_bytes (lines : List list_line) : List Nat :=
  lines.flatMap (fun l => l.bytes ++ [10])

/-- A `list` call that loads nothing: the call fails, the status is not 0, or the loop
finds no line. -/
def no_listing (srv : Nat → Int × List Nat) (ino : Nat) : Prop :=
  (srv ino).1 < 0 ∨ be64_to_cpu (load_int64 (srv ino).2) ≠ 0 ∨
    load_lines (payload_len (srv ino).1) (cstr ((srv ino).2.drop 8)) [] 0 = []

instance (srv : Nat → Int × List Nat) (ino : Nat) : Decidable (no_listing srv ino) := by
  unfold no_listing
  infer_instance

/-- What a write leaves to observe: return value, offset, tree, heap and counter. -/
def write_view (r : io_result) : Int × Nat × List vtfs_file × kmem × Nat :=
  (r.ret, r.pos, r.st.root_dir, r.st.mem, r.st.next_ino)

/-! ## The tree of the remote store -/

/-- A tree as the remote store holds it: the line of an entry and, under a directory,
the entries the store lists for it. -/
inductive rnode where
  | mk (line : list_line) (children : List rnode)

/-- The line of a node. -/
def rnode.line : rnode → list_line
  | .mk l _ => l

/-- The nodes listed under a node. -/
def rnode.children : rnode → List rnode
  | .mk _ cs => cs

mutual
/-- The records hydration is to make for a forest: one per node, in order, a directory
with the records of its children. -/
def hydrated : List rnode → List vtfs_file
  | [] => []
  | n :: ns => hydrated_node n :: hydrated ns
/-- The record for one node, with its subtree. -/
def hydrated_node : rnode → vtfs_file
  | .mk l cs =>
    .mk (dec_value l.ino) (load_mode (dec_value l.mode)) (name_of_bytes l.name)
      (if S_ISDIR (load_mode (dec_value l.mode)) then some (hydrated cs) else none) NULL
      ((l.size.map dec_value).getD 0) 1
end

mutual
/-- The inos of all nodes of a forest. -/
def rinos : List rnode → List Nat
  | [] => []
  | n :: ns => rinos_node n ++ rinos ns
/-- The inos of a node and the nodes below it. -/
def rinos_node : rnode → List Nat
  | .mk l cs => dec_value l.ino :: rinos cs
end

mutual
/-- The number of levels of a forest. -/
def rheight : List rnode → Nat
  | [] => 0
  | n :: ns => max (rheight_node n) (rheight ns)
/-- The number of levels of a node with what is below it. -/
def rheight_node : rnode → Nat
  | .mk _ cs => rheight cs + 1
end

mutual
/-- The inos of the directories of a forest. -/
def rdirs : List rnode → List Nat
  | [] => []
  | n :: ns => rdirs_node n ++ rdirs ns
/-- The inos of the directories among a node and the nodes below it. -/
def rdirs_node : rnode → List Nat
  | .mk l cs =>
    if S_ISDIR (load_mode (dec_value l.mode)) then dec_value l.ino :: rdirs cs else rdirs cs
end

/-- The `list` call for `q` succeeds with a payload that starts with the lines of
`cs`, each ended by a newline, and holds no further newline. -/
def lists (srv : Nat → Int × List Nat) (q : Nat) (cs : List rnode) : Prop :=
  0 ≤ (srv q).1 ∧ be64_to_cpu (load_int64 (srv q).2) = 0 ∧
    (cstr ((srv q).2.drop 8)).take (listing_bytes (cs.map rnode.line)).length =
      listing_bytes (cs.map rnode.line) ∧
    (∀ b ∈ (cstr ((srv q).2.drop 8)).drop (listing_bytes (cs.map rnode.line)).length, b ≠ 10) ∧
    (listing_bytes (cs.map rnode.line)).length ≤ payload_len (srv q).1

instance (srv : Nat → Int × List Nat) (q : Nat) (cs : List rnode) :
    Decidable (lists srv q cs) := by
  unfold lists
  infer_instance

mutual
/-- The forest is what the remote store serves: every line is well-formed, a directory
has its children listed (or nothing: the call for it fails, and it has no children)
under names that differ, and an entry that is not a directory has no children. -/
def well_listed (srv : Nat → Int × List Nat) : List rnode → Bool
  | [] => true
  | n :: ns => well_listed_node srv n && well_listed srv ns
/-- One node of `well_listed`, with its subtree. -/
def well_listed_node (srv : Nat → Int × List Nat) : rnode → Bool
  | .mk l cs =>
    decide l.well_formed &&
      (if S_ISDIR (load_mode (dec_value l.mode)) then
        (decide (lists srv (dec_value l.ino) cs) ||
          (decide (no_listing srv (dec_value l.ino)) && cs.isEmpty)) &&
        decide ((cs.map (fun c => name_of_bytes c.line.name)).Nodup) &&
        well_listed srv cs
      else cs.isEmpty)
end

/-! ## Concrete inputs -/

/-- An empty heap whose blocks have exactly the requested size. -/
def demo_mem : kmem := ⟨[], 0, fun _ => 0, 0⟩

/-- Calls on the root: a repeated creation, a removal, a removal of an absent name. -/
def demo_names : List name_call :=
  [.create "a.txt" 0o644, .mkdir "d" 0o755, .create "a.txt" 0o600, .unlink "a.txt",
   .create "b" 0o644, .rmdir "x"]

/-- Calls that make a file, a directory, and two further names for the file. -/
def demo_calls : List host_call :=
  [.create 100 "a.txt" 0o644, .mkdir 100 "d" 0o755, .link 100 "a.txt" 201 "b.txt",
   .link 201 "b.txt" 100 "c.txt", .unlink 100 "a.txt"]

/-- Link targets: the second call hits an existing name. -/
def demo_links : List (Nat × String) := [(100, "b.txt"), (100, "b.txt"), (100, "c.txt")]

/-- Unlink targets: the second call hits an absent name. -/
def demo_unlinks : List (Nat × String) := [(100, "a.txt"), (100, "zzz"), (100, "c.txt")]

/-- The bytes of "hello". -/
def hello : List Nat := [104, 101, 108, 108, 111]

/-- The inode of the first file made on a local mount. -/
def file_ino : inode := ⟨200, 0o100644, 0⟩

/-- A local mount on which `a.txt` was created. -/
def one_file : vtfs_fs_info :=
  local_run (empty_mount false demo_mem) [.create 100 "a.txt" 0o644]

/-- Then `a.txt` got the second name `b.txt`, while it was still empty. -/
def two_names : vtfs_fs_info :=
  (vtfs_link one_file (vtfs_lookup one_file 100 "a.txt") 100 "b.txt" (0, 0)).1

/-- Then "hello" was written at offset 0. -/
def two_names_written : vtfs_fs_info :=
  ((vtfs_write two_names file_ino 0 hello 0 0).map (fun r => r.st)).getD two_names

/-- Then the name `a.txt` was unlinked. -/
def one_name_left : vtfs_fs_info :=
  (vtfs_unlink two_names_written 100 "a.txt" (vtfs_lookup two_names_written 100 "a.txt")).1

/-- The record of `a.txt` after the write. -/
def written_file : vtfs_file := .mk 200 0o100644 "a.txt" none 17 5 2

/-- The record of `a.txt` right after the link. -/
def linked_file : vtfs_file := .mk 200 0o100644 "a.txt" none 0 0 2

/-- The inode of a file the remote store numbered 5. -/
def remote_ino : inode := ⟨5, 0o100644, 0⟩

/-- A remote-mode mount on which `x` was created (remote ino 5) and "hello" was
written at offset 0. -/
def remote_written : vtfs_fs_info :=
  ((vtfs_write (vtfs_create (empty_mount true demo_mem) 100 "x" 0o644 (0, 5)).1 remote_ino 0
    hello 0 0).map (fun r => r.st)).getD (empty_mount true demo_mem)

/-- A local mount on which the directory `d` was made. -/
def one_dir : vtfs_fs_info :=
  local_run (empty_mount false demo_mem) [.mkdir 100 "d" 0o755]

/-- The record of the directory `d`. -/
def dir_file : vtfs_file := .mk 200 0o040755 "d" (some []) 0 0 1

/-- A name of 255 bytes, the longest that fits a record. -/
def name255 : String := ⟨List.replicate 255 'a'⟩

/-- A name of 256 bytes. -/
def name256 : String := ⟨List.replicate 256 'a'⟩

/-- A local mount with the files `a.txt` and `name255` in the root. -/
def long_names : vtfs_fs_info :=
  local_run (empty_mount false demo_mem) [.create 100 "a.txt" 0o644, .create 100 name255 0o644]

/-- A remote-mode mount on which `big` was created and the remote store numbered it
`2^31`. -/
def remote_big : vtfs_fs_info :=
  (vtfs_create (empty_mount true demo_mem) 100 "big" 0o644 (0, 2147483648)).1

/-- A remote-mode mount on which `x` was created (remote ino 5); nothing is written. -/
def remote_file : vtfs_fs_info :=
  (vtfs_create (empty_mount true demo_mem) 100 "x" 0o644 (0, 5)).1

/-- The record of `x` before any write. -/
def remote_record : vtfs_file := .mk 5 0o100644 "x" none 0 0 1

/-- The record of `x` after "hello" was written. -/
def remote_hello : vtfs_file := .mk 5 0o100644 "x" none 17 5 1

/-- On `remote_file`, "hello" was written at offset 0 and the remote push failed. -/
def remote_unpushed : vtfs_fs_info :=
  ((vtfs_write remote_file remote_ino 0 hello 0 (- EIO)).map (fun r => r.st)).getD remote_file

/-- A remote store that is down: every call fails (the buffer stays empty). -/
def http_down : Nat → Int × List Nat := fun _ => (-1, [])

/-- A remote store that answers every read with status 0 and the content "hello". -/
def http_hello : Nat → Int × List Nat :=
  fun _ => (13, [0, 0, 0, 0, 0, 0, 0, 0, 104, 101, 108, 108, 111])

/-- A remote store that answers every read with status 0 and the content
"HELLOWORLD". -/
def http_other : Nat → Int × List Nat :=
  fun _ => (18, [0, 0, 0, 0, 0, 0, 0, 0, 72, 69, 76, 76, 79, 87, 79, 82, 76, 68])

/-- A link reply with status 0 and the payload "5,7". -/
def reply_link : List Nat := [0, 0, 0, 0, 0, 0, 0, 0, 53, 44, 55, 0]

/-- The line "5,a.txt,33188,3": a regular file with mode `S_IFREG | 0644`. -/
def line_regular : list_line := ⟨[53], [97, 46, 116, 120, 116], [51, 51, 49, 56, 56], some [51]⟩

/-- The line "6,d,16877": a directory with mode `S_IFDIR | 0755`. -/
def line_dir : list_line := ⟨[54], [100], [49, 54, 56, 55, 55], none⟩

/-- The line "7,b,420,0": permission bits 0644 only. -/
def line_perm : list_line := ⟨[55], [98], [52, 50, 48], some [48]⟩

/-- The line "500,c,420". -/
def line_big : list_line := ⟨[53, 48, 48], [99], [52, 50, 48], none⟩

/-- A successful response: 8 zero bytes, the payload, and the NUL that ends it, with
the number of bytes before the NUL. -/
def list_reply (payload : List Nat) : Int × List Nat :=
  (((8 + payload.length : Nat) : Int), List.replicate 8 0 ++ payload ++ [0])

/-- A remote store that lists `payload` for the root and fails every other call. -/
def list_server (payload : List Nat) : Nat → Int × List Nat :=
  fun p => if p = VTFS_ROOT_INO then list_reply payload else (-1, [])

/-- The forest with the file `b` and the directory `d`, which holds the file `c`. -/
def demo_forest : List rnode :=
  [.mk line_perm [], .mk line_dir [.mk line_big []]]

/-- A remote store that serves `demo_forest`: the root listing ends with the
unterminated line "5,a.txt,33188,3". -/
def forest_server : Nat → Int × List Nat :=
  fun p =>
    if p = VTFS_ROOT_INO then
      list_reply (listing_bytes [line_perm, line_dir] ++ line_regular.bytes)
    else if p = 6 then list_reply (listing_bytes [line_big])
    else (-1, [])

/-- The line "7,b,420,9": a regular file of declared size 9. -/
def line_sized : list_line := ⟨[55], [98], [52, 50, 48], some [57]⟩

/-- The mount in remote mode when the root listing is the line "7,b,420,9". -/
def sized_mount : Option vtfs_fs_info :=
  vtfs_fill_super true demo_mem (list_server (listing_bytes [line_sized])) 3

/-- The inode of the file `b` of `sized_mount`. -/
def sized_ino : inode := ⟨7, 0o100644, 9⟩

/-- A remote store that answers every read with status 0 and the nine bytes
"HELLOWORL". -/
def http_nine : Nat → Int × List Nat :=
  fun _ => (17, [0, 0, 0, 0, 0, 0, 0, 0, 72, 69, 76, 76, 79, 87, 79, 82, 76])

/-- A heap in which memory that was never written reads 170. -/
def stale_mem : kmem := ⟨[], 0, fun _ => 0, 170⟩

/-- The mount in remote mode on `stale_mem` when the root listing is the line
"7,b,420,9". -/
def stale_mount : Option vtfs_fs_info :=
  vtfs_fill_super true stale_mem (list_server (listing_bytes [line_sized])) 3

/-- A link reply with status 0 and the payload "5,4294967295". -/
def reply_link_max : List Nat :=
  [0, 0, 0, 0, 0, 0, 0, 0, 53, 44, 52, 50, 57, 52, 57, 54, 55, 50, 57, 53, 0]

/-- On `remote_file`, `x` was linked to `y` and the remote store answered with the link
count 4294967295. -/
def remote_linked_max : vtfs_fs_info :=
  (vtfs_link remote_file (some remote_ino) 100 "y" (vtfs_server_link 20 reply_link_max 0)).1

/-- The record of `x` in `remote_linked_max`. -/
def remote_record_max : vtfs_file := .mk 5 0o100644 "x" none 0 0 4294967295

/-- The root of `remote_linked_max`. -/
def remote_dir_max : List vtfs_file :=
  [remote_record_max, .mk 5 0o100644 "y" none 0 0 4294967295]

/-- The line "8,b,420": a second line with the name `b`. -/
def line_again : list_line := ⟨[56], [98], [52, 50, 48], none⟩

/-- The line "6,e,16877": a second directory with the ino 6. -/
def line_twin : list_line := ⟨[54], [101], [49, 54, 56, 55, 55], none⟩

/-- The line "100,d,16877": a directory with the ino of the root. -/
def line_root : list_line := ⟨[49, 48, 48], [100], [49, 54, 56, 55, 55], none⟩

/-- A remote store that lists the directories `d` and `e`, both with ino 6, for the
root, and the file `c` for the ino 6. -/
def twin_server : Nat → Int × List Nat :=
  fun p =>
    if p = VTFS_ROOT_INO then list_reply (listing_bytes [line_dir, line_twin])
    else if p = 6 then list_reply (listing_bytes [line_big])
    else (-1, [])

/-- The names of a directory with, for each, the names of its children. -/
def names_two_levels (d : List vtfs_file) : List (String × List String) :=
  d.map (fun f => (f.name, (f.dir_data.getD []).map vtfs_file.name))

/-! ## Lemmas on the tree -/

theorem tree_induction {P : List vtfs_file → Prop} {Q : vtfs_file → Prop}
    (hnil : P [])
    (hcons : ∀ f rest, Q f → P rest → P (f :: rest))
    (hfile : ∀ i m n p s l, Q (.mk i m n none p s l))
    (hdir : ∀ i m n d p s l, P d → Q (.mk i m n (some d) p s l)) :
    ∀ t, P t := by
  intro t
  refine @vtfs_file.rec_2 Q (fun o => ∀ d, o = some d → P d) P ?_ ?_ ?_ hnil ?_ t
  · intro i m n d p s l hd
    cases d with
    | none => exact hfile i m n p s l
    | some d => exact hdir i m n d p s l (hd d rfl)
  · intro d h; cases h
  · intro v hv d h; cases h; exact hv
  · intro h tl hq hp; exact hcons h tl hq hp

@[simp] theorem all_entries_nil : all_entries [] = [] := by
  rw [all_entries]

@[simp] theorem all_entries_cons (f : vtfs_file) (rest : List vtfs_file) :
    all_entries (f :: rest) = (f.info :: entries_below f) ++ all_entries rest := by
  rw [all_entries]

@[simp] theorem entries_below_dir (i m : Nat) (n : String) (d : List vtfs_file) (p s l : Nat) :
    entries_below (.mk i m n (some d) p s l) = all_entries d := by
  rw [entries_below]

@[simp] theorem entries_below_file (i m : Nat) (n : String) (p s l : Nat) :
    entries_below (.mk i m n none p s l) = [] := by
  rw [entries_below]

theorem entries_below_eq (f : vtfs_file) :
    entries_below f = match f.dir_data with
      | some d => all_entries d
      | none => [] := by
  cases f with
  | mk i m n d p s l => cases d <;> simp [vtfs_file.dir_data]

@[simp] theorem find_nil (i : Nat) : vtfs_find_file_by_ino [] i = none := by
  rw [vtfs_find_file_by_ino]

theorem find_cons (f : vtfs_file) (rest : List vtfs_file) (i : Nat) :
    vtfs_find_file_by_ino (f :: rest) i =
      if f.ino = i then some f
      else match find_in_dir_data f i with
        | some g => some g
        | none => vtfs_find_file_by_ino rest i := by
  rw [vtfs_find_file_by_ino]

@[simp] theorem find_in_dir (i m : Nat) (n : String) (d : List vtfs_file) (p s l j : Nat) :
    find_in_dir_data (.mk i m n (some d) p s l) j = vtfs_find_file_by_ino d j := by
  rw [find_in_dir_data]

@[simp] theorem find_in_file (i m : Nat) (n : String) (p s l j : Nat) :
    find_in_dir_data (.mk i m n none p s l) j = none := by
  rw [find_in_dir_data]

@[simp] theorem modify_nil (g : vtfs_file → vtfs_file) (i : Nat) :
    modify_file_by_ino g [] i = none := by
  rw [modify_file_by_ino]

theorem modify_cons (g : vtfs_file → vtfs_file) (f : vtfs_file) (rest : List vtfs_file)
    (i : Nat) :
    modify_file_by_ino g (f :: rest) i =
      if f.ino = i then some (g f :: rest)
      else match modify_in_dir_data g f i with
        | some f1 => some (f1 :: rest)
        | none => (modify_file_by_ino g rest i).map (fun r => f :: r) := by
  rw [modify_file_by_ino]

@[simp] theorem modify_in_dir (g : vtfs_file → vtfs_file) (i m : Nat) (n : String)
    (d : List vtfs_file) (p s l j : Nat) :
    modify_in_dir_data g (.mk i m n (some d) p s l) j =
      (modify_file_by_ino g d j).map (fun d1 => .mk i m n (some d1) p s l) := by
  rw [modify_in_dir_data]

@[simp] theorem modify_in_file (g : vtfs_file → vtfs_file) (i m : Nat) (n : String)
    (p s l j : Nat) :
    modify_in_dir_data g (.mk i m n none p s l) j = none := by
  rw [modify_in_dir_data]

theorem all_entries_append (a b : List vtfs_file) :
    all_entries (a ++ b) = all_entries a ++ all_entries b := by
  induction a with
  | nil => simp
  | cons f rest ih => simp [ih]

/-- When the ino is nowhere in the tree, the lookup fails and nothing is modified. -/
theorem find_none_iff (t : List vtfs_file) :
    ∀ i, vtfs_find_file_by_ino t i = none ↔ ∀ e ∈ all_entries t, e.ino ≠ i := by
  refine tree_induction
    (P := fun t => ∀ i, vtfs_find_file_by_ino t i = none ↔ ∀ e ∈ all_entries t, e.ino ≠ i)
    (Q := fun f => ∀ i, find_in_dir_data f i = none ↔ ∀ e ∈ entries_below f, e.ino ≠ i)
    ?_ ?_ ?_ ?_ t
  · intro i; simp
  · intro f rest hf hrest i
    rw [find_cons]
    by_cases h : f.ino = i
    · simp only [h, if_true]
      constructor
      · intro hc; cases hc
      · intro hc
        exact absurd h (hc f.info (by simp))
    · simp only [h, if_false]
      cases hfd : find_in_dir_data f i with
      | some g =>
        simp only
        constructor
        · intro hc; cases hc
        · intro hc
          have := (hf i).2 (fun e he => hc e (by simp [he]))
          rw [hfd] at this; cases this
      | none =>
        simp only
        rw [hrest i]
        have hb := (hf i).1 hfd
        constructor
        · intro hr e he
          simp only [all_entries_cons, List.cons_append, List.mem_cons, List.mem_append] at he
          rcases he with rfl | he | he
          · exact h
          · exact hb e he
          · exact hr e he
        · intro hc e he
          exact hc e (by simp [he])
  · intro i m n p s l j; simp
  · intro i m n d p s l hd j; simpa using hd j

theorem find_in_dir_data_none (f : vtfs_file) (i : Nat) :
    find_in_dir_data f i = none ↔ ∀ e ∈ entries_below f, e.ino ≠ i := by
  cases f with
  | mk j m n d p s l =>
    cases d with
    | none => simp
    | some d => simpa using find_none_iff d i

theorem modify_none (g : vtfs_file → vtfs_file) (t : List vtfs_file) :
    ∀ i, vtfs_find_file_by_ino t i = none → modify_file_by_ino g t i = none := by
  refine tree_induction
    (P := fun t => ∀ i, vtfs_find_file_by_ino t i = none → modify_file_by_ino g t i = none)
    (Q := fun f => ∀ i, find_in_dir_data f i = none → modify_in_dir_data g f i = none)
    ?_ ?_ ?_ ?_ t
  · intro i _; simp
  · intro f rest hf hrest i
    rw [find_cons, modify_cons]
    by_cases h : f.ino = i
    · simp [h]
    · simp only [h, if_false]
      cases hfd : find_in_dir_data f i with
      | some g1 => simp
      | none =>
        simp only
        intro hr
        rw [hf i hfd, hrest i hr]
        rfl
  · intro i m n p s l j _; simp
  · intro i m n d p s l hd j h
    simp only [find_in_dir] at h
    simp [hd j h]

/-- The shape of the tree around the record `vtfs_find_file_by_ino` returns, and what
an assignment through the returned pointer does to it. -/
theorem find_some_decomp (t : List vtfs_file) :
    ∀ i f, vtfs_find_file_by_ino t i = some f →
      f.ino = i ∧ ∃ pre post,
        all_entries t = pre ++ (f.info :: entries_below f) ++ post ∧
        (∀ e ∈ pre, e.ino ≠ i) ∧
        ∀ g, ∃ t1, modify_file_by_ino g t i = some t1 ∧
          all_entries t1 = pre ++ ((g f).info :: entries_below (g f)) ++ post := by
  refine tree_induction
    (P := fun t => ∀ i f, vtfs_find_file_by_ino t i = some f →
      f.ino = i ∧ ∃ pre post,
        all_entries t = pre ++ (f.info :: entries_below f) ++ post ∧
        (∀ e ∈ pre, e.ino ≠ i) ∧
        ∀ g, ∃ t1, modify_file_by_ino g t i = some t1 ∧
          all_entries t1 = pre ++ ((g f).info :: entries_below (g f)) ++ post)
    (Q := fun f0 => ∀ i f, find_in_dir_data f0 i = some f →
      f.ino = i ∧ ∃ pre post,
        entries_below f0 = pre ++ (f.info :: entries_below f) ++ post ∧
        (∀ e ∈ pre, e.ino ≠ i) ∧
        ∀ g, ∃ f1, modify_in_dir_data g f0 i = some f1 ∧ f1.info = f0.info ∧
          entries_below f1 = pre ++ ((g f).info :: entries_below (g f)) ++ post)
    ?_ ?_ ?_ ?_ t
  · intro i f h; simp at h
  · intro f0 rest hf hrest i f
    rw [find_cons]
    by_cases h : f0.ino = i
    · simp only [h, if_true]
      intro hh
      cases hh
      refine ⟨h, [], all_entries rest, by simp, by simp, ?_⟩
      intro g
      refine ⟨g f0 :: rest, ?_, by simp⟩
      rw [modify_cons]; simp [h]
    · simp only [h, if_false]
      cases hfd : find_in_dir_data f0 i with
      | some g1 =>
        simp only
        intro hh
        cases hh
        obtain ⟨hino, pre, post, hdec, hpre, hmod⟩ := hf i f hfd
        refine ⟨hino, f0.info :: pre, post ++ all_entries rest, ?_, ?_, ?_⟩
        · simp [hdec]
        · intro e he
          simp only [List.mem_cons] at he
          rcases he with rfl | he
          · exact h
          · exact hpre e he
        · intro g
          obtain ⟨f1, hm, hinfo, hbelow⟩ := hmod g
          refine ⟨f1 :: rest, ?_, ?_⟩
          · rw [modify_cons]; simp [h, hm]
          · simp [hinfo, hbelow]
      | none =>
        simp only
        intro hh
        obtain ⟨hino, pre, post, hdec, hpre, hmod⟩ := hrest i f hh
        have hb := (find_in_dir_data_none f0 i).1 hfd
        refine ⟨hino, (f0.info :: entries_below f0) ++ pre, post, ?_, ?_, ?_⟩
        · simp [hdec]
        · intro e he
          simp only [List.cons_append, List.mem_cons, List.mem_append] at he
          rcases he with rfl | he | he
          · exact h
          · exact hb e he
          · exact hpre e he
        · intro g
          obtain ⟨t1, hm, hall⟩ := hmod g
          refine ⟨f0 :: t1, ?_, ?_⟩
          · rw [modify_cons]
            have hmn : modify_in_dir_data g f0 i = none := by
              cases f0 with
              | mk j m n d p s l =>
                cases d with
                | none => simp
                | some d =>
                  simp only [find_in_dir] at hfd
                  simp [modify_none g d i hfd]
            simp [h, hmn, hm]
          · simp [hall]
  · intro i m n p s l j f h; simp at h
  · intro i m n d p s l hd j f h
    simp only [find_in_dir] at h
    obtain ⟨hino, pre, post, hdec, hpre, hmod⟩ := hd j f h
    refine ⟨hino, pre, post, by simpa using hdec, hpre, ?_⟩
    intro g
    obtain ⟨t1, hm, hall⟩ := hmod g
    exact ⟨.mk i m n (some t1) p s l, by simp [hm], by simp [vtfs_file.info, vtfs_file.ino,
      vtfs_file.mode, vtfs_file.name, vtfs_file.dir_data, vtfs_file.data, vtfs_file.data_size,
      vtfs_file.nlink], by simpa using hall⟩

theorem find_info (t : List vtfs_file) (i : Nat) :
    (vtfs_find_file_by_ino t i).map vtfs_file.info =
      (all_entries t).find? (fun e => e.ino == i) := by
  cases h : vtfs_find_file_by_ino t i with
  | none =>
    have hn := (find_none_iff t i).1 h
    symm
    simp only [Option.map_none']
    rw [List.find?_eq_none]
    intro e he
    simpa using hn e he
  | some f =>
    obtain ⟨hino, pre, post, hdec, hpre, -⟩ := find_some_decomp t i f h
    have hp : List.find? (fun e => e.ino == i) pre = none := by
      rw [List.find?_eq_none]
      intro e he
      simpa using hpre e he
    simp [hdec, List.find?_append, hp, vtfs_file.info, hino]

theorem mem_all_entries (t : List vtfs_file) (f : vtfs_file) (h : f ∈ t) :
    f.info ∈ all_entries t := by
  induction t with
  | nil => cases h
  | cons g rest ih =>
    simp only [List.mem_cons] at h
    rcases h with rfl | h
    · simp
    · simp [ih h]

theorem find_file_mem (d : List vtfs_file) (name : String) (file : vtfs_file)
    (h : vtfs_find_file d name = some file) : file ∈ d ∧ file.name = name := by
  unfold vtfs_find_file at h
  refine ⟨List.mem_of_find?_eq_some h, ?_⟩
  simpa using List.find?_some h

theorem list_del_perm (d : List vtfs_file) (name : String) (file : vtfs_file)
    (h : vtfs_find_file d name = some file) :
    List.Perm (all_entries d) ((file.info :: entries_below file) ++ all_entries (list_del d name)) := by
  induction d with
  | nil => simp [vtfs_find_file] at h
  | cons g rest ih =>
    unfold vtfs_find_file at h
    unfold list_del
    by_cases hg : g.name = name
    · simp only [List.find?_cons, hg, beq_self_eq_true] at h
      cases h
      simp [List.eraseP_cons, hg]
    · have hg1 : (g.name == name) = false := by simpa using hg
      simp only [List.find?_cons, hg1] at h
      have := ih h
      unfold list_del at this
      simp only [List.eraseP_cons, hg1, all_entries_cons, cond_false]
      refine List.Perm.trans (List.Perm.append_left _ this) ?_
      exact List.perm_append_comm_assoc (g.info :: entries_below g)
        (file.info :: entries_below file) _

theorem update_nlink_entries (t : List vtfs_file) (ino nlink : Nat) :
    all_entries (vtfs_update_nlink_all t ino nlink) =
      (all_entries t).map (set_nlink_if ino nlink) := by
  refine tree_induction
    (P := fun t => all_entries (vtfs_update_nlink_all t ino nlink) =
      (all_entries t).map (set_nlink_if ino nlink))
    (Q := fun f => (update_nlink_file f ino nlink).info = set_nlink_if ino nlink f.info ∧
      entries_below (update_nlink_file f ino nlink) =
        (entries_below f).map (set_nlink_if ino nlink))
    ?_ ?_ ?_ ?_ t
  · beta_reduce; rw [vtfs_update_nlink_all]; simp
  · intro f rest hf hrest
    rw [vtfs_update_nlink_all]
    simp [hf.1, hf.2, hrest]
  · intro i m n p s l
    rw [update_nlink_file]
    constructor
    · by_cases h : i = ino <;>
        simp [h, set_nlink_if, vtfs_file.info, vtfs_file.ino, vtfs_file.mode, vtfs_file.name,
          vtfs_file.dir_data, vtfs_file.data, vtfs_file.data_size, vtfs_file.nlink]
    · simp
  · intro i m n d p s l hd
    rw [update_nlink_file]
    constructor
    · by_cases h : i = ino <;>
        simp [h, set_nlink_if, vtfs_file.info, vtfs_file.ino, vtfs_file.mode, vtfs_file.name,
          vtfs_file.dir_data, vtfs_file.data, vtfs_file.data_size, vtfs_file.nlink]
    · simpa using hd

theorem update_data_entries (t : List vtfs_file) (ino old_data new_data new_size : Nat) :
    all_entries (vtfs_update_data_all t ino old_data new_data new_size) =
      (all_entries t).map (set_data_if ino old_data new_data new_size) := by
  refine tree_induction
    (P := fun t => all_entries (vtfs_update_data_all t ino old_data new_data new_size) =
      (all_entries t).map (set_data_if ino old_data new_data new_size))
    (Q := fun f => (update_data_file f ino old_data new_data new_size).info =
        set_data_if ino old_data new_data new_size f.info ∧
      entries_below (update_data_file f ino old_data new_data new_size) =
        (entries_below f).map (set_data_if ino old_data new_data new_size))
    ?_ ?_ ?_ ?_ t
  · beta_reduce; rw [vtfs_update_data_all]; simp
  · intro f rest hf hrest
    rw [vtfs_update_data_all]
    simp [hf.1, hf.2, hrest]
  · intro i m n p s l
    rw [update_data_file]
    constructor
    · by_cases h : i = ino ∧ p = old_data <;>
        simp [h, set_data_if, vtfs_file.info, vtfs_file.ino, vtfs_file.mode, vtfs_file.name,
          vtfs_file.dir_data, vtfs_file.data, vtfs_file.data_size, vtfs_file.nlink]
    · simp
  · intro i m n d p s l hd
    rw [update_data_file]
    constructor
    · by_cases h : i = ino ∧ p = old_data <;>
        simp [h, set_data_if, vtfs_file.info, vtfs_file.ino, vtfs_file.mode, vtfs_file.name,
          vtfs_file.dir_data, vtfs_file.data, vtfs_file.data_size, vtfs_file.nlink]
    · simpa using hd

theorem remove_all_absent (t : List vtfs_file) (ino : Nat) :
    (∀ e ∈ all_entries t, e.ino ≠ ino) → vtfs_remove_all_by_ino t ino = t := by
  refine tree_induction
    (P := fun t => (∀ e ∈ all_entries t, e.ino ≠ ino) → vtfs_remove_all_by_ino t ino = t)
    (Q := fun f => (∀ e ∈ entries_below f, e.ino ≠ ino) → remove_in_dir_data f ino = f)
    ?_ ?_ ?_ ?_ t
  · intro _; rw [vtfs_remove_all_by_ino]
  · intro f rest hf hrest h
    rw [vtfs_remove_all_by_ino]
    have h1 : f.ino ≠ ino := h f.info (by simp)
    have h2 := hf (fun e he => h e (by simp [he]))
    have h3 := hrest (fun e he => h e (by simp [he]))
    simp [h1, h2, h3]
  · intro i m n p s l _
    rw [remove_in_dir_data]
  · intro i m n d p s l hd h
    rw [remove_in_dir_data]
    simp only [entries_below_dir] at h
    rw [hd h]

theorem perm_pull (pre A post : List entry_info) (x : entry_info) :
    List.Perm (pre ++ x :: (A ++ post)) (A ++ (pre ++ x :: post)) := by
  rw [List.perm_iff_count]
  intro a
  simp only [List.count_append, List.count_cons]
  omega

theorem info_set_dir (f : vtfs_file) (d d1 : List vtfs_file) (h : f.dir_data = some d) :
    (f.set_dir (some d1)).info = f.info ∧ entries_below (f.set_dir (some d1)) = all_entries d1 := by
  cases f with
  | mk i m n dd p s l =>
    simp only [vtfs_file.dir_data] at h
    subst h
    simp [vtfs_file.set_dir, vtfs_file.info, vtfs_file.ino, vtfs_file.mode, vtfs_file.name,
      vtfs_file.dir_data, vtfs_file.data, vtfs_file.data_size, vtfs_file.nlink]

/-- The directory `vtfs_get_dir` returns holds part of the records of the tree, and a
mutation through the returned pointer replaces exactly that part. -/
theorem modify_dir_perm (root : List vtfs_file) (p : Nat) (d : List vtfs_file)
    (h : vtfs_get_dir root p = some d) :
    ∃ others, List.Perm (all_entries root) (all_entries d ++ others) ∧
      ∀ g, List.Perm (all_entries (modify_dir g root p)) (all_entries (g d) ++ others) := by
  unfold vtfs_get_dir at h
  by_cases hp : p = VTFS_ROOT_INO
  · simp only [hp, if_true, Option.some.injEq] at h
    subst h
    refine ⟨[], by simp, ?_⟩
    intro g
    simp [modify_dir, hp]
  · simp only [hp, if_false] at h
    cases hf : vtfs_find_file_by_ino root p with
    | none => simp [hf] at h
    | some f =>
      simp only [hf] at h
      have hd : f.dir_data = some d := by
        by_cases hm : S_ISDIR f.mode = true
        · simpa [hm] using h
        · simp [hm] at h
      obtain ⟨-, pre, post, hdec, -, hmod⟩ := find_some_decomp root p f hf
      have hb : entries_below f = all_entries d := by
        rw [entries_below_eq, hd]
      refine ⟨pre ++ f.info :: post, ?_, ?_⟩
      · rw [hdec, hb]
        simp only [List.append_assoc, List.cons_append]
        exact perm_pull pre (all_entries d) post f.info
      · intro g
        obtain ⟨t1, hm, hall⟩ := hmod (fun f => f.set_dir (f.dir_data.map g))
        simp only [modify_dir, hp, if_false, hm, Option.getD_some, hall, hd, Option.map_some',
          (info_set_dir f d (g d) hd).1, (info_set_dir f d (g d) hd).2]
        simp only [List.append_assoc, List.cons_append]
        exact perm_pull pre (all_entries (g d)) post f.info

/-! ## Lemmas on lists of records -/

theorem ino_count_cons (e : entry_info) (es : List entry_info) (i : Nat) :
    ino_count (e :: es) i = ino_count es i + (if e.ino = i then 1 else 0) := by
  unfold ino_count
  rw [List.countP_cons]
  simp

theorem ino_count_perm {es es1 : List entry_info} (h : List.Perm es es1) (i : Nat) :
    ino_count es i = ino_count es1 i :=
  h.countP_eq _

theorem ino_count_pos {es : List entry_info} {e : entry_info} (h : e ∈ es) :
    0 < ino_count es e.ino := by
  unfold ino_count
  rw [List.countP_pos_iff]
  exact ⟨e, h, by simp⟩

theorem ino_count_zero {es : List entry_info} {i : Nat} :
    ino_count es i = 0 ↔ ∀ e ∈ es, e.ino ≠ i := by
  unfold ino_count
  rw [List.countP_eq_zero]
  simp

@[simp] theorem set_nlink_if_ino (i k : Nat) (e : entry_info) : (set_nlink_if i k e).ino = e.ino := by
  unfold set_nlink_if; split <;> rfl

@[simp] theorem set_nlink_if_mode (i k : Nat) (e : entry_info) :
    (set_nlink_if i k e).mode = e.mode := by
  unfold set_nlink_if; split <;> rfl

@[simp] theorem set_nlink_if_is_dir (i k : Nat) (e : entry_info) :
    (set_nlink_if i k e).is_dir = e.is_dir := by
  unfold set_nlink_if; split <;> rfl

@[simp] theorem set_nlink_if_name (i k : Nat) (e : entry_info) :
    (set_nlink_if i k e).name = e.name := by
  unfold set_nlink_if; split <;> rfl

theorem set_nlink_if_nlink (i k : Nat) (e : entry_info) :
    (set_nlink_if i k e).nlink = if e.ino = i then k else e.nlink := by
  unfold set_nlink_if; split <;> rfl

@[simp] theorem ino_count_map_set_nlink (es : List entry_info) (i k j : Nat) :
    ino_count (es.map (set_nlink_if i k)) j = ino_count es j := by
  unfold ino_count
  rw [List.countP_map]
  congr 1
  funext x
  simp

theorem entries_inv_perm {es es1 : List entry_info} {n : Nat} (h : List.Perm es es1)
    (hi : entries_inv es n) : entries_inv es1 n := by
  refine ⟨?_, ?_, ?_, ?_, ?_⟩
  · intro e he
    rw [← ino_count_perm h]
    exact hi.nlink_count e (h.mem_iff.2 he)
  · intro e he
    exact hi.ino_lt e (h.mem_iff.2 he)
  · intro e he e1 he1
    exact hi.same_mode e (h.mem_iff.2 he) e1 (h.mem_iff.2 he1)
  · intro e he
    exact hi.dir_mode e (h.mem_iff.2 he)
  · intro e he hd
    rw [← ino_count_perm h]
    exact hi.dir_single e (h.mem_iff.2 he) hd

theorem entries_inv_next {es : List entry_info} {n : Nat} (hi : entries_inv es n) :
    entries_inv es (n + 1) :=
  ⟨hi.nlink_count, fun e he => Nat.lt_succ_of_lt (hi.ino_lt e he), hi.same_mode, hi.dir_mode,
    hi.dir_single⟩

/-- A new record with the ino of the counter keeps the consistency. -/
theorem entries_inv_add {es : List entry_info} {n : Nat} (hi : entries_inv es n)
    (e : entry_info) (hino : e.ino = n) (hnl : e.nlink = 1)
    (hdir : e.is_dir = true → S_ISDIR e.mode = true) :
    entries_inv (e :: es) (n + 1) := by
  have hfresh : ∀ x ∈ es, x.ino ≠ e.ino := by
    intro x hx
    have := hi.ino_lt x hx
    omega
  have hz : ino_count es e.ino = 0 := ino_count_zero.2 hfresh
  refine ⟨?_, ?_, ?_, ?_, ?_⟩
  · intro x hx
    rw [ino_count_cons]
    simp only [List.mem_cons] at hx
    rcases hx with rfl | hx
    · simp [hz, hnl]
    · have hne : e.ino ≠ x.ino := fun hh => hfresh x hx hh.symm
      simp [hne, hi.nlink_count x hx]
  · intro x hx
    simp only [List.mem_cons] at hx
    rcases hx with rfl | hx
    · omega
    · exact Nat.lt_succ_of_lt (hi.ino_lt x hx)
  · intro x hx y hy hxy
    simp only [List.mem_cons] at hx hy
    rcases hx with rfl | hx <;> rcases hy with rfl | hy
    · rfl
    · exact absurd hxy.symm (hfresh y hy)
    · exact absurd hxy (hfresh x hx)
    · exact hi.same_mode x hx y hy hxy
  · intro x hx
    simp only [List.mem_cons] at hx
    rcases hx with rfl | hx
    · exact hdir
    · exact hi.dir_mode x hx
  · intro x hx hd
    rw [ino_count_cons]
    simp only [List.mem_cons] at hx
    rcases hx with rfl | hx
    · simp [hz]
    · have hne : e.ino ≠ x.ino := fun hh => hfresh x hx hh.symm
      simp [hne, hi.dir_single x hx hd]

/-- Taking one record away and setting the link count of its ino to the number of
records left keeps the consistency (`vtfs_unlink`). -/
theorem entries_inv_remove {es : List entry_info} {n : Nat} (x : entry_info)
    (hi : entries_inv (x :: es) n) :
    entries_inv (es.map (set_nlink_if x.ino (ino_count es x.ino))) n := by
  refine ⟨?_, ?_, ?_, ?_, ?_⟩
  · intro e he
    obtain ⟨y, hy, rfl⟩ := List.mem_map.1 he
    rw [ino_count_map_set_nlink, set_nlink_if_ino, set_nlink_if_nlink]
    by_cases h : y.ino = x.ino
    · simp [h]
    · have := hi.nlink_count y (List.mem_cons_of_mem _ hy)
      rw [ino_count_cons] at this
      have hne : ¬ x.ino = y.ino := fun hh => h hh.symm
      simpa [h, hne] using this
  · intro e he
    obtain ⟨y, hy, rfl⟩ := List.mem_map.1 he
    simpa using hi.ino_lt y (List.mem_cons_of_mem _ hy)
  · intro e he e1 he1
    obtain ⟨y, hy, rfl⟩ := List.mem_map.1 he
    obtain ⟨y1, hy1, rfl⟩ := List.mem_map.1 he1
    simpa using hi.same_mode y (List.mem_cons_of_mem _ hy) y1 (List.mem_cons_of_mem _ hy1)
  · intro e he
    obtain ⟨y, hy, rfl⟩ := List.mem_map.1 he
    simpa using hi.dir_mode y (List.mem_cons_of_mem _ hy)
  · intro e he
    obtain ⟨y, hy, rfl⟩ := List.mem_map.1 he
    rw [ino_count_map_set_nlink, set_nlink_if_ino, set_nlink_if_mode]
    intro hd
    have := hi.dir_single y (List.mem_cons_of_mem _ hy) hd
    rw [ino_count_cons] at this
    have hpos := ino_count_pos hy
    omega

/-- Taking away the only record of an ino keeps the consistency (`vtfs_rmdir`). -/
theorem entries_inv_remove_single {es : List entry_info} {n : Nat} (x : entry_info)
    (hi : entries_inv (x :: es) n) (hx : S_ISDIR x.mode = true) :
    entries_inv es n := by
  have h1 := hi.dir_single x (List.mem_cons_self _ _) hx
  rw [ino_count_cons] at h1
  simp only [if_true] at h1
  have hz : ino_count es x.ino = 0 := by omega
  have hne : ∀ y ∈ es, ¬ x.ino = y.ino := fun y hy hh => ino_count_zero.1 hz y hy hh.symm
  refine ⟨?_, ?_, ?_, ?_, ?_⟩
  · intro y hy
    have := hi.nlink_count y (List.mem_cons_of_mem _ hy)
    rw [ino_count_cons] at this
    simpa [hne y hy] using this
  · intro y hy
    exact hi.ino_lt y (List.mem_cons_of_mem _ hy)
  · intro y hy y1 hy1
    exact hi.same_mode y (List.mem_cons_of_mem _ hy) y1 (List.mem_cons_of_mem _ hy1)
  · intro y hy
    exact hi.dir_mode y (List.mem_cons_of_mem _ hy)
  · intro y hy hd
    have := hi.dir_single y (List.mem_cons_of_mem _ hy) hd
    rw [ino_count_cons] at this
    simpa [hne y hy] using this

/-- A further record for the ino of a regular file, with every link count of that ino
set to the old count plus one, keeps the consistency (`vtfs_link`). -/
theorem entries_inv_link {es : List entry_info} {n : Nat} (hi : entries_inv es n)
    (file new : entry_info) (hf : file ∈ es) (hreg : S_ISDIR file.mode = false)
    (hino : new.ino = file.ino) (hmode : new.mode = file.mode) (hnd : new.is_dir = false) :
    entries_inv ((new :: es).map (set_nlink_if file.ino (file.nlink + 1))) n := by
  have hc : file.nlink = ino_count es file.ino := hi.nlink_count file hf
  refine ⟨?_, ?_, ?_, ?_, ?_⟩
  · intro e he
    obtain ⟨y, hy, rfl⟩ := List.mem_map.1 he
    rw [ino_count_map_set_nlink, set_nlink_if_ino, set_nlink_if_nlink, ino_count_cons]
    simp only [List.mem_cons] at hy
    rcases hy with rfl | hy
    · simp [hino, hc]
    · by_cases h : y.ino = file.ino
      · simp [h, hino, hc]
      · have hne : ¬ new.ino = y.ino := by rw [hino]; exact fun hh => h hh.symm
        simp [h, hne, hi.nlink_count y hy]
  · intro e he
    obtain ⟨y, hy, rfl⟩ := List.mem_map.1 he
    simp only [List.mem_cons] at hy
    rcases hy with rfl | hy
    · simpa [hino] using hi.ino_lt file hf
    · simpa using hi.ino_lt y hy
  · intro e he e1 he1
    obtain ⟨y, hy, rfl⟩ := List.mem_map.1 he
    obtain ⟨y1, hy1, rfl⟩ := List.mem_map.1 he1
    simp only [set_nlink_if_ino, set_nlink_if_mode]
    simp only [List.mem_cons] at hy hy1
    intro hyy
    rcases hy with rfl | hy <;> rcases hy1 with rfl | hy1
    · rfl
    · rw [hmode]; exact hi.same_mode file hf y1 hy1 (by rw [← hino]; exact hyy)
    · rw [hmode]; exact hi.same_mode y hy file hf (by rw [← hino]; exact hyy)
    · exact hi.same_mode y hy y1 hy1 hyy
  · intro e he
    obtain ⟨y, hy, rfl⟩ := List.mem_map.1 he
    simp only [List.mem_cons] at hy
    rcases hy with rfl | hy
    · simp [hnd]
    · simpa using hi.dir_mode y hy
  · intro e he
    obtain ⟨y, hy, rfl⟩ := List.mem_map.1 he
    rw [ino_count_map_set_nlink, set_nlink_if_ino, set_nlink_if_mode, ino_count_cons]
    simp only [List.mem_cons] at hy
    intro hd
    rcases hy with rfl | hy
    · rw [hmode, hreg] at hd; cases hd
    · have hne : ¬ new.ino = y.ino := by
        intro hh
        have := hi.same_mode y hy file hf (by rw [← hh, hino])
        rw [this, hreg] at hd
        cases hd
      simp [hne, hi.dir_single y hy hd]

/-! ## The operations on names keep the tree consistent -/

theorem S_ISDIR_create_mode (mode : Nat) : S_ISDIR (create_mode mode) = false := by
  unfold create_mode
  split
  · decide
  · unfold S_ISDIR S_IFREG S_IFMT S_IFDIR
    have key : (0o100000 ||| (mode &&& 0o777)) &&& 0o170000 = 0o100000 := by
      rw [Nat.and_comm, Nat.and_or_distrib_left, Nat.and_comm mode, ← Nat.and_assoc]
      have h : (0o170000 &&& 0o777 : Nat) = 0 := by decide
      rw [h, Nat.zero_and]
      decide
    rw [key]
    decide

theorem get_dir_mem {root : List vtfs_file} {p : Nat} {dir : List vtfs_file}
    (h : vtfs_get_dir root p = some dir) {f : vtfs_file} (hf : f ∈ dir) :
    f.info ∈ all_entries root := by
  obtain ⟨others, hperm, -⟩ := modify_dir_perm root p dir h
  rw [hperm.mem_iff]
  exact List.mem_append_left _ (mem_all_entries dir f hf)

theorem strncpy_name_of_lt {name : String} (h : strlen name < VTFS_MAX_NAME) :
    strncpy_name name = name := by
  cases name with
  | mk cs =>
    unfold strncpy_name
    simp only [strlen, String.length, VTFS_MAX_NAME] at h ⊢
    rw [List.take_of_length_le (by omega)]

theorem strncpy_name_size (name : String) :
    strlen (strncpy_name name) < VTFS_MAX_NAME := by
  unfold strncpy_name
  simp only [strlen, String.length, VTFS_MAX_NAME, List.length_take]
  omega

theorem int_ino_idem (n : Nat) : int_ino (int_ino n) = int_ino n := by
  unfold int_ino
  split
  · rename_i h
    have : n % 4294967296 % 4294967296 = n % 4294967296 := Nat.mod_mod _ _
    rw [this, if_pos h]
  · rename_i h
    have : (18446744069414584320 + n % 4294967296) % 4294967296 = n % 4294967296 := by omega
    rw [this, if_neg h]

theorem int_ino_of_lt {n : Nat} (h : n < 2147483648) : int_ino n = n := by
  unfold int_ino
  have h1 : n % 4294967296 = n := Nat.mod_eq_of_lt (by omega)
  rw [h1, if_pos h]

theorem lookup_some {st : vtfs_fs_info} {p : Nat} {name : String} {i : inode}
    (h : vtfs_lookup st p name = some i) :
    ∃ dir file, vtfs_get_dir st.root_dir p = some dir ∧ vtfs_find_file dir name = some file ∧
      i.i_ino = int_ino file.ino ∧ i.i_mode = file.mode := by
  unfold vtfs_lookup at h
  cases hd : vtfs_get_dir st.root_dir p with
  | none => simp [hd] at h
  | some dir =>
    cases hf : vtfs_find_file dir name with
    | none => simp [hd, hf] at h
    | some file =>
      refine ⟨dir, file, rfl, hf, ?_⟩
      simp only [hd, hf, Option.some.injEq] at h
      subst h
      unfold vtfs_get_inode
      split <;> simp

/-- While the counter is at most `2^31`, the inode `vtfs_lookup` makes carries the ino
and the mode of the record with that name. -/
theorem lookup_ino {st : vtfs_fs_info} (hinv : tree_inv st) (hb : st.next_ino ≤ 2147483648)
    {p : Nat} {name : String} {i : inode} (h : vtfs_lookup st p name = some i) :
    ∃ dir file, vtfs_get_dir st.root_dir p = some dir ∧ vtfs_find_file dir name = some file ∧
      i.i_ino = file.ino ∧ i.i_mode = file.mode := by
  obtain ⟨dir, file, hdir, hfile, hino, hmode⟩ := lookup_some h
  refine ⟨dir, file, hdir, hfile, ?_, hmode⟩
  have hm : file.info ∈ all_entries st.root_dir :=
    get_dir_mem hdir (find_file_mem _ _ _ hfile).1
  have hlt := hinv.2.ino_lt _ hm
  simp only [vtfs_file.info] at hlt
  rw [hino, int_ino_of_lt (by omega)]

theorem find_of_mem {root : List vtfs_file} {e : entry_info} (h : e ∈ all_entries root) :
    ∃ f, vtfs_find_file_by_ino root e.ino = some f ∧ f.info ∈ all_entries root ∧
      f.ino = e.ino := by
  cases hf : vtfs_find_file_by_ino root e.ino with
  | none => exact absurd rfl ((find_none_iff root e.ino).1 hf e h)
  | some f =>
    obtain ⟨hino, pre, post, hdec, -, -⟩ := find_some_decomp root e.ino f hf
    exact ⟨f, rfl, by simp [hdec], hino⟩

theorem find_mem {root : List vtfs_file} {i : Nat} {f : vtfs_file}
    (h : vtfs_find_file_by_ino root i = some f) : f.info ∈ all_entries root ∧ f.ino = i := by
  obtain ⟨hino, pre, post, hdec, -, -⟩ := find_some_decomp root i f h
  exact ⟨by simp [hdec], hino⟩

theorem create_file_some {dir : List vtfs_file} {name : String} {mode ino : Nat}
    {file : vtfs_file} (h : vtfs_create_file dir name mode ino = some file) :
    file = .mk ino mode name (if S_ISDIR mode then some [] else none) NULL 0 1 ∧
      vtfs_find_file dir name = none ∧ strlen name < VTFS_MAX_NAME := by
  unfold vtfs_create_file at h
  by_cases h1 : strlen name ≥ VTFS_MAX_NAME
  · simp [h1] at h
  · cases h2 : vtfs_find_file dir name with
    | some g => simp [h1, h2] at h
    | none =>
      simp only [h1, h2, if_false, Option.isSome_none, Bool.false_eq_true,
        Option.some.injEq] at h
      exact ⟨h.symm, rfl, by omega⟩

/-- What a new record adds to the records of the tree. -/
theorem new_file_entries (ino mode : Nat) (name : String) :
    (vtfs_file.mk ino mode name (if S_ISDIR mode then some [] else none) NULL 0 1).info =
        ⟨ino, mode, name, S_ISDIR mode, NULL, 0, 1⟩ ∧
      entries_below (vtfs_file.mk ino mode name (if S_ISDIR mode then some [] else none) NULL 0 1)
        = [] := by
  cases h : S_ISDIR mode <;>
    simp [vtfs_file.info, vtfs_file.ino, vtfs_file.mode, vtfs_file.name,
      vtfs_file.dir_data, vtfs_file.data, vtfs_file.data_size, vtfs_file.nlink]

/-- In local mode a successful `create_entry` adds exactly one record, with the ino
of the counter and link count 1; a failed one leaves the tree as it was. -/
theorem create_entry_local (st : vtfs_fs_info) (hl : st.use_server = false) (p : Nat)
    (name : String) (fm : Nat) (srv : Int × Nat) :
    (create_entry st p name fm srv).1.use_server = false ∧
    st.next_ino ≤ (create_entry st p name fm srv).1.next_ino ∧
    (create_entry st p name fm srv).1.mem = st.mem ∧
    (((create_entry st p name fm srv).2 ≠ 0 ∧
        (create_entry st p name fm srv).1.root_dir = st.root_dir) ∨
     ((create_entry st p name fm srv).2 = 0 ∧
        (create_entry st p name fm srv).1.next_ino = st.next_ino + 1 ∧
        ∃ dir, vtfs_get_dir st.root_dir p = some dir ∧ vtfs_find_file dir name = none ∧
          strlen name < VTFS_MAX_NAME ∧
          (create_entry st p name fm srv).1.root_dir =
            modify_dir (fun d => d ++ [.mk st.next_ino fm name
              (if S_ISDIR fm then some [] else none) NULL 0 1]) st.root_dir p ∧
          List.Perm (all_entries (create_entry st p name fm srv).1.root_dir)
            (⟨st.next_ino, fm, name, S_ISDIR fm, NULL, 0, 1⟩ :: all_entries st.root_dir))) := by
  unfold create_entry
  cases hd : vtfs_get_dir st.root_dir p with
  | none => simp [hl, ENOENT]
  | some dir =>
    simp only [hl, Bool.false_eq_true, false_and, if_false]
    cases hc : vtfs_create_file dir name fm st.next_ino with
    | none =>
      simp only
      split <;> simp [EEXIST, ENOMEM]
    | some file =>
      obtain ⟨hfile, hnone, hlen⟩ := create_file_some hc
      simp only [true_and, Nat.le_add_right, ne_eq, not_true_eq_false, false_and, false_or]
      refine ⟨dir, rfl, hnone, hlen, by rw [hfile], ?_⟩
      obtain ⟨others, hperm, hmod⟩ := modify_dir_perm st.root_dir p dir hd
      refine (hmod (fun d => d ++ [file])).trans ?_
      rw [all_entries_append, hfile, all_entries_cons, (new_file_entries _ _ _).1,
        (new_file_entries _ _ _).2]
      simp only [all_entries_nil, List.append_nil, List.singleton_append, List.append_assoc]
      exact (List.perm_middle.trans (List.Perm.cons _ hperm.symm))

theorem create_entry_inv (st : vtfs_fs_info) (hinv : tree_inv st) (p : Nat)
    (name : String) (fm : Nat) (srv : Int × Nat) :
    tree_inv (create_entry st p name fm srv).1 := by
  obtain ⟨hl, hi⟩ := hinv
  obtain ⟨h1, h2, -, h3⟩ := create_entry_local st hl p name fm srv
  refine ⟨h1, ?_⟩
  rcases h3 with ⟨-, hroot⟩ | ⟨-, hnext, dir, -, -, -, -, hperm⟩
  · rw [hroot]
    refine ⟨hi.nlink_count, fun e he => lt_of_lt_of_le (hi.ino_lt e he) h2, hi.same_mode,
      hi.dir_mode, hi.dir_single⟩
  · rw [hnext]
    refine entries_inv_perm hperm.symm (entries_inv_add hi _ rfl rfl ?_)
    intro h; exact h

theorem unlink_fail (st : vtfs_fs_info) (p : Nat) (name : String) (di : Option inode)
    (h : (vtfs_unlink st p name di).2 ≠ 0) : (vtfs_unlink st p name di).1 = st := by
  unfold vtfs_unlink at h ⊢
  cases hd : vtfs_get_dir st.root_dir p with
  | none => rfl
  | some dir =>
    cases di with
    | none => rfl
    | some i =>
      cases hm : vtfs_get_file_by_inode st i with
      | none => simp only [hm]
      | some main =>
        cases hf : vtfs_find_file dir name with
        | none => simp only [hm, hf]
        | some file =>
          by_cases hi : file.ino = i.i_ino
          · exfalso
            simp only [hd, hm, hf, hi, ne_eq, not_true_eq_false, if_false] at h
            split at h <;> simp at h
          · simp [hm, hf, hi]

theorem unlink_ok (st : vtfs_fs_info) (p : Nat) (name : String) (di : Option inode)
    (h : (vtfs_unlink st p name di).2 = 0) :
    ∃ dir file i, di = some i ∧ vtfs_get_dir st.root_dir p = some dir ∧
      vtfs_find_file dir name = some file ∧ i.i_ino = file.ino := by
  unfold vtfs_unlink at h
  cases hd : vtfs_get_dir st.root_dir p with
  | none => simp [hd, ENOENT] at h
  | some dir =>
    cases di with
    | none => simp [hd, ENOENT] at h
    | some i =>
      cases hm : vtfs_get_file_by_inode st i with
      | none => simp [hd, hm, ENOENT] at h
      | some main =>
        cases hf : vtfs_find_file dir name with
        | none => simp [hd, hm, hf, ENOENT] at h
        | some file =>
          by_cases hi : file.ino = i.i_ino
          · exact ⟨dir, file, i, rfl, rfl, hf, hi.symm⟩
          · simp [hd, hm, hf, hi, ENOENT] at h

theorem entries_below_not_dir {f : vtfs_file} (h : f.info.is_dir = false) :
    entries_below f = [] := by
  rw [entries_below_eq]
  cases hd : f.dir_data with
  | none => rfl
  | some d => simp [vtfs_file.info, hd] at h

/-- In a consistent local tree, `vtfs_unlink` of a name that denotes a record without
child list, with the inode of that record, removes exactly this record and sets
the link count of its ino to the number of records left. -/
theorem unlink_effect (st : vtfs_fs_info) (hinv : tree_inv st) (p : Nat) (name : String)
    (i : inode) (dir : List vtfs_file) (file : vtfs_file)
    (hdir : vtfs_get_dir st.root_dir p = some dir)
    (hfile : vtfs_find_file dir name = some file) (hino : i.i_ino = file.ino)
    (hnd : S_ISDIR file.mode = false) :
    (vtfs_unlink st p name (some i)).2 = 0 ∧
    (vtfs_unlink st p name (some i)).1.use_server = false ∧
    (vtfs_unlink st p name (some i)).1.next_ino = st.next_ino ∧
    (vtfs_unlink st p name (some i)).1.root_dir =
      vtfs_update_nlink_all (modify_dir (fun d => list_del d name) st.root_dir p) file.ino
        (ino_count (all_entries st.root_dir) file.ino - 1) ∧
    List.Perm (all_entries st.root_dir)
      (file.info :: all_entries (modify_dir (fun d => list_del d name) st.root_dir p)) ∧
    tree_inv (vtfs_unlink st p name (some i)).1 := by
  obtain ⟨hl, hi⟩ := hinv
  have hmem : file.info ∈ all_entries st.root_dir := get_dir_mem hdir (find_file_mem _ _ _ hfile).1
  obtain ⟨main, hmain, hmainmem, hmainino⟩ := find_of_mem hmem
  have hisdir : file.info.is_dir = false := by
    cases h : file.info.is_dir with
    | false => rfl
    | true =>
      have := hi.dir_mode _ hmem h
      simp only [vtfs_file.info] at this
      rw [hnd] at this; cases this
  have hbelow := entries_below_not_dir hisdir
  obtain ⟨others, hperm, hmod⟩ := modify_dir_perm st.root_dir p dir hdir
  have hperm1 : List.Perm (all_entries st.root_dir)
      (file.info :: all_entries (modify_dir (fun d => list_del d name) st.root_dir p)) := by
    refine hperm.trans ?_
    refine (List.Perm.append_right _ (list_del_perm dir name file hfile)).trans ?_
    rw [hbelow]
    simp only [List.cons_append, List.nil_append]
    exact List.Perm.cons _ (hmod (fun d => list_del d name)).symm
  have hcnt : ino_count (all_entries st.root_dir) file.ino =
      ino_count (all_entries (modify_dir (fun d => list_del d name) st.root_dir p)) file.ino + 1 := by
    rw [ino_count_perm hperm1, ino_count_cons]
    simp [vtfs_file.info]
  have hnl : main.nlink = ino_count (all_entries st.root_dir) file.ino := by
    have := hi.nlink_count _ hmainmem
    simp only [vtfs_file.info] at this hmainino
    rw [this, hmainino]
  have hdec : nlink_dec main.nlink = ino_count (all_entries st.root_dir) file.ino - 1 := by
    unfold nlink_dec
    rw [hnl, hcnt]
    simp
  have hinv1 : entries_inv (all_entries (vtfs_update_nlink_all
      (modify_dir (fun d => list_del d name) st.root_dir p) file.ino
        (ino_count (all_entries st.root_dir) file.ino - 1))) st.next_ino := by
    rw [update_nlink_entries, hcnt]
    have := entries_inv_remove file.info (entries_inv_perm hperm1 hi)
    simpa [vtfs_file.info] using this
  have hgf : vtfs_get_file_by_inode st i = some main := by
    unfold vtfs_get_file_by_inode
    rw [hino]
    simpa [vtfs_file.info] using hmain
  have hres : ∃ m, vtfs_unlink st p name (some i) =
      (⟨vtfs_update_nlink_all (modify_dir (fun d => list_del d name) st.root_dir p) file.ino
        (ino_count (all_entries st.root_dir) file.ino - 1), st.next_ino, st.use_server, m⟩, 0) := by
    unfold vtfs_unlink
    simp only [hdir, hgf, hfile, hino, ne_eq, not_true_eq_false, if_false, hdec]
    by_cases hz : ino_count (all_entries st.root_dir) file.ino - 1 = 0
    · have habs : ∀ e ∈ all_entries (vtfs_update_nlink_all
          (modify_dir (fun d => list_del d name) st.root_dir p) file.ino
            (ino_count (all_entries st.root_dir) file.ino - 1)), e.ino ≠ file.ino := by
        rw [update_nlink_entries]
        intro e he
        obtain ⟨y, hy, rfl⟩ := List.mem_map.1 he
        rw [set_nlink_if_ino]
        have hz1 : ino_count (all_entries (modify_dir (fun d => list_del d name) st.root_dir p))
            file.ino = 0 := by omega
        exact ino_count_zero.1 hz1 y hy
      have hrem := remove_all_absent _ _ habs
      rw [hz] at hrem
      simp only [hz, if_true, hrem]
      exact ⟨_, rfl⟩
    · simp only [hz, if_false]
      exact ⟨_, rfl⟩
  obtain ⟨m, hres⟩ := hres
  rw [hres]
  exact ⟨rfl, hl, rfl, rfl, hperm1, hl, hinv1⟩

theorem rmdir_fail (st : vtfs_fs_info) (p : Nat) (name : String)
    (h : (vtfs_rmdir st p name).2 ≠ 0) : (vtfs_rmdir st p name).1 = st := by
  unfold vtfs_rmdir at h ⊢
  cases hd : vtfs_get_dir st.root_dir p with
  | none => rfl
  | some dir =>
    cases hf : vtfs_find_file dir name with
    | none => simp only [hf]
    | some file =>
      by_cases hm : S_ISDIR file.mode = true
      · cases hdd : file.dir_data with
        | none => simp [hf, hm, hdd]
        | some d =>
          cases d with
          | nil => simp [hd, hf, hm, hdd] at h
          | cons a b => simp [hf, hm, hdd]
      · simp [hf, hm]

theorem rmdir_ok (st : vtfs_fs_info) (p : Nat) (name : String)
    (h : (vtfs_rmdir st p name).2 = 0) :
    ∃ dir file, vtfs_get_dir st.root_dir p = some dir ∧ vtfs_find_file dir name = some file ∧
      S_ISDIR file.mode = true ∧ file.dir_data = some [] ∧
      vtfs_rmdir st p name =
        (⟨modify_dir (fun d => list_del d name) st.root_dir p, st.next_ino, st.use_server,
          st.mem⟩, 0) := by
  unfold vtfs_rmdir at h ⊢
  cases hd : vtfs_get_dir st.root_dir p with
  | none => simp [hd, ENOENT] at h
  | some dir =>
    cases hf : vtfs_find_file dir name with
    | none => simp [hd, hf, ENOENT] at h
    | some file =>
      by_cases hm : S_ISDIR file.mode = true
      · cases hdd : file.dir_data with
        | none => simp [hd, hf, hm, hdd, ENOTEMPTY] at h
        | some d =>
          cases d with
          | nil => exact ⟨dir, file, rfl, hf, hm, hdd, by simp [hf, hm, hdd]⟩
          | cons a b => simp [hd, hf, hm, hdd, ENOTEMPTY] at h
      · simp [hd, hf, hm, ENOTDIR] at h

theorem rmdir_inv (st : vtfs_fs_info) (hinv : tree_inv st) (p : Nat) (name : String) :
    tree_inv (vtfs_rmdir st p name).1 := by
  by_cases h : (vtfs_rmdir st p name).2 = 0
  · obtain ⟨dir, file, hdir, hfile, hm, hdd, hres⟩ := rmdir_ok st p name h
    obtain ⟨hl, hi⟩ := hinv
    rw [hres]
    refine ⟨hl, ?_⟩
    obtain ⟨others, hperm, hmod⟩ := modify_dir_perm st.root_dir p dir hdir
    have hbelow : entries_below file = [] := by rw [entries_below_eq, hdd]; simp
    have hperm1 : List.Perm (all_entries st.root_dir)
        (file.info :: all_entries (modify_dir (fun d => list_del d name) st.root_dir p)) := by
      refine hperm.trans ?_
      refine (List.Perm.append_right _ (list_del_perm dir name file hfile)).trans ?_
      rw [hbelow]
      simp only [List.cons_append, List.nil_append]
      exact List.Perm.cons _ (hmod (fun d => list_del d name)).symm
    exact entries_inv_remove_single file.info (entries_inv_perm hperm1 hi) hm
  · rw [rmdir_fail st p name h]
    exact hinv

theorem link_fail (st : vtfs_fs_info) (oi : Option inode) (p : Nat) (name : String)
    (srv : Int × Nat) (h : (vtfs_link st oi p name srv).2 ≠ 0) :
    (vtfs_link st oi p name srv).1 = st := by
  unfold vtfs_link at h ⊢
  cases oi with
  | none => rfl
  | some i =>
    by_cases hm : S_ISDIR i.i_mode = true
    · simp [hm]
    · cases hf : vtfs_get_file_by_inode st i with
      | none => simp [hm, hf]
      | some file =>
        cases hd : vtfs_get_dir st.root_dir p with
        | none => simp [hm, hf, hd]
        | some dir =>
          cases hn : vtfs_find_file dir name with
          | some g => simp [hm, hf, hd, hn]
          | none =>
            exfalso
            simp only [hm, hf, hd, hn, Option.isSome_none, Bool.false_eq_true, if_false] at h
            split at h <;> simp at h

theorem link_ok (st : vtfs_fs_info) (oi : Option inode) (p : Nat) (name : String)
    (srv : Int × Nat) (h : (vtfs_link st oi p name srv).2 = 0) :
    ∃ i file dir, oi = some i ∧ S_ISDIR i.i_mode = false ∧
      vtfs_get_file_by_inode st i = some file ∧ vtfs_get_dir st.root_dir p = some dir ∧
      vtfs_find_file dir name = none := by
  unfold vtfs_link at h
  cases oi with
  | none => simp [ENOENT] at h
  | some i =>
    by_cases hm : S_ISDIR i.i_mode = true
    · simp [hm, EPERM] at h
    · cases hf : vtfs_get_file_by_inode st i with
      | none => simp [hm, hf, ENOENT] at h
      | some file =>
        cases hd : vtfs_get_dir st.root_dir p with
        | none => simp [hm, hf, hd, ENOENT] at h
        | some dir =>
          cases hn : vtfs_find_file dir name with
          | some g => simp [hm, hf, hd, hn, EEXIST] at h
          | none => exact ⟨i, file, dir, rfl, by simpa using hm, hf, rfl, hn⟩

theorem set_nlink_info (k : Nat) (f : vtfs_file) :
    (f.set_nlink k).info = { f.info with nlink := k } ∧
      entries_below (f.set_nlink k) = entries_below f := by
  cases f with
  | mk i m n d p s l =>
    cases d <;>
      simp [vtfs_file.set_nlink, vtfs_file.info, vtfs_file.ino, vtfs_file.mode, vtfs_file.name,
        vtfs_file.dir_data, vtfs_file.data, vtfs_file.data_size, vtfs_file.nlink]

/-- The assignment `file->nlink = k` changes the records of the tree only in the link
count of a record with that ino. -/
theorem set_nlink_entries (root : List vtfs_file) (i k : Nat) :
    ∀ j, (all_entries ((modify_file_by_ino (vtfs_file.set_nlink k) root i).getD root)).map
        (set_nlink_if i j) = (all_entries root).map (set_nlink_if i j) := by
  intro j
  cases hf : vtfs_find_file_by_ino root i with
  | none => rw [modify_none _ root i hf]; rfl
  | some f =>
    obtain ⟨hino, pre, post, hdec, -, hmod⟩ := find_some_decomp root i f hf
    obtain ⟨t1, hm, hall⟩ := hmod (vtfs_file.set_nlink k)
    rw [hm, Option.getD_some, hall, hdec, (set_nlink_info k f).1, (set_nlink_info k f).2]
    have hx : set_nlink_if i j { f.info with nlink := k } = set_nlink_if i j f.info := by
      simp [set_nlink_if, vtfs_file.info, hino]
    simp [hx]

theorem get_dir_after_set_nlink (root : List vtfs_file) (i k p : Nat) (dir : List vtfs_file)
    (hd : vtfs_get_dir root p = some dir) :
    ∃ dir1, vtfs_get_dir ((modify_file_by_ino (vtfs_file.set_nlink k) root i).getD root) p =
      some dir1 := by
  unfold vtfs_get_dir at hd ⊢
  by_cases hp : p = VTFS_ROOT_INO
  · simp [hp]
  · simp only [hp, if_false] at hd ⊢
    cases hf : vtfs_find_file_by_ino root p with
    | none => simp [hf] at hd
    | some f =>
      simp only [hf] at hd
      have hmode : S_ISDIR f.mode = true := by
        by_cases hm : S_ISDIR f.mode = true
        · exact hm
        · simp [hm] at hd
      have h1 := find_info ((modify_file_by_ino (vtfs_file.set_nlink k) root i).getD root) p
      have h2 := find_info root p
      have h3 := set_nlink_entries root i k 0
      have h4 : ∀ l : List entry_info,
          (List.find? (fun e => e.ino == p) (l.map (set_nlink_if i 0))) =
            (List.find? (fun e => e.ino == p) l).map (set_nlink_if i 0) := by
        intro l
        rw [List.find?_map]
        congr 1
        congr 1
        funext e
        simp
      have h5 := h4 (all_entries ((modify_file_by_ino (vtfs_file.set_nlink k) root i).getD root))
      rw [h3, h4, ← h1, ← h2, hf] at h5
      cases hf1 : vtfs_find_file_by_ino
          ((modify_file_by_ino (vtfs_file.set_nlink k) root i).getD root) p with
      | none => simp [hf1] at h5
      | some f1 =>
        simp only [hf1, Option.map_some', Option.some.injEq] at h5
        have hm1 : f1.mode = f.mode := by
          have := congrArg entry_info.mode h5
          simpa [vtfs_file.info] using this.symm
        have hd1 : f1.dir_data.isSome = f.dir_data.isSome := by
          have := congrArg entry_info.is_dir h5
          simpa [vtfs_file.info] using this.symm
        simp only [hmode, if_true] at hd
        rw [hd] at hd1
        simp only [hm1, hmode, if_true]
        cases hdd : f1.dir_data with
        | none => simp [hdd] at hd1
        | some d1 => exact ⟨d1, rfl⟩

/-- The increment below the width of the counter. -/
theorem nlink_inc_of_lt {n : Nat} (h : n + 1 < 4294967296) : nlink_inc n = n + 1 :=
  Nat.mod_eq_of_lt h

/-- In a consistent tree a link count is at most the number of records. -/
theorem nlink_le_length {st : vtfs_fs_info} (hinv : tree_inv st) {e : entry_info}
    (he : e ∈ all_entries st.root_dir) : e.nlink ≤ (all_entries st.root_dir).length := by
  rw [hinv.2.nlink_count e he]
  exact List.countP_le_length _

/-- In a consistent local tree, `vtfs_link` to a free name adds one record with the
ino and mode of the file and sets every link count of that ino to the old one plus 1
(the counter being below its last value). -/
theorem link_effect (st : vtfs_fs_info) (hinv : tree_inv st) (i : inode) (p : Nat)
    (name : String) (srv : Int × Nat) (file : vtfs_file) (dir : List vtfs_file)
    (hnd : S_ISDIR i.i_mode = false) (hf : vtfs_get_file_by_inode st i = some file)
    (hmode : S_ISDIR file.mode = false) (hdir : vtfs_get_dir st.root_dir p = some dir)
    (hfree : vtfs_find_file dir name = none) (hw : file.nlink + 1 < 4294967296) :
    (vtfs_link st (some i) p name srv).2 = 0 ∧
    (vtfs_link st (some i) p name srv).1.use_server = false ∧
    (vtfs_link st (some i) p name srv).1.next_ino = st.next_ino ∧
    (vtfs_link st (some i) p name srv).1.mem = st.mem ∧
    List.Perm (all_entries (vtfs_link st (some i) p name srv).1.root_dir)
      ((⟨file.ino, file.mode, strncpy_name name, false, file.data, file.data_size,
          file.nlink + 1⟩ ::
        all_entries st.root_dir).map (set_nlink_if file.ino (file.nlink + 1))) ∧
    tree_inv (vtfs_link st (some i) p name srv).1 := by
  obtain ⟨hl, hi⟩ := hinv
  obtain ⟨hfmem, hfino⟩ := find_mem hf
  have hres : vtfs_link st (some i) p name srv =
      (⟨vtfs_update_nlink_all (modify_dir (fun d => d ++ [vtfs_file.mk file.ino file.mode
          (strncpy_name name) none file.data file.data_size (file.nlink + 1)])
          ((modify_file_by_ino (vtfs_file.set_nlink (file.nlink + 1)) st.root_dir i.i_ino).getD
            st.root_dir) p) file.ino (file.nlink + 1), st.next_ino, st.use_server, st.mem⟩, 0) := by
    unfold vtfs_link
    simp [hnd, hf, hdir, hfree, hl, nlink_inc_of_lt hw]
  rw [← hfino] at hres
  obtain ⟨dir1, hdir1⟩ := get_dir_after_set_nlink st.root_dir file.ino (file.nlink + 1) p dir hdir
  obtain ⟨others, hperm, hmod⟩ := modify_dir_perm _ p dir1 hdir1
  have hperm2 : List.Perm (all_entries (vtfs_link st (some i) p name srv).1.root_dir)
      ((⟨file.ino, file.mode, strncpy_name name, false, file.data, file.data_size,
          file.nlink + 1⟩ ::
        all_entries st.root_dir).map (set_nlink_if file.ino (file.nlink + 1))) := by
    rw [hres]
    simp only
    rw [update_nlink_entries, List.map_cons,
      ← set_nlink_entries st.root_dir file.ino (file.nlink + 1) (file.nlink + 1), ← List.map_cons]
    refine List.Perm.map _ ?_
    refine (hmod _).trans ?_
    rw [all_entries_append]
    simp only [all_entries_cons, entries_below_file, all_entries_nil, List.append_nil,
      List.append_assoc, List.singleton_append]
    refine List.perm_middle.trans (List.Perm.cons _ hperm.symm) |>.trans ?_
    simp [vtfs_file.info, vtfs_file.ino, vtfs_file.mode, vtfs_file.name,
        vtfs_file.dir_data, vtfs_file.data, vtfs_file.data_size, vtfs_file.nlink, hfino]
  refine ⟨by rw [hres], by rw [hres]; exact hl, by rw [hres], by rw [hres], hperm2, ?_, ?_⟩
  · rw [hres]; exact hl
  · have hinv1 := entries_inv_link hi file.info
      ⟨file.ino, file.mode, strncpy_name name, false, file.data, file.data_size, file.nlink + 1⟩
      hfmem (by simpa [vtfs_file.info] using hmode) rfl rfl rfl
    have : (vtfs_link st (some i) p name srv).1.next_ino = st.next_ino := by rw [hres]
    rw [this]
    exact entries_inv_perm (by simpa [vtfs_file.info] using hperm2.symm) hinv1

/-! ## The ino counter along local calls -/

theorem unlink_next_ino (st : vtfs_fs_info) (p : Nat) (name : String) (di : Option inode) :
    (vtfs_unlink st p name di).1.next_ino = st.next_ino ∧
    (vtfs_unlink st p name di).1.use_server = st.use_server := by
  unfold vtfs_unlink
  repeat (first | exact ⟨rfl, rfl⟩ | split | dsimp only)

theorem rmdir_next_ino (st : vtfs_fs_info) (p : Nat) (name : String) :
    (vtfs_rmdir st p name).1.next_ino = st.next_ino ∧
    (vtfs_rmdir st p name).1.use_server = st.use_server := by
  unfold vtfs_rmdir
  repeat (first | exact ⟨rfl, rfl⟩ | split)

theorem link_next_ino (st : vtfs_fs_info) (oi : Option inode) (p : Nat) (name : String)
    (srv : Int × Nat) :
    (vtfs_link st oi p name srv).1.next_ino = st.next_ino ∧
    (vtfs_link st oi p name srv).1.use_server = st.use_server := by
  unfold vtfs_link
  repeat (first | exact ⟨rfl, rfl⟩ | split)

theorem create_entry_next_ino (st : vtfs_fs_info) (hl : st.use_server = false) (p : Nat)
    (name : String) (fm : Nat) (srv : Int × Nat) :
    st.next_ino ≤ (create_entry st p name fm srv).1.next_ino ∧
    (create_entry st p name fm srv).1.next_ino ≤ st.next_ino + 1 ∧
    (create_entry st p name fm srv).1.use_server = false := by
  unfold create_entry
  simp only [hl, Bool.false_eq_true, false_and, if_false]
  repeat (first | exact ⟨by simp, by simp, by simp [hl]⟩ | split)

theorem local_step_next_ino (st : vtfs_fs_info) (hl : st.use_server = false) (c : host_call) :
    st.next_ino ≤ (local_step st c).1.next_ino ∧
    (local_step st c).1.next_ino ≤ st.next_ino + 1 ∧
    (local_step st c).1.use_server = false := by
  cases c with
  | create p n m => exact create_entry_next_ino st hl p n _ _
  | mkdir p n m => exact create_entry_next_ino st hl p n _ _
  | unlink p n =>
    simp only [local_step]
    split
    · exact ⟨by simp, by simp, hl⟩
    · split
      · exact ⟨by simp, by simp, hl⟩
      · rw [(unlink_next_ino st p n _).1, (unlink_next_ino st p n _).2]
        exact ⟨by simp, by simp, hl⟩
  | rmdir p n =>
    simp only [local_step]
    rw [(rmdir_next_ino st p n).1, (rmdir_next_ino st p n).2]
    exact ⟨by simp, by simp, hl⟩
  | link op oname p n =>
    simp only [local_step]
    rw [(link_next_ino st _ p n _).1, (link_next_ino st _ p n _).2]
    exact ⟨by simp, by simp, hl⟩

theorem local_run_next_ino (cs : List host_call) :
    ∀ st, st.use_server = false →
      st.next_ino ≤ (local_run st cs).next_ino ∧
      (local_run st cs).next_ino ≤ st.next_ino + cs.length ∧
      (local_run st cs).use_server = false := by
  induction cs with
  | nil => intro st h; exact ⟨by simp [local_run], by simp [local_run], h⟩
  | cons c cs ih =>
    intro st h
    obtain ⟨h1, h2, h3⟩ := local_step_next_ino st h c
    obtain ⟨g1, g2, g3⟩ := ih _ h3
    simp only [local_run, List.length_cons]
    exact ⟨by omega, by omega, g3⟩

theorem local_step_inv (st : vtfs_fs_info) (hinv : tree_inv st)
    (hb : st.next_ino ≤ 2147483648) (c : host_call)
    (hlen : c.is_link = true → (all_entries st.root_dir).length < 4294967295) :
    tree_inv (local_step st c).1 := by
  cases c with
  | create p n m => exact create_entry_inv st hinv p n _ _
  | mkdir p n m => exact create_entry_inv st hinv p n _ _
  | unlink p n =>
    simp only [local_step]
    cases hlk : vtfs_lookup st p n with
    | none => exact hinv
    | some i =>
      obtain ⟨dir, file, hdir, hfile, hino, hmode⟩ := lookup_ino hinv hb hlk
      by_cases hd : S_ISDIR i.i_mode = true
      · simp only [hd, if_true]; exact hinv
      · simp only [hd]
        rw [hmode] at hd
        exact (unlink_effect st hinv p n i dir file hdir hfile hino (by simpa using hd)).2.2.2.2.2
  | rmdir p n => exact rmdir_inv st hinv p n
  | link op oname p n =>
    simp only [local_step]
    by_cases h : (vtfs_link st (vtfs_lookup st op oname) p n (0, 0)).2 = 0
    · obtain ⟨i, file, dir, hoi, hnd, hf, hdir, hfree⟩ := link_ok st _ p n _ h
      obtain ⟨odir, ofile, hodir, hofile, hoino, homode⟩ := lookup_ino hinv hb hoi
      have hom : ofile.info ∈ all_entries st.root_dir :=
        get_dir_mem hodir (find_file_mem _ _ _ hofile).1
      obtain ⟨hfmem, hfino⟩ := find_mem hf
      have hsame := hinv.2.same_mode _ hfmem _ hom (by simp [vtfs_file.info, hfino, hoino])
      have hmode : S_ISDIR file.mode = false := by
        simp only [vtfs_file.info] at hsame
        rw [hsame, ← homode]; exact hnd
      rw [hoi]
      have hw : file.nlink + 1 < 4294967296 := by
        have h1 := nlink_le_length hinv hfmem
        have h2 := hlen rfl
        simp only [vtfs_file.info] at h1
        omega
      exact (link_effect st hinv i p n _ file dir hnd hf hmode hdir hfree hw).2.2.2.2.2
    · rw [link_fail st _ p n _ h]
      exact hinv

/-- One call in a consistent local tree adds at most one record. -/
theorem local_step_length (st : vtfs_fs_info) (hinv : tree_inv st)
    (hb : st.next_ino ≤ 2147483648) (c : host_call) :
    (all_entries (local_step st c).1.root_dir).length ≤ (all_entries st.root_dir).length + 1 := by
  have hcreate : ∀ p n fm, (all_entries (create_entry st p n fm (0, 0)).1.root_dir).length ≤
      (all_entries st.root_dir).length + 1 := by
    intro p n fm
    obtain ⟨-, -, -, h⟩ := create_entry_local st hinv.1 p n fm (0, 0)
    rcases h with ⟨-, hroot⟩ | ⟨-, -, dir, -, -, -, -, hperm⟩
    · rw [hroot]; omega
    · rw [hperm.length_eq, List.length_cons]
  cases c with
  | create p n m => exact hcreate p n _
  | mkdir p n m => exact hcreate p n _
  | unlink p n =>
    simp only [local_step]
    cases hlk : vtfs_lookup st p n with
    | none => exact Nat.le_succ _
    | some i =>
      obtain ⟨dir, file, hdir, hfile, hino, hmode⟩ := lookup_ino hinv hb hlk
      by_cases hd : S_ISDIR i.i_mode = true
      · simp only [hd, if_true]; exact Nat.le_succ _
      · simp only [hd, Bool.false_eq_true, if_false]
        rw [hmode] at hd
        obtain ⟨-, -, -, hroot, hperm, -⟩ :=
          unlink_effect st hinv p n i dir file hdir hfile hino (by simpa using hd)
        rw [hroot, update_nlink_entries, List.length_map, hperm.length_eq, List.length_cons]
        omega
  | rmdir p n =>
    simp only [local_step]
    by_cases h : (vtfs_rmdir st p n).2 = 0
    · obtain ⟨dir, file, hdir, hfile, -, -, hres⟩ := rmdir_ok st p n h
      obtain ⟨others, hperm, hmod⟩ := modify_dir_perm st.root_dir p dir hdir
      rw [hres]
      simp only
      rw [(hmod (fun d => list_del d n)).length_eq, hperm.length_eq, List.length_append,
        List.length_append, (list_del_perm dir n file hfile).length_eq, List.length_append]
      omega
    · rw [rmdir_fail st p n h]; exact Nat.le_succ _
  | link op oname p n =>
    simp only [local_step]
    by_cases h : (vtfs_link st (vtfs_lookup st op oname) p n (0, 0)).2 = 0
    · obtain ⟨i, file, dir, hoi, hnd, hf, hdir, hfree⟩ := link_ok st _ p n _ h
      obtain ⟨dir1, hdir1⟩ :=
        get_dir_after_set_nlink st.root_dir i.i_ino (nlink_inc file.nlink) p dir hdir
      obtain ⟨others, hperm, hmod⟩ := modify_dir_perm _ p dir1 hdir1
      have hres : vtfs_link st (some i) p n (0, 0) =
          (⟨vtfs_update_nlink_all (modify_dir (fun d => d ++ [vtfs_file.mk file.ino file.mode
              (strncpy_name n) none file.data file.data_size (nlink_inc file.nlink)])
              ((modify_file_by_ino (vtfs_file.set_nlink (nlink_inc file.nlink)) st.root_dir
                i.i_ino).getD st.root_dir) p) file.ino (nlink_inc file.nlink),
            st.next_ino, st.use_server, st.mem⟩, 0) := by
        unfold vtfs_link
        simp [hnd, hf, hdir, hfree, hinv.1]
      have hset : (all_entries ((modify_file_by_ino (vtfs_file.set_nlink (nlink_inc file.nlink))
          st.root_dir i.i_ino).getD st.root_dir)).length = (all_entries st.root_dir).length := by
        have := congrArg List.length
          (set_nlink_entries st.root_dir i.i_ino (nlink_inc file.nlink) 0)
        simp only [List.length_map] at this
        exact this
      rw [hoi, hres]
      simp only
      rw [update_nlink_entries, List.length_map, (hmod _).length_eq, all_entries_append,
        List.length_append, List.length_append, ← hset, hperm.length_eq, List.length_append]
      simp only [all_entries_cons, entries_below_file, all_entries_nil, List.append_nil,
        List.length_singleton]
      omega
    · rw [link_fail st _ p n _ h]; exact Nat.le_succ _

theorem empty_mount_inv (mem : kmem) : tree_inv (empty_mount false mem) := by
  refine ⟨rfl, ?_⟩
  simp only [empty_mount, all_entries_nil]
  exact ⟨by simp, by simp, by simp, by simp, by simp⟩

theorem local_run_inv (cs : List host_call) :
    ∀ st, tree_inv st → st.next_ino + cs.length ≤ 2147483648 →
      (all_entries st.root_dir).length + cs.length ≤ 4294967295 →
      tree_inv (local_run st cs) := by
  induction cs with
  | nil => intro st h _ _; exact h
  | cons c cs ih =>
    intro st h hb hlen
    simp only [List.length_cons] at hb hlen
    have hn := (local_step_next_ino st h.1 c).2.1
    have hl := local_step_length st h (by omega) c
    exact ih _ (local_step_inv st h (by omega) c (fun _ => by omega)) (by omega) (by omega)

/-! ## Lemmas for the listing of a directory -/

theorem iterate_files_all (l : List vtfs_file) :
    ∀ idx room pos, l.length ≤ room →
      iterate_files l idx 0 room pos =
        (l.map (fun f => ⟨f.name, f.ino, if S_ISDIR f.mode then DT_DIR else DT_REG⟩),
          pos + l.length) := by
  induction l with
  | nil => intro idx room pos _; simp [iterate_files]
  | cons f rest ih =>
    intro idx room pos h
    cases room with
    | zero => simp at h
    | succ r =>
      simp only [List.length_cons, Nat.add_le_add_iff_right] at h
      simp only [iterate_files, Nat.not_lt_zero, if_false, ih _ r _ h, List.map_cons,
        List.length_cons]
      refine Prod.ext rfl ?_
      simp only
      omega

/-- With room for every entry, `vtfs_iterate` from cursor 0 on the root emits ".",
".." and then the entries of the root in list order. -/
theorem iterate_root_all (st : vtfs_fs_info) (room : Nat)
    (h : st.root_dir.length + 2 ≤ room) :
    (vtfs_iterate st VTFS_ROOT_INO VTFS_ROOT_INO 0 room).1 =
      ⟨".", VTFS_ROOT_INO, DT_DIR⟩ :: ⟨"..", VTFS_ROOT_INO, DT_DIR⟩ ::
        st.root_dir.map (fun f => ⟨f.name, f.ino, if S_ISDIR f.mode then DT_DIR else DT_REG⟩) := by
  unfold vtfs_iterate vtfs_get_dir
  have h1 : ¬ room = 0 := by omega
  have h2 : ¬ room - 1 = 0 := by omega
  have h3 : st.root_dir.length ≤ room - 1 - 1 := by omega
  simp [h1, h2, iterate_files_all st.root_dir 0 (room - 1 - 1) 2 h3]

theorem update_nlink_names (t : List vtfs_file) (i k : Nat) :
    (vtfs_update_nlink_all t i k).map vtfs_file.name = t.map vtfs_file.name := by
  induction t with
  | nil => rw [vtfs_update_nlink_all]
  | cons f rest ih =>
    rw [vtfs_update_nlink_all, List.map_cons, List.map_cons, ih]
    congr 1
    cases f with
    | mk j m n d p s l =>
      cases d <;> rw [update_nlink_file] <;> rfl

theorem list_del_names (d : List vtfs_file) (name : String) :
    (list_del d name).map vtfs_file.name = (d.map vtfs_file.name).erase name := by
  unfold list_del
  induction d with
  | nil => simp
  | cons f rest ih =>
    by_cases h : f.name = name
    · simp [List.eraseP_cons, h]
    · have h1 : (f.name == name) = false := by simpa using h
      simp [List.eraseP_cons, h1, List.erase_cons, ih]

theorem find_file_none_names {d : List vtfs_file} {name : String}
    (h : vtfs_find_file d name = none) : name ∉ d.map vtfs_file.name := by
  unfold vtfs_find_file at h
  rw [List.find?_eq_none] at h
  intro hc
  obtain ⟨f, hf, hn⟩ := List.mem_map.1 hc
  exact h f hf (by simp [hn])

theorem get_dir_root (root : List vtfs_file) : vtfs_get_dir root VTFS_ROOT_INO = some root := by
  simp [vtfs_get_dir]

theorem modify_dir_root (g : List vtfs_file → List vtfs_file) (root : List vtfs_file) :
    modify_dir g root VTFS_ROOT_INO = g root := by
  simp [modify_dir]

/-- One call on the root keeps the tree consistent and changes the names of the root
exactly as the list of linked names changes. -/
theorem root_step (st : vtfs_fs_info) (hinv : tree_inv st) (hb : st.next_ino ≤ 2147483648)
    (hnd : (st.root_dir.map vtfs_file.name).Nodup) (c : name_call) :
    tree_inv (local_step st (c.on_dir VTFS_ROOT_INO)).1 ∧
    (local_step st (c.on_dir VTFS_ROOT_INO)).1.root_dir.map vtfs_file.name =
      linked_after (st.root_dir.map vtfs_file.name) c (local_step st (c.on_dir VTFS_ROOT_INO)).2 ∧
    (linked_after (st.root_dir.map vtfs_file.name) c
      (local_step st (c.on_dir VTFS_ROOT_INO)).2).Nodup := by
  refine ⟨local_step_inv st hinv hb _ (fun h => by cases c <;> cases h), ?_⟩
  have hcreate : ∀ n fm,
      (create_entry st VTFS_ROOT_INO n fm (0, 0)).1.root_dir.map vtfs_file.name =
        (if (create_entry st VTFS_ROOT_INO n fm (0, 0)).2 = 0
          then st.root_dir.map vtfs_file.name ++ [n] else st.root_dir.map vtfs_file.name) ∧
      (if (create_entry st VTFS_ROOT_INO n fm (0, 0)).2 = 0
          then st.root_dir.map vtfs_file.name ++ [n] else st.root_dir.map vtfs_file.name).Nodup := by
    intro n fm
    obtain ⟨-, -, -, h⟩ := create_entry_local st hinv.1 VTFS_ROOT_INO n fm (0, 0)
    rcases h with ⟨hne, hroot⟩ | ⟨hz, -, dir, hdir, hnone, -, hroot, -⟩
    · simp only [hne, if_false]
      exact ⟨by rw [hroot], hnd⟩
    · rw [get_dir_root] at hdir
      cases hdir
      simp only [hz, if_true]
      rw [hroot, modify_dir_root]
      refine ⟨by simp [vtfs_file.name], ?_⟩
      rw [List.nodup_append]
      refine ⟨hnd, by simp, ?_⟩
      intro a ha hb
      simp only [List.mem_singleton] at hb
      subst hb
      exact find_file_none_names hnone ha
  cases c with
  | create n m => exact hcreate n (create_mode m)
  | mkdir n m => exact hcreate n (mkdir_mode m)
  | unlink n =>
    simp only [name_call.on_dir, local_step]
    cases hlk : vtfs_lookup st VTFS_ROOT_INO n with
    | none => simp [linked_after, ENOENT, hnd]
    | some i =>
      obtain ⟨dir, file, hdir, hfile, hino, hmode⟩ := lookup_ino hinv hb hlk
      by_cases hd : S_ISDIR i.i_mode = true
      · simp [hd, linked_after, EISDIR, hnd]
      · simp only [hd]
        rw [hmode] at hd
        obtain ⟨hz, -, -, hroot, -, -⟩ :=
          unlink_effect st hinv VTFS_ROOT_INO n i dir file hdir hfile hino (by simpa using hd)
        simp only [Bool.false_eq_true, if_false, hz, linked_after, if_true]
        rw [hroot, update_nlink_names, modify_dir_root, list_del_names]
        exact ⟨rfl, hnd.erase _⟩
  | rmdir n =>
    simp only [name_call.on_dir, local_step]
    by_cases h : (vtfs_rmdir st VTFS_ROOT_INO n).2 = 0
    · obtain ⟨dir, file, -, -, -, -, hres⟩ := rmdir_ok st VTFS_ROOT_INO n h
      rw [hres]
      simp only [linked_after, if_true]
      rw [modify_dir_root, list_del_names]
      exact ⟨rfl, hnd.erase _⟩
    · rw [rmdir_fail st _ n h]
      simp [linked_after, h, hnd]

theorem run_names_spec (cs : List name_call) :
    ∀ st, tree_inv st → st.next_ino + cs.length ≤ 2147483648 →
      (st.root_dir.map vtfs_file.name).Nodup →
      tree_inv (run_names VTFS_ROOT_INO st (st.root_dir.map vtfs_file.name) cs).1 ∧
      (run_names VTFS_ROOT_INO st (st.root_dir.map vtfs_file.name) cs).1.root_dir.map
          vtfs_file.name = (run_names VTFS_ROOT_INO st (st.root_dir.map vtfs_file.name) cs).2 ∧
      (run_names VTFS_ROOT_INO st (st.root_dir.map vtfs_file.name) cs).2.Nodup := by
  induction cs with
  | nil => intro st h _ hnd; exact ⟨h, rfl, hnd⟩
  | cons c cs ih =>
    intro st h hb hnd
    simp only [List.length_cons] at hb
    obtain ⟨h1, h2, h3⟩ := root_step st h (by omega) hnd c
    have hn := (local_step_next_ino st h.1 (c.on_dir VTFS_ROOT_INO)).2.1
    simp only [run_names]
    rw [← h2] at h3 ⊢
    exact ih _ h1 (by omega) h3

/-- Claim C1. In local mode, after any sequence of create, mkdir, unlink and rmdir
calls on names of the root of an empty mount (fewer than `2^31 - 200` calls, so that
every ino passes the `int` parameter of `vtfs_get_inode` unchanged), `vtfs_iterate`
with room for all entries emits ".", ".." and then exactly the names whose creation
succeeded and that were not successfully removed since, each once. -/
theorem C1_listing_is_linked_names (mem : kmem) (cs : List name_call) (room : Nat)
    (hcalls : 200 + cs.length ≤ 2147483648)
    (hroom : (run_names VTFS_ROOT_INO (empty_mount false mem) [] cs).2.length + 2 ≤ room) :
    ((vtfs_iterate (run_names VTFS_ROOT_INO (empty_mount false mem) [] cs).1
        VTFS_ROOT_INO VTFS_ROOT_INO 0 room).1.map dirent.name =
      "." :: ".." :: (run_names VTFS_ROOT_INO (empty_mount false mem) [] cs).2) ∧
    (run_names VTFS_ROOT_INO (empty_mount false mem) [] cs).2.Nodup := by
  have h := run_names_spec cs (empty_mount false mem) (empty_mount_inv mem) hcalls
    (by simp [empty_mount])
  have he : (empty_mount false mem).root_dir.map vtfs_file.name = [] := by simp [empty_mount]
  rw [he] at h
  obtain ⟨-, h2, h3⟩ := h
  refine ⟨?_, h3⟩
  have hlen : (run_names VTFS_ROOT_INO (empty_mount false mem) [] cs).1.root_dir.length + 2
      ≤ room := by
    have := congrArg List.length h2
    simp only [List.length_map] at this
    omega
  rw [iterate_root_all _ room hlen, ← h2]
  simp [Function.comp_def]

theorem C1_listing_is_linked_names_witness :
    200 + demo_names.length ≤ 2147483648 ∧
    (run_names VTFS_ROOT_INO (empty_mount false demo_mem) [] demo_names).2.length + 2 ≤ 8 ∧
    (((vtfs_iterate (run_names VTFS_ROOT_INO (empty_mount false demo_mem) [] demo_names).1
        VTFS_ROOT_INO VTFS_ROOT_INO 0 8).1.map dirent.name =
      "." :: ".." :: (run_names VTFS_ROOT_INO (empty_mount false demo_mem) [] demo_names).2) ∧
    (run_names VTFS_ROOT_INO (empty_mount false demo_mem) [] demo_names).2.Nodup) :=
  ⟨by decide, by decide,
    C1_listing_is_linked_names demo_mem demo_names 8 (by decide) (by decide)⟩

/-- Claim C2. In every state reached from an empty local-mode mount by create, mkdir,
link, unlink and rmdir calls (fewer than `2^31 - 200` of them, so that every ino passes
the `int` parameter of `vtfs_get_inode` unchanged), the `nlink` field of every record
equals the number of records anywhere in the tree with the same ino. -/
theorem C2_nlink_is_record_count (mem : kmem) (calls : List host_call) (e : entry_info)
    (hcalls : 200 + calls.length ≤ 2147483648)
    (he : e ∈ all_entries (local_run (empty_mount false mem) calls).root_dir) :
    e.nlink = ino_count (all_entries (local_run (empty_mount false mem) calls).root_dir) e.ino :=
  (local_run_inv calls _ (empty_mount_inv mem) hcalls (by
    simp only [empty_mount, all_entries_nil, List.length_nil]; omega)).2.nlink_count e he

theorem C2_nlink_is_record_count_witness :
    200 + demo_calls.length ≤ 2147483648 ∧
    (⟨200, 0o100644, "c.txt", false, 0, 0, 2⟩ : entry_info) ∈
        all_entries (local_run (empty_mount false demo_mem) demo_calls).root_dir ∧
    (⟨200, 0o100644, "c.txt", false, 0, 0, 2⟩ : entry_info).nlink =
      ino_count (all_entries (local_run (empty_mount false demo_mem) demo_calls).root_dir)
        (⟨200, 0o100644, "c.txt", false, 0, 0, 2⟩ : entry_info).ino :=
  ⟨by decide, by decide, C2_nlink_is_record_count demo_mem demo_calls _ (by decide) (by decide)⟩

/-! ## Link counting -/

/-- One `vtfs_link` call for the inode of a regular file: a successful call adds one
record of that ino, a failed one changes nothing. -/
theorem link_call_spec (i : inode) (st : vtfs_fs_info) (hinv : tree_inv st)
    (hM : ∀ e ∈ all_entries st.root_dir, e.ino = i.i_ino → e.mode = i.i_mode)
    (hw : ino_count (all_entries st.root_dir) i.i_ino + 1 < 4294967296)
    (p : Nat) (name : String) :
    tree_inv (vtfs_link st (some i) p name (0, 0)).1 ∧
    (∀ e ∈ all_entries (vtfs_link st (some i) p name (0, 0)).1.root_dir,
      e.ino = i.i_ino → e.mode = i.i_mode) ∧
    ino_count (all_entries (vtfs_link st (some i) p name (0, 0)).1.root_dir) i.i_ino =
      ino_count (all_entries st.root_dir) i.i_ino +
        (if (vtfs_link st (some i) p name (0, 0)).2 = 0 then 1 else 0) := by
  by_cases h : (vtfs_link st (some i) p name (0, 0)).2 = 0
  · obtain ⟨i1, file, dir, hoi, hnd, hf, hdir, hfree⟩ := link_ok st _ p name _ h
    cases hoi
    obtain ⟨hfmem, hfino⟩ := find_mem hf
    have hfm : file.mode = i.i_mode := by
      simpa [vtfs_file.info] using hM _ hfmem (by simpa [vtfs_file.info] using hfino)
    have hw1 : file.nlink + 1 < 4294967296 := by
      have h1 := hinv.2.nlink_count _ hfmem
      simp only [vtfs_file.info] at h1 hfino
      rw [h1, hfino]
      exact hw
    obtain ⟨-, -, -, -, hperm, hinv1⟩ :=
      link_effect st hinv i p name (0, 0) file dir hnd hf (by rw [hfm]; exact hnd) hdir hfree
        hw1
    refine ⟨hinv1, ?_, ?_⟩
    · intro e he hei
      rw [hperm.mem_iff] at he
      obtain ⟨y, hy, rfl⟩ := List.mem_map.1 he
      simp only [set_nlink_if_ino, set_nlink_if_mode] at hei ⊢
      simp only [List.mem_cons] at hy
      rcases hy with rfl | hy
      · exact hfm
      · exact hM y hy hei
    · rw [ino_count_perm hperm, ino_count_map_set_nlink, ino_count_cons, if_pos h,
        if_pos hfino]
  · rw [link_fail st _ p name _ h, if_neg h]
    exact ⟨hinv, hM, rfl⟩

theorem link_calls_spec (i : inode) (ls : List (Nat × String)) :
    ∀ st, tree_inv st →
      (∀ e ∈ all_entries st.root_dir, e.ino = i.i_ino → e.mode = i.i_mode) →
      ino_count (all_entries st.root_dir) i.i_ino + ls.length < 4294967296 →
      tree_inv (link_calls i st ls).1 ∧
      (∀ e ∈ all_entries (link_calls i st ls).1.root_dir, e.ino = i.i_ino → e.mode = i.i_mode) ∧
      ino_count (all_entries (link_calls i st ls).1.root_dir) i.i_ino =
        ino_count (all_entries st.root_dir) i.i_ino + (link_calls i st ls).2 := by
  induction ls with
  | nil => intro st h hM _; exact ⟨h, hM, rfl⟩
  | cons t rest ih =>
    intro st h hM hw
    simp only [List.length_cons] at hw
    obtain ⟨h1, h2, h3⟩ := link_call_spec i st h hM (by omega) t.1 t.2
    obtain ⟨g1, g2, g3⟩ := ih _ h1 h2 (by
      rw [h3]
      split <;> omega)
    simp only [link_calls]
    refine ⟨g1, g2, ?_⟩
    rw [g3, h3]
    omega

/-- One `vtfs_unlink` call with the inode of a regular file: a successful call takes
one record of that ino away, a failed one changes nothing. -/
theorem unlink_call_spec (i : inode) (hreg : S_ISDIR i.i_mode = false) (st : vtfs_fs_info)
    (hinv : tree_inv st)
    (hM : ∀ e ∈ all_entries st.root_dir, e.ino = i.i_ino → e.mode = i.i_mode)
    (p : Nat) (name : String) :
    tree_inv (vtfs_unlink st p name (some i)).1 ∧
    (∀ e ∈ all_entries (vtfs_unlink st p name (some i)).1.root_dir,
      e.ino = i.i_ino → e.mode = i.i_mode) ∧
    ino_count (all_entries (vtfs_unlink st p name (some i)).1.root_dir) i.i_ino +
        (if (vtfs_unlink st p name (some i)).2 = 0 then 1 else 0) =
      ino_count (all_entries st.root_dir) i.i_ino := by
  by_cases h : (vtfs_unlink st p name (some i)).2 = 0
  · obtain ⟨dir, file, i1, hoi, hdir, hfile, hino⟩ := unlink_ok st p name _ h
    cases hoi
    have hfmem : file.info ∈ all_entries st.root_dir :=
      get_dir_mem hdir (find_file_mem _ _ _ hfile).1
    have hfm : file.mode = i.i_mode := by
      simpa [vtfs_file.info] using hM _ hfmem (by simpa [vtfs_file.info] using hino.symm)
    obtain ⟨-, -, -, hroot, hperm, hinv1⟩ :=
      unlink_effect st hinv p name i dir file hdir hfile hino (by rw [hfm]; exact hreg)
    refine ⟨hinv1, ?_, ?_⟩
    · intro e he hei
      rw [hroot, update_nlink_entries] at he
      obtain ⟨y, hy, rfl⟩ := List.mem_map.1 he
      simp only [set_nlink_if_ino, set_nlink_if_mode] at hei ⊢
      exact hM y (hperm.mem_iff.2 (List.mem_cons_of_mem _ hy)) hei
    · rw [hroot, update_nlink_entries, ino_count_map_set_nlink, ino_count_perm hperm,
        ino_count_cons, if_pos h, if_pos (by simp [vtfs_file.info, hino])]
  · rw [unlink_fail st p name _ h, if_neg h]
    exact ⟨hinv, hM, rfl⟩

theorem unlink_calls_spec (i : inode) (hreg : S_ISDIR i.i_mode = false)
    (us : List (Nat × String)) :
    ∀ st, tree_inv st →
      (∀ e ∈ all_entries st.root_dir, e.ino = i.i_ino → e.mode = i.i_mode) →
      tree_inv (unlink_calls i st us).1 ∧
      ino_count (all_entries (unlink_calls i st us).1.root_dir) i.i_ino +
        (unlink_calls i st us).2 = ino_count (all_entries st.root_dir) i.i_ino := by
  induction us with
  | nil => intro st h _; exact ⟨h, rfl⟩
  | cons t rest ih =>
    intro st h hM
    obtain ⟨h1, h2, h3⟩ := unlink_call_spec i hreg st h hM t.1 t.2
    obtain ⟨g1, g3⟩ := ih _ h1 h2
    simp only [unlink_calls]
    refine ⟨g1, ?_⟩
    omega

/-- In a consistent tree the link count `vtfs_getattr` reports for an inode is the
number of records of its ino, and the ino resolves exactly when there is a record. -/
theorem getattr_nlink (st : vtfs_fs_info) (hinv : tree_inv st) (i : inode) :
    (0 < ino_count (all_entries st.root_dir) i.i_ino →
      (vtfs_getattr st i).map (fun a => a.2.1) =
        some (ino_count (all_entries st.root_dir) i.i_ino)) ∧
    (ino_count (all_entries st.root_dir) i.i_ino = 0 → vtfs_get_file_by_inode st i = none) := by
  unfold vtfs_getattr vtfs_get_file_by_inode
  constructor
  · intro hpos
    cases hf : vtfs_find_file_by_ino st.root_dir i.i_ino with
    | none =>
      have := ino_count_zero.2 ((find_none_iff _ _).1 hf)
      omega
    | some f =>
      obtain ⟨hm, hino⟩ := find_mem hf
      have := hinv.2.nlink_count _ hm
      simp only [vtfs_file.info] at this
      simp [this, hino]
  · intro hz
    exact (find_none_iff _ _).2 (ino_count_zero.1 hz)

/-- Claim C3. In local mode, take a file that `vtfs_create` has just made in a state
reached from an empty mount (by fewer than `2^31 - 200` calls, so that its ino passes
the `int` parameter of `vtfs_get_inode` unchanged), then any `vtfs_link` calls on it,
`n` of them successful (fewer than `2^32 - 1` calls, the width of the `unsigned int`
link counter),
then any `vtfs_unlink` calls on it, `k` of them successful.  After the links the
reported link count is `n + 1`; `k ≤ n + 1`; after the unlinks the reported count is
`n + 1 - k` and the ino resolves while `k < n + 1`, and it no longer resolves when
`k = n + 1`. -/
theorem C3_nlink_accounting (mem : kmem) (calls : List host_call) (p : Nat) (name : String)
    (mode : Nat) (hcalls : 200 + calls.length < 2147483648)
    (hc : (vtfs_create (local_run (empty_mount false mem) calls) p name mode (0, 0)).2 = 0)
    (links unlinks : List (Nat × String)) (hlinks : links.length < 4294967295) :
    let st := local_run (empty_mount false mem) calls
    let i := vtfs_get_inode (create_mode mode) st.next_ino
    let a := link_calls i (vtfs_create st p name mode (0, 0)).1 links
    let b := unlink_calls i a.1 unlinks
    (vtfs_getattr a.1 i).map (fun x => x.2.1) = some (a.2 + 1) ∧
    b.2 ≤ a.2 + 1 ∧
    (b.2 < a.2 + 1 →
      (vtfs_getattr b.1 i).map (fun x => x.2.1) = some (a.2 + 1 - b.2) ∧
      (vtfs_get_file_by_inode b.1 i).isSome = true) ∧
    (b.2 = a.2 + 1 → vtfs_get_file_by_inode b.1 i = none) := by
  intro st i a b
  have hinv : tree_inv st := local_run_inv calls _ (empty_mount_inv mem) (by
    simp only [empty_mount]; omega) (by
    simp only [empty_mount, all_entries_nil, List.length_nil]; omega)
  have hreg : S_ISDIR i.i_mode = false := S_ISDIR_create_mode mode
  have hino : i.i_ino = st.next_ino := by
    have hn := (local_run_next_ino calls (empty_mount false mem) rfl).2.1
    have h200 : (empty_mount false mem).next_ino = 200 := rfl
    rw [h200] at hn
    exact int_ino_of_lt (by show (local_run (empty_mount false mem) calls).next_ino < _; omega)
  obtain ⟨hl1, -, -, h⟩ := create_entry_local st hinv.1 p name (create_mode mode) (0, 0)
  have hinv1 : tree_inv (vtfs_create st p name mode (0, 0)).1 := create_entry_inv st hinv _ _ _ _
  rcases h with ⟨hne, -⟩ | ⟨-, -, dir, -, -, -, -, hperm⟩
  · exact absurd hc hne
  · have hfresh : ino_count (all_entries st.root_dir) st.next_ino = 0 := by
      rw [ino_count_zero]
      intro e he
      have := hinv.2.ino_lt e he
      omega
    have hcnt1 : ino_count (all_entries (vtfs_create st p name mode (0, 0)).1.root_dir) i.i_ino
        = 1 := by
      unfold vtfs_create
      rw [ino_count_perm hperm, ino_count_cons, hino, hfresh]
      simp
    have hM1 : ∀ e ∈ all_entries (vtfs_create st p name mode (0, 0)).1.root_dir,
        e.ino = i.i_ino → e.mode = i.i_mode := by
      intro e he hei
      unfold vtfs_create at he
      rw [hperm.mem_iff] at he
      simp only [List.mem_cons] at he
      rcases he with rfl | he
      · rfl
      · have := hinv.2.ino_lt e he
        rw [hei, hino] at this
        omega
    obtain ⟨ha1, ha2, ha3⟩ := link_calls_spec i links _ hinv1 hM1 (by rw [hcnt1]; omega)
    obtain ⟨hb1, hb3⟩ := unlink_calls_spec i hreg unlinks _ ha1 ha2
    rw [hcnt1] at ha3
    have hca : ino_count (all_entries a.1.root_dir) i.i_ino = a.2 + 1 := by
      show ino_count (all_entries (link_calls i _ links).1.root_dir) i.i_ino =
        (link_calls i _ links).2 + 1
      rw [ha3]; omega
    have hcb : ino_count (all_entries b.1.root_dir) i.i_ino + b.2 = a.2 + 1 := by
      rw [← hca]; exact hb3
    have ha1 : tree_inv a.1 := ha1
    have hb1 : tree_inv b.1 := hb1
    clear ha3 hb3 ha2
    clear_value b a
    refine ⟨?_, by omega, ?_, ?_⟩
    · rw [(getattr_nlink a.1 ha1 i).1 (by omega), hca]
    · intro hlt
      have hg := (getattr_nlink b.1 hb1 i).1 (by omega)
      refine ⟨by rw [hg]; congr 1; omega, ?_⟩
      unfold vtfs_getattr at hg
      cases hf : vtfs_get_file_by_inode b.1 i with
      | none => rw [hf] at hg; cases hg
      | some f => rfl
    · intro heq
      exact (getattr_nlink b.1 hb1 i).2 (by omega)

theorem C3_nlink_accounting_witness :
    200 + ([] : List host_call).length < 2147483648 ∧
    (vtfs_create (local_run (empty_mount false demo_mem) []) 100 "a.txt" 0o644 (0, 0)).2 = 0 ∧
    demo_links.length < 4294967295 ∧
    (let st := local_run (empty_mount false demo_mem) []
     let i := vtfs_get_inode (create_mode 0o644) st.next_ino
     let a := link_calls i (vtfs_create st 100 "a.txt" 0o644 (0, 0)).1 demo_links
     let b := unlink_calls i a.1 demo_unlinks
     (vtfs_getattr a.1 i).map (fun x => x.2.1) = some (a.2 + 1) ∧
     b.2 ≤ a.2 + 1 ∧
     (b.2 < a.2 + 1 →
       (vtfs_getattr b.1 i).map (fun x => x.2.1) = some (a.2 + 1 - b.2) ∧
       (vtfs_get_file_by_inode b.1 i).isSome = true) ∧
     (b.2 = a.2 + 1 → vtfs_get_file_by_inode b.1 i = none)) :=
  ⟨by decide, by decide, by decide,
    C3_nlink_accounting demo_mem [] 100 "a.txt" 0o644 (by decide) (by decide) demo_links
      demo_unlinks (by decide)⟩

/-! ## Lemmas on the heap -/

theorem foldl_max_spec (l : List (Nat × List Nat)) :
    ∀ init, init ≤ l.foldl (fun a b => max a (b.1 + 1)) init ∧
      ∀ b ∈ l, b.1 < l.foldl (fun a b => max a (b.1 + 1)) init := by
  induction l with
  | nil => intro init; simp
  | cons x rest ih =>
    intro init
    obtain ⟨h1, h2⟩ := ih (max init (x.1 + 1))
    simp only [List.foldl_cons, List.mem_cons]
    refine ⟨le_trans (le_max_left _ _) h1, ?_⟩
    intro b hb
    rcases hb with rfl | hb
    · exact lt_of_lt_of_le (Nat.lt_succ_self _) (le_trans (le_max_right _ _) h1)
    · exact h2 b hb

theorem fresh_addr_gt (m : kmem) : 16 < m.fresh_addr := by
  have := (foldl_max_spec m.blocks (17 + m.nalloc)).1
  unfold kmem.fresh_addr
  omega

theorem lookup_some_mem {l : List (Nat × List Nat)} {p : Nat} {blk : List Nat}
    (h : l.lookup p = some blk) : (p, blk) ∈ l := by
  induction l with
  | nil => simp at h
  | cons x rest ih =>
    obtain ⟨a, b⟩ := x
    rw [List.lookup_cons] at h
    by_cases hp : p = a
    · subst hp
      simp at h
      subst h
      simp
    · have hp1 : (p == a) = false := by simpa using hp
      simp only [hp1] at h
      exact List.mem_cons_of_mem _ (ih h)

theorem fresh_addr_ne_live (m : kmem) {p : Nat} {blk : List Nat}
    (h : m.blocks.lookup p = some blk) : p ≠ m.fresh_addr := by
  have := (foldl_max_spec m.blocks (17 + m.nalloc)).2 _ (lookup_some_mem h)
  unfold kmem.fresh_addr
  simp only at this
  omega

theorem lookup_filter_ne (l : List (Nat × List Nat)) (p q : Nat) (h : q ≠ p) :
    (l.filter (fun b => b.1 != p)).lookup q = l.lookup q := by
  induction l with
  | nil => rfl
  | cons x rest ih =>
    obtain ⟨a, b⟩ := x
    by_cases ha : a = p
    · subst ha
      have hq : (q == a) = false := by simpa using h
      simp [List.filter_cons, List.lookup_cons, hq, ih]
    · have ha1 : (a != p) = true := by simpa using ha
      simp only [List.filter_cons, ha1, if_true, List.lookup_cons, ih]

theorem find_eq_lookup (m : kmem) {p : Nat} (h : p ≠ ZERO_SIZE_PTR) :
    m.find p = m.blocks.lookup p := by
  simp [kmem.find, h]

theorem find_zero_size (m : kmem) : m.find ZERO_SIZE_PTR = some [] := by
  simp [kmem.find]

/-- A store inside a block succeeds and changes exactly the bytes of its range. -/
theorem store_find (m : kmem) (p off : Nat) (bytes blk : List Nat)
    (hf : m.find p = some blk) (hlen : off + bytes.length ≤ blk.length) :
    ∃ m1, m.store p off bytes = some m1 ∧ m1.find p = some (patch blk off bytes) := by
  unfold kmem.store
  by_cases hb : bytes = []
  · subst hb
    refine ⟨m, by simp, ?_⟩
    simp [hf, patch]
  · have hpos : 0 < bytes.length := List.length_pos.2 hb
    have hp : p ≠ ZERO_SIZE_PTR := by
      intro hp
      rw [hp, find_zero_size] at hf
      cases hf
      simp only [List.length_nil] at hlen
      omega
    rw [find_eq_lookup m hp] at hf
    simp only [hb, if_false, hf, hlen, if_true]
    refine ⟨_, rfl, ?_⟩
    rw [find_eq_lookup _ hp]
    simp [List.lookup_cons]

/-- A `krealloc` to a positive size of `NULL` (then `base = []`) or of a live block
`base` succeeds with a pointer to a live block that starts with `base` and has at
least the requested size. -/
theorem krealloc_spec (m : kmem) (p n : Nat) (base : List Nat) (hn : 0 < n)
    (hp : (p = NULL ∧ base = []) ∨ (p ≠ NULL ∧ m.find p = some base)) :
    ∃ q m1 ext, m.krealloc p n = some (q, m1) ∧ q ≠ NULL ∧
      m1.find q = some (base ++ ext) ∧ n ≤ (base ++ ext).length := by
  unfold kmem.krealloc
  have hn0 : ¬ n = 0 := by omega
  simp only [hn0, if_false]
  rcases hp with ⟨hp, hb⟩ | ⟨hp, hf⟩
  · subst hb
    simp only [hp, if_true, kmem.kmalloc, hn0, if_false, kmem.alloc_block]
    have hq := fresh_addr_gt m
    refine ⟨_, _, List.replicate (n + m.slack n) m.junk, rfl, ?_, ?_, ?_⟩
    · unfold NULL; omega
    · rw [find_eq_lookup _ (by unfold ZERO_SIZE_PTR; omega)]
      simp [List.lookup_cons]
    · simp
  · simp only [hp, if_false, hf]
    by_cases hfit : n ≤ base.length
    · simp only [hfit, if_true]
      exact ⟨p, m, [], rfl, hp, by simpa using hf, by simpa using hfit⟩
    · simp only [hfit, if_false, kmem.alloc_block, kmem.kfree]
      have hq := fresh_addr_gt m
      refine ⟨_, _, List.replicate (n + m.slack n - base.length) m.junk, rfl, ?_, ?_, ?_⟩
      · unfold NULL; omega
      · rw [find_eq_lookup _ (by unfold ZERO_SIZE_PTR; omega)]
        have hne : m.fresh_addr ≠ p := by
          by_cases hz : p = ZERO_SIZE_PTR
          · rw [hz]; unfold ZERO_SIZE_PTR; omega
          · rw [find_eq_lookup m hz] at hf
            exact (fresh_addr_ne_live m hf).symm
        have hne1 : (m.fresh_addr != p) = true := by simpa using hne
        simp [List.filter_cons, hne1, List.lookup_cons]
      · simp only [List.length_append, List.length_replicate]
        omega

/-! ## Lemmas on blocks of bytes -/

theorem length_patch (blk : List Nat) (off : Nat) (bytes : List Nat)
    (h : off + bytes.length ≤ blk.length) : (patch blk off bytes).length = blk.length := by
  unfold patch
  simp only [List.length_append, List.length_take, List.length_drop]
  omega

theorem getElem?_patch (blk : List Nat) (off : Nat) (bytes : List Nat) (j : Nat)
    (h : off + bytes.length ≤ blk.length) :
    (patch blk off bytes)[j]? =
      if j < off then blk[j]? else if j < off + bytes.length then bytes[j - off]? else blk[j]? := by
  unfold patch
  have hl : (blk.take off).length = off := by
    simp only [List.length_take]; omega
  rw [List.append_assoc]
  by_cases h1 : j < off
  · rw [List.getElem?_append_left (by omega)]
    simp only [h1, if_true]
    rw [List.getElem?_take_of_lt h1]
  · rw [List.getElem?_append_right (by omega), hl]
    simp only [h1, if_false]
    by_cases h2 : j < off + bytes.length
    · simp only [h2, if_true]
      rw [List.getElem?_append_left (by omega)]
    · simp only [h2, if_false]
      rw [List.getElem?_append_right (by omega), List.getElem?_drop]
      congr 1
      omega

theorem patch_read_back (blk : List Nat) (off : Nat) (bytes : List Nat)
    (h : off + bytes.length ≤ blk.length) :
    ((patch blk off bytes).drop off).take bytes.length = bytes := by
  unfold patch
  have hl : (blk.take off).length = off := by
    simp only [List.length_take]; omega
  have hd : List.drop off (List.take off blk) = [] := List.drop_eq_nil_iff.2 (by omega)
  rw [List.append_assoc, List.drop_append_eq_append_drop, hl, hd, Nat.sub_self, List.drop_zero,
    List.nil_append]
  exact List.take_left' rfl

theorem getElem?_written (D : List Nat) (o : Nat) (B : List Nat) (j : Nat) :
    (written D o B)[j]? =
      if j < o then (if j < D.length then D[j]? else some 0)
      else if j < o + B.length then B[j - o]? else D[j]? := by
  unfold written
  have hl : ((D ++ List.replicate (o - D.length) 0).take o).length = o := by
    simp only [List.length_take, List.length_append, List.length_replicate]
    omega
  rw [List.append_assoc]
  by_cases h1 : j < o
  · rw [List.getElem?_append_left (by omega)]
    simp only [h1, if_true]
    rw [List.getElem?_take_of_lt h1]
    by_cases h2 : j < D.length
    · simp only [h2, if_true]
      rw [List.getElem?_append_left h2]
    · simp only [h2, if_false]
      rw [List.getElem?_append_right (by omega), List.getElem?_replicate]
      have : j - D.length < o - D.length := by omega
      simp [this]
  · rw [List.getElem?_append_right (by omega), hl]
    simp only [h1, if_false]
    by_cases h2 : j < o + B.length
    · simp only [h2, if_true]
      rw [List.getElem?_append_left (by omega)]
    · simp only [h2, if_false]
      rw [List.getElem?_append_right (by omega), List.getElem?_drop]
      congr 1
      omega

theorem content_after_write (base ext B : List Nat) (size o : Nat) (h1 : size ≤ base.length)
    (h2 : max size (o + B.length) ≤ (base ++ ext).length) :
    (patch (if size < o then patch (base ++ ext) size (List.replicate (o - size) 0)
        else base ++ ext) o B).take (max size (o + B.length)) =
      written (base.take size) o B := by
  have h3 : size ≤ (base ++ ext).length := le_trans (le_max_left _ _) h2
  have h4 : o + B.length ≤ (base ++ ext).length := le_trans (le_max_right _ _) h2
  have hz : size + (List.replicate (o - size) 0).length ≤ (base ++ ext).length := by
    simp only [List.length_replicate]; omega
  have hlen2 : (if size < o then patch (base ++ ext) size (List.replicate (o - size) 0)
        else base ++ ext).length = (base ++ ext).length := by
    split
    · exact length_patch _ _ _ hz
    · rfl
  apply List.ext_getElem?
  intro j
  rw [getElem?_written]
  by_cases hj : j < max size (o + B.length)
  · rw [List.getElem?_take_of_lt hj, getElem?_patch _ _ _ _ (by rw [hlen2]; exact h4)]
    have hsz : (List.take size base).length = size := by
      simp only [List.length_take]; omega
    rw [hsz]
    by_cases hjo : j < o
    · simp only [hjo, if_true]
      by_cases hso : size < o
      · simp only [hso, if_true]
        rw [getElem?_patch _ _ _ _ hz]
        by_cases hjs : j < size
        · simp only [hjs, if_true]
          rw [List.getElem?_take_of_lt hjs, List.getElem?_append_left (by omega)]
        · simp only [hjs, if_false, List.length_replicate]
          have : j < size + (o - size) := by omega
          simp only [this, if_true, List.getElem?_replicate]
          have : j - size < o - size := by omega
          simp [this]
      · simp only [hso, if_false]
        have hjs : j < size := by omega
        simp only [hjs, if_true]
        rw [List.getElem?_take_of_lt hjs, List.getElem?_append_left (by omega)]
    · simp only [hjo, if_false]
      by_cases hjb : j < o + B.length
      · simp only [hjb, if_true]
      · simp only [hjb, if_false]
        have hjs : j < size := by
          rcases Nat.lt_or_ge j size with h | h
          · exact h
          · exfalso
            have := max_le h (Nat.le_of_not_lt hjb)
            omega
        have hso : ¬ size < o := by omega
        simp only [hso, if_false]
        rw [List.getElem?_take_of_lt hjs, List.getElem?_append_left (by omega)]
  · have hge : max size (o + B.length) ≤ j := Nat.le_of_not_lt hj
    have hs : size ≤ j := le_trans (le_max_left _ _) hge
    have hb : o + B.length ≤ j := le_trans (le_max_right _ _) hge
    rw [List.getElem?_eq_none (by simp only [List.length_take]; omega)]
    have hjo : ¬ j < o := by omega
    have hjb : ¬ j < o + B.length := by omega
    simp only [hjo, hjb, if_false]
    symm
    rw [List.getElem?_eq_none]
    simp only [List.length_take]; omega
/-! ## Lemmas on the content operations -/

theorem set_data_info (p s : Nat) (f : vtfs_file) :
    (f.set_data p s).info = { f.info with data := p, data_size := s } ∧
      (f.set_data p s).ino = f.ino ∧ (f.set_data p s).data = p ∧
      (f.set_data p s).data_size = s ∧ entries_below (f.set_data p s) = entries_below f := by
  cases f with
  | mk i m n d q t l =>
    cases d <;>
      simp [vtfs_file.set_data, vtfs_file.info, vtfs_file.ino, vtfs_file.mode, vtfs_file.name,
        vtfs_file.dir_data, vtfs_file.data, vtfs_file.data_size, vtfs_file.nlink]

theorem find_after_modify (t : List vtfs_file) (i : Nat) (f : vtfs_file)
    (g : vtfs_file → vtfs_file) (hf : vtfs_find_file_by_ino t i = some f)
    (hg : (g f).ino = i) :
    ∃ f1, vtfs_find_file_by_ino ((modify_file_by_ino g t i).getD t) i = some f1 ∧
      f1.info = (g f).info := by
  obtain ⟨-, pre, post, -, hpre, hmod⟩ := find_some_decomp t i f hf
  obtain ⟨t1, hm, hall⟩ := hmod g
  have h1 := find_info t1 i
  have hp : List.find? (fun e => e.ino == i) pre = none := by
    rw [List.find?_eq_none]
    intro e he
    simpa using hpre e he
  rw [hall] at h1
  simp only [List.append_assoc, List.cons_append, List.find?_append, hp, Option.none_or,
    List.find?_cons] at h1
  have hgi : ((g f).info.ino == i) = true := by simp [vtfs_file.info, hg]
  simp only [hgi] at h1
  rw [hm, Option.getD_some]
  cases hf1 : vtfs_find_file_by_ino t1 i with
  | none => rw [hf1] at h1; cases h1
  | some f1 =>
    rw [hf1] at h1
    exact ⟨f1, rfl, by simpa using h1⟩

theorem find_after_update_data (t : List vtfs_file) (i old_data new_data new_size : Nat)
    (f : vtfs_file) (hf : vtfs_find_file_by_ino t i = some f) :
    ∃ f1, vtfs_find_file_by_ino (vtfs_update_data_all t i old_data new_data new_size) i
        = some f1 ∧
      f1.info = set_data_if i old_data new_data new_size f.info := by
  have h1 := find_info (vtfs_update_data_all t i old_data new_data new_size) i
  have h2 := find_info t i
  rw [update_data_entries, List.find?_map] at h1
  have hc : ((fun e : entry_info => e.ino == i) ∘ set_data_if i old_data new_data new_size) =
      (fun e => e.ino == i) := by
    funext e
    simp only [Function.comp, set_data_if]
    split <;> rfl
  rw [hc, ← h2, hf] at h1
  cases hf1 : vtfs_find_file_by_ino (vtfs_update_data_all t i old_data new_data new_size) i with
  | none => rw [hf1] at h1; cases h1
  | some f1 =>
    rw [hf1] at h1
    exact ⟨f1, rfl, by simpa using h1⟩

theorem info_data (f : vtfs_file) : f.info.data = f.data ∧ f.info.data_size = f.data_size ∧
    f.info.ino = f.ino ∧ f.info.nlink = f.nlink ∧ f.info.mode = f.mode := by
  simp [vtfs_file.info]

/-- After the assignments of `write_store` with a non-NULL `new_data`, the record the
inode resolves to has `data = new_data` and `data_size = new_size`. -/
theorem write_store_spec (st : vtfs_fs_info) (i : inode) (f0 : vtfs_file)
    (q ns : Nat) (mem2 : kmem) (hf : vtfs_get_file_by_inode st i = some f0) (hq : q ≠ NULL) :
    ∃ st1 f2 f1, write_store st i f0 f0.data q ns mem2 = (st1, some f2) ∧ f2.data = q ∧
      st1.mem = mem2 ∧ st1.use_server = st.use_server ∧ st1.next_ino = st.next_ino ∧
      vtfs_get_file_by_inode st1 i = some f1 ∧ f1.data = q ∧ f1.data_size = ns := by
  unfold vtfs_get_file_by_inode at hf
  obtain ⟨-, hino⟩ := find_mem hf
  by_cases hc : f0.data ≠ NULL ∧ f0.data ≠ q
  · obtain ⟨f1, hf1, hinfo⟩ := find_after_update_data st.root_dir i.i_ino f0.data q ns f0 hf
    have hd : f1.data = q ∧ f1.data_size = ns := by
      have h1 := congrArg entry_info.data hinfo
      have h2 := congrArg entry_info.data_size hinfo
      simp only [set_data_if, (info_data f0).1, (info_data f0).2.2.1, hino, and_self,
        if_true] at h1 h2
      exact ⟨by simpa [vtfs_file.info] using h1, by simpa [vtfs_file.info] using h2⟩
    have hres : write_store st i f0 f0.data q ns mem2 =
        (⟨vtfs_update_data_all st.root_dir i.i_ino f0.data q ns, st.next_ino, st.use_server,
          mem2⟩, some f1) := by
      unfold write_store
      simp only [vtfs_get_file_by_inode, hf1, hd.1, hq, if_false]
      rw [if_pos hc]
    exact ⟨_, f1, f1, hres, hd.1, rfl, rfl, rfl, hf1, hd.1, hd.2⟩
  · obtain ⟨f1, hf1, hinfo⟩ := find_after_modify st.root_dir i.i_ino f0
      (vtfs_file.set_data q ns) hf (by rw [(set_data_info q ns f0).2.1, hino])
    have h1 := congrArg entry_info.data hinfo
    have h2 := congrArg entry_info.data_size hinfo
    simp only [(set_data_info q ns f0).1, (info_data f1).1, (info_data f1).2.1] at h1 h2
    have hres : write_store st i f0 f0.data q ns mem2 =
        (⟨(modify_file_by_ino (vtfs_file.set_data q ns) st.root_dir i.i_ino).getD st.root_dir,
          st.next_ino, st.use_server, mem2⟩, some (f0.set_data q ns)) := by
      unfold write_store
      rw [if_neg hc]
    exact ⟨_, _, f1, hres, (set_data_info q ns f0).2.2.1, rfl, rfl, rfl, hf1, h1, h2⟩

/-- A read that needs no remote fill returns the requested part of the content and
leaves the state alone. -/
theorem read_spec (st : vtfs_fs_info) (i : inode) (f : vtfs_file) (blk : List Nat)
    (n o : Nat) (srv : Nat → Int × List Nat)
    (hf : vtfs_get_file_by_inode st i = some f) (hdata : f.data ≠ NULL)
    (hfind : st.mem.find f.data = some blk) (hsz : f.data_size ≤ blk.length)
    (hnofill : st.use_server = false ∨ o + n ≤ f.data_size) :
    ∃ r, vtfs_read st i n o srv = some r ∧ r.st = st ∧
      r.out = ((blk.take f.data_size).take (min (o + n) f.data_size)).drop o ∧
      r.ret = (r.out.length : Int) ∧ r.pos = o + r.out.length := by
  have hfill : read_fill st i f n o srv = some (st, f) := by
    unfold read_fill
    rcases hnofill with h | h
    · simp [h]
    · have : ¬ (f.data = NULL ∨ o + n > f.data_size) := by
        intro hc
        rcases hc with hc | hc
        · exact hdata hc
        · omega
      simp [this]
  unfold vtfs_read
  simp only [hf, hfill, hdata, if_false]
  by_cases h1 : o ≥ f.data_size
  · simp only [h1, if_true]
    refine ⟨_, rfl, rfl, ?_, ?_⟩
    · simp only
      symm
      rw [List.drop_eq_nil_iff]
      simp only [List.length_take]
      omega
    · simp
  · simp only [h1, if_false]
    by_cases h2 : (if o + n > f.data_size then f.data_size - o else n) = 0
    · simp only [h2, if_true]
      have hn : n = 0 := by
        split at h2 <;> omega
      refine ⟨_, rfl, rfl, ?_, ?_⟩
      · simp only
        symm
        rw [List.drop_eq_nil_iff]
        simp only [List.length_take]
        omega
      · simp
    · simp only [h2, if_false]
      have hp : f.data ≠ ZERO_SIZE_PTR := by
        intro hp
        rw [hp, find_zero_size] at hfind
        cases hfind
        simp only [List.length_nil] at hsz
        omega
      rw [find_eq_lookup _ hp] at hfind
      have hle : o + (if o + n > f.data_size then f.data_size - o else n) ≤ blk.length := by
        split <;> omega
      simp only [kmem.load, h2, if_false, hfind, hle, if_true]
      have hout : List.take (if o + n > f.data_size then f.data_size - o else n)
          (List.drop o blk) =
          ((blk.take f.data_size).take (min (o + n) f.data_size)).drop o := by
        rw [List.take_take, List.drop_take]
        congr 1
        split <;> omega
      have hlen : (List.take (if o + n > f.data_size then f.data_size - o else n)
          (List.drop o blk)).length = (if o + n > f.data_size then f.data_size - o else n) := by
        rw [List.length_take, List.length_drop]
        split <;> omega
      refine ⟨_, rfl, rfl, hout, ?_, ?_⟩
      · simp only [hlen]
      · simp only [hlen]

/-- The last step of `vtfs_write` once the buffer is large enough: the bytes land in
the block of the record the inode resolves to. -/
theorem write_finish (st st1 : vtfs_fs_info) (i : inode) (flags : Nat) (B : List Nat) (o : Nat)
    (f0 f2 f1 : vtfs_file) (blk2 : List Nat)
    (hf : vtfs_get_file_by_inode st i = some f0) (happ : flags &&& O_APPEND = 0)
    (hgrow : write_grow st i f0 o (o + B.length) = some (st1, some f2))
    (hf1 : vtfs_get_file_by_inode st1 i = some f1) (hd : f2.data = f1.data)
    (hq : f1.data ≠ NULL) (hfind : st1.mem.find f1.data = some blk2)
    (hlen : o + B.length ≤ blk2.length) (push : Int) :
    ∃ r, vtfs_write st i flags B o push = some r ∧ r.ret = (B.length : Int) ∧
      r.pos = o + B.length ∧ r.out = [] ∧ r.st.use_server = st1.use_server ∧
      vtfs_get_file_by_inode r.st i = some f1 ∧
      r.st.mem.find f1.data = some (patch blk2 o B) := by
  obtain ⟨m3, hst, hfind3⟩ := store_find st1.mem f1.data o B blk2 hfind hlen
  unfold vtfs_write
  simp only [hf, happ, ne_eq, not_true_eq_false, if_false, hgrow, hd, hq, hst, ite_self]
  exact ⟨_, rfl, rfl, rfl, rfl, rfl, hf1, hfind3⟩

/-- The effect of `vtfs_write` at offset `o` on a handle without `O_APPEND`, for a
record whose `data` is `NULL` (then `base = []`) or points to a live block `base`
that holds at least `data_size` bytes. -/
theorem write_spec (st : vtfs_fs_info) (i : inode) (f0 : vtfs_file) (base : List Nat)
    (flags : Nat) (B : List Nat) (o : Nat)
    (hf : vtfs_get_file_by_inode st i = some f0)
    (hbase : (f0.data = NULL ∧ base = []) ∨
      (f0.data ≠ NULL ∧ st.mem.find f0.data = some base ∧ f0.data_size ≤ base.length))
    (happ : flags &&& O_APPEND = 0) (push : Int) :
    ∃ r f1 blk1, vtfs_write st i flags B o push = some r ∧ r.ret = (B.length : Int) ∧
      r.pos = o + B.length ∧ r.out = [] ∧ r.st.use_server = st.use_server ∧
      vtfs_get_file_by_inode r.st i = some f1 ∧ f1.data ≠ NULL ∧
      r.st.mem.find f1.data = some blk1 ∧ f1.data_size ≤ blk1.length ∧
      o + B.length ≤ f1.data_size ∧ (blk1.drop o).take B.length = B ∧
      ((f0.data = NULL → f0.data_size = 0) →
        f1.data_size = max f0.data_size (o + B.length) ∧
        blk1.take f1.data_size = written (base.take f0.data_size) o B) := by
  by_cases hG : o + B.length > f0.data_size ∨ f0.data = NULL
  · by_cases hns : o + B.length = 0
    · have ho : o = 0 := by omega
      have hB : B = [] := List.length_eq_zero.1 (by omega)
      subst ho hB
      have hnull : f0.data = NULL := by
        rcases hG with h | h
        · simp at h
        · exact h
      have hbase0 : base = [] := by
        rcases hbase with ⟨-, h⟩ | ⟨h, -⟩
        · exact h
        · exact absurd hnull h
      have hq : ZERO_SIZE_PTR ≠ NULL := by decide
      obtain ⟨st1, f2, f1, hws, hf2, hmem1, hus1, -, hf1, hd1, hs1⟩ :=
        write_store_spec st i f0 ZERO_SIZE_PTR 0 (st.mem.kfree f0.data) hf hq
      have hgrow : write_grow st i f0 0 (0 + ([] : List Nat).length) = some (st1, some f2) := by
        unfold write_grow
        simp only [List.length_nil, Nat.add_zero, hnull, or_true, if_true, kmem.krealloc]
        rw [← hnull]
        simp only [hnull, hq, if_false, Nat.not_lt_zero]
        rw [← hnull, hws]
      obtain ⟨r, hr, hret, hpos, hout, hus, hfr, hfindr⟩ :=
        write_finish st st1 i flags [] 0 f0 f2 f1 [] hf happ hgrow hf1 (by rw [hf2, hd1])
          (by rw [hd1]; exact hq) (by rw [hd1]; exact find_zero_size _) (by simp) push
      refine ⟨r, f1, patch [] 0 [], hr, hret, hpos, hout, by rw [hus, hus1], hfr,
        by rw [hd1]; exact hq, hfindr, by rw [hs1]; exact Nat.zero_le _, by rw [hs1]; simp,
        by simp, ?_⟩
      intro hz
      rw [hs1, hz hnull, hbase0]
      exact ⟨by simp, by simp [written, patch]⟩
    · have hpos : 0 < o + B.length := Nat.pos_of_ne_zero hns
      have hp : (f0.data = NULL ∧ base = []) ∨ (f0.data ≠ NULL ∧ st.mem.find f0.data = some base) := by
        rcases hbase with h | ⟨h1, h2, -⟩
        · exact Or.inl h
        · exact Or.inr ⟨h1, h2⟩
      obtain ⟨q, m1, ext, hk, hq, hfind1, hlen1⟩ :=
        krealloc_spec st.mem f0.data (o + B.length) base hpos hp
      have hzero : ∃ m2, (if f0.data_size < o then
            m1.store q f0.data_size (List.replicate (o - f0.data_size) 0) else some m1) = some m2 ∧
          m2.find q = some (if f0.data_size < o then
            patch (base ++ ext) f0.data_size (List.replicate (o - f0.data_size) 0)
            else base ++ ext) ∧
          (if f0.data_size < o then
            patch (base ++ ext) f0.data_size (List.replicate (o - f0.data_size) 0)
            else base ++ ext).length = (base ++ ext).length := by
        by_cases hso : f0.data_size < o
        · have hle : f0.data_size + (List.replicate (o - f0.data_size) 0).length ≤
              (base ++ ext).length := by
            simp only [List.length_replicate]; omega
          obtain ⟨m2, h1, h2⟩ := store_find m1 q f0.data_size _ _ hfind1 hle
          rw [if_pos hso, if_pos hso]
          exact ⟨m2, h1, h2, length_patch _ _ _ hle⟩
        · rw [if_neg hso, if_neg hso]
          exact ⟨m1, rfl, hfind1, rfl⟩
      obtain ⟨m2, hz1, hz2, hz3⟩ := hzero
      obtain ⟨st1, f2, f1, hws, hf2, hmem1, hus1, -, hf1, hd1, hs1⟩ :=
        write_store_spec st i f0 q (o + B.length) m2 hf hq
      have hgrow : write_grow st i f0 o (o + B.length) = some (st1, some f2) := by
        unfold write_grow
        simp only [hG, if_true, hk, hq, if_false, hz1, hws]
      obtain ⟨r, hr, hret, hpos1, hout, hus, hfr, hfindr⟩ :=
        write_finish st st1 i flags B o f0 f2 f1 _ hf happ hgrow hf1 (by rw [hf2, hd1])
          (by rw [hd1]; exact hq) (by rw [hd1, hmem1]; exact hz2) (by rw [hz3]; exact hlen1) push
      refine ⟨r, f1, _, hr, hret, hpos1, hout, by rw [hus, hus1], hfr, by rw [hd1]; exact hq,
        hfindr, ?_, by rw [hs1], patch_read_back _ _ _ (by rw [hz3]; exact hlen1), ?_⟩
      · rw [hs1, length_patch _ _ _ (by rw [hz3]; exact hlen1), hz3]
        exact hlen1
      · intro hz
        have hsz : f0.data_size ≤ base.length := by
          rcases hbase with ⟨h1, -⟩ | ⟨-, -, h3⟩
          · rw [hz h1]; exact Nat.zero_le _
          · exact h3
        have hge : f0.data_size ≤ o + B.length := by
          rcases hG with h | h
          · omega
          · rw [hz h]; exact Nat.zero_le _
        have hmax : max f0.data_size (o + B.length) = o + B.length := max_eq_right hge
        rw [hs1]
        refine ⟨hmax.symm, ?_⟩
        have := content_after_write base ext B f0.data_size o hsz (by rw [hmax]; exact hlen1)
        rw [hmax] at this
        exact this
  · have hdata : f0.data ≠ NULL := fun h => hG (Or.inr h)
    have hle : o + B.length ≤ f0.data_size := by
      rcases Nat.lt_or_ge f0.data_size (o + B.length) with h | h
      · exact absurd (Or.inl h) hG
      · exact h
    obtain ⟨hfind, hsz⟩ : st.mem.find f0.data = some base ∧ f0.data_size ≤ base.length := by
      rcases hbase with ⟨h, -⟩ | ⟨-, h2, h3⟩
      · exact absurd h hdata
      · exact ⟨h2, h3⟩
    have hgrow : write_grow st i f0 o (o + B.length) = some (st, some f0) := by
      unfold write_grow
      simp only [hG, if_false]
    obtain ⟨r, hr, hret, hpos1, hout, hus, hfr, hfindr⟩ :=
      write_finish st st i flags B o f0 f0 f0 base hf happ hgrow hf rfl hdata hfind
        (le_trans hle hsz) push
    refine ⟨r, f0, _, hr, hret, hpos1, hout, hus, hfr, hdata, hfindr, ?_, hle,
      patch_read_back _ _ _ (le_trans hle hsz), ?_⟩
    · rw [length_patch _ _ _ (le_trans hle hsz)]; exact hsz
    · intro _
      have hmax : max f0.data_size (o + B.length) = f0.data_size := max_eq_left hle
      refine ⟨hmax.symm, ?_⟩
      have := content_after_write base [] B f0.data_size o hsz
        (by rw [hmax, List.append_nil]; exact hsz)
      have hso : ¬ f0.data_size < o := by omega
      simp only [hso, if_false, List.append_nil, hmax] at this
      exact this

theorem content_cases {m : kmem} {f : vtfs_file} {D : List Nat}
    (h : file_content m f = some D) :
    D.length = f.data_size ∧
    ((f.data = NULL ∧ f.data_size = 0 ∧ D = []) ∨
     (f.data ≠ NULL ∧ ∃ blk, m.find f.data = some blk ∧ f.data_size ≤ blk.length ∧
        D = blk.take f.data_size)) := by
  unfold file_content at h
  by_cases hd : f.data = NULL
  · by_cases hs : f.data_size = 0
    · simp only [hd, hs, if_true, Option.some.injEq] at h
      subst h
      exact ⟨by simp [hs], Or.inl ⟨hd, hs, rfl⟩⟩
    · simp [hd, hs] at h
  · simp only [hd, if_false] at h
    cases hf : m.find f.data with
    | none => simp [hf] at h
    | some blk =>
      by_cases hs : f.data_size ≤ blk.length
      · simp only [hf, hs, if_true, Option.some.injEq] at h
        subst h
        exact ⟨by simp [hs], Or.inr ⟨hd, blk, rfl, hs, rfl⟩⟩
      · simp [hf, hs] at h

theorem content_of_block {m : kmem} {f : vtfs_file} {blk : List Nat} (hd : f.data ≠ NULL)
    (hf : m.find f.data = some blk) (hs : f.data_size ≤ blk.length) :
    file_content m f = some (blk.take f.data_size) := by
  unfold file_content
  simp [hd, hf, hs]

/-- In local mode a read returns the requested part of the content of the record the
inode resolves to, and leaves the state alone. -/
theorem read_content (st : vtfs_fs_info) (i : inode) (f : vtfs_file) (D : List Nat)
    (n o : Nat) (srv : Nat → Int × List Nat) (hl : st.use_server = false)
    (hf : vtfs_get_file_by_inode st i = some f) (hD : file_content st.mem f = some D) :
    ∃ r, vtfs_read st i n o srv = some r ∧ r.st = st ∧
      r.out = (D.take (min (o + n) D.length)).drop o ∧
      r.ret = (r.out.length : Int) ∧ r.pos = o + r.out.length := by
  obtain ⟨hlen, hc⟩ := content_cases hD
  rcases hc with ⟨hd, hs, hD0⟩ | ⟨hd, blk, hfind, hsz, hDb⟩
  · subst hD0
    refine ⟨⟨st, 0, [], o⟩, ?_, rfl, by simp, by simp, by simp⟩
    unfold vtfs_read read_fill
    simp [hf, hl, hd]
  · obtain ⟨r, h1, h2, h3, h4, h5⟩ := read_spec st i f blk n o srv hf hd hfind hsz (Or.inl hl)
    refine ⟨r, h1, h2, ?_, h4, h5⟩
    rw [h3, hlen, ← hDb]

/-- Claim C7. In local mode, for a file with content `D` (of length `data_size`),
`vtfs_read` of `n` bytes at offset `o` returns exactly `D[o .. min(o+n, size))`,
returns their number, advances the offset by that number, returns nothing and keeps
the offset when `o` is at or past the size, and leaves the whole state unchanged. -/
theorem C7_read_returns_requested_range (st : vtfs_fs_info) (i : inode) (f : vtfs_file)
    (D : List Nat) (n o : Nat) (srv : Nat → Int × List Nat) (hl : st.use_server = false)
    (hf : vtfs_get_file_by_inode st i = some f) (hD : file_content st.mem f = some D) :
    D.length = f.data_size ∧
    ∃ r, vtfs_read st i n o srv = some r ∧
      r.out = (D.take (min (o + n) D.length)).drop o ∧
      r.out.length = min (o + n) D.length - o ∧
      r.ret = (r.out.length : Int) ∧ r.pos = o + r.out.length ∧
      (D.length ≤ o → r.out = [] ∧ r.ret = 0 ∧ r.pos = o) ∧
      r.st = st := by
  obtain ⟨r, h1, h2, h3, h4, h5⟩ := read_content st i f D n o srv hl hf hD
  have hlen : r.out.length = min (o + n) D.length - o := by
    rw [h3, List.length_drop, List.length_take]
    congr 1
    omega
  refine ⟨(content_cases hD).1, r, h1, h3, hlen, h4, h5, ?_, h2⟩
  intro hle
  have hz : r.out.length = 0 := by omega
  refine ⟨List.length_eq_zero.1 hz, by rw [h4, hz]; rfl, by rw [h5, hz]; rfl⟩

/-- Claim C8. For a file with content `D`, `vtfs_write` of `B` at offset `o` on a
handle without `O_APPEND` returns `len(B)`, moves the offset to `o + len(B)`, and
leaves the file with size `max(size, o + len(B))` and a content that holds `B` at
`[o, o + len(B))`, zeros in the gap `[size, o)` and the bytes of `D` everywhere else. -/
theorem C8_write_places_bytes (st : vtfs_fs_info) (i : inode) (f : vtfs_file)
    (D : List Nat) (flags : Nat) (B : List Nat) (o : Nat)
    (hf : vtfs_get_file_by_inode st i = some f) (hD : file_content st.mem f = some D)
    (happ : flags &&& O_APPEND = 0) (push : Int) :
    ∃ r f1 D1, vtfs_write st i flags B o push = some r ∧ r.ret = (B.length : Int) ∧
      r.pos = o + B.length ∧
      vtfs_get_file_by_inode r.st i = some f1 ∧ file_content r.st.mem f1 = some D1 ∧
      f1.data_size = max D.length (o + B.length) ∧ D1.length = max D.length (o + B.length) ∧
      (∀ j, j < B.length → D1[o + j]? = B[j]?) ∧
      (∀ j, D.length ≤ j → j < o → D1[j]? = some 0) ∧
      (∀ j, j < D.length → (j < o ∨ o + B.length ≤ j) → D1[j]? = D[j]?) := by
  obtain ⟨hlen, hc⟩ := content_cases hD
  have hz : f.data = NULL → f.data_size = 0 := by
    intro hn
    rcases hc with ⟨-, hs, -⟩ | ⟨hd, -⟩
    · exact hs
    · exact absurd hn hd
  obtain ⟨base, hbase, hDb⟩ : ∃ base, ((f.data = NULL ∧ base = []) ∨
      (f.data ≠ NULL ∧ st.mem.find f.data = some base ∧ f.data_size ≤ base.length)) ∧
      D = base.take f.data_size := by
    rcases hc with ⟨hd, hs, hD0⟩ | ⟨hd, blk, hfind, hsz, hDb⟩
    · exact ⟨[], Or.inl ⟨hd, rfl⟩, by simp [hD0]⟩
    · exact ⟨blk, Or.inr ⟨hd, hfind, hsz⟩, hDb⟩
  obtain ⟨r, f1, blk1, hw, hret, hpos, -, -, hf1, hd1, hfind1, hsz1, -, -, hcont⟩ :=
    write_spec st i f base flags B o hf hbase happ push
  obtain ⟨hsize, hD1⟩ := hcont hz
  rw [← hDb] at hD1
  have hcontent : file_content r.st.mem f1 = some (written D o B) := by
    rw [content_of_block hd1 hfind1 hsz1, hD1]
  have hl1 : (written D o B).length = max D.length (o + B.length) := by
    rw [← hD1, List.length_take, hsize, hlen]
    rw [hsize] at hsz1
    omega
  refine ⟨r, f1, written D o B, hw, hret, hpos, hf1, hcontent, by rw [hsize, hlen], hl1,
    ?_, ?_, ?_⟩
  · intro j hj
    rw [getElem?_written]
    have h1 : ¬ o + j < o := by omega
    have h2 : o + j < o + B.length := by omega
    simp only [h1, h2, if_false, if_true]
    congr 1
    omega
  · intro j h1 h2
    rw [getElem?_written]
    have h3 : ¬ j < D.length := by omega
    simp only [h2, h3, if_true, if_false]
  · intro j h1 h2
    rw [getElem?_written]
    rcases h2 with h2 | h2
    · simp only [h2, h1, if_true]
    · have h3 : ¬ j < o := by omega
      have h4 : ¬ j < o + B.length := by omega
      simp only [h3, h4, if_false]

/-- Claim C9. For every byte string `B` and every prior state of the file (no
buffer, or a live buffer holding at least `data_size` bytes, shorter or longer than
`B`), in local and in remote mode, `vtfs_write` of `B` at offset 0 followed by
`vtfs_read` of `len(B)` bytes at offset 0 returns exactly `B`. -/
theorem C9_write_read_round_trip (st : vtfs_fs_info) (i : inode) (f : vtfs_file)
    (flags : Nat) (B : List Nat) (srv : Nat → Int × List Nat)
    (hf : vtfs_get_file_by_inode st i = some f)
    (hwf : f.data = NULL ∨
      ∃ blk, st.mem.find f.data = some blk ∧ f.data_size ≤ blk.length)
    (happ : flags &&& O_APPEND = 0) (push : Int) :
    ∃ r r2, vtfs_write st i flags B 0 push = some r ∧ r.ret = (B.length : Int) ∧
      vtfs_read r.st i B.length 0 srv = some r2 ∧ r2.out = B ∧ r2.ret = (B.length : Int) := by
  obtain ⟨base, hbase⟩ : ∃ base, (f.data = NULL ∧ base = []) ∨
      (f.data ≠ NULL ∧ st.mem.find f.data = some base ∧ f.data_size ≤ base.length) := by
    by_cases hd : f.data = NULL
    · exact ⟨[], Or.inl ⟨hd, rfl⟩⟩
    · rcases hwf with h | ⟨blk, h1, h2⟩
      · exact absurd h hd
      · exact ⟨blk, Or.inr ⟨hd, h1, h2⟩⟩
  obtain ⟨r, f1, blk1, hw, hret, -, -, -, hf1, hd1, hfind1, hsz1, hle, hback, -⟩ :=
    write_spec st i f base flags B 0 hf hbase happ push
  obtain ⟨r2, hr2, -, hout, hret2, -⟩ :=
    read_spec r.st i f1 blk1 B.length 0 srv hf1 hd1 hfind1 hsz1 (Or.inr hle)
  have hB : r2.out = B := by
    rw [hout, List.drop_zero, List.take_take]
    simp only [List.drop_zero] at hback
    have : min (min (0 + B.length) f1.data_size) f1.data_size = B.length := by omega
    rw [this, hback]
  exact ⟨r, r2, hw, hret, hr2, hB, by rw [hret2, hB]⟩

/-- After the assignments of `setattr_store`, the record the inode resolves to has
`data = new_data` and `data_size = new_size`. -/
theorem setattr_store_spec (st : vtfs_fs_info) (i : inode) (f0 : vtfs_file)
    (q ns : Nat) (mem2 : kmem) (hf : vtfs_get_file_by_inode st i = some f0) :
    (setattr_store st i f0.data q ns mem2).mem = mem2 ∧
    (setattr_store st i f0.data q ns mem2).use_server = st.use_server ∧
    ∃ f1, vtfs_get_file_by_inode (setattr_store st i f0.data q ns mem2) i = some f1 ∧
      f1.data = q ∧ f1.data_size = ns := by
  unfold vtfs_get_file_by_inode at hf
  obtain ⟨-, hino⟩ := find_mem hf
  unfold setattr_store
  by_cases hc : f0.data ≠ q
  · obtain ⟨f1, hf1, hinfo⟩ := find_after_update_data st.root_dir i.i_ino f0.data q ns f0 hf
    have hd : f1.data = q ∧ f1.data_size = ns := by
      have h1 := congrArg entry_info.data hinfo
      have h2 := congrArg entry_info.data_size hinfo
      simp only [set_data_if, (info_data f0).1, (info_data f0).2.2.1, hino, and_self,
        if_true] at h1 h2
      exact ⟨by simpa [vtfs_file.info] using h1, by simpa [vtfs_file.info] using h2⟩
    rw [if_pos hc]
    exact ⟨rfl, rfl, f1, hf1, hd.1, hd.2⟩
  · obtain ⟨f1, hf1, hinfo⟩ := find_after_modify st.root_dir i.i_ino f0
      (vtfs_file.set_data q ns) hf (by rw [(set_data_info q ns f0).2.1, hino])
    have h1 := congrArg entry_info.data hinfo
    have h2 := congrArg entry_info.data_size hinfo
    simp only [(set_data_info q ns f0).1, (info_data f1).1, (info_data f1).2.1] at h1 h2
    rw [if_neg hc]
    exact ⟨rfl, rfl, f1, hf1, h1, h2⟩

theorem krealloc_fit (m : kmem) (p n : Nat) (blk : List Nat) (hn : n ≠ 0) (hp : p ≠ NULL)
    (hf : m.find p = some blk) (hle : n ≤ blk.length) : m.krealloc p n = some (p, m) := by
  unfold kmem.krealloc
  simp [hn, hp, hf, hle]

theorem patch_nil (blk : List Nat) (off : Nat) : patch blk off [] = blk := by
  simp [patch]

theorem resized_of_grow (base ext : List Nat) (size n : Nat) (h1 : size ≤ base.length)
    (h2 : size < n) (h3 : n ≤ (base ++ ext).length) :
    (patch (base ++ ext) size (List.replicate (n - size) 0)).take n =
      resized (base.take size) n := by
  have h := content_after_write base ext [] size n h1 (by simp only [List.length_nil]; omega)
  simp only [h2, if_true, patch_nil, List.length_nil, Nat.add_zero] at h
  have hmax : max size n = n := max_eq_right (le_of_lt h2)
  rw [hmax] at h
  rw [h]
  unfold written resized
  have hl : (List.take size base).length = size := by
    simp only [List.length_take]; omega
  simp only [hl, List.length_nil, Nat.add_zero, List.append_nil]
  rw [List.drop_eq_nil_iff.2 (by omega), List.append_nil,
    List.take_of_length_le (by simp only [List.length_append, List.length_replicate]; omega),
    List.take_of_length_le (l := List.take size base) (by omega)]

/-- The effect of `vtfs_setattr` with `ATTR_SIZE` on a file with content `D`: the
record the inode resolves to gets size `n` and the content `D` cut or zero-extended
to `n` bytes. -/
theorem setattr_spec (st : vtfs_fs_info) (i : inode) (f : vtfs_file) (D : List Nat)
    (ia_valid n : Nat) (hf : vtfs_get_file_by_inode st i = some f)
    (hD : file_content st.mem f = some D) (hv : ia_valid &&& ATTR_SIZE ≠ 0) :
    ∃ st1 f1, vtfs_setattr st i ia_valid n = some st1 ∧ st1.use_server = st.use_server ∧
      vtfs_get_file_by_inode st1 i = some f1 ∧ f1.data_size = n ∧
      file_content st1.mem f1 = some (resized D n) := by
  obtain ⟨hlen, hc⟩ := content_cases hD
  unfold vtfs_setattr
  rw [if_pos hv]
  simp only [hf]
  by_cases hlt : n < f.data_size
  · simp only [hlt, if_true]
    obtain ⟨hd, blk, hfind, hsz, hDb⟩ : f.data ≠ NULL ∧ ∃ blk, st.mem.find f.data = some blk ∧
        f.data_size ≤ blk.length ∧ D = blk.take f.data_size := by
      rcases hc with ⟨-, hs, -⟩ | h
      · omega
      · exact h
    by_cases hn : n = 0
    · subst hn
      have hq : ZERO_SIZE_PTR ≠ NULL := by decide
      obtain ⟨hm, hus, f1, hf1, hd1, hs1⟩ :=
        setattr_store_spec st i f ZERO_SIZE_PTR 0 (st.mem.kfree f.data) hf
      simp only [kmem.krealloc, if_true, hq, if_false]
      refine ⟨_, f1, rfl, hus, hf1, hs1, ?_⟩
      rw [content_of_block (by rw [hd1]; exact hq) (by rw [hd1]; exact find_zero_size _)
        (by rw [hs1]; exact Nat.zero_le _), hs1]
      simp [resized]
    · obtain ⟨hm, hus, f1, hf1, hd1, hs1⟩ := setattr_store_spec st i f f.data n st.mem hf
      simp only [krealloc_fit st.mem f.data n blk hn hd hfind (by omega), hd, if_false]
      refine ⟨_, f1, rfl, hus, hf1, hs1, ?_⟩
      rw [content_of_block (by rw [hd1]; exact hd) (by rw [hd1, hm]; exact hfind)
        (by rw [hs1]; omega), hs1, hDb]
      unfold resized
      rw [List.take_take]
      have h1 : min n f.data_size = n := by omega
      have h2 : n - (List.take f.data_size blk).length = 0 := by
        simp only [List.length_take]; omega
      rw [h1, h2]
      simp
  · simp only [hlt, if_false]
    by_cases hgt : n > f.data_size
    · simp only [hgt, if_true]
      obtain ⟨base, hbase, hsz, hDb⟩ : ∃ base, ((f.data = NULL ∧ base = []) ∨
          (f.data ≠ NULL ∧ st.mem.find f.data = some base)) ∧ f.data_size ≤ base.length ∧
          D = base.take f.data_size := by
        rcases hc with ⟨hd, hs, hD0⟩ | ⟨hd, blk, hfind, hsz, hDb⟩
        · exact ⟨[], Or.inl ⟨hd, rfl⟩, by rw [hs]; exact Nat.zero_le _, by simp [hD0]⟩
        · exact ⟨blk, Or.inr ⟨hd, hfind⟩, hsz, hDb⟩
      obtain ⟨q, m1, ext, hk, hq, hfind1, hlen1⟩ :=
        krealloc_spec st.mem f.data n base (by omega) hbase
      have hle : f.data_size + (List.replicate (n - f.data_size) 0).length ≤
          (base ++ ext).length := by
        simp only [List.length_replicate]; omega
      obtain ⟨m2, hst, hfind2⟩ := store_find m1 q f.data_size _ _ hfind1 hle
      obtain ⟨hm, hus, f1, hf1, hd1, hs1⟩ := setattr_store_spec st i f q n m2 hf
      simp only [hk, hq, if_false, hst]
      refine ⟨_, f1, rfl, hus, hf1, hs1, ?_⟩
      rw [content_of_block (by rw [hd1]; exact hq) (by rw [hd1, hm]; exact hfind2)
        (by rw [hs1, length_patch _ _ _ hle]; exact hlen1), hs1, hDb]
      rw [resized_of_grow base ext f.data_size n hsz hgt hlen1]
    · simp only [hgt, if_false]
      have heq : n = f.data_size := by omega
      refine ⟨st, f, rfl, rfl, hf, heq.symm, ?_⟩
      rw [hD]
      unfold resized
      rw [heq, ← hlen]
      simp

/-! ## Names of a directory under the operations -/

theorem strip_file_fields (f : vtfs_file) :
    (strip_file f).ino = f.ino ∧ (strip_file f).mode = f.mode ∧
    (strip_file f).name = f.name ∧ (strip_file f).dir_data = f.dir_data.map strip := by
  cases f with
  | mk i m n d p s l =>
    cases d <;> rw [strip_file] <;>
      simp [vtfs_file.ino, vtfs_file.mode, vtfs_file.name, vtfs_file.dir_data]

theorem find_strip (t : List vtfs_file) :
    ∀ j, vtfs_find_file_by_ino (strip t) j = (vtfs_find_file_by_ino t j).map strip_file := by
  refine tree_induction
    (P := fun t => ∀ j, vtfs_find_file_by_ino (strip t) j =
      (vtfs_find_file_by_ino t j).map strip_file)
    (Q := fun f => ∀ j, find_in_dir_data (strip_file f) j =
      (find_in_dir_data f j).map strip_file)
    ?_ ?_ ?_ ?_ t
  · intro j; rw [strip]; simp
  · intro f rest hf hrest j
    rw [strip, find_cons, find_cons, (strip_file_fields f).1, hf j, hrest j]
    by_cases h : f.ino = j
    · simp [h]
    · simp only [h, if_false]
      cases find_in_dir_data f j <;> simp
  · intro i m n p s l j
    rw [strip_file]; simp
  · intro i m n d p s l hd j
    rw [strip_file]
    simpa using hd j

theorem strip_names (d : List vtfs_file) :
    (strip d).map (fun f => (f.name, f.ino)) = d.map (fun f => (f.name, f.ino)) := by
  induction d with
  | nil => rw [strip]
  | cons f rest ih =>
    rw [strip, List.map_cons, List.map_cons, ih, (strip_file_fields f).1,
      (strip_file_fields f).2.2.1]

/-- The names of a directory depend only on the stripped tree. -/
theorem dir_names_strip (t : List vtfs_file) (p : Nat) :
    dir_names (strip t) p = dir_names t p := by
  unfold dir_names vtfs_get_dir
  by_cases hp : p = VTFS_ROOT_INO
  · simp [hp, strip_names]
  · simp only [hp, if_false, find_strip]
    cases hf : vtfs_find_file_by_ino t p with
    | none => simp
    | some f =>
      simp only [Option.map_some', (strip_file_fields f).2.1, (strip_file_fields f).2.2.2]
      by_cases hm : S_ISDIR f.mode = true
      · simp only [hm, if_true]
        cases f.dir_data with
        | none => simp
        | some d => simp [strip_names]
      · simp [hm]

theorem strip_update_nlink (t : List vtfs_file) (i k : Nat) :
    strip (vtfs_update_nlink_all t i k) = strip t := by
  refine tree_induction
    (P := fun t => strip (vtfs_update_nlink_all t i k) = strip t)
    (Q := fun f => strip_file (update_nlink_file f i k) = strip_file f)
    ?_ ?_ ?_ ?_ t
  · beta_reduce; rw [vtfs_update_nlink_all]
  · intro f rest hf hrest
    rw [vtfs_update_nlink_all, strip, strip, hf, hrest]
  · intro j m n p s l
    rw [update_nlink_file, strip_file, strip_file]
  · intro j m n d p s l hd
    rw [update_nlink_file, strip_file, strip_file, hd]

theorem strip_modify (g : vtfs_file → vtfs_file) (hg : ∀ f, strip_file (g f) = strip_file f)
    (t : List vtfs_file) :
    ∀ i, strip ((modify_file_by_ino g t i).getD t) = strip t := by
  refine tree_induction
    (P := fun t => ∀ i, strip ((modify_file_by_ino g t i).getD t) = strip t)
    (Q := fun f => ∀ i, strip_file ((modify_in_dir_data g f i).getD f) = strip_file f)
    ?_ ?_ ?_ ?_ t
  · intro i; simp
  · intro f rest hf hrest i
    rw [modify_cons]
    by_cases h : f.ino = i
    · simp only [h, if_true, Option.getD_some]
      rw [strip, strip, hg]
    · simp only [h, if_false]
      cases hm : modify_in_dir_data g f i with
      | some f1 =>
        have := hf i
        rw [hm, Option.getD_some] at this
        simp only [Option.getD_some]
        rw [strip, strip, this]
      | none =>
        simp only
        cases hr : modify_file_by_ino g rest i with
        | none => simp
        | some r =>
          have := hrest i
          rw [hr, Option.getD_some] at this
          simp only [Option.map_some', Option.getD_some]
          rw [strip, strip, this]
  · intro j m n p s l i; simp
  · intro j m n d p s l hd i
    simp only [modify_in_dir]
    cases hr : modify_file_by_ino g d i with
    | none => simp
    | some r =>
      have := hd i
      rw [hr, Option.getD_some] at this
      simp only [Option.map_some', Option.getD_some]
      rw [strip_file, strip_file, this]

theorem strip_set_nlink (k : Nat) (f : vtfs_file) :
    strip_file (f.set_nlink k) = strip_file f := by
  cases f with
  | mk i m n d p s l => cases d <;> simp [vtfs_file.set_nlink, strip_file]

theorem modify_in_dir_data_none (g : vtfs_file → vtfs_file) (f : vtfs_file) (i : Nat)
    (h : find_in_dir_data f i = none) : modify_in_dir_data g f i = none := by
  cases f with
  | mk j m n d p s l =>
    cases d with
    | none => simp
    | some d =>
      simp only [find_in_dir] at h
      simp [modify_none g d i h]

/-- An assignment through the pointer `vtfs_find_file_by_ino` returns that keeps the
ino leaves the changed record where the lookup finds it. -/
theorem find_after_modify_full (g : vtfs_file → vtfs_file) (t : List vtfs_file) :
    ∀ i f, vtfs_find_file_by_ino t i = some f → (g f).ino = i →
      ∃ t1, modify_file_by_ino g t i = some t1 ∧ vtfs_find_file_by_ino t1 i = some (g f) := by
  refine tree_induction
    (P := fun t => ∀ i f, vtfs_find_file_by_ino t i = some f → (g f).ino = i →
      ∃ t1, modify_file_by_ino g t i = some t1 ∧ vtfs_find_file_by_ino t1 i = some (g f))
    (Q := fun f0 => ∀ i f, find_in_dir_data f0 i = some f → (g f).ino = i →
      ∃ f1, modify_in_dir_data g f0 i = some f1 ∧ f1.ino = f0.ino ∧
        find_in_dir_data f1 i = some (g f))
    ?_ ?_ ?_ ?_ t
  · intro i f h; simp at h
  · intro f0 rest hf hrest i f hfind hg
    rw [find_cons] at hfind
    rw [modify_cons]
    by_cases h : f0.ino = i
    · simp only [h, if_true, Option.some.injEq] at hfind
      subst hfind
      refine ⟨g f0 :: rest, by simp [h], ?_⟩
      rw [find_cons]; simp [hg]
    · simp only [h, if_false] at hfind ⊢
      cases hfd : find_in_dir_data f0 i with
      | some f2 =>
        rw [hfd] at hfind
        simp only [Option.some.injEq] at hfind
        subst hfind
        obtain ⟨f1, hm, hino, hf1⟩ := hf i f2 hfd hg
        refine ⟨f1 :: rest, by simp [hm], ?_⟩
        rw [find_cons, hino]
        simp [h, hf1]
      | none =>
        rw [hfd] at hfind
        simp only at hfind
        obtain ⟨t1, hm, hf1⟩ := hrest i f hfind hg
        refine ⟨f0 :: t1, by simp [modify_in_dir_data_none g f0 i hfd, hm], ?_⟩
        rw [find_cons]
        simp [h, hfd, hf1]
  · intro j m n p s l i f h; simp at h
  · intro j m n d p s l hd i f h hg
    simp only [find_in_dir] at h
    obtain ⟨t1, hm, hf1⟩ := hd i f h hg
    exact ⟨.mk j m n (some t1) p s l, by simp [hm], rfl, by simpa using hf1⟩

/-- After a mutation through the pointer `vtfs_get_dir` returned, `vtfs_get_dir` returns
the changed list. -/
theorem get_dir_modify_dir (g : List vtfs_file → List vtfs_file) (root : List vtfs_file)
    (p : Nat) (d : List vtfs_file) (h : vtfs_get_dir root p = some d) :
    vtfs_get_dir (modify_dir g root p) p = some (g d) := by
  unfold vtfs_get_dir modify_dir at *
  by_cases hp : p = VTFS_ROOT_INO
  · simp only [hp, if_true, Option.some.injEq] at h ⊢
    rw [h]
  · simp only [hp, if_false] at h ⊢
    cases hf : vtfs_find_file_by_ino root p with
    | none => simp [hf] at h
    | some f =>
      simp only [hf] at h
      have hm : S_ISDIR f.mode = true := by
        by_cases hm : S_ISDIR f.mode = true
        · exact hm
        · simp [hm] at h
      simp only [hm, if_true] at h
      obtain ⟨-, hino⟩ := find_mem hf
      have hset : (f.set_dir (f.dir_data.map g)).ino = p ∧
          (f.set_dir (f.dir_data.map g)).mode = f.mode ∧
          (f.set_dir (f.dir_data.map g)).dir_data = some (g d) := by
        cases f with
        | mk j m n dd q s l =>
          simp only [vtfs_file.dir_data] at h
          subst h
          exact ⟨hino, rfl, rfl⟩
      obtain ⟨t1, hmod, hf1⟩ := find_after_modify_full
        (fun f => f.set_dir (f.dir_data.map g)) root p f hf hset.1
      simp only [hmod, Option.getD_some, hf1, hset.2.1, hm, if_true, hset.2.2]

theorem lookup_ino_of_dir_names (st : vtfs_fs_info) (p : Nat) (n : String)
    (l : List (String × Nat)) (h : dir_names st.root_dir p = some l) :
    (vtfs_lookup st p n).map (fun i => i.i_ino) =
      (l.find? (fun x => x.1 == n)).map (fun x => int_ino x.2) := by
  unfold dir_names at h
  unfold vtfs_lookup
  cases hd : vtfs_get_dir st.root_dir p with
  | none => simp [hd] at h
  | some d =>
    simp only [hd, Option.map_some', Option.some.injEq] at h
    subst h
    simp only [vtfs_find_file]
    rw [List.find?_map]
    cases hf : List.find? ((fun x : String × Nat => x.1 == n) ∘ fun f : vtfs_file =>
        (f.name, f.ino)) d with
    | none =>
      have : List.find? (fun f : vtfs_file => f.name == n) d = none := hf
      simp [this]
    | some f =>
      have : List.find? (fun f : vtfs_file => f.name == n) d = some f := hf
      simp only [this, Option.map_some', vtfs_get_inode]
      split <;> rfl

/-- After a successful `vtfs_link` in local mode, a lookup of the new name gives an
inode with the ino of the file. -/
theorem lookup_after_link (st : vtfs_fs_info) (hl : st.use_server = false) (i : inode)
    (hint : int_ino i.i_ino = i.i_ino)
    (p : Nat) (name : String) (hname : strlen name < VTFS_MAX_NAME) (srv : Int × Nat)
    (h : (vtfs_link st (some i) p name srv).2 = 0) :
    ∃ ib, vtfs_lookup (vtfs_link st (some i) p name srv).1 p name = some ib ∧
      ib.i_ino = i.i_ino := by
  obtain ⟨i1, file, dir, hoi, hnd, hf, hdir, hfree⟩ := link_ok st _ p name _ h
  cases hoi
  obtain ⟨-, hfino⟩ := find_mem hf
  have hres : vtfs_link st (some i) p name srv =
      (⟨vtfs_update_nlink_all (modify_dir (fun d => d ++ [vtfs_file.mk file.ino file.mode name
          none file.data file.data_size (nlink_inc file.nlink)])
          ((modify_file_by_ino (vtfs_file.set_nlink (nlink_inc file.nlink)) st.root_dir i.i_ino).getD
            st.root_dir) p) file.ino (nlink_inc file.nlink), st.next_ino, st.use_server, st.mem⟩, 0) := by
    unfold vtfs_link
    simp [hnd, hf, hdir, hfree, hl, strncpy_name_of_lt hname]
  obtain ⟨d1, hd1⟩ := get_dir_after_set_nlink st.root_dir i.i_ino (nlink_inc file.nlink) p dir hdir
  have hn1 : d1.map (fun f => (f.name, f.ino)) = dir.map (fun f => (f.name, f.ino)) := by
    have h1 := dir_names_strip
      ((modify_file_by_ino (vtfs_file.set_nlink (nlink_inc file.nlink)) st.root_dir i.i_ino).getD
        st.root_dir) p
    rw [strip_modify _ (strip_set_nlink _), dir_names_strip] at h1
    unfold dir_names at h1
    rw [hd1, hdir] at h1
    simpa using h1.symm
  have hnames : dir_names (vtfs_link st (some i) p name srv).1.root_dir p =
      some (dir.map (fun f => (f.name, f.ino)) ++ [(name, file.ino)]) := by
    rw [hres]
    simp only
    rw [← dir_names_strip, strip_update_nlink, dir_names_strip]
    unfold dir_names
    rw [get_dir_modify_dir _ _ p d1 hd1]
    simp only [Option.map_some', List.map_append, hn1, List.map_cons, List.map_nil]
    rfl
  have hlook := lookup_ino_of_dir_names _ p name _ hnames
  have hnone : List.find? (fun x : String × Nat => x.1 == name)
      (dir.map (fun f => (f.name, f.ino))) = none := by
    rw [List.find?_map]
    have : List.find? ((fun x : String × Nat => x.1 == name) ∘ fun f : vtfs_file =>
        (f.name, f.ino)) dir = none := hfree
    rw [this]
    rfl
  rw [List.find?_append, hnone] at hlook
  simp only [Option.none_or, List.find?_cons, beq_self_eq_true, Option.map_some'] at hlook
  cases hlk : vtfs_lookup (vtfs_link st (some i) p name srv).1 p name with
  | none => rw [hlk] at hlook; cases hlook
  | some ib =>
    rw [hlk] at hlook
    simp only [Option.map_some', Option.some.injEq] at hlook
    exact ⟨ib, rfl, by rw [hlook, hfino, hint]⟩

theorem link_inv_of_lookup (st : vtfs_fs_info) (hinv : tree_inv st)
    (hb : st.next_ino ≤ 2147483648) (hlen : (all_entries st.root_dir).length < 4294967295)
    (p1 : Nat) (n1 : String)
    (ia : inode) (hlk : vtfs_lookup st p1 n1 = some ia) (p : Nat) (n : String)
    (srv : Int × Nat) : tree_inv (vtfs_link st (some ia) p n srv).1 := by
  by_cases h : (vtfs_link st (some ia) p n srv).2 = 0
  · obtain ⟨i, file, dir, hoi, hnd, hf, hdir, hfree⟩ := link_ok st _ p n _ h
    cases hoi
    obtain ⟨odir, ofile, hodir, hofile, hoino, homode⟩ := lookup_ino hinv hb hlk
    have hom : ofile.info ∈ all_entries st.root_dir :=
      get_dir_mem hodir (find_file_mem _ _ _ hofile).1
    obtain ⟨hfmem, hfino⟩ := find_mem hf
    have hsame := hinv.2.same_mode _ hfmem _ hom (by simp [vtfs_file.info, hfino, hoino])
    have hmode : S_ISDIR file.mode = false := by
      simp only [vtfs_file.info] at hsame
      rw [hsame, ← homode]; exact hnd
    have hw : file.nlink + 1 < 4294967296 := by
      have h1 := nlink_le_length hinv hfmem
      simp only [vtfs_file.info] at h1
      omega
    exact (link_effect st hinv ia p n _ file dir hnd hf hmode hdir hfree hw).2.2.2.2.2
  · rw [link_fail st _ p n _ h]
    exact hinv

theorem read_back_eq (blk : List Nat) (sz o n : Nat) (h : o + n ≤ sz) :
    ((blk.take sz).take (min (o + n) sz)).drop o = (blk.drop o).take n := by
  rw [List.take_take, List.drop_take]
  congr 1
  omega

/-- A write through one inode and a read of the written range through any inode
with the same ino. -/
theorem write_then_read (st : vtfs_fs_info) (i1 i2 : inode) (hi : i2.i_ino = i1.i_ino)
    (f : vtfs_file) (D : List Nat) (flags : Nat) (B : List Nat) (o : Nat)
    (srv : Nat → Int × List Nat)
    (hf : vtfs_get_file_by_inode st i1 = some f) (hD : file_content st.mem f = some D)
    (happ : flags &&& O_APPEND = 0) (push : Int) :
    ∃ r r2, vtfs_write st i1 flags B o push = some r ∧ r.ret = (B.length : Int) ∧
      vtfs_read r.st i2 B.length o srv = some r2 ∧ r2.out = B := by
  obtain ⟨-, hc⟩ := content_cases hD
  obtain ⟨base, hbase⟩ : ∃ base, (f.data = NULL ∧ base = []) ∨
      (f.data ≠ NULL ∧ st.mem.find f.data = some base ∧ f.data_size ≤ base.length) := by
    rcases hc with ⟨hd, -, -⟩ | ⟨hd, blk, hfind, hsz, -⟩
    · exact ⟨[], Or.inl ⟨hd, rfl⟩⟩
    · exact ⟨blk, Or.inr ⟨hd, hfind, hsz⟩⟩
  obtain ⟨r, f1, blk1, hw, hret, -, -, -, hf1, hd1, hfind1, hsz1, hle, hback, -⟩ :=
    write_spec st i1 f base flags B o hf hbase happ push
  have hf2 : vtfs_get_file_by_inode r.st i2 = some f1 := by
    unfold vtfs_get_file_by_inode at hf1 ⊢
    rw [hi]; exact hf1
  obtain ⟨r2, hr2, -, hout, -, -⟩ :=
    read_spec r.st i2 f1 blk1 B.length o srv hf2 hd1 hfind1 hsz1 (Or.inr hle)
  exact ⟨r, r2, hw, hret, hr2, by rw [hout, read_back_eq _ _ _ _ hle, hback]⟩

/-- The tree `vtfs_link` leaves when the local part succeeds: every record of the ino
carries the link count `k` that the last `vtfs_update_nlink_all` wrote, and the new
record is among them. -/
theorem link_result (st : vtfs_fs_info) (i : inode) (p : Nat) (name : String)
    (file : vtfs_file) (dir : List vtfs_file) (srv : Int × Nat)
    (hnd : S_ISDIR i.i_mode = false) (hf : vtfs_get_file_by_inode st i = some file)
    (hdir : vtfs_get_dir st.root_dir p = some dir) (hfree : vtfs_find_file dir name = none) :
    (vtfs_link st (some i) p name srv).2 = 0 ∧
    ∃ k, k = (if st.use_server = true ∧ srv.1 = 0 then srv.2 else nlink_inc file.nlink) ∧
      (∀ e ∈ all_entries (vtfs_link st (some i) p name srv).1.root_dir,
        e.ino = i.i_ino → e.nlink = k) ∧
      ∃ e ∈ all_entries (vtfs_link st (some i) p name srv).1.root_dir,
        e.ino = i.i_ino ∧ e.name = strncpy_name name := by
  obtain ⟨-, hfino⟩ := find_mem hf
  obtain ⟨dir1, hdir1⟩ := get_dir_after_set_nlink st.root_dir i.i_ino (nlink_inc file.nlink) p dir hdir
  obtain ⟨others, -, hmod⟩ := modify_dir_perm _ p dir1 hdir1
  have hnew := (hmod (fun d => d ++ [vtfs_file.mk file.ino file.mode (strncpy_name name) none
    file.data file.data_size (nlink_inc file.nlink)])).mem_iff (a := ⟨file.ino, file.mode,
      strncpy_name name, false, file.data, file.data_size, nlink_inc file.nlink⟩)
  have hin := hnew.2 (by
    simp only [all_entries_append, List.mem_append]
    left; right
    simp [all_entries, entries_below, vtfs_file.info, vtfs_file.ino, vtfs_file.mode,
      vtfs_file.name, vtfs_file.dir_data, vtfs_file.data, vtfs_file.data_size, vtfs_file.nlink])
  have hall : ∀ (t : List vtfs_file) (k : Nat),
      (⟨file.ino, file.mode, strncpy_name name, false, file.data, file.data_size,
        nlink_inc file.nlink⟩ : entry_info) ∈ all_entries t →
      (∀ e ∈ all_entries (vtfs_update_nlink_all t file.ino k), e.ino = i.i_ino → e.nlink = k) ∧
      ∃ e ∈ all_entries (vtfs_update_nlink_all t file.ino k),
        e.ino = i.i_ino ∧ e.name = strncpy_name name := by
    intro t k ht
    rw [update_nlink_entries]
    refine ⟨?_, ?_⟩
    · intro e he hei
      simp only [List.mem_map] at he
      obtain ⟨e0, -, rfl⟩ := he
      unfold set_nlink_if at hei ⊢
      by_cases h0 : e0.ino = file.ino
      · simp only [h0, if_true]
      · simp only [h0, if_false] at hei
        rw [hfino] at h0
        exact absurd hei h0
    · refine ⟨_, List.mem_map_of_mem _ ht, ?_, ?_⟩
      · simp only [set_nlink_if, if_true]
        exact hfino
      · simp only [set_nlink_if, if_true]
  have hall1 : ∀ (t : List vtfs_file) (k : Nat),
      (⟨file.ino, file.mode, strncpy_name name, false, file.data, file.data_size,
        nlink_inc file.nlink⟩ : entry_info) ∈ all_entries t →
      (⟨file.ino, file.mode, strncpy_name name, false, file.data, file.data_size, k⟩ :
        entry_info) ∈ all_entries (vtfs_update_nlink_all t file.ino k) := by
    intro t k ht
    rw [update_nlink_entries]
    have := List.mem_map_of_mem (set_nlink_if file.ino k) ht
    simpa [set_nlink_if] using this
  by_cases hc : st.use_server = true ∧ srv.1 = 0
  · have hres : vtfs_link st (some i) p name srv =
        (⟨vtfs_update_nlink_all (vtfs_update_nlink_all (modify_dir (fun d => d ++
          [vtfs_file.mk file.ino file.mode (strncpy_name name) none file.data file.data_size
            (nlink_inc file.nlink)])
          ((modify_file_by_ino (vtfs_file.set_nlink (nlink_inc file.nlink)) st.root_dir i.i_ino).getD
            st.root_dir) p) file.ino (nlink_inc file.nlink)) file.ino srv.2,
          st.next_ino, st.use_server, st.mem⟩, 0) := by
      unfold vtfs_link
      simp [hnd, hf, hdir, hfree, hc]
    rw [hres, if_pos hc]
    refine ⟨rfl, srv.2, rfl, ?_⟩
    have h1 := hall1 _ (nlink_inc file.nlink) hin
    obtain ⟨h2, h3⟩ := hall (vtfs_update_nlink_all _ file.ino (nlink_inc file.nlink)) srv.2
      (by exact h1)
    exact ⟨h2, h3⟩
  · have hres : vtfs_link st (some i) p name srv =
        (⟨vtfs_update_nlink_all (modify_dir (fun d => d ++
          [vtfs_file.mk file.ino file.mode (strncpy_name name) none file.data file.data_size
            (nlink_inc file.nlink)])
          ((modify_file_by_ino (vtfs_file.set_nlink (nlink_inc file.nlink)) st.root_dir i.i_ino).getD
            st.root_dir) p) file.ino (nlink_inc file.nlink),
          st.next_ino, st.use_server, st.mem⟩, 0) := by
      unfold vtfs_link
      simp [hnd, hf, hdir, hfree, hc]
    rw [hres, if_neg hc]
    exact ⟨rfl, nlink_inc file.nlink, rfl, hall _ _ hin⟩

/-- Claim C6. In local mode (the counter at most `2^31`), after `vtfs_link` has given
the file behind the name `n1` the second name `n2` (shorter than 256 bytes, so that it
is stored as it is): a lookup of `n2` yields an inode `ib` of the same file;
`vtfs_write` of `B` at `o` through either of the two inodes followed by `vtfs_read`
of `[o, o + len(B))` through the other returns exactly `B`; and `vtfs_getattr`
reports the same link count through both, which is also the `nlink` field of every
record of the file. -/
theorem C6_write_visible_through_other_name (st0 : vtfs_fs_info) (hinv : tree_inv st0)
    (hb : st0.next_ino ≤ 2147483648)
    (p1 : Nat) (n1 : String) (ia : inode) (p2 : Nat) (n2 : String)
    (hname : strlen n2 < VTFS_MAX_NAME) (lsrv : Int × Nat)
    (hlk : vtfs_lookup st0 p1 n1 = some ia)
    (hlink : (vtfs_link st0 (some ia) p2 n2 lsrv).2 = 0)
    (f : vtfs_file) (D : List Nat)
    (hf : vtfs_get_file_by_inode (vtfs_link st0 (some ia) p2 n2 lsrv).1 ia = some f)
    (hD : file_content (vtfs_link st0 (some ia) p2 n2 lsrv).1.mem f = some D)
    (flags : Nat) (happ : flags &&& O_APPEND = 0) (o : Nat) (B : List Nat)
    (srv : Nat → Int × List Nat) (push : Int) :
    ∃ ib, vtfs_lookup (vtfs_link st0 (some ia) p2 n2 lsrv).1 p2 n2 = some ib ∧
      (∃ r r2, vtfs_write (vtfs_link st0 (some ia) p2 n2 lsrv).1 ia flags B o push = some r ∧
        r.ret = (B.length : Int) ∧ vtfs_read r.st ib B.length o srv = some r2 ∧ r2.out = B) ∧
      (∃ r r2, vtfs_write (vtfs_link st0 (some ia) p2 n2 lsrv).1 ib flags B o push = some r ∧
        r.ret = (B.length : Int) ∧ vtfs_read r.st ia B.length o srv = some r2 ∧ r2.out = B) ∧
      (∃ k, (vtfs_getattr (vtfs_link st0 (some ia) p2 n2 lsrv).1 ia).map (fun x => x.2.1) = some k ∧
        (vtfs_getattr (vtfs_link st0 (some ia) p2 n2 lsrv).1 ib).map (fun x => x.2.1) = some k ∧
        ∀ e ∈ all_entries (vtfs_link st0 (some ia) p2 n2 lsrv).1.root_dir,
          e.ino = ia.i_ino → e.nlink = k) := by
  have hint : int_ino ia.i_ino = ia.i_ino := by
    obtain ⟨odir, ofile, -, -, hino, -⟩ := lookup_some hlk
    rw [hino, int_ino_idem]
  have _ := hb
  obtain ⟨ib, hlkb, hib⟩ := lookup_after_link st0 hinv.1 ia hint p2 n2 hname lsrv hlink
  obtain ⟨i0, file0, dir0, hoi, hnd0, hf0, hdir0, hfree0⟩ := link_ok st0 _ p2 n2 _ hlink
  cases hoi
  obtain ⟨-, k, -, hk, -⟩ := link_result st0 ia p2 n2 file0 dir0 lsrv hnd0 hf0 hdir0 hfree0
  have hfb : vtfs_get_file_by_inode (vtfs_link st0 (some ia) p2 n2 lsrv).1 ib = some f := by
    unfold vtfs_get_file_by_inode at hf ⊢
    rw [hib]; exact hf
  refine ⟨ib, hlkb, write_then_read _ ia ib hib f D flags B o srv hf hD happ push,
    write_then_read _ ib ia hib.symm f D flags B o srv hfb hD happ push, ?_⟩
  obtain ⟨hfmem, hfino⟩ := find_mem hf
  have hfk : f.nlink = k := by
    have := hk _ hfmem hfino
    simpa [vtfs_file.info] using this
  refine ⟨k, ?_, ?_, hk⟩
  · unfold vtfs_getattr
    rw [hf, Option.map_some', Option.map_some', hfk]
  · unfold vtfs_getattr
    rw [hfb, Option.map_some', Option.map_some', hfk]

/-- Claim C4, evaluated: `a.txt` is created, linked to `b.txt` while empty, "hello" is
written.  A read of 5 bytes at 0 through `b.txt` returns "hello" and the size is 5;
after `vtfs_unlink` of `a.txt` (which returns 0) the same read through `b.txt` returns
no bytes and the size is 0. -/
theorem C4_content_lost_with_first_name :
    ((vtfs_lookup two_names_written 100 "b.txt").bind (fun ib =>
      (vtfs_read two_names_written ib 5 0 (fun _ => (0, []))).map (fun r => r.out))) =
        some hello ∧
    ((vtfs_lookup two_names_written 100 "b.txt").bind (fun ib =>
      (vtfs_getattr two_names_written ib).map (fun x => x.1))) = some 5 ∧
    (vtfs_unlink two_names_written 100 "a.txt" (vtfs_lookup two_names_written 100 "a.txt")).2
      = 0 ∧
    ((vtfs_lookup one_name_left 100 "b.txt").bind (fun ib =>
      (vtfs_read one_name_left ib 5 0 (fun _ => (0, []))).map (fun r => r.out))) = some [] ∧
    ((vtfs_lookup one_name_left 100 "b.txt").bind (fun ib =>
      (vtfs_getattr one_name_left ib).map (fun x => x.1))) = some 0 := by
  decide

/-- Claim C5, evaluated: after create, link and a write of "hello", the two records of
ino 200 differ in `data` and `data_size`, and `vtfs_lookup` reports size 5 through
`a.txt` and size 0 through `b.txt`. -/
theorem C5_aliases_differ_after_write :
    all_entries two_names_written.root_dir =
      [⟨200, 0o100644, "a.txt", false, 17, 5, 2⟩, ⟨200, 0o100644, "b.txt", false, 0, 0, 2⟩] ∧
    (vtfs_lookup two_names_written 100 "a.txt").map (fun i => i.i_size) = some 5 ∧
    (vtfs_lookup two_names_written 100 "b.txt").map (fun i => i.i_size) = some 0 := by
  decide

theorem C6_write_visible_through_other_name_witness :
    tree_inv one_file ∧
    one_file.next_ino ≤ 2147483648 ∧
    strlen "b.txt" < VTFS_MAX_NAME ∧
    vtfs_lookup one_file 100 "a.txt" = some file_ino ∧
    (vtfs_link one_file (some file_ino) 100 "b.txt" (0, 0)).2 = 0 ∧
    vtfs_get_file_by_inode (vtfs_link one_file (some file_ino) 100 "b.txt" (0, 0)).1 file_ino
      = some linked_file ∧
    file_content (vtfs_link one_file (some file_ino) 100 "b.txt" (0, 0)).1.mem linked_file
      = some [] ∧
    (0 &&& O_APPEND = 0) ∧
    ∃ ib, vtfs_lookup (vtfs_link one_file (some file_ino) 100 "b.txt" (0, 0)).1 100 "b.txt"
        = some ib ∧
      (∃ r r2, vtfs_write (vtfs_link one_file (some file_ino) 100 "b.txt" (0, 0)).1 file_ino 0
          hello 3 0 = some r ∧
        r.ret = (hello.length : Int) ∧
        vtfs_read r.st ib hello.length 3 (fun _ => (0, [])) = some r2 ∧ r2.out = hello) ∧
      (∃ r r2, vtfs_write (vtfs_link one_file (some file_ino) 100 "b.txt" (0, 0)).1 ib 0
          hello 3 0 = some r ∧
        r.ret = (hello.length : Int) ∧
        vtfs_read r.st file_ino hello.length 3 (fun _ => (0, [])) = some r2 ∧ r2.out = hello) ∧
      (∃ k, (vtfs_getattr (vtfs_link one_file (some file_ino) 100 "b.txt" (0, 0)).1
          file_ino).map (fun x => x.2.1) = some k ∧
        (vtfs_getattr (vtfs_link one_file (some file_ino) 100 "b.txt" (0, 0)).1 ib).map
          (fun x => x.2.1) = some k ∧
        ∀ e ∈ all_entries (vtfs_link one_file (some file_ino) 100 "b.txt" (0, 0)).1.root_dir,
          e.ino = file_ino.i_ino → e.nlink = k) :=
  ⟨local_run_inv _ _ (empty_mount_inv demo_mem) (by decide) (by decide), by decide, by decide,
    by decide,
    by decide, by rfl, by decide, by decide,
    C6_write_visible_through_other_name one_file
      (local_run_inv _ _ (empty_mount_inv demo_mem) (by decide) (by decide)) (by decide)
      100 "a.txt" file_ino 100 "b.txt" (by decide) (0, 0) (by decide) (by decide) linked_file []
      (by rfl) (by decide) 0 (by decide) 3 hello (fun _ => (0, [])) 0⟩

theorem C7_read_returns_requested_range_witness :
    two_names_written.use_server = false ∧
    vtfs_get_file_by_inode two_names_written file_ino = some written_file ∧
    file_content two_names_written.mem written_file = some hello ∧
    (hello.length = written_file.data_size ∧
     ∃ r, vtfs_read two_names_written file_ino 3 1 (fun _ => (0, [])) = some r ∧
      r.out = (hello.take (min (1 + 3) hello.length)).drop 1 ∧
      r.out.length = min (1 + 3) hello.length - 1 ∧
      r.ret = (r.out.length : Int) ∧ r.pos = 1 + r.out.length ∧
      (hello.length ≤ 1 → r.out = [] ∧ r.ret = 0 ∧ r.pos = 1) ∧
      r.st = two_names_written) :=
  ⟨by decide, by rfl, by decide,
    C7_read_returns_requested_range two_names_written file_ino written_file hello 3 1
      (fun _ => (0, [])) (by decide) (by rfl) (by decide)⟩

theorem C8_write_places_bytes_witness :
    vtfs_get_file_by_inode two_names_written file_ino = some written_file ∧
    file_content two_names_written.mem written_file = some hello ∧
    (0 &&& O_APPEND = 0) ∧
    ∃ r f1 D1, vtfs_write two_names_written file_ino 0 [88, 89] 7 0 = some r ∧
      r.ret = (([88, 89] : List Nat).length : Int) ∧
      r.pos = 7 + ([88, 89] : List Nat).length ∧
      vtfs_get_file_by_inode r.st file_ino = some f1 ∧ file_content r.st.mem f1 = some D1 ∧
      f1.data_size = max hello.length (7 + ([88, 89] : List Nat).length) ∧
      D1.length = max hello.length (7 + ([88, 89] : List Nat).length) ∧
      (∀ j, j < ([88, 89] : List Nat).length → D1[7 + j]? = ([88, 89] : List Nat)[j]?) ∧
      (∀ j, hello.length ≤ j → j < 7 → D1[j]? = some 0) ∧
      (∀ j, j < hello.length → (j < 7 ∨ 7 + ([88, 89] : List Nat).length ≤ j) →
        D1[j]? = hello[j]?) :=
  ⟨by rfl, by decide, by decide,
    C8_write_places_bytes two_names_written file_ino written_file hello 0 [88, 89] 7 (by rfl)
      (by decide) (by decide) 0⟩

theorem C9_write_read_round_trip_witness :
    vtfs_get_file_by_inode two_names_written file_ino = some written_file ∧
    (written_file.data = NULL ∨
      ∃ blk, two_names_written.mem.find written_file.data = some blk ∧
        written_file.data_size ≤ blk.length) ∧
    (0 &&& O_APPEND = 0) ∧
    ∃ r r2, vtfs_write two_names_written file_ino 0 [88, 89] 0 0 = some r ∧
      r.ret = (([88, 89] : List Nat).length : Int) ∧
      vtfs_read r.st file_ino ([88, 89] : List Nat).length 0 (fun _ => (0, [])) = some r2 ∧
      r2.out = [88, 89] ∧ r2.ret = (([88, 89] : List Nat).length : Int) :=
  ⟨by rfl, Or.inr ⟨hello, by decide, by decide⟩, by decide,
    C9_write_read_round_trip two_names_written file_ino written_file 0 [88, 89]
      (fun _ => (0, [])) (by rfl) (Or.inr ⟨hello, by decide, by decide⟩) (by decide) 0⟩

/-- Claim C10, as stated, evaluated in remote mode: the file holds "hello" (also on
the remote store, where the write was pushed); `vtfs_setattr` with size 2 leaves the
content "he"; a read of 5 bytes at 0 then refetches from the remote store, which
still answers "hello", and returns "hello", not the two bytes the claim promises. -/
theorem C10_remote_read_refetches :
    remote_written.use_server = true ∧
    (vtfs_get_file_by_inode remote_written remote_ino).bind (file_content remote_written.mem)
      = some hello ∧
    ((vtfs_setattr remote_written remote_ino ATTR_SIZE 2).bind (fun st1 =>
      (vtfs_get_file_by_inode st1 remote_ino).bind (file_content st1.mem)))
      = some (resized hello 2) ∧
    ((vtfs_setattr remote_written remote_ino ATTR_SIZE 2).bind (fun st1 =>
      (vtfs_read st1 remote_ino 5 0 (fun _ => (0, hello))).map (fun r => r.out)))
      = some hello ∧
    hello ≠ ((resized hello 2).take (min (0 + 5) 2)).drop 0 := by
  decide

/-- Claim C10, amended. For a file with content `D`, `vtfs_setattr` with `ATTR_SIZE = n`
leaves the record the inode resolves to with size `n` and content `D` cut to `n`
bytes, or followed by `n - size` zero bytes (in local and in remote mode); in local
mode every later read through an inode of the same ino returns the requested part
of exactly that content. -/
theorem C10_setattr_resizes (st : vtfs_fs_info) (i : inode) (f : vtfs_file) (D : List Nat)
    (ia_valid n : Nat) (hf : vtfs_get_file_by_inode st i = some f)
    (hD : file_content st.mem f = some D) (hv : ia_valid &&& ATTR_SIZE ≠ 0) :
    ∃ st1 f1, vtfs_setattr st i ia_valid n = some st1 ∧
      vtfs_get_file_by_inode st1 i = some f1 ∧ f1.data_size = n ∧
      file_content st1.mem f1 = some (D.take n ++ List.replicate (n - D.length) 0) ∧
      (st.use_server = false → ∀ (i2 : inode) (len off : Nat) (srv : Nat → Int × List Nat),
        i2.i_ino = i.i_ino →
        ∃ r, vtfs_read st1 i2 len off srv = some r ∧
          r.out = ((D.take n ++ List.replicate (n - D.length) 0).take (min (off + len) n)).drop
            off) := by
  obtain ⟨st1, f1, h1, h2, h3, h4, h5⟩ := setattr_spec st i f D ia_valid n hf hD hv
  refine ⟨st1, f1, h1, h3, h4, h5, ?_⟩
  intro hl i2 len off srv hi
  have hf2 : vtfs_get_file_by_inode st1 i2 = some f1 := by
    unfold vtfs_get_file_by_inode at h3 ⊢
    rw [hi]; exact h3
  obtain ⟨r, hr, -, hout, -, -⟩ :=
    read_content st1 i2 f1 _ len off srv (by rw [h2]; exact hl) hf2 h5
  refine ⟨r, hr, ?_⟩
  rw [hout, (content_cases h5).1, h4]
  rfl

theorem C10_setattr_resizes_witness :
    vtfs_get_file_by_inode two_names_written file_ino = some written_file ∧
    file_content two_names_written.mem written_file = some hello ∧
    (ATTR_SIZE &&& ATTR_SIZE ≠ 0) ∧
    ∃ st1 f1, vtfs_setattr two_names_written file_ino ATTR_SIZE 8 = some st1 ∧
      vtfs_get_file_by_inode st1 file_ino = some f1 ∧ f1.data_size = 8 ∧
      file_content st1.mem f1 = some (hello.take 8 ++ List.replicate (8 - hello.length) 0) ∧
      (two_names_written.use_server = false →
        ∀ (i2 : inode) (len off : Nat) (srv : Nat → Int × List Nat),
        i2.i_ino = file_ino.i_ino →
        ∃ r, vtfs_read st1 i2 len off srv = some r ∧
          r.out = ((hello.take 8 ++ List.replicate (8 - hello.length) 0).take
            (min (off + len) 8)).drop off) :=
  ⟨by rfl, by decide, by decide,
    C10_setattr_resizes two_names_written file_ino written_file hello ATTR_SIZE 8 (by rfl)
      (by decide) (by decide)⟩

theorem blank_update_data (t : List vtfs_file) (i o n s : Nat) :
    blank_content (vtfs_update_data_all t i o n s) = blank_content t := by
  refine tree_induction
    (P := fun t => blank_content (vtfs_update_data_all t i o n s) = blank_content t)
    (Q := fun f => blank_content_file (update_data_file f i o n s) = blank_content_file f)
    ?_ ?_ ?_ ?_ t
  · beta_reduce; rw [vtfs_update_data_all]
  · intro f rest hf hrest
    rw [vtfs_update_data_all, blank_content, blank_content, hf, hrest]
  · intro j m nm p sz l
    rw [update_data_file, blank_content_file, blank_content_file]
  · intro j m nm d p sz l hd
    rw [update_data_file, blank_content_file, blank_content_file, hd]

theorem blank_modify (g : vtfs_file → vtfs_file)
    (hg : ∀ f, blank_content_file (g f) = blank_content_file f) (t : List vtfs_file) :
    ∀ i, blank_content ((modify_file_by_ino g t i).getD t) = blank_content t := by
  refine tree_induction
    (P := fun t => ∀ i, blank_content ((modify_file_by_ino g t i).getD t) = blank_content t)
    (Q := fun f => ∀ i, blank_content_file ((modify_in_dir_data g f i).getD f) =
      blank_content_file f)
    ?_ ?_ ?_ ?_ t
  · intro i; simp
  · intro f rest hf hrest i
    rw [modify_cons]
    by_cases h : f.ino = i
    · simp only [h, if_true, Option.getD_some]
      rw [blank_content, blank_content, hg]
    · simp only [h, if_false]
      cases hm : modify_in_dir_data g f i with
      | some f1 =>
        have := hf i
        rw [hm, Option.getD_some] at this
        simp only [Option.getD_some]
        rw [blank_content, blank_content, this]
      | none =>
        simp only
        cases hr : modify_file_by_ino g rest i with
        | none => simp
        | some r =>
          have := hrest i
          rw [hr, Option.getD_some] at this
          simp only [Option.map_some', Option.getD_some]
          rw [blank_content, blank_content, this]
  · intro j m n p s l i; simp
  · intro j m n d p s l hd i
    simp only [modify_in_dir]
    cases hr : modify_file_by_ino g d i with
    | none => simp
    | some r =>
      have := hd i
      rw [hr, Option.getD_some] at this
      simp only [Option.map_some', Option.getD_some]
      rw [blank_content_file, blank_content_file, this]

theorem blank_set_data (p s : Nat) (f : vtfs_file) :
    blank_content_file (f.set_data p s) = blank_content_file f := by
  cases f with
  | mk i m n d q t l => cases d <;> simp [vtfs_file.set_data, blank_content_file]

theorem set_data_same (f : vtfs_file) : f.set_data f.data f.data_size = f := by
  cases f with
  | mk i m n d q t l => rfl

/-- What `vtfs_open` with `O_TRUNC` leaves behind. -/
theorem open_trunc_spec (st : vtfs_fs_info) (i : inode) (f_flags : Nat) (file : vtfs_file)
    (hf : vtfs_get_file_by_inode st i = some file) (ht : f_flags &&& O_TRUNC ≠ 0) :
    blank_content (vtfs_open st i f_flags).root_dir = blank_content st.root_dir ∧
    (vtfs_open st i f_flags).next_ino = st.next_ino ∧
    (vtfs_open st i f_flags).use_server = st.use_server ∧
    (∃ f1, vtfs_get_file_by_inode (vtfs_open st i f_flags) i = some f1 ∧
      f1.info = { file.info with data := NULL, data_size := 0 }) ∧
    (file.data ≠ NULL → all_entries (vtfs_open st i f_flags).root_dir =
      (all_entries st.root_dir).map (set_data_if i.i_ino file.data NULL 0)) := by
  unfold vtfs_get_file_by_inode at hf
  obtain ⟨hfm, hfino⟩ := find_mem hf
  by_cases hd : file.data = NULL
  · have hres : vtfs_open st i f_flags =
        { st with root_dir := (modify_file_by_ino (vtfs_file.set_data NULL 0)
            st.root_dir i.i_ino).getD st.root_dir } := by
      unfold vtfs_open
      rw [if_pos ht]
      simp only [vtfs_get_file_by_inode, hf]
      rw [if_neg (by simpa using hd)]
    rw [hres]
    refine ⟨blank_modify _ (blank_set_data _ _) _ _, rfl, rfl, ?_, fun h => absurd hd h⟩
    obtain ⟨f1, h1, h2⟩ := find_after_modify st.root_dir i.i_ino file (vtfs_file.set_data NULL 0)
      hf (by rw [(set_data_info _ _ _).2.1]; exact hfino)
    exact ⟨f1, h1, by rw [h2, (set_data_info _ _ _).1]⟩
  · have hres : vtfs_open st i f_flags =
        { st with
          root_dir := (modify_file_by_ino (vtfs_file.set_data NULL 0)
            (vtfs_update_data_all st.root_dir i.i_ino file.data NULL 0) i.i_ino).getD
              (vtfs_update_data_all st.root_dir i.i_ino file.data NULL 0),
          mem := st.mem.kfree file.data } := by
      unfold vtfs_open
      rw [if_pos ht]
      simp only [vtfs_get_file_by_inode, hf]
      rw [if_pos hd]
    obtain ⟨f0, h0, hi0⟩ := find_after_update_data st.root_dir i.i_ino file.data NULL 0 file hf
    have hi1 : f0.info = { file.info with data := NULL, data_size := 0 } := by
      rw [hi0, set_data_if, if_pos ⟨by simp [vtfs_file.info, hfino], by simp [vtfs_file.info]⟩]
    have hsame : f0.set_data NULL 0 = f0 := by
      have h1 : f0.data = NULL := by
        have := congrArg entry_info.data hi1
        simpa [vtfs_file.info] using this
      have h2 : f0.data_size = 0 := by
        have := congrArg entry_info.data_size hi1
        simpa [vtfs_file.info] using this
      have := set_data_same f0
      rw [h1, h2] at this
      exact this
    obtain ⟨t1, hm, hfind⟩ := find_after_modify_full (vtfs_file.set_data NULL 0) _ i.i_ino f0 h0
      (by rw [(set_data_info _ _ _).2.1]; exact (find_mem h0).2)
    obtain ⟨-, pre, post, hdec, -, hmod⟩ := find_some_decomp _ i.i_ino f0 h0
    obtain ⟨t2, hm2, hall⟩ := hmod (vtfs_file.set_data NULL 0)
    rw [hm] at hm2
    cases hm2
    rw [hsame, ← hdec] at hall
    rw [hres]
    simp only [hm, Option.getD_some]
    refine ⟨?_, trivial, trivial, ⟨f0, ?_, hi1⟩, ?_⟩
    · have := blank_modify _ (blank_set_data NULL 0)
        (vtfs_update_data_all st.root_dir i.i_ino file.data NULL 0) i.i_ino
      rw [hm, Option.getD_some] at this
      rw [this, blank_update_data]
    · unfold vtfs_get_file_by_inode
      simp only
      rw [hfind, hsame]
    · intro _
      rw [hall, update_data_entries]

theorem read_no_data (st : vtfs_fs_info) (hl : st.use_server = false) (i : inode)
    (f : vtfs_file) (hf : vtfs_get_file_by_inode st i = some f) (hd : f.data = NULL)
    (len off : Nat) (srv : Nat → Int × List Nat) :
    vtfs_read st i len off srv = some ⟨st, 0, [], off⟩ := by
  unfold vtfs_read
  simp only [hf]
  have hfill : read_fill st i f len off srv = some (st, f) := by
    unfold read_fill
    rw [if_neg (by simp [hl])]
  rw [hfill]
  simp only
  rw [if_pos hd]

/-- Claim C11, amended. `vtfs_open` without `O_TRUNC` returns the state it was given.
With `O_TRUNC`, on an inode that resolves to a record: names, inos, modes, link
counts, order and nesting of all entries are as before; the record the inode
resolves to has no buffer and size 0, so `vtfs_getattr` reports size 0 with the old
link count and mode; every record of the ino that shared the buffer is cleared with
it; and in local mode every later read through an inode of that ino returns no bytes
and leaves the offset and the state as they are. -/
theorem C11_open_truncates (st : vtfs_fs_info) (i : inode) (f_flags : Nat) (file : vtfs_file)
    (hf : vtfs_get_file_by_inode st i = some file) :
    (f_flags &&& O_TRUNC = 0 → vtfs_open st i f_flags = st) ∧
    (f_flags &&& O_TRUNC ≠ 0 →
      blank_content (vtfs_open st i f_flags).root_dir = blank_content st.root_dir ∧
      (vtfs_open st i f_flags).next_ino = st.next_ino ∧
      (∃ f1, vtfs_get_file_by_inode (vtfs_open st i f_flags) i = some f1 ∧
        f1.data = NULL ∧ f1.data_size = 0) ∧
      vtfs_getattr (vtfs_open st i f_flags) i = some (0, file.nlink, file.mode) ∧
      (file.data ≠ NULL → all_entries (vtfs_open st i f_flags).root_dir =
        (all_entries st.root_dir).map (set_data_if i.i_ino file.data NULL 0)) ∧
      (st.use_server = false →
        ∀ (i2 : inode) (len off : Nat) (srv : Nat → Int × List Nat), i2.i_ino = i.i_ino →
          vtfs_read (vtfs_open st i f_flags) i2 len off srv =
            some ⟨vtfs_open st i f_flags, 0, [], off⟩)) := by
  constructor
  · intro h
    unfold vtfs_open
    rw [if_neg (by simpa using h)]
  · intro ht
    obtain ⟨h1, h2, h3, ⟨f1, hf1, hinfo⟩, h5⟩ := open_trunc_spec st i f_flags file hf ht
    have hd1 : f1.data = NULL := by
      have := congrArg entry_info.data hinfo
      simpa [vtfs_file.info] using this
    have hs1 : f1.data_size = 0 := by
      have := congrArg entry_info.data_size hinfo
      simpa [vtfs_file.info] using this
    have hn1 : f1.nlink = file.nlink := by
      have := congrArg entry_info.nlink hinfo
      simpa [vtfs_file.info] using this
    have hm1 : f1.mode = file.mode := by
      have := congrArg entry_info.mode hinfo
      simpa [vtfs_file.info] using this
    refine ⟨h1, h2, ⟨f1, hf1, hd1, hs1⟩, ?_, h5, ?_⟩
    · unfold vtfs_getattr
      rw [hf1]
      simp [hs1, hn1, hm1]
    · intro hl i2 len off srv hi
      have hf2 : vtfs_get_file_by_inode (vtfs_open st i f_flags) i2 = some f1 := by
        unfold vtfs_get_file_by_inode at hf1 ⊢
        rw [hi]; exact hf1
      exact read_no_data _ (by rw [h3]; exact hl) i2 f1 hf2 hd1 len off srv

theorem C11_open_truncates_witness :
    vtfs_get_file_by_inode two_names_written file_ino = some written_file ∧
    ((O_TRUNC &&& O_TRUNC = 0 →
        vtfs_open two_names_written file_ino O_TRUNC = two_names_written) ∧
     (O_TRUNC &&& O_TRUNC ≠ 0 →
      blank_content (vtfs_open two_names_written file_ino O_TRUNC).root_dir =
        blank_content two_names_written.root_dir ∧
      (vtfs_open two_names_written file_ino O_TRUNC).next_ino = two_names_written.next_ino ∧
      (∃ f1, vtfs_get_file_by_inode (vtfs_open two_names_written file_ino O_TRUNC) file_ino
          = some f1 ∧ f1.data = NULL ∧ f1.data_size = 0) ∧
      vtfs_getattr (vtfs_open two_names_written file_ino O_TRUNC) file_ino =
        some (0, written_file.nlink, written_file.mode) ∧
      (written_file.data ≠ NULL →
        all_entries (vtfs_open two_names_written file_ino O_TRUNC).root_dir =
          (all_entries two_names_written.root_dir).map
            (set_data_if file_ino.i_ino written_file.data NULL 0)) ∧
      (two_names_written.use_server = false →
        ∀ (i2 : inode) (len off : Nat) (srv : Nat → Int × List Nat),
          i2.i_ino = file_ino.i_ino →
          vtfs_read (vtfs_open two_names_written file_ino O_TRUNC) i2 len off srv =
            some ⟨vtfs_open two_names_written file_ino O_TRUNC, 0, [], off⟩))) :=
  ⟨by rfl, C11_open_truncates two_names_written file_ino O_TRUNC written_file (by rfl)⟩

/-- Claim C11, as stated, evaluated in remote mode: the file holds "hello" (also on the
remote store, where the write was pushed); `vtfs_open` with `O_TRUNC` clears the local
record; a read of 5 bytes at 0 then fetches from the remote store, which still answers
"hello", and returns these 5 bytes, not zero bytes. -/
theorem C11_remote_read_after_truncate :
    remote_written.use_server = true ∧
    (vtfs_get_file_by_inode remote_written remote_ino).bind (file_content remote_written.mem)
      = some hello ∧
    (vtfs_get_file_by_inode (vtfs_open remote_written remote_ino O_TRUNC) remote_ino).map
      (fun f => (f.data, f.data_size)) = some (NULL, 0) ∧
    (vtfs_read (vtfs_open remote_written remote_ino O_TRUNC) remote_ino 5 0
      (fun _ => (0, hello))).map (fun r => (r.ret, r.out)) = some (5, hello) := by
  decide

/-- The loop over the entries emits the entries from index `files_to_skip` on, as many
as the consumer takes, and counts the cursor up by one for each. -/
theorem iterate_files_spec (l : List vtfs_file) :
    ∀ idx skip room pos,
      iterate_files l idx skip room pos =
        (((l.drop (skip - idx)).take room).map
            (fun f => ⟨f.name, f.ino, if S_ISDIR f.mode then DT_DIR else DT_REG⟩),
          pos + ((l.drop (skip - idx)).take room).length) := by
  induction l with
  | nil => intro idx skip room pos; simp [iterate_files]
  | cons f rest ih =>
    intro idx skip room pos
    by_cases h : idx < skip
    · simp only [iterate_files, if_pos h, ih]
      have : skip - idx = (skip - (idx + 1)) + 1 := by omega
      rw [this, List.drop_succ_cons]
    · have h0 : skip - idx = 0 := by omega
      rw [h0, List.drop_zero]
      cases room with
      | zero => simp [iterate_files, h]
      | succ r =>
        simp only [iterate_files, if_neg h, ih]
        have h1 : skip - (idx + 1) = 0 := by omega
        rw [h1, List.drop_zero, List.take_succ_cons, List.map_cons, List.length_cons]
        refine Prod.ext rfl ?_
        simp only
        omega

/-- Function `vtfs_iterate` emits the listing from index `pos` on, as many elements as
the consumer takes, and leaves the cursor behind the last element it emitted. -/
theorem iterate_spec (st : vtfs_fs_info) (d parent pos room : Nat) (dir : List vtfs_file)
    (hd : vtfs_get_dir st.root_dir d = some dir) :
    vtfs_iterate st d parent pos room =
      (((dir_listing d parent dir).drop pos).take room,
        pos + (((dir_listing d parent dir).drop pos).take room).length) := by
  unfold vtfs_iterate dir_listing
  simp only [hd]
  match pos, room with
  | 0, 0 => simp
  | 0, 1 => simp
  | 0, r + 2 =>
    simp only [iterate_files_spec]
    simp
    omega
  | 1, 0 => simp
  | 1, r + 1 =>
    simp only [iterate_files_spec]
    simp
    omega
  | p + 2, r =>
    have hp : (if 0 < p then p else 0) = p := by split <;> omega
    simp only [iterate_files_spec]
    simp [hp]

theorem take_append_drop_length {α : Type} (X : List α) (k : Nat) :
    X.take k ++ X.drop (X.take k).length = X := by
  by_cases h : k ≤ X.length
  · rw [List.length_take, Nat.min_eq_left h, List.take_append_drop]
  · have h1 : X.length ≤ k := by omega
    rw [List.take_of_length_le h1, List.drop_length, List.append_nil]

/-- Claim C12. Let `L` be the listing of a directory: ".", "..", then its entries in
list order.  Started with cursor `p` for a consumer that takes `k` elements,
`vtfs_iterate` emits the elements of `L` from index `p` on, `k` of them at most, and
moves the cursor by one for each emitted element (to `p + k` when `L` has `k` more
elements); a consumer that takes everything gets `L` from `p` on; and resuming from
the cursor a stopped call left emits the rest, so that the two outputs together are `L`
from `p` on, all of `L` for `p = 0`. -/
theorem C12_iterate_resumes (st : vtfs_fs_info) (d parent : Nat) (dir : List vtfs_file)
    (hd : vtfs_get_dir st.root_dir d = some dir) (p k room : Nat) :
    (vtfs_iterate st d parent p k).1 = ((dir_listing d parent dir).drop p).take k ∧
    (vtfs_iterate st d parent p k).2 = p + (vtfs_iterate st d parent p k).1.length ∧
    (p + k ≤ (dir_listing d parent dir).length → (vtfs_iterate st d parent p k).2 = p + k) ∧
    ((dir_listing d parent dir).length ≤ p + room →
      vtfs_iterate st d parent p room =
        ((dir_listing d parent dir).drop p, max p (dir_listing d parent dir).length)) ∧
    ((dir_listing d parent dir).length ≤ (vtfs_iterate st d parent p k).2 + room →
      (vtfs_iterate st d parent p k).1 ++
          (vtfs_iterate st d parent (vtfs_iterate st d parent p k).2 room).1 =
        (dir_listing d parent dir).drop p) ∧
    ((dir_listing d parent dir).length ≤ (vtfs_iterate st d parent 0 k).2 + room →
      (vtfs_iterate st d parent 0 k).1 ++
          (vtfs_iterate st d parent (vtfs_iterate st d parent 0 k).2 room).1 =
        dir_listing d parent dir) := by
  have key : ∀ q m, (dir_listing d parent dir).length ≤ q + m →
      ((dir_listing d parent dir).drop q).take m = (dir_listing d parent dir).drop q := by
    intro q m h
    apply List.take_of_length_le
    rw [List.length_drop]
    omega
  have hres : ∀ q m, (dir_listing d parent dir).length ≤ (vtfs_iterate st d parent q m).2 + room →
      (vtfs_iterate st d parent q m).1 ++
          (vtfs_iterate st d parent (vtfs_iterate st d parent q m).2 room).1 =
        (dir_listing d parent dir).drop q := by
    intro q m h
    rw [iterate_spec st d parent _ room dir hd]
    simp only
    rw [key _ room h]
    rw [iterate_spec st d parent q m dir hd]
    simp only
    rw [← List.drop_drop, take_append_drop_length]
  refine ⟨by rw [iterate_spec st d parent p k dir hd], by rw [iterate_spec st d parent p k dir hd],
    ?_, ?_, hres p k, ?_⟩
  · intro h
    rw [iterate_spec st d parent p k dir hd]
    simp only [List.length_take, List.length_drop]
    omega
  · intro h
    rw [iterate_spec st d parent p room dir hd, key p room h]
    refine Prod.ext rfl ?_
    simp only [List.length_drop]
    omega
  · intro h
    rw [hres 0 k h, List.drop_zero]

theorem C12_iterate_resumes_witness :
    vtfs_get_dir two_names_written.root_dir 100 = some two_names_written.root_dir ∧
    ((vtfs_iterate two_names_written 100 100 1 2).1 =
        ((dir_listing 100 100 two_names_written.root_dir).drop 1).take 2 ∧
    (vtfs_iterate two_names_written 100 100 1 2).2 =
      1 + (vtfs_iterate two_names_written 100 100 1 2).1.length ∧
    (1 + 2 ≤ (dir_listing 100 100 two_names_written.root_dir).length →
      (vtfs_iterate two_names_written 100 100 1 2).2 = 1 + 2) ∧
    ((dir_listing 100 100 two_names_written.root_dir).length ≤ 1 + 9 →
      vtfs_iterate two_names_written 100 100 1 9 =
        ((dir_listing 100 100 two_names_written.root_dir).drop 1,
          max 1 (dir_listing 100 100 two_names_written.root_dir).length)) ∧
    ((dir_listing 100 100 two_names_written.root_dir).length ≤
        (vtfs_iterate two_names_written 100 100 1 2).2 + 9 →
      (vtfs_iterate two_names_written 100 100 1 2).1 ++
          (vtfs_iterate two_names_written 100 100
            (vtfs_iterate two_names_written 100 100 1 2).2 9).1 =
        (dir_listing 100 100 two_names_written.root_dir).drop 1) ∧
    ((dir_listing 100 100 two_names_written.root_dir).length ≤
        (vtfs_iterate two_names_written 100 100 0 2).2 + 9 →
      (vtfs_iterate two_names_written 100 100 0 2).1 ++
          (vtfs_iterate two_names_written 100 100
            (vtfs_iterate two_names_written 100 100 0 2).2 9).1 =
        dir_listing 100 100 two_names_written.root_dir)) :=
  ⟨by rfl, C12_iterate_resumes two_names_written 100 100 two_names_written.root_dir (by rfl)
    1 2 9⟩

theorem list_del_split (dir : List vtfs_file) (name : String) (file : vtfs_file)
    (h : vtfs_find_file dir name = some file) :
    ∃ l1 l2, dir = l1 ++ file :: l2 ∧ list_del dir name = l1 ++ l2 ∧
      ∀ g ∈ l1, g.name ≠ name := by
  induction dir with
  | nil => simp [vtfs_find_file] at h
  | cons g rest ih =>
    unfold vtfs_find_file at h
    unfold list_del
    by_cases hg : g.name = name
    · simp only [List.find?_cons, hg, beq_self_eq_true, Option.some.injEq] at h
      subst h
      exact ⟨[], rest, rfl, by simp [List.eraseP_cons, hg], by simp⟩
    · have hg1 : (g.name == name) = false := by simpa using hg
      simp only [List.find?_cons, hg1] at h
      obtain ⟨l1, l2, h1, h2, h3⟩ := ih h
      unfold list_del at h2
      refine ⟨g :: l1, l2, by rw [h1]; rfl, by simp [List.eraseP_cons, hg1, h2], ?_⟩
      intro x hx
      simp only [List.mem_cons] at hx
      rcases hx with rfl | hx
      · exact hg
      · exact h3 x hx

/-- Claim C13. For a name that denotes a directory record: when the directory has an
entry, `vtfs_rmdir` returns `-ENOTEMPTY` and the state is unchanged; when it is empty,
`vtfs_rmdir` returns 0, the parent loses exactly that entry (no other record of the
tree changes), and when no other record carries the ino of the directory (and it is
not the root ino) neither `vtfs_get_dir` nor `vtfs_find_file_by_ino` resolves it
afterwards. -/
theorem C13_rmdir_empty_only (st : vtfs_fs_info) (p : Nat) (name : String)
    (dir : List vtfs_file) (file : vtfs_file)
    (hdir : vtfs_get_dir st.root_dir p = some dir)
    (hfile : vtfs_find_file dir name = some file) (hmode : S_ISDIR file.mode = true) :
    (∀ x xs, file.dir_data = some (x :: xs) → vtfs_rmdir st p name = (st, -ENOTEMPTY)) ∧
    (file.dir_data = some [] →
      (vtfs_rmdir st p name).2 = 0 ∧
      (vtfs_rmdir st p name).1.next_ino = st.next_ino ∧
      (vtfs_rmdir st p name).1.mem = st.mem ∧
      (∃ l1 l2, dir = l1 ++ file :: l2 ∧
        vtfs_get_dir (vtfs_rmdir st p name).1.root_dir p = some (l1 ++ l2)) ∧
      List.Perm (all_entries st.root_dir)
        (file.info :: all_entries (vtfs_rmdir st p name).1.root_dir) ∧
      (ino_count (all_entries st.root_dir) file.ino = 1 → file.ino ≠ VTFS_ROOT_INO →
        vtfs_get_dir (vtfs_rmdir st p name).1.root_dir file.ino = none ∧
        vtfs_find_file_by_ino (vtfs_rmdir st p name).1.root_dir file.ino = none)) := by
  constructor
  · intro x xs hdd
    unfold vtfs_rmdir
    simp [hdir, hfile, hmode, hdd]
  · intro hdd
    have hres : vtfs_rmdir st p name =
        (⟨modify_dir (fun d => list_del d name) st.root_dir p, st.next_ino, st.use_server,
          st.mem⟩, 0) := by
      unfold vtfs_rmdir
      simp [hdir, hfile, hmode, hdd]
    obtain ⟨others, hperm, hmod⟩ := modify_dir_perm st.root_dir p dir hdir
    have hbelow : entries_below file = [] := by rw [entries_below_eq, hdd]; simp
    have hperm1 : List.Perm (all_entries st.root_dir)
        (file.info :: all_entries (modify_dir (fun d => list_del d name) st.root_dir p)) := by
      refine hperm.trans ?_
      refine (List.Perm.append_right _ (list_del_perm dir name file hfile)).trans ?_
      rw [hbelow]
      simp only [List.cons_append, List.nil_append]
      exact List.Perm.cons _ (hmod (fun d => list_del d name)).symm
    obtain ⟨l1, l2, hsplit, hdel, -⟩ := list_del_split dir name file hfile
    rw [hres]
    refine ⟨rfl, rfl, rfl, ⟨l1, l2, hsplit, ?_⟩, hperm1, ?_⟩
    · simp only
      rw [get_dir_modify_dir _ _ p dir hdir, hdel]
    · intro hcount hroot
      simp only
      have hzero : ino_count (all_entries (modify_dir (fun d => list_del d name) st.root_dir p))
          file.ino = 0 := by
        have := ino_count_perm hperm1 file.ino
        rw [ino_count_cons, hcount] at this
        simp only [vtfs_file.info, if_true] at this
        omega
      have hnone : vtfs_find_file_by_ino (modify_dir (fun d => list_del d name) st.root_dir p)
          file.ino = none := (find_none_iff _ _).2 (ino_count_zero.1 hzero)
      refine ⟨?_, hnone⟩
      unfold vtfs_get_dir
      rw [if_neg hroot, hnone]

theorem C13_rmdir_empty_only_witness :
    vtfs_get_dir one_dir.root_dir 100 = some one_dir.root_dir ∧
    vtfs_find_file one_dir.root_dir "d" = some dir_file ∧
    S_ISDIR dir_file.mode = true ∧
    ((∀ x xs, dir_file.dir_data = some (x :: xs) →
        vtfs_rmdir one_dir 100 "d" = (one_dir, -ENOTEMPTY)) ∧
    (dir_file.dir_data = some [] →
      (vtfs_rmdir one_dir 100 "d").2 = 0 ∧
      (vtfs_rmdir one_dir 100 "d").1.next_ino = one_dir.next_ino ∧
      (vtfs_rmdir one_dir 100 "d").1.mem = one_dir.mem ∧
      (∃ l1 l2, one_dir.root_dir = l1 ++ dir_file :: l2 ∧
        vtfs_get_dir (vtfs_rmdir one_dir 100 "d").1.root_dir 100 = some (l1 ++ l2)) ∧
      List.Perm (all_entries one_dir.root_dir)
        (dir_file.info :: all_entries (vtfs_rmdir one_dir 100 "d").1.root_dir) ∧
      (ino_count (all_entries one_dir.root_dir) dir_file.ino = 1 →
        dir_file.ino ≠ VTFS_ROOT_INO →
        vtfs_get_dir (vtfs_rmdir one_dir 100 "d").1.root_dir dir_file.ino = none ∧
        vtfs_find_file_by_ino (vtfs_rmdir one_dir 100 "d").1.root_dir dir_file.ino = none))) :=
  ⟨by rfl, by rfl, by decide,
    C13_rmdir_empty_only one_dir 100 "d" one_dir.root_dir dir_file (by rfl) (by rfl)
      (by decide)⟩

/-- When the name is already in the directory, `create_entry` gets past the remote
call only in local mode or when the remote call reported success, and then returns
`-EEXIST`; the tree and the heap are as before in either case. -/
theorem create_entry_exists (st : vtfs_fs_info) (p : Nat) (name : String) (fm : Nat)
    (srv : Int × Nat) (dir : List vtfs_file)
    (hdir : vtfs_get_dir st.root_dir p = some dir)
    (hex : (vtfs_find_file dir name).isSome = true) :
    (create_entry st p name fm srv).1.root_dir = st.root_dir ∧
    (create_entry st p name fm srv).1.mem = st.mem ∧
    (create_entry st p name fm srv).1.use_server = st.use_server ∧
    ((st.use_server = false ∨ srv.1 = 0) → (create_entry st p name fm srv).2 = -EEXIST) ∧
    ((st.use_server = true ∧ srv.1 ≠ 0) → create_entry st p name fm srv = (st, srv.1)) := by
  have hnone : ∀ ino, vtfs_create_file dir name fm ino = none := by
    intro ino
    unfold vtfs_create_file
    split <;> simp [hex]
  unfold create_entry
  simp only [hdir, hnone, hex, if_true]
  by_cases hs : st.use_server = true ∧ srv.1 ≠ 0
  · rw [if_pos hs]
    refine ⟨rfl, rfl, rfl, ?_, fun _ => rfl⟩
    intro h
    rcases h with h | h
    · rw [h] at hs; exact absurd hs.1 (by simp)
    · exact absurd h hs.2
  · rw [if_neg hs]
    refine ⟨?_, ?_, ?_, fun _ => rfl, fun h => absurd h hs⟩
    · split
      · split <;> rfl
      · rfl
    · split
      · split <;> rfl
      · rfl
    · split
      · split <;> rfl
      · rfl

/-- Claim C14, amended. On a name that is already in the target directory, in local
mode and in remote mode after a successful remote call, `vtfs_create` and `vtfs_mkdir`
return `-EEXIST`; in remote mode after a failed remote call they return the error of
the remote call; in every case the tree (all entries of all directories, in order)
and the heap of contents are exactly as before. -/
theorem C14_existing_name_refused (st : vtfs_fs_info) (p : Nat) (name : String) (mode : Nat)
    (srv : Int × Nat) (dir : List vtfs_file)
    (hdir : vtfs_get_dir st.root_dir p = some dir)
    (hex : (vtfs_find_file dir name).isSome = true) :
    ((st.use_server = false ∨ srv.1 = 0) →
      (vtfs_create st p name mode srv).2 = -EEXIST ∧
      (vtfs_mkdir st p name mode srv).2 = -EEXIST) ∧
    ((st.use_server = true ∧ srv.1 ≠ 0) →
      vtfs_create st p name mode srv = (st, srv.1) ∧
      vtfs_mkdir st p name mode srv = (st, srv.1)) ∧
    (vtfs_create st p name mode srv).1.root_dir = st.root_dir ∧
    (vtfs_create st p name mode srv).1.mem = st.mem ∧
    (vtfs_mkdir st p name mode srv).1.root_dir = st.root_dir ∧
    (vtfs_mkdir st p name mode srv).1.mem = st.mem := by
  obtain ⟨a1, a2, -, a4, a5⟩ := create_entry_exists st p name (create_mode mode) srv dir hdir hex
  obtain ⟨b1, b2, -, b4, b5⟩ := create_entry_exists st p name (mkdir_mode mode) srv dir hdir hex
  exact ⟨fun h => ⟨a4 h, b4 h⟩, fun h => ⟨a5 h, b5 h⟩, a1, a2, b1, b2⟩

theorem C14_existing_name_refused_witness :
    vtfs_get_dir two_names_written.root_dir 100 = some two_names_written.root_dir ∧
    (vtfs_find_file two_names_written.root_dir "b.txt").isSome = true ∧
    (((two_names_written.use_server = false ∨ ((0, 0) : Int × Nat).1 = 0) →
      (vtfs_create two_names_written 100 "b.txt" 0o644 (0, 0)).2 = -EEXIST ∧
      (vtfs_mkdir two_names_written 100 "b.txt" 0o644 (0, 0)).2 = -EEXIST) ∧
    ((two_names_written.use_server = true ∧ ((0, 0) : Int × Nat).1 ≠ 0) →
      vtfs_create two_names_written 100 "b.txt" 0o644 (0, 0) = (two_names_written, (0, 0).1) ∧
      vtfs_mkdir two_names_written 100 "b.txt" 0o644 (0, 0) = (two_names_written, (0, 0).1)) ∧
    (vtfs_create two_names_written 100 "b.txt" 0o644 (0, 0)).1.root_dir
      = two_names_written.root_dir ∧
    (vtfs_create two_names_written 100 "b.txt" 0o644 (0, 0)).1.mem = two_names_written.mem ∧
    (vtfs_mkdir two_names_written 100 "b.txt" 0o644 (0, 0)).1.root_dir
      = two_names_written.root_dir ∧
    (vtfs_mkdir two_names_written 100 "b.txt" 0o644 (0, 0)).1.mem = two_names_written.mem) :=
  ⟨by rfl, by decide,
    C14_existing_name_refused two_names_written 100 "b.txt" 0o644 (0, 0)
      two_names_written.root_dir (by rfl) (by decide)⟩

/-- Claim C14, as stated, evaluated in remote mode: the name `x` exists, the remote
create call fails with `-EIO`, and `vtfs_create` and `vtfs_mkdir` return `-EIO`, not
`-EEXIST`. -/
theorem C14_remote_failure_first :
    remote_written.use_server = true ∧
    ((vtfs_get_dir remote_written.root_dir 100).bind (fun d => vtfs_find_file d "x")).isSome
      = true ∧
    (vtfs_create remote_written 100 "x" 0o644 (- EIO, 0)).2 = - EIO ∧
    (vtfs_mkdir remote_written 100 "x" 0o755 (- EIO, 0)).2 = - EIO ∧
    - EIO ≠ -EEXIST := by
  decide

theorem strip_append (a b : List vtfs_file) : strip (a ++ b) = strip a ++ strip b := by
  induction a with
  | nil => simp [strip]
  | cons f rest ih => simp [strip, ih]

theorem strip_map_name (d : List vtfs_file) :
    (strip d).map vtfs_file.name = d.map vtfs_file.name := by
  induction d with
  | nil => rw [strip]
  | cons f rest ih =>
    rw [strip, List.map_cons, List.map_cons, ih, (strip_file_fields f).2.2.1]

/-- The directory of an ino in the stripped tree is the stripped directory. -/
theorem get_dir_strip (t : List vtfs_file) (p : Nat) :
    vtfs_get_dir (strip t) p = (vtfs_get_dir t p).map strip := by
  unfold vtfs_get_dir
  by_cases hp : p = VTFS_ROOT_INO
  · simp [hp]
  · simp only [hp, if_false, find_strip]
    cases hf : vtfs_find_file_by_ino t p with
    | none => simp
    | some f =>
      simp only [Option.map_some', (strip_file_fields f).2.1, (strip_file_fields f).2.2.2]
      by_cases hm : S_ISDIR f.mode = true
      · simp [hm]
      · simp [hm]

/-- A successful `vtfs_link` appends one record to the target directory, with the ino and
the mode of the file and the name cut to 255 bytes, and changes no name, ino or mode
of the entries that were there. -/
theorem link_adds_entry (st : vtfs_fs_info) (i : inode) (p : Nat) (name : String)
    (srv : Int × Nat) (h : (vtfs_link st (some i) p name srv).2 = 0) :
    ∃ file dir dir1, vtfs_get_file_by_inode st i = some file ∧
      vtfs_get_dir st.root_dir p = some dir ∧ vtfs_find_file dir name = none ∧
      vtfs_get_dir (vtfs_link st (some i) p name srv).1.root_dir p = some dir1 ∧
      strip dir1 = strip dir ++ [vtfs_file.mk file.ino file.mode (strncpy_name name) none 0 0 0] := by
  obtain ⟨i1, file, dir, hoi, hnd, hf, hdir, hfree⟩ := link_ok st _ p name _ h
  cases hoi
  refine ⟨file, dir, ?_⟩
  obtain ⟨d1, hd1⟩ := get_dir_after_set_nlink st.root_dir i.i_ino (nlink_inc file.nlink) p dir hdir
  have hs1 : strip d1 = strip dir := by
    have h1 := get_dir_strip
      ((modify_file_by_ino (vtfs_file.set_nlink (nlink_inc file.nlink)) st.root_dir i.i_ino).getD
        st.root_dir) p
    rw [strip_modify _ (strip_set_nlink _), get_dir_strip, hd1, hdir] at h1
    simpa using h1.symm
  have hroot : ∃ k, strip (vtfs_link st (some i) p name srv).1.root_dir =
      strip (modify_dir (fun d => d ++ [vtfs_file.mk file.ino file.mode (strncpy_name name)
          none file.data file.data_size (nlink_inc file.nlink)])
          ((modify_file_by_ino (vtfs_file.set_nlink (nlink_inc file.nlink)) st.root_dir i.i_ino).getD
            st.root_dir) p) ∧ k = 0 := by
    refine ⟨0, ?_, rfl⟩
    unfold vtfs_link
    simp only [hnd, hf, hdir, hfree, Option.isSome_none, Bool.false_eq_true, if_false]
    split <;> simp only [strip_update_nlink]
  obtain ⟨-, hroot, -⟩ := hroot
  have hg := get_dir_strip (vtfs_link st (some i) p name srv).1.root_dir p
  rw [hroot, get_dir_strip, get_dir_modify_dir _ _ p d1 hd1] at hg
  cases hd2 : vtfs_get_dir (vtfs_link st (some i) p name srv).1.root_dir p with
  | none => rw [hd2] at hg; simp at hg
  | some dir2 =>
    rw [hd2] at hg
    simp only [Option.map_some', Option.some.injEq] at hg
    refine ⟨dir2, hf, hdir, hfree, rfl, ?_⟩
    rw [← hg, strip_append, hs1]
    simp [strip, strip_file]

/-- On a name that is in the target directory, `vtfs_link` of a file returns `-EEXIST`
and changes nothing. -/
theorem link_exists (st : vtfs_fs_info) (i : inode) (p : Nat) (name : String)
    (srv : Int × Nat) (file : vtfs_file) (dir : List vtfs_file)
    (hnd : S_ISDIR i.i_mode = false) (hf : vtfs_get_file_by_inode st i = some file)
    (hdir : vtfs_get_dir st.root_dir p = some dir)
    (hex : (vtfs_find_file dir name).isSome = true) :
    vtfs_link st (some i) p name srv = (st, -EEXIST) := by
  unfold vtfs_link
  simp [hnd, hf, hdir, hex]

/-- After a successful `vtfs_link` to a new name shorter than 256 bytes the names of
the target directory are the old ones followed by the new one, and none is repeated
when none was before. -/
theorem link_names_nodup (st : vtfs_fs_info) (i : inode) (p : Nat) (name : String)
    (srv : Int × Nat) (h : (vtfs_link st (some i) p name srv).2 = 0)
    (hname : strlen name < VTFS_MAX_NAME) (dir : List vtfs_file)
    (hdir : vtfs_get_dir st.root_dir p = some dir) (hnd : (dir.map vtfs_file.name).Nodup) :
    ∃ dir1, vtfs_get_dir (vtfs_link st (some i) p name srv).1.root_dir p = some dir1 ∧
      dir1.map vtfs_file.name = dir.map vtfs_file.name ++ [name] ∧
      (dir1.map vtfs_file.name).Nodup := by
  obtain ⟨file, dir0, dir1, -, hdir0, hfree, hdir1, hstrip⟩ := link_adds_entry st i p name srv h
  rw [hdir] at hdir0
  cases hdir0
  have hn : dir1.map vtfs_file.name = dir.map vtfs_file.name ++ [name] := by
    rw [← strip_map_name dir1, hstrip, List.map_append, strip_map_name,
      strncpy_name_of_lt hname]
    rfl
  refine ⟨dir1, hdir1, hn, ?_⟩
  rw [hn, List.nodup_append]
  refine ⟨hnd, by simp, ?_⟩
  intro a ha hb
  simp only [List.mem_singleton] at hb
  subst hb
  exact find_file_none_names hfree ha

set_option maxRecDepth 100000 in
/-- Claim C15, evaluated: the root holds `a.txt` and a file whose name is 255 bytes
long.  `vtfs_link` of `a.txt` to a name of 256 bytes that starts with those 255 bytes
finds no entry of that name, returns 0, and stores the name cut to 255 bytes: the root
then has two entries with the same name. -/
theorem C15_link_duplicates_name :
    strlen name255 = 255 ∧ strlen name256 = 256 ∧
    long_names.root_dir.map vtfs_file.name = ["a.txt", name255] ∧
    (vtfs_find_file long_names.root_dir name256).isSome = false ∧
    (vtfs_link long_names (vtfs_lookup long_names 100 "a.txt") 100 name256 (0, 0)).2 = 0 ∧
    (vtfs_link long_names (vtfs_lookup long_names 100 "a.txt") 100 name256 (0, 0)).1.root_dir.map
      vtfs_file.name = ["a.txt", name255, name255] := by
  decide

/-- For every name, `vtfs_lookup` attaches an inode exactly when the directory has an
entry of that name, the inode is made from the first such entry (the one the listing
shows first): it has the type of that entry and the ino of that entry as it comes out
of the `int` parameter of `vtfs_get_inode`, which is the ino itself below `2^31`. -/
theorem lookup_matches_listing (st : vtfs_fs_info) (p : Nat) (name : String)
    (dir : List vtfs_file) (hdir : vtfs_get_dir st.root_dir p = some dir) :
    ((vtfs_lookup st p name).isSome = true ↔ name ∈ dir.map vtfs_file.name) ∧
    (name ∉ dir.map vtfs_file.name → vtfs_lookup st p name = none) ∧
    (∀ i, vtfs_lookup st p name = some i →
      ∃ e, (dir.map (fun f => (⟨f.name, f.ino, if S_ISDIR f.mode then DT_DIR else DT_REG⟩ :
          dirent))).find? (fun e => e.name == name) = some e ∧
        i.i_ino = int_ino e.ino ∧ (e.ino < 2147483648 → i.i_ino = e.ino) ∧
        (S_ISDIR i.i_mode = true ↔ e.d_type = DT_DIR) ∧
        (S_ISDIR i.i_mode = false ↔ e.d_type = DT_REG)) := by
  have hiff : (vtfs_lookup st p name).isSome = true ↔ name ∈ dir.map vtfs_file.name := by
    unfold vtfs_lookup
    simp only [hdir]
    cases hf : vtfs_find_file dir name with
    | none =>
      simp only [Option.isSome_none, Bool.false_eq_true, false_iff]
      exact find_file_none_names hf
    | some file =>
      simp only [Option.isSome_some, true_iff]
      obtain ⟨hm, hn⟩ := find_file_mem dir name file hf
      exact List.mem_map.2 ⟨file, hm, hn⟩
  refine ⟨hiff, ?_, ?_⟩
  · intro hn
    cases h : vtfs_lookup st p name with
    | none => rfl
    | some i =>
      have := hiff.1 (by rw [h]; rfl)
      exact absurd this hn
  · intro i hi
    obtain ⟨dir0, file, hdir0, hfile, hino, hmode⟩ := lookup_some hi
    rw [hdir] at hdir0
    cases hdir0
    refine ⟨⟨file.name, file.ino, if S_ISDIR file.mode then DT_DIR else DT_REG⟩, ?_, hino,
      fun hlt => by rw [hino]; exact int_ino_of_lt hlt, ?_, ?_⟩
    · rw [List.find?_map]
      unfold vtfs_find_file at hfile
      have : ((fun e : dirent => e.name == name) ∘ fun f : vtfs_file =>
          (⟨f.name, f.ino, if S_ISDIR f.mode then DT_DIR else DT_REG⟩ : dirent)) =
          (fun f => f.name == name) := rfl
      rw [this, hfile]
      rfl
    · rw [hmode]
      by_cases hm : S_ISDIR file.mode = true
      · simp [hm]
      · simp [hm, DT_DIR, DT_REG]
    · rw [hmode]
      by_cases hm : S_ISDIR file.mode = true
      · simp [hm, DT_DIR, DT_REG]
      · simp [hm]

/-- Claim C16, evaluated: in remote mode the remote store numbers the new file `big`
with `2^31`.  The listing of the root shows `big` with ino 2147483648, while the inode
`vtfs_lookup` attaches for `big` has ino 18446744071562067968, the same number after
its passage through the `int i_ino` parameter of `vtfs_get_inode`. -/
theorem C16_lookup_ino_differs :
    (vtfs_iterate remote_big 100 100 0 9).1 =
      [⟨".", 100, DT_DIR⟩, ⟨"..", 100, DT_DIR⟩, ⟨"big", 2147483648, DT_REG⟩] ∧
    (vtfs_lookup remote_big 100 "big").map (fun i => i.i_ino) = some 18446744071562067968 ∧
    (vtfs_lookup remote_big 100 "big").map (fun i => S_ISDIR i.i_mode) = some false := by
  decide

theorem ino_count_append (a b : List entry_info) (j : Nat) :
    ino_count (a ++ b) j = ino_count a j + ino_count b j := by
  unfold ino_count
  rw [List.countP_append]

theorem ino_count_le_of_perm_cons {es es1 : List entry_info} {x : entry_info}
    (h : List.Perm es (x :: es1)) (j : Nat) : ino_count es1 j ≤ ino_count es j := by
  rw [ino_count_perm h, ino_count_cons]
  omega

/-- Function `vtfs_remove_all_by_ino` only takes records away. -/
theorem remove_all_count_le (t : List vtfs_file) (i j : Nat) :
    ino_count (all_entries (vtfs_remove_all_by_ino t i)) j ≤ ino_count (all_entries t) j := by
  refine tree_induction
    (P := fun t => ino_count (all_entries (vtfs_remove_all_by_ino t i)) j ≤
      ino_count (all_entries t) j)
    (Q := fun f => (remove_in_dir_data f i).info = f.info ∧
      ino_count (entries_below (remove_in_dir_data f i)) j ≤ ino_count (entries_below f) j)
    ?_ ?_ ?_ ?_ t
  · beta_reduce; rw [vtfs_remove_all_by_ino]
  · intro f rest hf hrest
    rw [vtfs_remove_all_by_ino]
    by_cases h : f.ino = i
    · rw [if_pos h, all_entries_cons, ino_count_append]
      omega
    · rw [if_neg h, all_entries_cons, all_entries_cons, hf.1, List.cons_append, List.cons_append,
        ino_count_cons, ino_count_cons, ino_count_append, ino_count_append]
      have := hf.2
      omega
  · intro k m n p s l
    rw [remove_in_dir_data]
    exact ⟨rfl, le_refl _⟩
  · intro k m n d p s l hd
    rw [remove_in_dir_data]
    refine ⟨rfl, ?_⟩
    simpa using hd

/-- Function `vtfs_unlink` adds no record: for every ino there are at most as many
records afterwards as before. -/
theorem unlink_count_le (st : vtfs_fs_info) (p : Nat) (name : String) (di : Option inode)
    (j : Nat) :
    ino_count (all_entries (vtfs_unlink st p name di).1.root_dir) j ≤
      ino_count (all_entries st.root_dir) j := by
  by_cases hz : (vtfs_unlink st p name di).2 = 0
  · obtain ⟨dir, file, i, hdi, hdir, hfile, hino⟩ := unlink_ok st p name di hz
    subst hdi
    obtain ⟨others, hperm, hmod⟩ := modify_dir_perm st.root_dir p dir hdir
    have h1 : ino_count (all_entries (modify_dir (fun d => list_del d name) st.root_dir p)) j ≤
        ino_count (all_entries st.root_dir) j := by
      rw [ino_count_perm hperm, ino_count_perm (hmod (fun d => list_del d name)),
        ino_count_append, ino_count_append,
        ino_count_perm (list_del_perm dir name file hfile), ino_count_append]
      omega
    have hroot : ∃ k, (vtfs_unlink st p name (some i)).1.root_dir =
          vtfs_update_nlink_all (modify_dir (fun d => list_del d name) st.root_dir p) i.i_ino k ∨
        (vtfs_unlink st p name (some i)).1.root_dir =
          vtfs_remove_all_by_ino (vtfs_update_nlink_all
            (modify_dir (fun d => list_del d name) st.root_dir p) i.i_ino k) i.i_ino := by
      unfold vtfs_unlink
      simp only [hdir, hfile]
      cases hm : vtfs_get_file_by_inode st i with
      | none =>
        exfalso
        unfold vtfs_unlink at hz
        simp [hdir, hm, ENOENT] at hz
      | some main =>
        simp only [hino, ne_eq, not_true_eq_false, if_false]
        refine ⟨nlink_dec main.nlink, ?_⟩
        by_cases hk : nlink_dec main.nlink = 0
        · right; simp only [hk, if_true]
        · left; simp only [hk, if_false]
    obtain ⟨k, hroot | hroot⟩ := hroot
    · rw [hroot, update_nlink_entries, ino_count_map_set_nlink]
      exact h1
    · rw [hroot]
      refine le_trans (remove_all_count_le _ _ _) ?_
      rw [update_nlink_entries, ino_count_map_set_nlink]
      exact h1
  · rw [unlink_fail st p name di hz]

/-- In local mode, what a successful `vtfs_link` does to the records of the tree. -/
theorem link_perm (st : vtfs_fs_info) (hl : st.use_server = false) (i : inode) (p : Nat)
    (name : String) (srv : Int × Nat) (file : vtfs_file) (dir : List vtfs_file)
    (hnd : S_ISDIR i.i_mode = false) (hf : vtfs_get_file_by_inode st i = some file)
    (hdir : vtfs_get_dir st.root_dir p = some dir)
    (hfree : vtfs_find_file dir name = none) :
    List.Perm (all_entries (vtfs_link st (some i) p name srv).1.root_dir)
      ((⟨file.ino, file.mode, strncpy_name name, false, file.data, file.data_size,
          nlink_inc file.nlink⟩ ::
        all_entries st.root_dir).map (set_nlink_if file.ino (nlink_inc file.nlink))) := by
  obtain ⟨hfmem, hfino⟩ := find_mem hf
  have hres : vtfs_link st (some i) p name srv =
      (⟨vtfs_update_nlink_all (modify_dir (fun d => d ++ [vtfs_file.mk file.ino file.mode
          (strncpy_name name) none file.data file.data_size (nlink_inc file.nlink)])
          ((modify_file_by_ino (vtfs_file.set_nlink (nlink_inc file.nlink)) st.root_dir i.i_ino).getD
            st.root_dir) p) file.ino (nlink_inc file.nlink), st.next_ino, st.use_server, st.mem⟩, 0) := by
    unfold vtfs_link
    simp [hnd, hf, hdir, hfree, hl]
  rw [← hfino] at hres
  obtain ⟨dir1, hdir1⟩ := get_dir_after_set_nlink st.root_dir file.ino (nlink_inc file.nlink) p dir hdir
  obtain ⟨others, hperm, hmod⟩ := modify_dir_perm _ p dir1 hdir1
  rw [hres]
  simp only
  rw [update_nlink_entries, List.map_cons,
    ← set_nlink_entries st.root_dir file.ino (nlink_inc file.nlink) (nlink_inc file.nlink), ← List.map_cons]
  refine List.Perm.map _ ?_
  refine (hmod _).trans ?_
  rw [all_entries_append]
  simp only [all_entries_cons, entries_below_file, all_entries_nil, List.append_nil,
    List.append_assoc, List.singleton_append]
  refine List.perm_middle.trans (List.Perm.cons _ hperm.symm) |>.trans ?_
  simp [vtfs_file.info, vtfs_file.ino, vtfs_file.mode, vtfs_file.name,
      vtfs_file.dir_data, vtfs_file.data, vtfs_file.data_size, vtfs_file.nlink, hfino]

/-- A local call other than `link` changes the number of records of an ino only by
removing records or by adding the one record of a new ino, the value of the counter. -/
theorem local_step_count (st : vtfs_fs_info) (hr : ino_range st) (c : host_call)
    (hc : c.is_link = false) (j : Nat) :
    ino_count (all_entries (local_step st c).1.root_dir) j ≤
        ino_count (all_entries st.root_dir) j ∨
    (j = st.next_ino ∧ ino_count (all_entries st.root_dir) j = 0 ∧
      ino_count (all_entries (local_step st c).1.root_dir) j = 1 ∧
      (local_step st c).1.next_ino = st.next_ino + 1) := by
  have hcreate : ∀ p n fm,
      ino_count (all_entries (create_entry st p n fm (0, 0)).1.root_dir) j ≤
          ino_count (all_entries st.root_dir) j ∨
      (j = st.next_ino ∧ ino_count (all_entries st.root_dir) j = 0 ∧
        ino_count (all_entries (create_entry st p n fm (0, 0)).1.root_dir) j = 1 ∧
        (create_entry st p n fm (0, 0)).1.next_ino = st.next_ino + 1) := by
    intro p n fm
    obtain ⟨-, -, -, h⟩ := create_entry_local st hr.1 p n fm (0, 0)
    rcases h with ⟨-, hroot⟩ | ⟨-, hnext, dir, -, -, -, -, hperm⟩
    · left; rw [hroot]
    · have hfresh : ino_count (all_entries st.root_dir) st.next_ino = 0 := by
        rw [ino_count_zero]
        intro e he
        have := (hr.2.2 e he).2
        omega
      rw [ino_count_perm hperm, ino_count_cons]
      by_cases hj : st.next_ino = j
      · right
        subst hj
        refine ⟨rfl, hfresh, ?_, hnext⟩
        rw [hfresh, if_pos rfl]
      · left
        simp [hj]
  cases c with
  | create p n m => exact hcreate p n _
  | mkdir p n m => exact hcreate p n _
  | unlink p n =>
    left
    simp only [local_step]
    split
    · exact le_refl _
    · split
      · exact le_refl _
      · exact unlink_count_le st p n _ j
  | rmdir p n =>
    left
    simp only [local_step]
    by_cases h : (vtfs_rmdir st p n).2 = 0
    · obtain ⟨dir, file, hdir, hfile, hm, hdd, hres⟩ := rmdir_ok st p n h
      obtain ⟨others, hperm, hmod⟩ := modify_dir_perm st.root_dir p dir hdir
      have hbelow : entries_below file = [] := by rw [entries_below_eq, hdd]; simp
      have hperm1 : List.Perm (all_entries st.root_dir)
          (file.info :: all_entries (modify_dir (fun d => list_del d n) st.root_dir p)) := by
        refine hperm.trans ?_
        refine (List.Perm.append_right _ (list_del_perm dir n file hfile)).trans ?_
        rw [hbelow]
        simp only [List.cons_append, List.nil_append]
        exact List.Perm.cons _ (hmod (fun d => list_del d n)).symm
      rw [hres]
      exact ino_count_le_of_perm_cons hperm1 j
    · rw [rmdir_fail st p n h]
  | link op oname p n => simp [host_call.is_link] at hc

/-- Every local call keeps the inos of the tree between 200 and the counter. -/
theorem local_step_range (st : vtfs_fs_info) (hr : ino_range st) (c : host_call) :
    ino_range (local_step st c).1 := by
  obtain ⟨h1, h2, h3⟩ := local_step_next_ino st hr.1 c
  refine ⟨h3, by have := hr.2.1; omega, ?_⟩
  have hold : ∀ e0 ∈ all_entries st.root_dir,
      200 ≤ e0.ino ∧ e0.ino < (local_step st c).1.next_ino := by
    intro e0 he0
    have := hr.2.2 e0 he0
    exact ⟨this.1, by omega⟩
  by_cases hc : c.is_link = true
  · cases c with
    | link op oname p n =>
      simp only [local_step] at hold ⊢
      by_cases hz : (vtfs_link st (vtfs_lookup st op oname) p n (0, 0)).2 = 0
      · obtain ⟨i, file, dir, hoi, hnd, hf, hdir, hfree⟩ := link_ok st _ p n _ hz
        obtain ⟨hfmem, hfino⟩ := find_mem hf
        rw [hoi] at hold ⊢
        have hperm := link_perm st hr.1 i p n (0, 0) file dir hnd hf hdir hfree
        intro e he
        rw [hperm.mem_iff] at he
        obtain ⟨y, hy, rfl⟩ := List.mem_map.1 he
        rw [set_nlink_if_ino]
        simp only [List.mem_cons] at hy
        rcases hy with rfl | hy
        · exact hold file.info hfmem
        · exact hold y hy
      · rw [link_fail st _ p n _ hz] at hold ⊢
        exact hold
    | create p n m => simp [host_call.is_link] at hc
    | mkdir p n m => simp [host_call.is_link] at hc
    | unlink p n => simp [host_call.is_link] at hc
    | rmdir p n => simp [host_call.is_link] at hc
  · intro e he
    have hpos := ino_count_pos he
    rcases local_step_count st hr c (by simpa using hc) e.ino with hle | ⟨hj, -, -, hnext⟩
    · have hne : ¬ ino_count (all_entries st.root_dir) e.ino = 0 := by omega
      rw [ino_count_zero] at hne
      push_neg at hne
      obtain ⟨e0, he0, heq⟩ := hne
      rw [← heq]
      exact hold e0 he0
    · have := hr.2.1
      omega

theorem local_run_range (cs : List host_call) :
    ∀ st, ino_range st → ino_range (local_run st cs) := by
  induction cs with
  | nil => intro st h; exact h
  | cons c cs ih =>
    intro st h
    exact ih _ (local_step_range st h c)

theorem empty_mount_range (mem : kmem) : ino_range (empty_mount false mem) :=
  ⟨rfl, by simp [empty_mount], by simp [empty_mount]⟩

/-- Claim C17. In local mode the counter starts at 200.  In every state reached from
an empty mount by create, mkdir, link, unlink and rmdir calls: the counter is at least
200 and no call decreases it; every ino in the tree is at least 200, is not the root
ino and is below the counter; a successful `vtfs_create` or `vtfs_mkdir` adds one record
whose ino is the value of the counter, which no record carries, and moves the counter
past it; and no call other than `link` makes a second record for an ino. -/
theorem C17_local_ino_counter (mem : kmem) (cs : List host_call) :
    (empty_mount false mem).next_ino = 200 ∧
    200 ≤ (local_run (empty_mount false mem) cs).next_ino ∧
    (∀ c, (local_run (empty_mount false mem) cs).next_ino ≤
      (local_step (local_run (empty_mount false mem) cs) c).1.next_ino) ∧
    (∀ e ∈ all_entries (local_run (empty_mount false mem) cs).root_dir,
      200 ≤ e.ino ∧ e.ino ≠ VTFS_ROOT_INO ∧
        e.ino < (local_run (empty_mount false mem) cs).next_ino) ∧
    (∀ p name mode,
      (vtfs_create (local_run (empty_mount false mem) cs) p name mode (0, 0)).2 = 0 →
      List.Perm
        (all_entries (vtfs_create (local_run (empty_mount false mem) cs) p name mode
          (0, 0)).1.root_dir)
        (⟨(local_run (empty_mount false mem) cs).next_ino, create_mode mode, name, false, NULL,
            0, 1⟩ :: all_entries (local_run (empty_mount false mem) cs).root_dir) ∧
      (vtfs_create (local_run (empty_mount false mem) cs) p name mode (0, 0)).1.next_ino =
        (local_run (empty_mount false mem) cs).next_ino + 1) ∧
    (∀ p name mode,
      (vtfs_mkdir (local_run (empty_mount false mem) cs) p name mode (0, 0)).2 = 0 →
      List.Perm
        (all_entries (vtfs_mkdir (local_run (empty_mount false mem) cs) p name mode
          (0, 0)).1.root_dir)
        (⟨(local_run (empty_mount false mem) cs).next_ino, mkdir_mode mode, name,
            S_ISDIR (mkdir_mode mode), NULL, 0, 1⟩ ::
          all_entries (local_run (empty_mount false mem) cs).root_dir) ∧
      (vtfs_mkdir (local_run (empty_mount false mem) cs) p name mode (0, 0)).1.next_ino =
        (local_run (empty_mount false mem) cs).next_ino + 1) ∧
    (∀ c, c.is_link = false → ∀ j,
      2 ≤ ino_count (all_entries (local_step (local_run (empty_mount false mem) cs) c).1.root_dir)
        j →
      ino_count (all_entries (local_step (local_run (empty_mount false mem) cs) c).1.root_dir) j
        ≤ ino_count (all_entries (local_run (empty_mount false mem) cs).root_dir) j) := by
  have hr := local_run_range cs _ (empty_mount_range mem)
  refine ⟨rfl, hr.2.1, fun c => (local_step_next_ino _ hr.1 c).1, ?_, ?_, ?_, ?_⟩
  · intro e he
    have := hr.2.2 e he
    refine ⟨this.1, ?_, this.2⟩
    unfold VTFS_ROOT_INO
    omega
  · intro p name mode hz
    unfold vtfs_create at hz ⊢
    obtain ⟨-, -, -, h⟩ := create_entry_local _ hr.1 p name (create_mode mode) (0, 0)
    rcases h with ⟨hne, -⟩ | ⟨-, hnext, dir, -, -, -, -, hperm⟩
    · exact absurd hz hne
    · rw [S_ISDIR_create_mode] at hperm
      exact ⟨hperm, hnext⟩
  · intro p name mode hz
    unfold vtfs_mkdir at hz ⊢
    obtain ⟨-, -, -, h⟩ := create_entry_local _ hr.1 p name (mkdir_mode mode) (0, 0)
    rcases h with ⟨hne, -⟩ | ⟨-, hnext, dir, -, -, -, -, hperm⟩
    · exact absurd hz hne
    · exact ⟨hperm, hnext⟩
  · intro c hc j h2
    rcases local_step_count _ hr c hc j with h | ⟨-, -, h1, -⟩
    · exact h
    · omega

theorem C17_local_ino_counter_witness :
    (empty_mount false demo_mem).next_ino = 200 ∧
    200 ≤ (local_run (empty_mount false demo_mem) demo_calls).next_ino ∧
    ∀ e ∈ all_entries (local_run (empty_mount false demo_mem) demo_calls).root_dir,
      200 ≤ e.ino ∧ e.ino ≠ VTFS_ROOT_INO ∧
        e.ino < (local_run (empty_mount false demo_mem) demo_calls).next_ino :=
  ⟨(C17_local_ino_counter demo_mem demo_calls).1, (C17_local_ino_counter demo_mem demo_calls).2.1,
    (C17_local_ino_counter demo_mem demo_calls).2.2.2.1⟩

theorem perm_bits (mode : Nat) :
    (S_IFREG ||| (mode &&& 0o777)) &&& 0o777 = mode &&& 0o777 ∧
    (S_IFDIR ||| (mode &&& 0o777)) &&& 0o777 = mode &&& 0o777 := by
  unfold S_IFREG S_IFDIR
  have h1 : (0o777 &&& 0o100000 : Nat) = 0 := by decide
  have h2 : (0o777 &&& 0o040000 : Nat) = 0 := by decide
  have h3 : (0o777 : Nat) &&& (mode &&& 0o777) = mode &&& 0o777 := by
    rw [Nat.and_comm, Nat.and_assoc, Nat.and_self]
  constructor
  · rw [Nat.and_comm, Nat.and_or_distrib_left, h1, h3, Nat.zero_or]
  · rw [Nat.and_comm, Nat.and_or_distrib_left, h2, h3, Nat.zero_or]

theorem S_ISREG_regular (mode : Nat) : S_ISREG (S_IFREG ||| (mode &&& 0o777)) = true := by
  unfold S_ISREG S_IFREG S_IFMT
  have key : (0o100000 ||| (mode &&& 0o777)) &&& 0o170000 = 0o100000 := by
    rw [Nat.and_comm, Nat.and_or_distrib_left, Nat.and_comm mode, ← Nat.and_assoc]
    have h : (0o170000 &&& 0o777 : Nat) = 0 := by decide
    rw [h, Nat.zero_and]
    decide
  rw [key]
  decide

theorem create_mode_of_perm (mode : Nat) (h : mode &&& 0o777 ≠ 0) :
    create_mode mode = S_IFREG ||| (mode &&& 0o777) := by
  unfold create_mode
  rw [(perm_bits mode).1, if_neg h]

/-- In local mode `create_entry` on a free name shorter than 256 bytes in an existing
directory appends the new record to that directory and moves the counter on. -/
theorem create_entry_free (st : vtfs_fs_info) (hl : st.use_server = false) (p : Nat)
    (name : String) (fm : Nat) (srv : Int × Nat) (dir : List vtfs_file)
    (hdir : vtfs_get_dir st.root_dir p = some dir)
    (hfree : vtfs_find_file dir name = none)
    (hlen : strlen name < VTFS_MAX_NAME) :
    create_entry st p name fm srv =
      (⟨modify_dir (fun d => d ++ [.mk st.next_ino fm name
          (if S_ISDIR fm then some [] else none) NULL 0 1]) st.root_dir p,
        st.next_ino + 1, st.use_server, st.mem⟩, 0) := by
  have hc : vtfs_create_file dir name fm st.next_ino =
      some (.mk st.next_ino fm name (if S_ISDIR fm then some [] else none) NULL 0 1) := by
    unfold vtfs_create_file
    rw [if_neg (by omega), hfree]
    rfl
  unfold create_entry
  simp only [hdir, hl, Bool.false_eq_true, false_and, if_false, hc]

/-- Claim C18. In every state reached in local mode from an empty mount, `vtfs_create`
of a name shorter than 256 bytes that is not in the directory, with a mode whose
permission bits are not all zero, returns 0 and appends to the directory one record:
its ino is the value of the counter before the call, which is at least 200, its mode is
`S_IFREG` with the permission bits of the given mode, its link count is 1, its size 0
and it has no buffer; no other record changes and the counter moves on by one. -/
theorem C18_create_appends_entry (mem : kmem) (cs : List host_call) (p : Nat) (name : String)
    (mode : Nat) (dir : List vtfs_file)
    (hdir : vtfs_get_dir (local_run (empty_mount false mem) cs).root_dir p = some dir)
    (hfree : vtfs_find_file dir name = none)
    (hlen : strlen name < VTFS_MAX_NAME)
    (hperm : mode &&& 0o777 ≠ 0) :
    (vtfs_create (local_run (empty_mount false mem) cs) p name mode (0, 0)).2 = 0 ∧
    vtfs_get_dir (vtfs_create (local_run (empty_mount false mem) cs) p name mode (0, 0)).1.root_dir
        p =
      some (dir ++ [.mk (local_run (empty_mount false mem) cs).next_ino
        (S_IFREG ||| (mode &&& 0o777)) name none NULL 0 1]) ∧
    200 ≤ (local_run (empty_mount false mem) cs).next_ino ∧
    S_ISREG (S_IFREG ||| (mode &&& 0o777)) = true ∧
    (S_IFREG ||| (mode &&& 0o777)) &&& 0o777 = mode &&& 0o777 ∧
    List.Perm
      (all_entries (vtfs_create (local_run (empty_mount false mem) cs) p name mode
        (0, 0)).1.root_dir)
      (⟨(local_run (empty_mount false mem) cs).next_ino, S_IFREG ||| (mode &&& 0o777), name,
          false, NULL, 0, 1⟩ :: all_entries (local_run (empty_mount false mem) cs).root_dir) ∧
    (vtfs_create (local_run (empty_mount false mem) cs) p name mode (0, 0)).1.next_ino =
      (local_run (empty_mount false mem) cs).next_ino + 1 := by
  have hr := local_run_range cs _ (empty_mount_range mem)
  have hres := create_entry_free _ hr.1 p name (create_mode mode) (0, 0) dir hdir hfree hlen
  rw [S_ISDIR_create_mode, create_mode_of_perm mode hperm] at hres
  simp only [Bool.false_eq_true, if_false] at hres
  obtain ⟨-, -, -, h⟩ := create_entry_local _ hr.1 p name (create_mode mode) (0, 0)
  unfold vtfs_create
  rw [create_mode_of_perm mode hperm] at h ⊢
  rcases h with ⟨hne, -⟩ | ⟨-, -, dir0, -, -, -, -, hperm1⟩
  · rw [hres] at hne
    exact absurd rfl hne
  · have hd : S_ISDIR (S_IFREG ||| (mode &&& 0o777)) = false := by
      rw [← create_mode_of_perm mode hperm]; exact S_ISDIR_create_mode mode
    rw [hd] at hperm1
    refine ⟨by rw [hres], ?_, hr.2.1, S_ISREG_regular mode, (perm_bits mode).1, hperm1,
      by rw [hres]⟩
    rw [hres]
    simp only
    rw [get_dir_modify_dir _ _ p dir hdir]

theorem C18_create_appends_entry_witness :
    vtfs_get_dir (local_run (empty_mount false demo_mem) []).root_dir 100 = some [] ∧
    (vtfs_find_file [] "a.txt").isSome = false ∧
    strlen "a.txt" < VTFS_MAX_NAME ∧
    (0o644 &&& 0o777 ≠ 0) ∧
    ((vtfs_create (local_run (empty_mount false demo_mem) []) 100 "a.txt" 0o644 (0, 0)).2 = 0 ∧
    vtfs_get_dir (vtfs_create (local_run (empty_mount false demo_mem) []) 100 "a.txt" 0o644
        (0, 0)).1.root_dir 100 =
      some ([] ++ [.mk (local_run (empty_mount false demo_mem) []).next_ino
        (S_IFREG ||| (0o644 &&& 0o777)) "a.txt" none NULL 0 1]) ∧
    200 ≤ (local_run (empty_mount false demo_mem) []).next_ino ∧
    S_ISREG (S_IFREG ||| (0o644 &&& 0o777)) = true ∧
    (S_IFREG ||| (0o644 &&& 0o777)) &&& 0o777 = 0o644 &&& 0o777 ∧
    List.Perm
      (all_entries (vtfs_create (local_run (empty_mount false demo_mem) []) 100 "a.txt" 0o644
        (0, 0)).1.root_dir)
      (⟨(local_run (empty_mount false demo_mem) []).next_ino, S_IFREG ||| (0o644 &&& 0o777),
          "a.txt", false, NULL, 0, 1⟩ ::
        all_entries (local_run (empty_mount false demo_mem) []).root_dir) ∧
    (vtfs_create (local_run (empty_mount false demo_mem) []) 100 "a.txt" 0o644 (0, 0)).1.next_ino =
      (local_run (empty_mount false demo_mem) []).next_ino + 1) :=
  ⟨by rfl, by decide, by decide, by decide,
    C18_create_appends_entry demo_mem [] 100 "a.txt" 0o644 [] (by rfl) (by rfl) (by decide)
      (by decide)⟩

/-- On a name of 256 bytes or more `vtfs_create_file` returns `NULL`, and `create_entry`
(in local mode, or after a successful remote call) reports this as `-ENOMEM` unless a
record of that name is found, where it reports `-EEXIST`; the tree and the heap are as
before. -/
theorem create_entry_long_name (st : vtfs_fs_info) (p : Nat) (name : String) (fm : Nat)
    (srv : Int × Nat) (dir : List vtfs_file)
    (hdir : vtfs_get_dir st.root_dir p = some dir)
    (hlen : VTFS_MAX_NAME ≤ strlen name)
    (hsrv : st.use_server = false ∨ srv.1 = 0) :
    (create_entry st p name fm srv).1.root_dir = st.root_dir ∧
    (create_entry st p name fm srv).1.mem = st.mem ∧
    (create_entry st p name fm srv).2 =
      (if (vtfs_find_file dir name).isSome then -EEXIST else -ENOMEM) := by
  have hnone : ∀ ino, vtfs_create_file dir name fm ino = none := by
    intro ino
    unfold vtfs_create_file
    rw [if_pos hlen]
  have hs : ¬ (st.use_server = true ∧ srv.1 ≠ 0) := by
    intro h
    rcases hsrv with h1 | h1
    · rw [h1] at h; exact absurd h.1 (by simp)
    · exact h.2 h1
  unfold create_entry
  simp only [hdir, hnone]
  rw [if_neg hs]
  refine ⟨?_, ?_, ?_⟩
  · split
    · split
      · split <;> rfl
      · rfl
    · split
      · split <;> rfl
      · rfl
  · split
    · split
      · split <;> rfl
      · rfl
    · split
      · split <;> rfl
      · rfl
  · split <;> rfl

set_option maxRecDepth 100000 in
/-- Claim C19, evaluated: on an empty local mount `vtfs_create` and `vtfs_mkdir` with a
name of 256 bytes return `-ENOMEM`, which is not `-EINVAL`; no record is made (the
counter has moved on by one). -/
theorem C19_long_name_reports_enomem :
    strlen name256 = 256 ∧
    (vtfs_create (empty_mount false demo_mem) 100 name256 0o644 (0, 0)).2 = -ENOMEM ∧
    (vtfs_mkdir (empty_mount false demo_mem) 100 name256 0o755 (0, 0)).2 = -ENOMEM ∧
    -ENOMEM ≠ -EINVAL ∧
    all_entries (vtfs_create (empty_mount false demo_mem) 100 name256 0o644 (0, 0)).1.root_dir
      = [] ∧
    all_entries (vtfs_mkdir (empty_mount false demo_mem) 100 name256 0o755 (0, 0)).1.root_dir
      = [] ∧
    (vtfs_create (empty_mount false demo_mem) 100 name256 0o644 (0, 0)).1.next_ino = 201 := by
  decide

/-- In remote mode a failed remote call ends `create_entry` with an error and the state
it was given. -/
theorem create_entry_remote_fail (st : vtfs_fs_info) (hs : st.use_server = true) (p : Nat)
    (name : String) (fm : Nat) (srv : Int × Nat) (hsrv : srv.1 ≠ 0) :
    (create_entry st p name fm srv).1 = st ∧ (create_entry st p name fm srv).2 ≠ 0 ∧
    ((vtfs_get_dir st.root_dir p).isSome = true → (create_entry st p name fm srv).2 = srv.1) := by
  unfold create_entry
  cases hd : vtfs_get_dir st.root_dir p with
  | none => exact ⟨rfl, by simp [ENOENT], by simp⟩
  | some dir =>
    simp only
    rw [if_pos ⟨hs, hsrv⟩]
    exact ⟨rfl, hsrv, fun _ => rfl⟩

/-- In remote mode, after a remote call that succeeded with ino `i`, a successful
`create_entry` has appended a record with ino `i` to the directory. -/
theorem create_entry_remote_ok (st : vtfs_fs_info) (hs : st.use_server = true) (p : Nat)
    (name : String) (fm i : Nat)
    (h : (create_entry st p name fm (0, i)).2 = 0) :
    ∃ dir, vtfs_get_dir st.root_dir p = some dir ∧
      vtfs_get_dir (create_entry st p name fm (0, i)).1.root_dir p =
        some (dir ++ [.mk i fm name (if S_ISDIR fm then some [] else none) NULL 0 1]) ∧
      (create_entry st p name fm (0, i)).1.next_ino =
        (if i ≥ st.next_ino then (i + 1) % 18446744073709551616 else st.next_ino) := by
  unfold create_entry at h ⊢
  cases hd : vtfs_get_dir st.root_dir p with
  | none => simp [hd, ENOENT] at h
  | some dir =>
    simp only [hd, hs, ne_eq, not_true_eq_false, and_false, if_false, if_true] at h ⊢
    cases hc : vtfs_create_file dir name fm i with
    | none =>
      rw [hc] at h
      simp only at h
      split at h <;> simp [EEXIST, ENOMEM] at h
    | some file =>
      obtain ⟨hfile, -, -⟩ := create_file_some hc
      refine ⟨dir, rfl, ?_, ?_⟩
      · simp only
        by_cases hge : i ≥ st.next_ino
        · simp only [hge, if_true]
          rw [get_dir_modify_dir _ _ p dir hd, hfile]
        · simp only [hge, if_false]
          rw [get_dir_modify_dir _ _ p dir hd, hfile]
      · simp only
        by_cases hge : i ≥ st.next_ino
        · simp only [hge, if_true]
        · simp only [hge, if_false]

/-- In remote mode, after a remote call that succeeded with ino `i`, `create_entry` in
a directory that resolves, for a name that is new in it and shorter than 256 bytes,
returns 0 and appends a record with ino `i` to the directory. -/
theorem create_entry_remote_new (st : vtfs_fs_info) (hs : st.use_server = true) (p : Nat)
    (name : String) (fm i : Nat) (dir : List vtfs_file)
    (hd : vtfs_get_dir st.root_dir p = some dir) (hfree : vtfs_find_file dir name = none)
    (hlen : strlen name < VTFS_MAX_NAME) :
    (create_entry st p name fm (0, i)).2 = 0 ∧
    vtfs_get_dir (create_entry st p name fm (0, i)).1.root_dir p =
      some (dir ++ [.mk i fm name (if S_ISDIR fm then some [] else none) NULL 0 1]) ∧
    (create_entry st p name fm (0, i)).1.next_ino =
      (if i ≥ st.next_ino then (i + 1) % 18446744073709551616 else st.next_ino) ∧
    (create_entry st p name fm (0, i)).1.mem = st.mem ∧
    (create_entry st p name fm (0, i)).1.use_server = true := by
  have hc : vtfs_create_file dir name fm i =
      some (.mk i fm name (if S_ISDIR fm then some [] else none) NULL 0 1) := by
    unfold vtfs_create_file
    rw [if_neg (by omega), hfree]
    rfl
  obtain ⟨rd, ni, us, m⟩ := st
  simp only at hs hd
  subst hs
  unfold create_entry
  simp only [hd, ne_eq, not_true_eq_false, and_false, if_false, if_true, hc]
  by_cases hge : i ≥ ni
  · simp only [hge, if_true, and_self, and_true, true_and]
    exact get_dir_modify_dir _ _ p dir hd
  · simp only [hge, if_false, and_self, and_true, true_and]
    exact get_dir_modify_dir _ _ p dir hd

theorem server_create_fail (ret : Int) (response : List Nat) (out : Nat)
    (h : ret < 8 ∨ status_loop response ≠ 0 ∨ sscanf_lu_u (cstr (response.drop 8)) = none) :
    vtfs_server_create_file ret response out = (- EIO, out) := by
  unfold vtfs_server_create_file
  by_cases h1 : ret < 0 ∨ ret < 8
  · rw [if_pos h1]
  · rw [if_neg h1]
    by_cases h2 : status_loop response ≠ 0
    · rw [if_pos h2]
    · rw [if_neg h2]
      rcases h with h | h | h
      · exact absurd (Or.inr h) h1
      · exact absurd h h2
      · rw [h]

theorem server_create_ok (ret : Int) (response : List Nat) (out i m : Nat)
    (h1 : 8 ≤ ret) (h2 : status_loop response = 0)
    (h3 : sscanf_lu_u (cstr (response.drop 8)) = some (i, m)) :
    vtfs_server_create_file ret response out = (0, i) := by
  unfold vtfs_server_create_file
  rw [if_neg (by omega), if_neg (by simp [h2]), h3]

theorem server_mkdir_fail (ret : Int) (response : List Nat) (out : Nat)
    (h : ret < 8 ∨ be64_to_cpu (load_int64 response) ≠ 0 ∨
      sscanf_lu_u (cstr (response.drop 8)) = none) :
    vtfs_server_mkdir ret response out = (- EIO, out) := by
  unfold vtfs_server_mkdir
  by_cases h1 : ret < 0 ∨ ret < 8
  · rw [if_pos h1]
  · rw [if_neg h1]
    by_cases h2 : be64_to_cpu (load_int64 response) ≠ 0
    · rw [if_pos h2]
    · rw [if_neg h2]
      rcases h with h | h | h
      · exact absurd (Or.inr h) h1
      · exact absurd h h2
      · rw [h]

theorem server_mkdir_ok (ret : Int) (response : List Nat) (out i m : Nat)
    (h1 : 8 ≤ ret) (h2 : be64_to_cpu (load_int64 response) = 0)
    (h3 : sscanf_lu_u (cstr (response.drop 8)) = some (i, m)) :
    vtfs_server_mkdir ret response out = (0, i) := by
  unfold vtfs_server_mkdir
  rw [if_neg (by omega), if_neg (by simp [h2]), h3]

/-- Claim C20. In remote mode, `ret` and `response` being what the remote call returned:
when the call failed or returned fewer than 8 bytes (`ret < 8`), or the status in the
first 8 bytes is not 0, or the payload does not parse as two numbers, `vtfs_create` and
`vtfs_mkdir` return an error and the state (tree, counter, heap) is the one before the
call.  When the call succeeded with ino `i`: in a directory that resolves, for a name
that is new in it and shorter than 256 bytes, `vtfs_create` and `vtfs_mkdir` return 0
and the directory is the old one followed by a record with ino `i`; and whenever they
return 0, they have appended to the directory a record with ino `i`. -/
theorem C20_remote_create_outcomes (st : vtfs_fs_info) (hs : st.use_server = true) (p : Nat)
    (name : String) (mode : Nat) (ret : Int) (response : List Nat) :
    ((ret < 8 ∨ status_loop response ≠ 0 ∨ sscanf_lu_u (cstr (response.drop 8)) = none) →
      (vtfs_create st p name mode (vtfs_server_create_file ret response 0)).1 = st ∧
      (vtfs_create st p name mode (vtfs_server_create_file ret response 0)).2 ≠ 0) ∧
    ((ret < 8 ∨ be64_to_cpu (load_int64 response) ≠ 0 ∨
        sscanf_lu_u (cstr (response.drop 8)) = none) →
      (vtfs_mkdir st p name mode (vtfs_server_mkdir ret response 0)).1 = st ∧
      (vtfs_mkdir st p name mode (vtfs_server_mkdir ret response 0)).2 ≠ 0) ∧
    (∀ i m, 8 ≤ ret → sscanf_lu_u (cstr (response.drop 8)) = some (i, m) →
      (status_loop response = 0 →
        vtfs_server_create_file ret response 0 = (0, i) ∧
        (∀ dir, vtfs_get_dir st.root_dir p = some dir → vtfs_find_file dir name = none →
          strlen name < VTFS_MAX_NAME →
          (vtfs_create st p name mode (vtfs_server_create_file ret response 0)).2 = 0 ∧
          vtfs_get_dir (vtfs_create st p name mode
              (vtfs_server_create_file ret response 0)).1.root_dir p =
            some (dir ++ [.mk i (create_mode mode) name none NULL 0 1])) ∧
        ((vtfs_create st p name mode (vtfs_server_create_file ret response 0)).2 = 0 →
          ∃ dir, vtfs_get_dir st.root_dir p = some dir ∧
            vtfs_get_dir (vtfs_create st p name mode
                (vtfs_server_create_file ret response 0)).1.root_dir p =
              some (dir ++ [.mk i (create_mode mode) name none NULL 0 1]))) ∧
      (be64_to_cpu (load_int64 response) = 0 →
        vtfs_server_mkdir ret response 0 = (0, i) ∧
        (∀ dir, vtfs_get_dir st.root_dir p = some dir → vtfs_find_file dir name = none →
          strlen name < VTFS_MAX_NAME →
          (vtfs_mkdir st p name mode (vtfs_server_mkdir ret response 0)).2 = 0 ∧
          vtfs_get_dir (vtfs_mkdir st p name mode
              (vtfs_server_mkdir ret response 0)).1.root_dir p =
            some (dir ++ [.mk i (mkdir_mode mode) name
              (if S_ISDIR (mkdir_mode mode) then some [] else none) NULL 0 1])) ∧
        ((vtfs_mkdir st p name mode (vtfs_server_mkdir ret response 0)).2 = 0 →
          ∃ dir, vtfs_get_dir st.root_dir p = some dir ∧
            vtfs_get_dir (vtfs_mkdir st p name mode
                (vtfs_server_mkdir ret response 0)).1.root_dir p =
              some (dir ++ [.mk i (mkdir_mode mode) name
                (if S_ISDIR (mkdir_mode mode) then some [] else none) NULL 0 1])))) := by
  refine ⟨?_, ?_, ?_⟩
  · intro h
    rw [server_create_fail ret response 0 h]
    obtain ⟨h1, h2, -⟩ := create_entry_remote_fail st hs p name (create_mode mode) (- EIO, 0)
      (by simp [ EIO])
    exact ⟨h1, h2⟩
  · intro h
    rw [server_mkdir_fail ret response 0 h]
    obtain ⟨h1, h2, -⟩ := create_entry_remote_fail st hs p name (mkdir_mode mode) (- EIO, 0)
      (by simp [ EIO])
    exact ⟨h1, h2⟩
  · intro i m h8 hscan
    constructor
    · intro hst
      rw [server_create_ok ret response 0 i m h8 hst hscan]
      refine ⟨rfl, ?_, ?_⟩
      · intro dir hd hfree hlen
        obtain ⟨hz, hg, -⟩ :=
          create_entry_remote_new st hs p name (create_mode mode) i dir hd hfree hlen
        refine ⟨hz, ?_⟩
        unfold vtfs_create
        rw [hg, S_ISDIR_create_mode]
        rfl
      · intro hz
        obtain ⟨dir, hd, hg, -⟩ := create_entry_remote_ok st hs p name (create_mode mode) i hz
        refine ⟨dir, hd, ?_⟩
        unfold vtfs_create
        rw [hg, S_ISDIR_create_mode]
        rfl
    · intro hst
      rw [server_mkdir_ok ret response 0 i m h8 hst hscan]
      refine ⟨rfl, ?_, ?_⟩
      · intro dir hd hfree hlen
        obtain ⟨hz, hg, -⟩ :=
          create_entry_remote_new st hs p name (mkdir_mode mode) i dir hd hfree hlen
        exact ⟨hz, hg⟩
      · intro hz
        obtain ⟨dir, hd, hg, -⟩ := create_entry_remote_ok st hs p name (mkdir_mode mode) i hz
        exact ⟨dir, hd, hg⟩

theorem C20_remote_create_outcomes_witness :
    (empty_mount true demo_mem).use_server = true ∧
    ((8 : Int) ≤ 16 ∧ sscanf_lu_u (cstr (reply_ok.drop 8)) = some (77, 33188) ∧
      status_loop reply_ok = 0 ∧ status_loop reply_status ≠ 0 ∧
      be64_to_cpu (load_int64 reply_ok) = 0) ∧
    (vtfs_get_dir (empty_mount true demo_mem).root_dir 100 = some [] ∧
      vtfs_find_file [] "x" = none ∧ strlen "x" < VTFS_MAX_NAME) ∧
    ((vtfs_create (empty_mount true demo_mem) 100 "x" 0o644
        (vtfs_server_create_file 16 reply_status 0)).1 = empty_mount true demo_mem ∧
      (vtfs_create (empty_mount true demo_mem) 100 "x" 0o644
        (vtfs_server_create_file 16 reply_status 0)).2 ≠ 0) ∧
    ((vtfs_create (empty_mount true demo_mem) 100 "x" 0o644
        (vtfs_server_create_file 16 reply_ok 0)).2 = 0 ∧
      vtfs_get_dir (vtfs_create (empty_mount true demo_mem) 100 "x" 0o644
          (vtfs_server_create_file 16 reply_ok 0)).1.root_dir 100 =
        some ([] ++ [.mk 77 (create_mode 0o644) "x" none NULL 0 1])) ∧
    ((vtfs_mkdir (empty_mount true demo_mem) 100 "x" 0o755
        (vtfs_server_mkdir 16 reply_ok 0)).2 = 0 ∧
      vtfs_get_dir (vtfs_mkdir (empty_mount true demo_mem) 100 "x" 0o755
          (vtfs_server_mkdir 16 reply_ok 0)).1.root_dir 100 =
        some ([] ++ [.mk 77 (mkdir_mode 0o755) "x"
          (if S_ISDIR (mkdir_mode 0o755) then some [] else none) NULL 0 1])) :=
  ⟨rfl, ⟨by decide, by decide, by decide, by decide, by decide⟩, ⟨by rfl, by rfl, by decide⟩,
    (C20_remote_create_outcomes (empty_mount true demo_mem) rfl 100 "x" 0o644 16
      reply_status).1 (Or.inr (Or.inl (by decide))),
    (((C20_remote_create_outcomes (empty_mount true demo_mem) rfl 100 "x" 0o644 16
      reply_ok).2.2 77 33188 (by decide) (by decide)).1 (by decide)).2.1 [] (by rfl) (by rfl)
      (by decide),
    (((C20_remote_create_outcomes (empty_mount true demo_mem) rfl 100 "x" 0o755 16
      reply_ok).2.2 77 33188 (by decide) (by decide)).2 (by decide)).2.1 [] (by rfl) (by rfl)
      (by decide)⟩

/-- In the states reached in local mode from an empty mount no record carries the root
ino, and (for fewer than `2^31 - 200` calls) the record of a directory is the only
record of its ino: the two conditions under which `vtfs_rmdir` makes an ino
unresolvable. -/
theorem reachable_dir_inos (mem : kmem) (cs : List host_call) (e : entry_info)
    (he : e ∈ all_entries (local_run (empty_mount false mem) cs).root_dir) :
    e.ino ≠ VTFS_ROOT_INO ∧
    (200 + cs.length ≤ 2147483648 → S_ISDIR e.mode = true →
      ino_count (all_entries (local_run (empty_mount false mem) cs).root_dir) e.ino = 1) := by
  have hr := local_run_range cs _ (empty_mount_range mem)
  refine ⟨?_, ?_⟩
  · have := (hr.2.2 e he).1
    unfold VTFS_ROOT_INO
    omega
  · intro hb hd
    exact (local_run_inv cs _ (empty_mount_inv mem) hb (by
      simp only [empty_mount, all_entries_nil, List.length_nil]; omega)).2.dir_single e he hd

/-! ## The remote push of a write -/

theorem write_store_mode (st : vtfs_fs_info) (b : Bool) (i : inode) (file : vtfs_file)
    (od nd ns : Nat) (m : kmem) :
    write_store { st with use_server := b } i file od nd ns m =
      ({ (write_store st i file od nd ns m).1 with use_server := b },
        (write_store st i file od nd ns m).2) := by
  unfold write_store
  by_cases h : od ≠ NULL ∧ od ≠ nd
  · simp only [h, ne_eq, not_false_eq_true, and_self, if_true, vtfs_get_file_by_inode]
    cases hf : vtfs_find_file_by_ino (vtfs_update_data_all st.root_dir i.i_ino od nd ns) i.i_ino with
    | none => rfl
    | some f1 =>
      simp only
      split <;> rfl
  · rw [if_neg h, if_neg h]

theorem write_grow_mode (st : vtfs_fs_info) (b : Bool) (i : inode) (file : vtfs_file)
    (off ns : Nat) :
    write_grow { st with use_server := b } i file off ns =
      (write_grow st i file off ns).map (fun r => ({ r.1 with use_server := b }, r.2)) := by
  unfold write_grow
  by_cases h : ns > file.data_size ∨ file.data = NULL
  · simp only [h, if_true]
    cases hk : st.mem.krealloc file.data ns with
    | none => rfl
    | some r =>
      obtain ⟨nd, m1⟩ := r
      simp only
      by_cases hn : nd = NULL
      · simp only [hn, if_true, Option.map_some']
      · simp only [hn, if_false]
        by_cases hz : file.data_size < off
        · simp only [hz, if_true]
          cases hs : m1.store nd file.data_size (List.replicate (off - file.data_size) 0) with
          | none => rfl
          | some m2 =>
            simp only [Option.map_some']
            rw [write_store_mode]
        · simp only [hz, if_false, Option.map_some']
          rw [write_store_mode]
  · simp only [h, if_false, Option.map_some']

/-- Claim C21. From the same tree, heap and counter, `vtfs_write` in remote mode, for
every `ret` and `response` the remote `write` call can give back (success, transport
failure, non-zero status), leaves the same return value, offset, tree and heap as the
same `vtfs_write` in local mode: the outcome of `vtfs_server_write_file` is not used. -/
theorem C21_write_ignores_push (st : vtfs_fs_info) (i : inode) (f_flags : Nat) (buf : List Nat)
    (offset : Nat) (ret : Int) (response : List Nat) :
    (vtfs_write { st with use_server := true } i f_flags buf offset
        (vtfs_server_write_file buf.length ret response)).map write_view =
      (vtfs_write { st with use_server := false } i f_flags buf offset 0).map write_view := by
  unfold vtfs_write
  simp only [vtfs_get_file_by_inode]
  cases hf : vtfs_find_file_by_ino st.root_dir i.i_ino with
  | none => rfl
  | some file0 =>
    simp only [write_grow_mode]
    cases hg : write_grow st i file0 (if f_flags &&& O_APPEND ≠ 0 then file0.data_size else offset)
        ((if f_flags &&& O_APPEND ≠ 0 then file0.data_size else offset) + buf.length) with
    | none => rfl
    | some r =>
      obtain ⟨st1, of⟩ := r
      cases of with
      | none => rfl
      | some file =>
        simp only [Option.map_some']
        by_cases hd : file.data = NULL
        · simp only [hd, if_true]
          rfl
        · simp only [hd, if_false]
          cases hs : st1.mem.store file.data
              (if f_flags &&& O_APPEND ≠ 0 then file0.data_size else offset) buf with
          | none => rfl
          | some m2 =>
            simp only [ite_self, Option.map_some']
            rfl

/-! ## The status of a response -/

theorem shl_or (a b : Nat) (hb : b < 256) : (a <<< 8) ||| b = a * 256 + b := by
  rw [Nat.shiftLeft_eq]
  have h := Nat.mul_add_lt_is_or (i := 8) (b := b) (by simpa using hb) a
  simp only [Nat.reducePow] at h ⊢
  rw [Nat.mul_comm a 256, ← h]

theorem range8 : List.range 8 = [0, 1, 2, 3, 4, 5, 6, 7] := by decide

/-- One step of the status loop does not wrap while fewer than eight bytes are in. -/
theorem status_step (acc b k : Nat) (hk : k < 8) (hacc : acc < 256 ^ k) (hb : b < 256) :
    ((acc <<< 8) ||| (b % 256)) % 18446744073709551616 = acc * 256 + b ∧
      acc * 256 + b < 256 ^ (k + 1) := by
  rw [Nat.mod_eq_of_lt hb, shl_or _ _ hb]
  have h1 : acc * 256 + b < 256 ^ (k + 1) := by
    rw [Nat.pow_succ]
    have : acc + 1 ≤ 256 ^ k := hacc
    nlinarith
  have h2 : 256 ^ (k + 1) ≤ 18446744073709551616 := by
    have : (18446744073709551616 : Nat) = 256 ^ 8 := by norm_num
    rw [this]
    exact Nat.pow_le_pow_right (by norm_num) (by omega)
  exact ⟨Nat.mod_eq_of_lt (lt_of_lt_of_le h1 h2), h1⟩

/-- The bytes of a little-endian value. -/
theorem le_digit (bs : List Nat) (hbs : ∀ b ∈ bs, b < 256) (i : Nat) :
    bs.foldr (fun b acc => acc * 256 + b) 0 / 256 ^ i % 256 = bs.getD i 0 := by
  induction bs generalizing i with
  | nil => simp
  | cons b bs ih =>
    have hb : b < 256 := hbs b (List.mem_cons_self _ _)
    have hbs1 : ∀ c ∈ bs, c < 256 := fun c hc => hbs c (List.mem_cons_of_mem _ hc)
    simp only [List.foldr]
    cases i with
    | zero =>
      simp only [Nat.pow_zero, Nat.div_one, List.getD_cons_zero]
      omega
    | succ j =>
      rw [List.getD_cons_succ, ← ih hbs1 j, Nat.pow_succ, Nat.mul_comm (256 ^ j) 256,
        ← Nat.div_div_eq_div_mul]
      congr 2
      omega

theorem status_explicit (b0 b1 b2 b3 b4 b5 b6 b7 : Nat) (rest : List Nat)
    (h0 : b0 < 256) (h1 : b1 < 256) (h2 : b2 < 256) (h3 : b3 < 256) (h4 : b4 < 256)
    (h5 : b5 < 256) (h6 : b6 < 256) (h7 : b7 < 256) :
    status_loop (b0 :: b1 :: b2 :: b3 :: b4 :: b5 :: b6 :: b7 :: rest) =
      big_endian [b0, b1, b2, b3, b4, b5, b6, b7] ∧
    be64_to_cpu (load_int64 (b0 :: b1 :: b2 :: b3 :: b4 :: b5 :: b6 :: b7 :: rest)) =
      big_endian [b0, b1, b2, b3, b4, b5, b6, b7] ∧
    (big_endian [b0, b1, b2, b3, b4, b5, b6, b7] = 0 ↔
      b0 = 0 ∧ b1 = 0 ∧ b2 = 0 ∧ b3 = 0 ∧ b4 = 0 ∧ b5 = 0 ∧ b6 = 0 ∧ b7 = 0) := by
  refine ⟨?_, ?_, ?_⟩
  · simp only [status_loop, range8, List.foldl, List.getD_cons_zero, List.getD_cons_succ,
      big_endian]
    obtain ⟨e0, l0⟩ := status_step 0 b0 0 (by omega) (by norm_num) h0
    obtain ⟨e1, l1⟩ := status_step _ b1 1 (by omega) l0 h1
    obtain ⟨e2, l2⟩ := status_step _ b2 2 (by omega) l1 h2
    obtain ⟨e3, l3⟩ := status_step _ b3 3 (by omega) l2 h3
    obtain ⟨e4, l4⟩ := status_step _ b4 4 (by omega) l3 h4
    obtain ⟨e5, l5⟩ := status_step _ b5 5 (by omega) l4 h5
    obtain ⟨e6, l6⟩ := status_step _ b6 6 (by omega) l5 h6
    obtain ⟨e7, -⟩ := status_step _ b7 7 (by omega) l6 h7
    rw [e0, e1, e2, e3, e4, e5, e6, e7]
  · have hl : load_int64 (b0 :: b1 :: b2 :: b3 :: b4 :: b5 :: b6 :: b7 :: rest) =
        [b0, b1, b2, b3, b4, b5, b6, b7].foldr (fun b acc => acc * 256 + b) 0 := by
      simp only [load_int64, range8, List.foldr, List.getD_cons_zero, List.getD_cons_succ,
        Nat.mod_eq_of_lt h0, Nat.mod_eq_of_lt h1,
        Nat.mod_eq_of_lt h2, Nat.mod_eq_of_lt h3, Nat.mod_eq_of_lt h4, Nat.mod_eq_of_lt h5,
        Nat.mod_eq_of_lt h6, Nat.mod_eq_of_lt h7]
    have hbs : ∀ b ∈ [b0, b1, b2, b3, b4, b5, b6, b7], b < 256 := by
      intro b hb
      simp only [List.mem_cons, List.mem_singleton, List.not_mem_nil, or_false] at hb
      rcases hb with h | h | h | h | h | h | h | h <;> (rw [h]; assumption)
    rw [hl]
    simp only [be64_to_cpu, range8, List.foldl, le_digit _ hbs, big_endian]
    simp only [List.getD_cons_zero, List.getD_cons_succ]
  · simp only [big_endian, List.foldl]
    omega


theorem status_bytes (response : List Nat) (hlen : 8 ≤ response.length)
    (hbytes : ∀ b ∈ response, b < 256) :
    status_loop response = big_endian (response.take 8) ∧
    be64_to_cpu (load_int64 response) = big_endian (response.take 8) ∧
    (big_endian (response.take 8) = 0 ↔ ∀ b ∈ response.take 8, b = 0) := by
  match response, hlen, hbytes with
  | b0 :: b1 :: b2 :: b3 :: b4 :: b5 :: b6 :: b7 :: rest, _, hbytes =>
    have h0 : b0 < 256 := hbytes b0 (by simp)
    have h1 : b1 < 256 := hbytes b1 (by simp)
    have h2 : b2 < 256 := hbytes b2 (by simp)
    have h3 : b3 < 256 := hbytes b3 (by simp)
    have h4 : b4 < 256 := hbytes b4 (by simp)
    have h5 : b5 < 256 := hbytes b5 (by simp)
    have h6 : b6 < 256 := hbytes b6 (by simp)
    have h7 : b7 < 256 := hbytes b7 (by simp)
    obtain ⟨e1, e2, e3⟩ := status_explicit b0 b1 b2 b3 b4 b5 b6 b7 rest h0 h1 h2 h3 h4 h5 h6 h7
    have ht : (b0 :: b1 :: b2 :: b3 :: b4 :: b5 :: b6 :: b7 :: rest).take 8 =
        [b0, b1, b2, b3, b4, b5, b6, b7] := by simp
    rw [ht]
    refine ⟨e1, e2, ?_⟩
    rw [e3]
    simp

/-- Claim C25. For a response of at least 8 bytes: the byte loop of
`vtfs_server_create_file` and the `be64_to_cpu` decoding of the other operations both
give the first 8 bytes read as a big-endian integer; that value is 0 exactly when all
8 bytes are 0; a non-zero value makes every `vtfs_server_*` function that made the call
return `-EIO`; and whenever one of them returns 0 after a call, all 8 bytes are 0. -/
theorem C25_status_is_big_endian (response : List Nat) (hlen : 8 ≤ response.length)
    (hbytes : ∀ b ∈ response, b < 256) (ret : Int) (len out : Nat)
    (srv : Nat → Int × List Nat) (depth : Nat) (st : vtfs_fs_info) (p : Nat)
    (hsrv : srv p = (ret, response)) :
    status_loop response = big_endian (response.take 8) ∧
    be64_to_cpu (load_int64 response) = big_endian (response.take 8) ∧
    (big_endian (response.take 8) = 0 ↔ ∀ b ∈ response.take 8, b = 0) ∧
    (big_endian (response.take 8) ≠ 0 →
      (vtfs_server_create_file ret response out).1 = - EIO ∧
      (vtfs_server_mkdir ret response out).1 = - EIO ∧
      (vtfs_server_link ret response out).1 = - EIO ∧
      vtfs_server_delete_file ret response = - EIO ∧
      vtfs_server_rmdir ret response = - EIO ∧
      vtfs_server_unlink ret response = - EIO ∧
      (0 < len → vtfs_server_write_file len ret response = - EIO) ∧
      (0 < len → (vtfs_server_read_file len ret response).1 = - EIO) ∧
      vtfs_server_load_files srv (depth + 1) st p = some (st, - EIO)) ∧
    (((vtfs_server_create_file ret response out).1 = 0 ∨
      (vtfs_server_mkdir ret response out).1 = 0 ∨
      (vtfs_server_link ret response out).1 = 0 ∨
      vtfs_server_delete_file ret response = 0 ∨
      vtfs_server_rmdir ret response = 0 ∨
      vtfs_server_unlink ret response = 0 ∨
      (0 < len ∧ vtfs_server_write_file len ret response = 0) ∨
      (0 < len ∧ (vtfs_server_read_file len ret response).1 = 0) ∨
      (vtfs_server_load_files srv (depth + 1) st p).map (fun r => r.2) = some 0) →
      ∀ b ∈ response.take 8, b = 0) := by
  obtain ⟨e1, e2, e3⟩ := status_bytes response hlen hbytes
  have hfail : big_endian (response.take 8) ≠ 0 →
      (vtfs_server_create_file ret response out).1 = - EIO ∧
      (vtfs_server_mkdir ret response out).1 = - EIO ∧
      (vtfs_server_link ret response out).1 = - EIO ∧
      vtfs_server_delete_file ret response = - EIO ∧
      vtfs_server_rmdir ret response = - EIO ∧
      vtfs_server_unlink ret response = - EIO ∧
      (0 < len → vtfs_server_write_file len ret response = - EIO) ∧
      (0 < len → (vtfs_server_read_file len ret response).1 = - EIO) ∧
      vtfs_server_load_files srv (depth + 1) st p = some (st, - EIO) := by
    intro hS
    refine ⟨?_, ?_, ?_, ?_, ?_, ?_, ?_, ?_, ?_⟩
    · unfold vtfs_server_create_file
      by_cases hr : ret < 0 ∨ ret < 8
      · simp [hr]
      · simp [hr, e1, hS]
    · unfold vtfs_server_mkdir
      by_cases hr : ret < 0 ∨ ret < 8
      · simp [hr]
      · simp [hr, e2, hS]
    · unfold vtfs_server_link
      by_cases hr : ret < 0 ∨ ret < 8
      · simp [hr]
      · simp [hr, e2, hS]
    · unfold vtfs_server_delete_file
      by_cases hr : ret < 0
      · simp [hr]
      · simp [hr, e2, hS]
    · unfold vtfs_server_rmdir
      by_cases hr : ret < 0
      · simp [hr]
      · simp [hr, e2, hS]
    · unfold vtfs_server_unlink
      by_cases hr : ret < 0
      · simp [hr]
      · simp [hr, e2, hS]
    · intro hl
      have hl0 : len ≠ 0 := by omega
      unfold vtfs_server_write_file
      by_cases hr : ret < 0
      · simp [hr, hl0]
      · simp [hr, e2, hS, hl0]
    · intro hl
      have hl0 : len ≠ 0 := by omega
      unfold vtfs_server_read_file
      by_cases hr : ret < 0
      · simp [hr, hl0]
      · simp [hr, e2, hS, hl0]
    · unfold vtfs_server_load_files
      rw [hsrv]
      by_cases hr : ret < 0
      · simp [hr]
      · simp [hr, e2, hS]
  refine ⟨e1, e2, e3, hfail, ?_⟩
  intro hok
  rw [← e3]
  by_contra hS
  obtain ⟨f1, f2, f3, f4, f5, f6, f7, f8, f9⟩ := hfail hS
  have hne : (- EIO : Int) ≠ 0 := by decide
  rcases hok with h | h | h | h | h | h | ⟨hl, h⟩ | ⟨hl, h⟩ | h
  · rw [f1] at h; exact hne h
  · rw [f2] at h; exact hne h
  · rw [f3] at h; exact hne h
  · rw [f4] at h; exact hne h
  · rw [f5] at h; exact hne h
  · rw [f6] at h; exact hne h
  · rw [f7 hl] at h; exact hne h
  · rw [f8 hl] at h; exact hne h
  · rw [f9] at h
    simp only [Option.map_some', Option.some.injEq] at h
    exact hne h

theorem C25_status_is_big_endian_witness :
    8 ≤ reply_status.length ∧ (∀ b ∈ reply_status, b < 256) ∧
    8 ≤ reply_ok.length ∧ (∀ b ∈ reply_ok, b < 256) ∧
    status_loop reply_status = big_endian (reply_status.take 8) ∧
    be64_to_cpu (load_int64 reply_status) = big_endian (reply_status.take 8) ∧
    (vtfs_server_create_file 17 reply_status 0).1 = - EIO ∧
    (vtfs_server_create_file 17 reply_ok 0).1 = 0 ∧
    (∀ b ∈ reply_ok.take 8, b = 0) :=
  ⟨by decide, by decide, by decide, by decide,
    (C25_status_is_big_endian reply_status (by decide) (by decide) 17 5 0
      (fun _ => (17, reply_status)) 0 (empty_mount true demo_mem) 100 rfl).1,
    (C25_status_is_big_endian reply_status (by decide) (by decide) 17 5 0
      (fun _ => (17, reply_status)) 0 (empty_mount true demo_mem) 100 rfl).2.1,
    ((C25_status_is_big_endian reply_status (by decide) (by decide) 17 5 0
      (fun _ => (17, reply_status)) 0 (empty_mount true demo_mem) 100 rfl).2.2.2.1
        (by decide)).1,
    by decide,
    (C25_status_is_big_endian reply_ok (by decide) (by decide) 17 5 0
      (fun _ => (17, reply_ok)) 0 (empty_mount true demo_mem) 100 rfl).2.2.2.2
        (Or.inl (by decide))⟩

/-! ## Reads that ask the remote store -/

/-- The bytes `vtfs_server_read_file` hands over are never more than were asked for. -/
theorem server_read_le (len : Nat) (ret : Int) (response : List Nat) :
    (vtfs_server_read_file len ret response).2.length ≤ len := by
  unfold vtfs_server_read_file
  by_cases h0 : len = 0
  · simp [h0]
  · by_cases h1 : ret < 0
    · simp [h0, h1]
    · by_cases h2 : be64_to_cpu (load_int64 response) = 0
      · simp only [h0, h1, h2, ne_eq, not_true_eq_false, if_false, List.length_take]
        split <;> omega
      · simp [h0, h1, h2]

/-- A successful `read` call with a response of at least 8 bytes: the reported length
is `min (ret - 8) len` and the bytes are those of the response from offset 8. -/
theorem server_read_ok (len : Nat) (ret : Int) (response : List Nat) (hlen : 0 < len)
    (hret : 8 ≤ ret) (hst : be64_to_cpu (load_int64 response) = 0)
    (hbuf : response.length = 8 + len + 1024) :
    vtfs_server_read_file len ret response =
      (0, (response.drop 8).take (min (ret - 8).toNat len)) ∧
    ((response.drop 8).take (min (ret - 8).toNat len)).length = min (ret - 8).toNat len := by
  unfold vtfs_server_read_file payload_len
  have h0 : len ≠ 0 := by omega
  have h1 : ¬ ret < 0 := by omega
  have h8 : ret ≥ 8 := hret
  simp only [h0, h1, hst, ne_eq, not_true_eq_false, if_false, h8, if_true]
  refine ⟨?_, ?_⟩
  · congr 2
    split <;> omega
  · rw [List.length_take, List.length_drop, hbuf]
    omega

/-- A `read` call that returns fewer than 8 bytes while the first 8 bytes of the buffer
are 0: the function reports the full requested length. -/
theorem server_read_short (len : Nat) (ret : Int) (response : List Nat) (hlen : 0 < len)
    (hlen2 : len < 18446744073709551608)
    (h0 : 0 ≤ ret) (hret : ret < 8) (hst : be64_to_cpu (load_int64 response) = 0)
    (hbuf : response.length = 8 + len + 1024) :
    vtfs_server_read_file len ret response = (0, (response.drop 8).take len) ∧
    ((response.drop 8).take len).length = len := by
  unfold vtfs_server_read_file payload_len
  have hl0 : len ≠ 0 := by omega
  have h1 : ¬ ret < 0 := by omega
  have h8 : ¬ ret ≥ 8 := by omega
  simp only [hl0, h1, hst, ne_eq, not_true_eq_false, if_false, h8]
  refine ⟨?_, ?_⟩
  · congr 2
    split <;> omega
  · rw [List.length_take, List.length_drop, hbuf]
    omega

set_option maxRecDepth 100000 in
/-- Claim C26, evaluated: a read of 4 bytes whose response carries no byte at all
(`ret = 0`), or 7 bytes, in a buffer whose first 8 bytes are 0: `vtfs_server_read_file`
returns 0 and reports 4 bytes, taken from the buffer behind offset 8, although the
response carries no byte behind its header.  With the same 7 bytes
`vtfs_server_create_file`, `vtfs_server_mkdir` and `vtfs_server_link` return `-EIO`. -/
theorem C26_short_response_reports_len :
    vtfs_server_read_file 4 0 (List.replicate 1036 0) = (0, [0, 0, 0, 0]) ∧
    vtfs_server_read_file 4 7 (List.replicate 1036 0) = (0, [0, 0, 0, 0]) ∧
    (vtfs_server_create_file 7 (List.replicate 256 0) 0).1 = - EIO ∧
    (vtfs_server_mkdir 7 (List.replicate 256 0) 0).1 = - EIO ∧
    (vtfs_server_link 7 (List.replicate 256 0) 0).1 = - EIO := by
  decide

theorem find_kfree_ne (m : kmem) (p q : Nat) (h : q ≠ p) : (m.kfree p).find q = m.find q := by
  unfold kmem.find kmem.kfree
  by_cases hq : q = ZERO_SIZE_PTR
  · simp [hq]
  · simp only [hq, if_false]
    exact lookup_filter_ne _ p q h

/-- A block that is allocated and freed again leaves every live block where it was. -/
theorem kmalloc_kfree_find (m : kmem) (n p : Nat) (blk : List Nat)
    (h : m.find p = some blk) :
    ((m.kmalloc n).2.kfree (m.kmalloc n).1).find p = some blk := by
  by_cases hp : p = ZERO_SIZE_PTR
  · subst hp
    rw [find_zero_size] at h
    rw [find_zero_size]
    exact h
  · rw [find_eq_lookup _ hp] at h
    have hne := fresh_addr_ne_live m h
    unfold kmem.kmalloc
    by_cases hn : n = 0
    · simp only [hn, if_true]
      rw [find_kfree_ne _ _ _ hp, find_eq_lookup _ hp]
      exact h
    · simp only [hn, if_false, kmem.alloc_block]
      rw [find_kfree_ne _ _ _ hne, find_eq_lookup _ hp]
      simp only [List.lookup_cons]
      have : (p == m.fresh_addr) = false := by simpa using hne
      rw [this]
      exact h

/-- The tail of `vtfs_read` once the fill block has run and left a record with a
buffer. -/
theorem read_after_fill (st st1 : vtfs_fs_info) (i : inode) (f0 f : vtfs_file)
    (blk : List Nat) (n o : Nat) (srv : Nat → Int × List Nat)
    (hf : vtfs_get_file_by_inode st i = some f0)
    (hfill : read_fill st i f0 n o srv = some (st1, f))
    (hdata : f.data ≠ NULL) (hfind : st1.mem.find f.data = some blk)
    (hsz : f.data_size ≤ blk.length) :
    ∃ r, vtfs_read st i n o srv = some r ∧ r.st = st1 ∧
      r.out = ((blk.take f.data_size).take (min (o + n) f.data_size)).drop o ∧
      r.ret = (r.out.length : Int) ∧ r.pos = o + r.out.length := by
  unfold vtfs_read
  simp only [hf, hfill, hdata, if_false]
  by_cases h1 : o ≥ f.data_size
  · simp only [h1, if_true]
    refine ⟨_, rfl, rfl, ?_, ?_⟩
    · simp only
      symm
      rw [List.drop_eq_nil_iff]
      simp only [List.length_take]
      omega
    · simp
  · simp only [h1, if_false]
    by_cases h2 : (if o + n > f.data_size then f.data_size - o else n) = 0
    · simp only [h2, if_true]
      have hn : n = 0 := by
        split at h2 <;> omega
      refine ⟨_, rfl, rfl, ?_, ?_⟩
      · simp only
        symm
        rw [List.drop_eq_nil_iff]
        simp only [List.length_take]
        omega
      · simp
    · simp only [h2, if_false]
      have hp : f.data ≠ ZERO_SIZE_PTR := by
        intro hp
        rw [hp, find_zero_size] at hfind
        cases hfind
        simp only [List.length_nil] at hsz
        omega
      rw [find_eq_lookup _ hp] at hfind
      have hle : o + (if o + n > f.data_size then f.data_size - o else n) ≤ blk.length := by
        split <;> omega
      simp only [kmem.load, h2, if_false, hfind, hle, if_true]
      have hout : List.take (if o + n > f.data_size then f.data_size - o else n)
          (List.drop o blk) =
          ((blk.take f.data_size).take (min (o + n) f.data_size)).drop o := by
        rw [List.take_take, List.drop_take]
        congr 1
        split <;> omega
      have hlen : (List.take (if o + n > f.data_size then f.data_size - o else n)
          (List.drop o blk)).length = (if o + n > f.data_size then f.data_size - o else n) := by
        rw [List.length_take, List.length_drop]
        split <;> omega
      refine ⟨_, rfl, rfl, hout, ?_, ?_⟩
      · simp only [hlen]
      · simp only [hlen]

/-- The tail of `vtfs_read` when the fill block has left a record without buffer. -/
theorem read_after_fill_null (st st1 : vtfs_fs_info) (i : inode) (f0 f : vtfs_file)
    (n o : Nat) (srv : Nat → Int × List Nat)
    (hf : vtfs_get_file_by_inode st i = some f0)
    (hfill : read_fill st i f0 n o srv = some (st1, f)) (hdata : f.data = NULL) :
    vtfs_read st i n o srv = some ⟨st1, 0, [], o⟩ := by
  unfold vtfs_read
  simp only [hf, hfill, hdata, if_true]

/-- The fill block when the remote read fails or hands over nothing: the record is
left as it was, and so is every live block. -/
theorem read_fill_keep (st : vtfs_fs_info) (i : inode) (f : vtfs_file) (n o : Nat)
    (srv : Nat → Int × List Nat)
    (hsrv : (srv (o + n)).1 ≠ 0 ∨ (srv (o + n)).2 = []) :
    ∃ m1, read_fill st i f n o srv = some ({ st with mem := m1 }, f) ∧
      ∀ p blk, st.mem.find p = some blk → m1.find p = some blk := by
  obtain ⟨rd, ni, us, m⟩ := st
  unfold read_fill
  simp only at hsrv ⊢
  by_cases hc : us = true ∧ (f.data = NULL ∨ o + n > f.data_size)
  · have hc2 : o + n > f.data_size ∨ f.data = NULL := by
      rcases hc.2 with h | h
      · exact Or.inr h
      · exact Or.inl h
    simp only [hc, hc2, and_self, if_true]
    by_cases ha : (m.kmalloc (o + n)).1 = NULL
    · simp only [ha, if_true]
      exact ⟨m, by simp [hc.1], fun p blk h => h⟩
    · simp only [ha, if_false]
      by_cases h1 : (srv (o + n)).1 = 0
      · have h2 : (srv (o + n)).2 = [] := by
          rcases hsrv with h | h
          · exact absurd h1 h
          · exact h
        simp only [h1, if_true, h2, kmem.store, List.length_nil, Nat.lt_irrefl, if_false]
        exact ⟨_, by simp [hc.1], fun p blk h => kmalloc_kfree_find m (o + n) p blk h⟩
      · simp only [h1, if_false]
        exact ⟨_, by simp [hc.1], fun p blk h => kmalloc_kfree_find m (o + n) p blk h⟩
  · rw [if_neg hc]
    exact ⟨m, rfl, fun p blk h => h⟩

/-- The fill block when the remote read hands over the bytes `R`: a fresh buffer
holds `R`, and the record the inode resolves to points to it with size `len(R)`. -/
theorem read_fill_ok (st : vtfs_fs_info) (hs : st.use_server = true) (i : inode)
    (f0 : vtfs_file) (n o : Nat) (srv : Nat → Int × List Nat) (R : List Nat)
    (hf : vtfs_get_file_by_inode st i = some f0)
    (hneed : f0.data = NULL ∨ o + n > f0.data_size)
    (hlive : f0.data = NULL ∨ ∃ blk, st.mem.find f0.data = some blk)
    (hsrv : srv (o + n) = (0, R)) (hR : R ≠ []) (hRl : R.length ≤ o + n) :
    ∃ st1 q blk f1, read_fill st i f0 n o srv = some (st1, f0.set_data q R.length) ∧
      q ≠ NULL ∧ st1.mem.find q = some blk ∧ R.length ≤ blk.length ∧
      blk.take R.length = R ∧
      vtfs_get_file_by_inode st1 i = some f1 ∧ f1.data = q ∧ f1.data_size = R.length ∧
      st1.use_server = true := by
  obtain ⟨rd, ni, us, m⟩ := st
  simp only at hs hlive
  subst hs
  have hf0 : vtfs_find_file_by_ino rd i.i_ino = some f0 := hf
  have hpos : 0 < R.length := List.length_pos.2 hR
  have hn0 : o + n ≠ 0 := by omega
  have hino := (find_mem hf0).2
  obtain ⟨f1, hf1, hinfo⟩ := find_after_modify rd i.i_ino f0
    (vtfs_file.set_data m.fresh_addr R.length) hf0
    (by rw [(set_data_info _ _ f0).2.1]; exact hino)
  have h1 := congrArg entry_info.data hinfo
  have h2 := congrArg entry_info.data_size hinfo
  simp only [(set_data_info _ _ f0).1, (info_data f1).1, (info_data f1).2.1] at h1 h2
  have hq : m.fresh_addr ≠ NULL := by
    have := fresh_addr_gt m
    unfold NULL
    omega
  have hq16 : m.fresh_addr ≠ ZERO_SIZE_PTR := by
    have := fresh_addr_gt m
    unfold ZERO_SIZE_PTR
    omega
  have hk1 : (m.kmalloc (o + n)).1 = m.fresh_addr := by
    unfold kmem.kmalloc kmem.alloc_block
    simp only [hn0, if_false]
  have hfind0 : (m.kmalloc (o + n)).2.find m.fresh_addr =
      some (List.replicate (o + n + m.slack (o + n)) m.junk) := by
    rw [find_eq_lookup _ hq16]
    unfold kmem.kmalloc kmem.alloc_block
    simp [hn0, List.lookup_cons]
  have hlen0 : 0 + R.length ≤
      (List.replicate (o + n + m.slack (o + n)) m.junk).length := by
    simp only [List.length_replicate]
    omega
  obtain ⟨m2, hst, hfind2⟩ := store_find _ _ 0 R _ hfind0 hlen0
  have hne : f0.data ≠ NULL → f0.data ≠ m.fresh_addr := by
    intro hd
    rcases hlive with h | ⟨blk, h⟩
    · exact absurd h hd
    · by_cases h16 : f0.data = ZERO_SIZE_PTR
      · rw [h16]; exact fun h => hq16 h.symm
      · rw [find_eq_lookup _ h16] at h
        exact fresh_addr_ne_live m h
  have hfind3 : (if f0.data ≠ NULL then m2.kfree f0.data else m2).find m.fresh_addr =
      some (patch (List.replicate (o + n + m.slack (o + n)) m.junk) 0 R) := by
    by_cases hd : f0.data = NULL
    · simp only [hd, ne_eq, not_true_eq_false, if_false]
      exact hfind2
    · simp only [hd, ne_eq, not_false_eq_true, if_true]
      rw [find_kfree_ne _ _ _ (fun h => hne hd h.symm)]
      exact hfind2
  have hc2 : o + n > f0.data_size ∨ f0.data = NULL := by
    rcases hneed with h | h
    · exact Or.inr h
    · exact Or.inl h
  refine ⟨⟨(modify_file_by_ino (vtfs_file.set_data m.fresh_addr R.length) rd i.i_ino).getD rd,
      ni, true, if f0.data ≠ NULL then m2.kfree f0.data else m2⟩,
    m.fresh_addr, _, f1, ?_, hq, hfind3, ?_, ?_, hf1, h1, h2, rfl⟩
  · unfold read_fill
    simp only [hneed, hc2, and_self, if_true, hk1, hq, if_false, hsrv, hst, hpos]
  · rw [length_patch _ _ _ hlen0]
    simpa using hlen0
  · have := patch_read_back _ 0 R hlen0
    simpa using this

/-- A `read` call that fails or answers with a non-zero status hands nothing over. -/
theorem remote_read_fail (http : Nat → Int × List Nat) (k : Nat)
    (hfail : (http k).1 < 0 ∨ be64_to_cpu (load_int64 (http k).2) ≠ 0) :
    (remote_read http k).1 ≠ 0 ∨ (remote_read http k).2 = [] := by
  unfold remote_read vtfs_server_read_file
  by_cases h0 : k = 0
  · simp [h0]
  · by_cases h1 : (http k).1 < 0
    · simp [h0, h1]
    · rcases hfail with h | h
      · exact absurd h h1
      · simp [h0, h1, h]

/-- Claim C22, amended. When the record has no buffer or a live one, and the remote
`read` call that a fill would make fails or answers with a non-zero status, `vtfs_read`
does not return an error: it returns the number of bytes it serves from what is
cached (none without a buffer, otherwise the cached bytes `[o, min(o + n, size))`),
advances the offset by that number, and leaves the tree as it was. -/
theorem C22_failed_fill_not_reported (st : vtfs_fs_info) (i : inode) (f : vtfs_file)
    (n o : Nat) (http : Nat → Int × List Nat)
    (hf : vtfs_get_file_by_inode st i = some f)
    (hlive : f.data = NULL ∨
      ∃ blk, st.mem.find f.data = some blk ∧ f.data_size ≤ blk.length)
    (hfail : (http (o + n)).1 < 0 ∨ be64_to_cpu (load_int64 (http (o + n)).2) ≠ 0) :
    ∃ r, vtfs_read st i n o (remote_read http) = some r ∧
      0 ≤ r.ret ∧ r.ret = (r.out.length : Int) ∧ r.pos = o + r.out.length ∧
      r.st.root_dir = st.root_dir ∧
      (f.data = NULL → r.out = []) ∧
      (∀ blk, f.data ≠ NULL → st.mem.find f.data = some blk →
        r.out = ((blk.take f.data_size).take (min (o + n) f.data_size)).drop o) := by
  obtain ⟨m1, hfill, hkeep⟩ := read_fill_keep st i f n o (remote_read http)
    (remote_read_fail http (o + n) hfail)
  by_cases hd : f.data = NULL
  · refine ⟨_, read_after_fill_null st _ i f f n o _ hf hfill hd, ?_, ?_, ?_, rfl, ?_, ?_⟩
    · simp
    · simp
    · simp
    · intro _; rfl
    · intro blk h; exact absurd hd h
  · rcases hlive with h | ⟨blk, hfind, hsz⟩
    · exact absurd h hd
    · obtain ⟨r, hr, hst, hout, hret, hpos⟩ :=
        read_after_fill st _ i f f blk n o _ hf hfill hd (hkeep _ _ hfind) hsz
      refine ⟨r, hr, ?_, hret, hpos, by rw [hst], fun h => absurd h hd, ?_⟩
      · rw [hret]; exact Int.natCast_nonneg _
      · intro blk1 _ hfind1
        rw [hfind] at hfind1
        cases hfind1
        exact hout

/-- Claim C24. In remote mode, when `vtfs_read` of `n` bytes at offset `o` finds no
buffer or `o + n` greater than the cached size, and the remote read succeeds with the
non-empty content `R`: `R` has at most `o + n` bytes, the record the inode resolves
to ends with a buffer that holds exactly `R` and with size `len(R)`, and `vtfs_read`
returns exactly `R[o .. min(o + n, len(R)))`, their number, and the offset advanced
by it.  When `o + n` is within a cached buffer the result does not depend on the
remote store: no call is made. -/
theorem C24_read_fills_from_remote (st : vtfs_fs_info) (hs : st.use_server = true)
    (i : inode) (f : vtfs_file) (n o : Nat) (http : Nat → Int × List Nat)
    (hf : vtfs_get_file_by_inode st i = some f)
    (hlive : f.data = NULL ∨ ∃ blk, st.mem.find f.data = some blk) :
    (∀ R, (f.data = NULL ∨ o + n > f.data_size) → remote_read http (o + n) = (0, R) →
      R ≠ [] →
      R.length ≤ o + n ∧
      ∃ r f1, vtfs_read st i n o (remote_read http) = some r ∧
        vtfs_get_file_by_inode r.st i = some f1 ∧ f1.data_size = R.length ∧
        file_content r.st.mem f1 = some R ∧
        r.out = (R.take (min (o + n) R.length)).drop o ∧
        r.ret = (r.out.length : Int) ∧ r.pos = o + r.out.length) ∧
    ((f.data ≠ NULL ∧ o + n ≤ f.data_size) →
      ∀ srv srv1 : Nat → Int × List Nat, vtfs_read st i n o srv = vtfs_read st i n o srv1) := by
  refine ⟨?_, ?_⟩
  · intro R hneed hsrv hR
    have hRl : R.length ≤ o + n := by
      have := server_read_le (o + n) (http (o + n)).1 (http (o + n)).2
      unfold remote_read at hsrv
      rw [hsrv] at this
      exact this
    refine ⟨hRl, ?_⟩
    obtain ⟨st1, q, blk, f1, hfill, hq, hfind, hlen, htake, hf1, hd1, hs1, -⟩ :=
      read_fill_ok st hs i f n o (remote_read http) R hf hneed hlive hsrv hR hRl
    have hdq : (f.set_data q R.length).data = q := (set_data_info q R.length f).2.2.1
    have hsq : (f.set_data q R.length).data_size = R.length := (set_data_info q R.length f).2.2.2.1
    obtain ⟨r, hr, hst, hout, hret, hpos⟩ :=
      read_after_fill st st1 i f (f.set_data q R.length) blk n o (remote_read http) hf hfill
        (by rw [hdq]; exact hq) (by rw [hdq]; exact hfind) (by rw [hsq]; exact hlen)
    refine ⟨r, f1, hr, by rw [hst]; exact hf1, hs1, ?_, ?_, hret, hpos⟩
    · rw [hst, content_of_block (by rw [hd1]; exact hq) (by rw [hd1]; exact hfind)
        (by rw [hs1]; exact hlen), hs1, htake]
    · rw [hout, hsq, htake]
  · intro hc srv srv1
    have hno : ¬ (f.data = NULL ∨ o + n > f.data_size) := by
      intro h
      rcases h with h | h
      · exact hc.1 h
      · omega
    unfold vtfs_read read_fill
    simp only [hf, hno, and_false, if_false]

/-- Claim C23, amended. After a `vtfs_write` of `B` at offset `o` (whatever the
outcome `push` of the remote push), the file has size `max(size, o + len(B))`, and
every `vtfs_read` that covers `[o, o + len(B))` returns `B` at those positions,
whatever the remote store answers, provided the read ends at or before the size of
the file (then it also leaves the state as it is, so this holds for every later such
read) or the remote read it triggers fails or hands over nothing. -/
theorem C23_local_write_kept (st : vtfs_fs_info) (i : inode) (f : vtfs_file)
    (D : List Nat) (flags : Nat) (B : List Nat) (o : Nat) (push : Int)
    (hf : vtfs_get_file_by_inode st i = some f) (hD : file_content st.mem f = some D)
    (happ : flags &&& O_APPEND = 0) :
    ∃ r f1, vtfs_write st i flags B o push = some r ∧ r.ret = (B.length : Int) ∧
      vtfs_get_file_by_inode r.st i = some f1 ∧
      f1.data_size = max D.length (o + B.length) ∧
      ∀ (o1 n1 : Nat) (srv : Nat → Int × List Nat), o1 ≤ o → o + B.length ≤ o1 + n1 →
        (o1 + n1 ≤ f1.data_size ∨ (srv (o1 + n1)).1 ≠ 0 ∨ (srv (o1 + n1)).2 = []) →
        ∃ r2, vtfs_read r.st i n1 o1 srv = some r2 ∧
          (o1 + n1 ≤ f1.data_size → r2.st = r.st) ∧
          r2.st.root_dir = r.st.root_dir ∧
          ∀ j, j < B.length → r2.out[o - o1 + j]? = B[j]? := by
  obtain ⟨hlen, hc⟩ := content_cases hD
  have hz : f.data = NULL → f.data_size = 0 := by
    intro hn
    rcases hc with ⟨-, hs, -⟩ | ⟨hd, -⟩
    · exact hs
    · exact absurd hn hd
  obtain ⟨base, hbase⟩ : ∃ base, (f.data = NULL ∧ base = []) ∨
      (f.data ≠ NULL ∧ st.mem.find f.data = some base ∧ f.data_size ≤ base.length) := by
    rcases hc with ⟨hd, -, -⟩ | ⟨hd, blk, hfind, hsz, -⟩
    · exact ⟨[], Or.inl ⟨hd, rfl⟩⟩
    · exact ⟨blk, Or.inr ⟨hd, hfind, hsz⟩⟩
  obtain ⟨r, f1, blk1, hw, hret, -, -, -, hf1, hd1, hfind1, hsz1, hle, hback, hcont⟩ :=
    write_spec st i f base flags B o hf hbase happ push
  refine ⟨r, f1, hw, hret, hf1, by rw [(hcont hz).1, hlen], ?_⟩
  intro o1 n1 srv ho1 hcov hkeep
  have hbyte : ∀ j, j < B.length →
      (((blk1.take f1.data_size).take (min (o1 + n1) f1.data_size)).drop o1)[o - o1 + j]? =
        B[j]? := by
    intro j hj
    have hB : B[j]? = ((blk1.drop o).take B.length)[j]? := by rw [hback]
    rw [hB, List.getElem?_drop, List.take_take, List.getElem?_take_of_lt (by omega),
      List.getElem?_take_of_lt hj, List.getElem?_drop]
    congr 1
    omega
  by_cases hin : o1 + n1 ≤ f1.data_size
  · obtain ⟨r2, hr2, hst2, hout, -, -⟩ :=
      read_spec r.st i f1 blk1 n1 o1 srv hf1 hd1 hfind1 hsz1 (Or.inr hin)
    refine ⟨r2, hr2, fun _ => hst2, by rw [hst2], ?_⟩
    rw [hout]
    exact hbyte
  · have hk : (srv (o1 + n1)).1 ≠ 0 ∨ (srv (o1 + n1)).2 = [] := by
      rcases hkeep with h | h
      · exact absurd h hin
      · exact h
    obtain ⟨m1, hfill, hlive⟩ := read_fill_keep r.st i f1 n1 o1 srv hk
    obtain ⟨r2, hr2, hst2, hout, -, -⟩ :=
      read_after_fill r.st _ i f1 f1 blk1 n1 o1 srv hf1 hfill hd1 (hlive _ _ hfind1) hsz1
    refine ⟨r2, hr2, fun h => absurd h hin, by rw [hst2], ?_⟩
    rw [hout]
    exact hbyte

theorem C22_failed_fill_not_reported_witness :
    vtfs_get_file_by_inode remote_written remote_ino = some remote_hello ∧
    ((http_down (0 + 10)).1 < 0 ∨ be64_to_cpu (load_int64 (http_down (0 + 10)).2) ≠ 0) ∧
    ∃ r, vtfs_read remote_written remote_ino 10 0 (remote_read http_down) = some r ∧
      0 ≤ r.ret ∧ r.ret = (r.out.length : Int) ∧ r.pos = 0 + r.out.length ∧
      r.st.root_dir = remote_written.root_dir ∧
      (remote_hello.data = NULL → r.out = []) ∧
      (∀ blk, remote_hello.data ≠ NULL → remote_written.mem.find remote_hello.data = some blk →
        r.out = ((blk.take remote_hello.data_size).take
          (min (0 + 10) remote_hello.data_size)).drop 0) :=
  ⟨by rfl, Or.inl (by decide),
    C22_failed_fill_not_reported remote_written remote_ino remote_hello 10 0 http_down (by rfl)
      (Or.inr ⟨hello, by decide, by decide⟩) (Or.inl (by decide))⟩

/-- Claim C22, as stated, evaluated in remote mode with a remote store that is down:
on the file without buffer a read of 5 bytes at 0 needs a fill, the remote read
returns `-EIO`, and `vtfs_read` returns 0; on the file that caches "hello" a read of
10 bytes at 0 needs a fill, the remote read fails, and `vtfs_read` returns the byte
count 5 with "hello".  Neither call returns an error. -/
theorem C22_read_after_failed_fill :
    remote_file.use_server = true ∧
    (vtfs_get_file_by_inode remote_file remote_ino).map (fun f => f.data) = some NULL ∧
    (remote_read http_down (0 + 5)).1 = - EIO ∧
    (vtfs_read remote_file remote_ino 5 0 (remote_read http_down)).map
      (fun r => (r.ret, r.out)) = some (0, []) ∧
    (vtfs_get_file_by_inode remote_written remote_ino).map (fun f => f.data_size) = some 5 ∧
    (vtfs_read remote_written remote_ino 10 0 (remote_read http_down)).map
      (fun r => (r.ret, r.out)) = some (5, hello) := by
  decide

theorem C23_local_write_kept_witness :
    vtfs_get_file_by_inode remote_file remote_ino = some remote_record ∧
    file_content remote_file.mem remote_record = some [] ∧
    (0 &&& O_APPEND = 0) ∧
    ∃ r f1, vtfs_write remote_file remote_ino 0 hello 0 (- EIO) = some r ∧
      r.ret = (hello.length : Int) ∧
      vtfs_get_file_by_inode r.st remote_ino = some f1 ∧
      f1.data_size = max ([] : List Nat).length (0 + hello.length) ∧
      ∀ (o1 n1 : Nat) (srv : Nat → Int × List Nat), o1 ≤ 0 → 0 + hello.length ≤ o1 + n1 →
        (o1 + n1 ≤ f1.data_size ∨ (srv (o1 + n1)).1 ≠ 0 ∨ (srv (o1 + n1)).2 = []) →
        ∃ r2, vtfs_read r.st remote_ino n1 o1 srv = some r2 ∧
          (o1 + n1 ≤ f1.data_size → r2.st = r.st) ∧
          r2.st.root_dir = r.st.root_dir ∧
          ∀ j, j < hello.length → r2.out[0 - o1 + j]? = hello[j]? :=
  ⟨by rfl, by decide, by decide,
    C23_local_write_kept remote_file remote_ino remote_record [] 0 hello 0 (- EIO) (by rfl)
      (by decide) (by decide)⟩

/-- Claim C23, as stated, evaluated: in remote mode "hello" is written at offset 0 and
the remote push fails (`vtfs_write` returns 5).  A read of 5 bytes at 0 returns
"hello"; a read of 10 bytes at 0 reaches past the size 5, asks the remote store, which
answers "HELLOWORLD", and returns those bytes: at the positions `[0, 5)` it does not
return the bytes that were written. -/
theorem C23_read_past_size_refetches :
    remote_file.use_server = true ∧
    vtfs_server_write_file 5 (-1) [] = - EIO ∧
    (vtfs_write remote_file remote_ino 0 hello 0 (vtfs_server_write_file 5 (-1) [])).map
      (fun r => r.ret) = some 5 ∧
    (vtfs_read remote_unpushed remote_ino 5 0 (remote_read http_other)).map (fun r => r.out)
      = some hello ∧
    (vtfs_read remote_unpushed remote_ino 10 0 (remote_read http_other)).map (fun r => r.out)
      = some [72, 69, 76, 76, 79, 87, 79, 82, 76, 68] ∧
    ([72, 69, 76, 76, 79, 87, 79, 82, 76, 68] : List Nat).take 5 ≠ hello := by
  decide

theorem C24_read_fills_from_remote_witness :
    remote_file.use_server = true ∧
    vtfs_get_file_by_inode remote_file remote_ino = some remote_record ∧
    (remote_record.data = NULL ∨ 0 + 5 > remote_record.data_size) ∧
    remote_read http_hello (0 + 5) = (0, hello) ∧ hello ≠ [] ∧
    (hello.length ≤ 0 + 5 ∧
      ∃ r f1, vtfs_read remote_file remote_ino 5 0 (remote_read http_hello) = some r ∧
        vtfs_get_file_by_inode r.st remote_ino = some f1 ∧ f1.data_size = hello.length ∧
        file_content r.st.mem f1 = some hello ∧
        r.out = (hello.take (min (0 + 5) hello.length)).drop 0 ∧
        r.ret = (r.out.length : Int) ∧ r.pos = 0 + r.out.length) ∧
    vtfs_get_file_by_inode remote_written remote_ino = some remote_hello ∧
    (remote_hello.data ≠ NULL ∧ 1 + 3 ≤ remote_hello.data_size) ∧
    (∀ srv srv1 : Nat → Int × List Nat,
      vtfs_read remote_written remote_ino 3 1 srv = vtfs_read remote_written remote_ino 3 1 srv1) :=
  ⟨by decide, by rfl, Or.inl (by decide), by decide, by decide,
    (C24_read_fills_from_remote remote_file (by decide) remote_ino remote_record 5 0 http_hello
      (by rfl) (Or.inl (by decide))).1 hello (Or.inl (by decide)) (by decide) (by decide),
    by rfl, ⟨by decide, by decide⟩,
    (C24_read_fills_from_remote remote_written (by decide) remote_ino remote_hello 3 1 http_hello
      (by rfl) (Or.inr ⟨hello, by decide⟩)).2 ⟨by decide, by decide⟩⟩

/-! ## Parsing well-formed payloads -/

theorem scan_digits_append (ds : List Nat) (hds : ∀ c ∈ ds, isdigit c = true)
    (rest : List Nat) (hrest : ∀ c, rest.head? = some c → isdigit c = false) (acc : Nat) :
    scan_digits (ds ++ rest) acc =
      (ds.foldl (fun a c => (a * 10 + (c - 48)) % 18446744073709551616) acc, rest) := by
  induction ds generalizing acc with
  | nil =>
    cases rest with
    | nil => rfl
    | cons c cs =>
      have := hrest c rfl
      simp [scan_digits, this]
  | cons d ds ih =>
    have hd := hds d (List.mem_cons_self _ _)
    simp only [List.cons_append, scan_digits, hd, if_true, List.foldl_cons]
    exact ih (fun c hc => hds c (List.mem_cons_of_mem _ hc)) _

theorem dec_fold_ge (ds : List Nat) (acc : Nat) :
    acc ≤ ds.foldl (fun a c => a * 10 + (c - 48)) acc := by
  induction ds generalizing acc with
  | nil => exact Nat.le_refl _
  | cons d ds ih =>
    simp only [List.foldl_cons]
    exact le_trans (by omega) (ih _)

theorem dec_fold_mod (ds : List Nat) (acc : Nat)
    (h : ds.foldl (fun a c => a * 10 + (c - 48)) acc < 18446744073709551616) :
    ds.foldl (fun a c => (a * 10 + (c - 48)) % 18446744073709551616) acc =
      ds.foldl (fun a c => a * 10 + (c - 48)) acc := by
  induction ds generalizing acc with
  | nil => rfl
  | cons d ds ih =>
    simp only [List.foldl_cons] at h ⊢
    have h1 := dec_fold_ge ds (acc * 10 + (d - 48))
    rw [Nat.mod_eq_of_lt (lt_of_le_of_lt h1 h)]
    exact ih _ h

theorem isdigit_not_space (c : Nat) (h : isdigit c = true) : isspace c = false := by
  unfold isdigit at h
  unfold isspace
  simp only [Bool.and_eq_true, decide_eq_true_eq] at h
  have h1 : ¬ c ≤ 13 := by omega
  have h2 : c ≠ 32 := by omega
  have h3 : c ≠ 160 := by omega
  simp [h1, h2, h3]

/-- The conversions `%lu` and `%u` on a numeral followed by something that is not a
digit. -/
theorem scan_unsigned_numeral (ds : List Nat) (bound : Nat) (hn : numeral ds bound)
    (hb : bound ≤ 18446744073709551616)
    (rest : List Nat) (hrest : ∀ c, rest.head? = some c → isdigit c = false) :
    scan_unsigned (ds ++ rest) = some (dec_value ds, rest) := by
  obtain ⟨hne, hds, hlt⟩ := hn
  cases ds with
  | nil => exact absurd rfl hne
  | cons d ds1 =>
    have hd := hds d (List.mem_cons_self _ _)
    have hsp := isdigit_not_space d hd
    have := scan_digits_append (d :: ds1) hds rest hrest 0
    rw [dec_fold_mod _ _ (lt_of_lt_of_le hlt hb)] at this
    rw [List.cons_append] at this ⊢
    simp only [scan_unsigned, skip_spaces, hsp, Bool.false_eq_true, if_false, hd, if_true,
      this, dec_value]

/-- The call `sscanf(str, "%lu,%u", ...)` on the payload `"<a>,<b>"`. -/
theorem sscanf_lu_u_numerals (da db : List Nat) (ha : numeral da 18446744073709551616)
    (hb : numeral db 4294967296) :
    sscanf_lu_u (da ++ 44 :: db) = some (dec_value da, dec_value db) := by
  have h1 := scan_unsigned_numeral da _ ha (Nat.le_refl _) (44 :: db)
    (by intro c hc; simp only [List.head?_cons, Option.some.injEq] at hc; subst hc; decide)
  have h2 := scan_unsigned_numeral db _ hb (by norm_num) []
    (by intro c hc; simp at hc)
  rw [List.append_nil] at h2
  unfold sscanf_lu_u
  rw [h1]
  simp only [h2]
  rw [Nat.mod_eq_of_lt hb.2.2]

/-- Claim C27. In remote mode, when the local part of `vtfs_link` succeeds (the source
is not a directory and resolves to a record, the target directory resolves, the name
is free): if the remote call returns at least 8 bytes with status 0 and the payload
`"<ino>,<nlink>"` (two decimal numerals that fit their C types), `vtfs_link` returns 0
and every record of the tree with the ino of the file, the new one among them, ends
with `nlink` equal to the remote value; if `vtfs_server_link` fails, `vtfs_link` still
returns 0 and every such record carries the locally incremented count, `file->nlink++`
on the `unsigned int` (`nlink_inc`: the old count plus 1, and 0 after 4294967295). -/
theorem C27_link_adopts_remote_nlink (st : vtfs_fs_info) (hs : st.use_server = true)
    (i : inode) (p : Nat) (name : String) (file : vtfs_file) (dir : List vtfs_file)
    (hnd : S_ISDIR i.i_mode = false) (hf : vtfs_get_file_by_inode st i = some file)
    (hdir : vtfs_get_dir st.root_dir p = some dir) (hfree : vtfs_find_file dir name = none)
    (ret : Int) (response : List Nat) (out : Nat) :
    (∀ da db, 8 ≤ ret → be64_to_cpu (load_int64 response) = 0 →
      cstr (response.drop 8) = da ++ 44 :: db →
      numeral da 18446744073709551616 → numeral db 4294967296 →
      (vtfs_link st (some i) p name (vtfs_server_link ret response out)).2 = 0 ∧
      (∀ e ∈ all_entries (vtfs_link st (some i) p name
          (vtfs_server_link ret response out)).1.root_dir,
        e.ino = i.i_ino → e.nlink = dec_value db) ∧
      ∃ e ∈ all_entries (vtfs_link st (some i) p name
          (vtfs_server_link ret response out)).1.root_dir,
        e.ino = i.i_ino ∧ e.name = strncpy_name name) ∧
    ((vtfs_server_link ret response out).1 ≠ 0 →
      (vtfs_link st (some i) p name (vtfs_server_link ret response out)).2 = 0 ∧
      (∀ e ∈ all_entries (vtfs_link st (some i) p name
          (vtfs_server_link ret response out)).1.root_dir,
        e.ino = i.i_ino → e.nlink = nlink_inc file.nlink) ∧
      ∃ e ∈ all_entries (vtfs_link st (some i) p name
          (vtfs_server_link ret response out)).1.root_dir,
        e.ino = i.i_ino ∧ e.name = strncpy_name name) := by
  obtain ⟨hz, k, hk, h1, h2⟩ := link_result st i p name file dir
    (vtfs_server_link ret response out) hnd hf hdir hfree
  refine ⟨?_, ?_⟩
  · intro da db hret hstatus hpay hda hdb
    have hsrv : vtfs_server_link ret response out = (0, dec_value db) := by
      unfold vtfs_server_link
      rw [if_neg (by omega), if_neg (by simp [hstatus]), hpay, sscanf_lu_u_numerals da db hda hdb]
    rw [hsrv] at hk hz h1 h2 ⊢
    simp only [hs, and_self, if_true] at hk
    subst hk
    exact ⟨hz, h1, h2⟩
  · intro hfail
    simp only [hfail, and_false, if_false] at hk
    subst hk
    exact ⟨hz, h1, h2⟩

theorem C27_link_adopts_remote_nlink_witness :
    remote_file.use_server = true ∧ S_ISDIR remote_ino.i_mode = false ∧
    vtfs_get_file_by_inode remote_file remote_ino = some remote_record ∧
    vtfs_get_dir remote_file.root_dir 100 = some [remote_record] ∧
    vtfs_find_file [remote_record] "y" = none ∧
    ((8 : Int) ≤ 11 ∧ be64_to_cpu (load_int64 reply_link) = 0 ∧
      cstr (reply_link.drop 8) = [53] ++ 44 :: [55] ∧
      numeral [53] 18446744073709551616 ∧ numeral [55] 4294967296 ∧ dec_value [55] = 7) ∧
    ((vtfs_link remote_file (some remote_ino) 100 "y" (vtfs_server_link 11 reply_link 0)).2 = 0 ∧
      (∀ e ∈ all_entries (vtfs_link remote_file (some remote_ino) 100 "y"
          (vtfs_server_link 11 reply_link 0)).1.root_dir,
        e.ino = remote_ino.i_ino → e.nlink = dec_value [55]) ∧
      ∃ e ∈ all_entries (vtfs_link remote_file (some remote_ino) 100 "y"
          (vtfs_server_link 11 reply_link 0)).1.root_dir,
        e.ino = remote_ino.i_ino ∧ e.name = strncpy_name "y") ∧
    (vtfs_server_link 17 reply_status 0).1 ≠ 0 ∧
    ((vtfs_link remote_file (some remote_ino) 100 "y" (vtfs_server_link 17 reply_status 0)).2
        = 0 ∧
      (∀ e ∈ all_entries (vtfs_link remote_file (some remote_ino) 100 "y"
          (vtfs_server_link 17 reply_status 0)).1.root_dir,
        e.ino = remote_ino.i_ino → e.nlink = nlink_inc remote_record.nlink) ∧
      ∃ e ∈ all_entries (vtfs_link remote_file (some remote_ino) 100 "y"
          (vtfs_server_link 17 reply_status 0)).1.root_dir,
        e.ino = remote_ino.i_ino ∧ e.name = strncpy_name "y") ∧
    (vtfs_server_link 20 reply_link_max 0 = (0, 4294967295) ∧
      remote_linked_max.use_server = true ∧
      vtfs_get_file_by_inode remote_linked_max remote_ino = some remote_record_max ∧
      vtfs_get_dir remote_linked_max.root_dir 100 = some remote_dir_max ∧
      vtfs_find_file remote_dir_max "z" = none ∧
      nlink_inc remote_record_max.nlink = 0) ∧
    ((vtfs_link remote_linked_max (some remote_ino) 100 "z"
          (vtfs_server_link 17 reply_status 0)).2 = 0 ∧
      (∀ e ∈ all_entries (vtfs_link remote_linked_max (some remote_ino) 100 "z"
          (vtfs_server_link 17 reply_status 0)).1.root_dir,
        e.ino = remote_ino.i_ino → e.nlink = nlink_inc remote_record_max.nlink) ∧
      ∃ e ∈ all_entries (vtfs_link remote_linked_max (some remote_ino) 100 "z"
          (vtfs_server_link 17 reply_status 0)).1.root_dir,
        e.ino = remote_ino.i_ino ∧ e.name = strncpy_name "z") :=
  ⟨by decide, by decide, by rfl, by rfl, by rfl,
    ⟨by decide, by decide, by decide, by decide, by decide, by decide⟩,
    (C27_link_adopts_remote_nlink remote_file (by decide) remote_ino 100 "y" remote_record
      [remote_record] (by decide) (by rfl) (by rfl) (by rfl) 11 reply_link 0).1 [53] [55]
      (by decide) (by decide) (by decide) (by decide) (by decide),
    by decide,
    (C27_link_adopts_remote_nlink remote_file (by decide) remote_ino 100 "y" remote_record
      [remote_record] (by decide) (by rfl) (by rfl) (by rfl) 17 reply_status 0).2 (by decide),
    ⟨by decide, by decide, by rfl, by rfl, by rfl, by decide⟩,
    (C27_link_adopts_remote_nlink remote_linked_max (by decide) remote_ino 100 "z"
      remote_record_max remote_dir_max (by decide) (by rfl) (by rfl) (by rfl) 17
      reply_status 0).2 (by decide)⟩

/-! ## Hydration of one directory -/

theorem load_lines_line (data_len : Nat) (l : List Nat) (hl : ∀ b ∈ l, b ≠ 10)
    (rest cur : List Nat) (start : Nat) (hs : start < data_len) :
    load_lines data_len (l ++ 10 :: rest) cur start =
      (cur.reverse ++ l) :: load_lines data_len rest [] (start + cur.length + l.length + 1) := by
  induction l generalizing cur with
  | nil =>
    simp [load_lines, hs]
  | cons c l1 ih =>
    have hc : c ≠ 10 := hl c (List.mem_cons_self _ _)
    rw [List.cons_append, load_lines]
    simp only [hs, not_true_eq_false, if_false, hc]
    rw [ih (fun b hb => hl b (List.mem_cons_of_mem _ hb))]
    simp only [List.reverse_cons, List.append_assoc, List.singleton_append, List.length_cons]
    congr 2
    omega

theorem load_lines_tail (data_len : Nat) (tail : List Nat) (ht : ∀ b ∈ tail, b ≠ 10)
    (cur : List Nat) (start : Nat) : load_lines data_len tail cur start = [] := by
  induction tail generalizing cur with
  | nil => rfl
  | cons c t ih =>
    have hc : c ≠ 10 := ht c (List.mem_cons_self _ _)
    rw [load_lines]
    simp only [hc, if_false]
    split
    · rfl
    · exact ih (fun b hb => ht b (List.mem_cons_of_mem _ hb)) _

theorem isdigit_range (c : Nat) (h : isdigit c = true) : 48 ≤ c ∧ c ≤ 57 := by
  unfold isdigit at h
  simpa using h

theorem bytes_no_newline (l : list_line) (h : l.well_formed) : ∀ b ∈ l.bytes, b ≠ 10 := by
  obtain ⟨⟨-, hi, -⟩, -, -, hn, ⟨-, hm, -⟩, hs⟩ := h
  intro b hb
  unfold list_line.bytes at hb
  simp only [List.mem_append, List.mem_cons] at hb
  rcases hb with hb | hb | hb | hb | hb | hb
  · have := isdigit_range b (hi b hb); omega
  · omega
  · exact (hn b hb).2.1
  · omega
  · have := isdigit_range b (hm b hb); omega
  · cases hsz : l.size with
    | none => simp [hsz, size_field] at hb
    | some s =>
      simp only [hsz, size_field, List.mem_cons] at hb
      rcases hb with hb | hb
      · omega
      · have := isdigit_range b ((hs s hsz).2.1 b hb); omega

/-- The loop of `vtfs_server_load_files` handles exactly the lines that end in a
newline. -/
theorem load_lines_listing (data_len : Nat) (lines : List list_line)
    (hwf : ∀ l ∈ lines, l.well_formed) (tail : List Nat) (ht : ∀ b ∈ tail, b ≠ 10)
    (start : Nat) (hlen : start + (listing_bytes lines).length ≤ data_len) :
    load_lines data_len (listing_bytes lines ++ tail) [] start =
      lines.map list_line.bytes := by
  induction lines generalizing start with
  | nil =>
    simp only [listing_bytes, List.flatMap_nil, List.nil_append, List.map_nil]
    exact load_lines_tail _ _ ht _ _
  | cons l ls ih =>
    have hb : listing_bytes (l :: ls) = l.bytes ++ 10 :: listing_bytes ls := by
      simp [listing_bytes, List.flatMap_cons]
    rw [hb] at hlen ⊢
    simp only [List.length_append, List.length_cons] at hlen
    rw [List.append_assoc, List.cons_append,
      load_lines_line _ _ (bytes_no_newline l (hwf l (List.mem_cons_self _ _))) _ _ _
        (by omega)]
    simp only [List.reverse_nil, List.nil_append, List.length_nil, Nat.add_zero, List.map_cons]
    rw [ih (fun x hx => hwf x (List.mem_cons_of_mem _ hx)) _ (by omega)]

theorem scan_name_spec (name rest : List Nat) (hne : name ≠ [])
    (hlen : name.length ≤ 255) (hc : ∀ b ∈ name, b ≠ 44) :
    scan_name (name ++ 44 :: rest) = some (name, 44 :: rest) := by
  have htw : (name ++ 44 :: rest).takeWhile (fun b => b != 44) = name := by
    rw [List.takeWhile_append_of_pos (by intro b hb; simpa using hc b hb)]
    simp
  cases name with
  | nil => exact absurd rfl hne
  | cons c cs =>
    have hc0 : c ≠ 44 := hc c (List.mem_cons_self _ _)
    rw [List.cons_append] at htw ⊢
    unfold scan_name
    simp only [hc0, if_false, htw]
    rw [List.take_of_length_le hlen]
    simp

/-- The two `sscanf` calls on a well-formed line give the declared values. -/
theorem sscanf_line_spec (l : list_line) (h : l.well_formed) :
    sscanf_line l.bytes =
      some (dec_value l.ino, l.name, dec_value l.mode, (l.size.map dec_value).getD 0) := by
  obtain ⟨hi, hne, hlen, hn, hm, hs⟩ := h
  have h44 : ∀ (r : List Nat) (c : Nat), (44 :: r).head? = some c → isdigit c = false := by
    intro r c hc
    simp only [List.head?_cons, Option.some.injEq] at hc
    subst hc
    decide
  have h1 := scan_unsigned_numeral l.ino _ hi (Nat.le_refl _)
    (44 :: (l.name ++ 44 :: (l.mode ++ size_field l.size))) (h44 _)
  have h2 := scan_name_spec l.name (l.mode ++ size_field l.size) hne hlen (fun b hb => (hn b hb).2.2.1)
  unfold sscanf_line list_line.bytes
  rw [h1]
  simp only [h2]
  cases hsz : l.size with
  | none =>
    have h3 := scan_unsigned_numeral l.mode _ hm (by norm_num) [] (by intro c hc; simp at hc)
    rw [List.append_nil] at h3
    simp only [size_field, List.append_nil, h3, Option.map_none', Option.getD_none]
    rw [Nat.mod_eq_of_lt hm.2.2]
  | some s =>
    have h3 := scan_unsigned_numeral l.mode _ hm (by norm_num) (44 :: s) (h44 _)
    have h4 := scan_unsigned_numeral s _ (hs s hsz) (Nat.le_refl _) []
      (by intro c hc; simp at hc)
    rw [List.append_nil] at h4
    simp only [size_field, h3, h4, Option.map_some', Option.getD_some]
    rw [Nat.mod_eq_of_lt hm.2.2]

theorem name_of_bytes_size (bs : List Nat) : strlen (name_of_bytes bs) = bs.length := by
  simp [strlen, name_of_bytes, String.length]

/-- The bytes of the name made from bytes are these bytes. -/
theorem bytes_of_name_of_bytes (bs : List Nat) (h : ∀ b ∈ bs, b < 256) :
    bytes_of_name (name_of_bytes bs) = bs := by
  induction bs with
  | nil => rfl
  | cons b bs ih =>
    have hb : b < 256 := h b (List.mem_cons_self _ _)
    have hc : (Char.ofNat b).toNat = b := by
      interval_cases b <;> rfl
    have ht := ih (fun c hc => h c (List.mem_cons_of_mem _ hc))
    simp only [bytes_of_name, name_of_bytes, List.map_cons, List.map_map] at ht ⊢
    rw [hc, ht]

theorem find_file_append_none (d1 d2 : List vtfs_file) (name : String)
    (h1 : vtfs_find_file d1 name = none) (h2 : name ∉ d2.map vtfs_file.name) :
    vtfs_find_file (d1 ++ d2) name = none := by
  unfold vtfs_find_file at h1 ⊢
  rw [List.find?_eq_none] at h1 ⊢
  intro f hf
  rcases List.mem_append.1 hf with h | h
  · exact h1 f h
  · intro hc
    exact h2 (List.mem_map.2 ⟨f, h, by simpa using hc⟩)

/-- The loop body on a well-formed line whose name is free in the directory: the
record of the line is appended. -/
theorem load_line_spec (st : vtfs_fs_info) (p : Nat) (dir : List vtfs_file) (l : list_line)
    (hwf : l.well_formed) (hdir : vtfs_get_dir st.root_dir p = some dir)
    (hfree : vtfs_find_file dir (name_of_bytes l.name) = none) :
    vtfs_get_dir (load_line st p l.bytes).1.root_dir p = some (dir ++ [l.entry]) ∧
    (load_line st p l.bytes).1.next_ino = st.next_ino ∧
    (load_line st p l.bytes).1.use_server = st.use_server ∧
    (load_line st p l.bytes).1.mem = st.mem ∧
    (load_line st p l.bytes).2 =
      (if S_ISDIR (load_mode (dec_value l.mode)) then some (dec_value l.ino) else none) := by
  have hsize : strlen (name_of_bytes l.name) < VTFS_MAX_NAME := by
    rw [name_of_bytes_size]
    have := hwf.2.2.1
    unfold VTFS_MAX_NAME
    omega
  have hcreate : vtfs_create_file dir (name_of_bytes l.name) (load_mode (dec_value l.mode))
      (dec_value l.ino) = some (.mk (dec_value l.ino) (load_mode (dec_value l.mode))
        (name_of_bytes l.name)
        (if S_ISDIR (load_mode (dec_value l.mode)) then some [] else none) NULL 0 1) := by
    unfold vtfs_create_file
    rw [if_neg (by omega), hfree]
    simp
  have htarget : load_target st.root_dir p = (p, dir) := by
    unfold load_target
    rw [hdir]
  unfold load_line
  rw [sscanf_line_spec l hwf]
  simp only [htarget, hcreate]
  refine ⟨?_, trivial, trivial, trivial, trivial⟩
  rw [get_dir_modify_dir _ _ p dir hdir]
  rfl

/-- A `list` call that loads nothing leaves the state as it is. -/
theorem load_files_nothing (srv : Nat → Int × List Nat) (depth : Nat) (st : vtfs_fs_info)
    (q : Nat) (h : no_listing srv q) :
    (vtfs_server_load_files srv (depth + 1) st q).map (fun r => r.1) = some st := by
  unfold vtfs_server_load_files
  by_cases h1 : (srv q).1 < 0
  · simp [h1]
  · by_cases h2 : be64_to_cpu (load_int64 (srv q).2) ≠ 0
    · simp [h1, h2]
    · rcases h with h | h | h
      · exact absurd h h1
      · exact absurd h h2
      · simp only [h1, h2, if_false, h, List.foldl_nil, Option.map_some']

/-- The loop over the well-formed lines of one directory, when the names are new and
the directories among them have nothing listed: one record per line, in order. -/
theorem load_fold_spec (srv : Nat → Int × List Nat) (depth : Nat) (p : Nat)
    (lines : List list_line) :
    ∀ (st : vtfs_fs_info) (dir : List vtfs_file),
    vtfs_get_dir st.root_dir p = some dir →
    (∀ l ∈ lines, l.well_formed) →
    (lines.map (fun l => name_of_bytes l.name)).Nodup →
    (∀ l ∈ lines, vtfs_find_file dir (name_of_bytes l.name) = none) →
    (∀ l ∈ lines, S_ISDIR (load_mode (dec_value l.mode)) = true →
      no_listing srv (dec_value l.ino)) →
    ∃ st1, (lines.map list_line.bytes).foldl
        (fun acc line =>
          match acc with
          | none => none
          | some st1 =>
            match (load_line st1 p line).2 with
            | none => some (load_line st1 p line).1
            | some ino =>
              (vtfs_server_load_files srv (depth + 1) (load_line st1 p line).1 ino).map
                (fun r => r.1))
        (some st) = some st1 ∧
      vtfs_get_dir st1.root_dir p = some (dir ++ lines.map list_line.entry) ∧
      st1.next_ino = st.next_ino ∧ st1.use_server = st.use_server ∧ st1.mem = st.mem := by
  induction lines with
  | nil =>
    intro st dir hdir _ _ _ _
    exact ⟨st, rfl, by simpa using hdir, rfl, rfl, rfl⟩
  | cons l ls ih =>
    intro st dir hdir hwf hnd hfree hsub
    obtain ⟨h1, h2, h3, h4, h5⟩ := load_line_spec st p dir l (hwf l (List.mem_cons_self _ _))
      hdir (hfree l (List.mem_cons_self _ _))
    have hstep : (match (load_line st p l.bytes).2 with
        | none => some (load_line st p l.bytes).1
        | some ino =>
          (vtfs_server_load_files srv (depth + 1) (load_line st p l.bytes).1 ino).map
            (fun r => r.1)) = some (load_line st p l.bytes).1 := by
      rw [h5]
      by_cases hd : S_ISDIR (load_mode (dec_value l.mode)) = true
      · simp only [hd, if_true]
        exact load_files_nothing srv depth _ _ (hsub l (List.mem_cons_self _ _) hd)
      · simp only [hd, Bool.false_eq_true, if_false]
    simp only [List.map_cons, List.foldl_cons, hstep]
    have hnd1 : name_of_bytes l.name ∉ ls.map (fun l => name_of_bytes l.name) ∧
        (ls.map (fun l => name_of_bytes l.name)).Nodup := by
      rw [List.map_cons] at hnd
      exact List.nodup_cons.1 hnd
    obtain ⟨st1, hf, hg, hn, hu, hm⟩ := ih (load_line st p l.bytes).1 (dir ++ [l.entry]) h1
      (fun x hx => hwf x (List.mem_cons_of_mem _ hx)) hnd1.2
      (by
        intro x hx
        apply find_file_append_none _ _ _ (hfree x (List.mem_cons_of_mem _ hx))
        simp only [List.map_cons, List.map_nil, List.mem_singleton]
        intro hc
        apply hnd1.1
        have he : l.entry.name = name_of_bytes l.name := rfl
        rw [he] at hc
        rw [← hc]
        exact List.mem_map_of_mem (fun l => name_of_bytes l.name) hx)
      (fun x hx => hsub x (List.mem_cons_of_mem _ hx))
    refine ⟨st1, hf, ?_, by rw [hn, h2], by rw [hu, h3], by rw [hm, h4]⟩
    rw [hg]
    simp

/-- One directory, flat. For a `list` call that succeeds with status 0 and a payload
made of well-formed lines, each followed by a newline, and then possibly bytes
without a newline (`tail`, a last line that is not terminated): when the directory
resolves, the names are distinct and new in it, and the directories among the lines
have nothing listed themselves, `vtfs_server_load_files` returns 0 and the directory
ends with one more record per terminated line, in the order of the lines; `tail`
makes no record.  Counter, mode and heap are unchanged. -/
theorem load_files_flat (srv : Nat → Int × List Nat) (depth : Nat)
    (st : vtfs_fs_info) (p : Nat) (dir : List vtfs_file) (lines : List list_line)
    (tail : List Nat)
    (hdir : vtfs_get_dir st.root_dir p = some dir)
    (hret : 0 ≤ (srv p).1) (hstatus : be64_to_cpu (load_int64 (srv p).2) = 0)
    (hpay : cstr ((srv p).2.drop 8) = listing_bytes lines ++ tail)
    (htail : ∀ b ∈ tail, b ≠ 10)
    (hlen : (listing_bytes lines).length ≤ payload_len (srv p).1)
    (hwf : ∀ l ∈ lines, l.well_formed)
    (hnodup : (lines.map (fun l => name_of_bytes l.name)).Nodup)
    (hfree : ∀ l ∈ lines, vtfs_find_file dir (name_of_bytes l.name) = none)
    (hsub : ∀ l ∈ lines, S_ISDIR (load_mode (dec_value l.mode)) = true →
      no_listing srv (dec_value l.ino)) :
    ∃ st1, vtfs_server_load_files srv (depth + 2) st p = some (st1, 0) ∧
      vtfs_get_dir st1.root_dir p = some (dir ++ lines.map list_line.entry) ∧
      st1.next_ino = st.next_ino ∧ st1.use_server = st.use_server ∧ st1.mem = st.mem := by
  obtain ⟨st1, hf, hg, hn, hu, hm⟩ :=
    load_fold_spec srv depth p lines st dir hdir hwf hnodup hfree hsub
  refine ⟨st1, ?_, hg, hn, hu, hm⟩
  rw [vtfs_server_load_files]
  rw [if_neg (by omega), if_neg (by simp [hstatus]), hpay,
    load_lines_listing _ lines hwf tail htail 0 (by omega)]
  exact congrArg (Option.map (fun s => ((s, 0) : vtfs_fs_info × Int))) hf

/-! ## The ino counter in remote mode -/

theorem load_line_next_ino (st : vtfs_fs_info) (p : Nat) (line : List Nat) :
    (load_line st p line).1.next_ino = st.next_ino := by
  unfold load_line
  cases sscanf_line line with
  | none => rfl
  | some r =>
    obtain ⟨ino, name, mode, size⟩ := r
    simp only
    cases vtfs_create_file (load_target st.root_dir p).2 (name_of_bytes name) (load_mode mode)
        ino with
    | none => rfl
    | some file => rfl

/-- Hydration never moves the ino counter. -/
theorem load_files_next_ino (srv : Nat → Int × List Nat) (depth : Nat) :
    ∀ (st st1 : vtfs_fs_info) (p : Nat) (e : Int),
      vtfs_server_load_files srv depth st p = some (st1, e) → st1.next_ino = st.next_ino := by
  induction depth with
  | zero =>
    intro st st1 p e h
    simp [vtfs_server_load_files] at h
  | succ d ih =>
    intro st st1 p e h
    rw [vtfs_server_load_files] at h
    by_cases h1 : (srv p).1 < 0
    · simp only [h1, if_true, Option.some.injEq, Prod.mk.injEq] at h
      rw [← h.1]
    · by_cases h2 : be64_to_cpu (load_int64 (srv p).2) ≠ 0
      · simp only [h1, h2, ne_eq, not_false_eq_true, if_true, if_false, Option.some.injEq,
          Prod.mk.injEq] at h
        rw [← h.1]
      · simp only [h1, h2, if_false] at h
        have hfold : ∀ (lines : List (List Nat)) (s : vtfs_fs_info) (s1 : vtfs_fs_info),
            lines.foldl (fun acc line =>
              match acc with
              | none => none
              | some st1 =>
                match (load_line st1 p line).2 with
                | none => some (load_line st1 p line).1
                | some ino =>
                  (vtfs_server_load_files srv d (load_line st1 p line).1 ino).map
                    (fun r => r.1)) (some s) = some s1 → s1.next_ino = s.next_ino := by
          intro lines
          induction lines with
          | nil =>
            intro s s1 hs
            simp only [List.foldl_nil, Option.some.injEq] at hs
            rw [hs]
          | cons l ls ihl =>
            intro s s1 hs
            rw [List.foldl_cons] at hs
            simp only at hs
            cases hl : (load_line s p l).2 with
            | none =>
              simp only [hl] at hs
              rw [ihl _ _ hs, load_line_next_ino]
            | some q =>
              simp only [hl] at hs
              cases hr : vtfs_server_load_files srv d (load_line s p l).1 q with
              | none =>
                simp only [hr, Option.map_none'] at hs
                have hnone : ∀ (xs : List (List Nat)), xs.foldl (fun acc line =>
                    match acc with
                    | none => none
                    | some st1 =>
                      match (load_line st1 p line).2 with
                      | none => some (load_line st1 p line).1
                      | some ino =>
                        (vtfs_server_load_files srv d (load_line st1 p line).1 ino).map
                          (fun r => r.1)) (none : Option vtfs_fs_info) = none := by
                  intro xs
                  induction xs with
                  | nil => rfl
                  | cons x xs ihx => exact ihx
                rw [hnone] at hs
                cases hs
              | some r =>
                obtain ⟨s2, e2⟩ := r
                simp only [hr, Option.map_some'] at hs
                rw [ihl _ _ hs, ih _ _ _ _ hr, load_line_next_ino]
        cases hf : (load_lines (payload_len (srv p).1) (cstr ((srv p).2.drop 8)) [] 0).foldl
            (fun acc line =>
              match acc with
              | none => none
              | some st1 =>
                match (load_line st1 p line).2 with
                | none => some (load_line st1 p line).1
                | some ino =>
                  (vtfs_server_load_files srv d (load_line st1 p line).1 ino).map
                    (fun r => r.1)) (some st) with
        | none =>
          have hx : (Option.map (fun s => ((s, 0) : vtfs_fs_info × Int)) none) = some (st1, e) := by
            rw [← hf]; exact h
          cases hx
        | some s1 =>
          have hx : (Option.map (fun s => ((s, 0) : vtfs_fs_info × Int)) (some s1)) =
              some (st1, e) := by
            rw [← hf]; exact h
          simp only [Option.map_some', Option.some.injEq, Prod.mk.injEq] at hx
          rw [← hx.1]
          exact hfold _ _ _ hf

/-- The mount in remote mode ends with the counter at 200, whatever was loaded. -/
theorem fill_super_next_ino (mem : kmem) (srv : Nat → Int × List Nat) (depth : Nat)
    (st : vtfs_fs_info) (h : vtfs_fill_super true mem srv depth = some st) :
    st.next_ino = 200 := by
  unfold vtfs_fill_super at h
  simp only [if_true] at h
  cases hr : vtfs_server_load_files srv depth (empty_mount true mem) VTFS_ROOT_INO with
  | none => simp [hr] at h
  | some r =>
    obtain ⟨s, e⟩ := r
    simp only [hr, Option.map_some', Option.some.injEq] at h
    rw [← h, load_files_next_ino srv depth _ _ _ _ hr]
    rfl

/-- In remote mode `vtfs_create` and `vtfs_mkdir` with a remote ino below `2^64 - 1`
never move the counter down, and keep it above every ino in the tree when it was above
before.  (At `2^64 - 1` the assignment `next_ino = new_ino + 1` wraps to 0.) -/
theorem remote_create_bound (st : vtfs_fs_info) (hs : st.use_server = true) (p : Nat)
    (name : String) (fm : Nat) (srv : Int × Nat)
    (hi : srv.2 + 1 < 18446744073709551616)
    (hb : ∀ e ∈ all_entries st.root_dir, e.ino < st.next_ino) :
    st.next_ino ≤ (create_entry st p name fm srv).1.next_ino ∧
    ∀ e ∈ all_entries (create_entry st p name fm srv).1.root_dir,
      e.ino < (create_entry st p name fm srv).1.next_ino := by
  obtain ⟨rd, ni, us, m⟩ := st
  simp only at hs hb
  subst hs
  have hmod : (srv.2 + 1) % 18446744073709551616 = srv.2 + 1 := Nat.mod_eq_of_lt hi
  unfold create_entry
  cases hd : vtfs_get_dir rd p with
  | none =>
    simp only [hd]
    exact ⟨Nat.le_refl _, hb⟩
  | some dir =>
    simp only [hd, true_and, if_true, hmod]
    by_cases h1 : srv.1 ≠ 0
    · simp only [h1, ne_eq, not_false_eq_true, if_true]
      exact ⟨Nat.le_refl _, hb⟩
    · simp only [h1, if_false]
      have hmono : ni ≤ (if srv.2 ≥ ni then
          (⟨rd, srv.2 + 1, true, m⟩ : vtfs_fs_info) else ⟨rd, ni, true, m⟩).next_ino := by
        split
        · simp only; omega
        · exact Nat.le_refl _
      have hnew : srv.2 < (if srv.2 ≥ ni then
          (⟨rd, srv.2 + 1, true, m⟩ : vtfs_fs_info) else ⟨rd, ni, true, m⟩).next_ino := by
        split
        · simp only; omega
        · simp only; omega
      have hroot : (if srv.2 ≥ ni then
          (⟨rd, srv.2 + 1, true, m⟩ : vtfs_fs_info) else ⟨rd, ni, true, m⟩).root_dir = rd := by
        split <;> rfl
      cases hc : vtfs_create_file dir name fm srv.2 with
      | none =>
        simp only
        split
        · exact ⟨hmono, fun e he => lt_of_lt_of_le (hb e (by rw [← hroot]; exact he)) hmono⟩
        · exact ⟨hmono, fun e he => lt_of_lt_of_le (hb e (by rw [← hroot]; exact he)) hmono⟩
      | some file =>
        simp only
        refine ⟨hmono, ?_⟩
        intro e he
        rw [hroot] at he
        obtain ⟨others, hperm, hmod⟩ := modify_dir_perm rd p dir hd
        have hm := (hmod (fun d => d ++ [file])).mem_iff.1 he
        rw [all_entries_append, List.append_assoc] at hm
        rcases List.mem_append.1 hm with h | h
        · exact lt_of_lt_of_le (hb e (hperm.mem_iff.2 (List.mem_append_left _ h))) hmono
        · rcases List.mem_append.1 h with h | h
          · obtain ⟨hfile, -, -⟩ := create_file_some hc
            have : e.ino = srv.2 := by
              rw [hfile, all_entries_cons, (new_file_entries srv.2 fm name).1,
                (new_file_entries srv.2 fm name).2, all_entries_nil] at h
              simp only [List.cons_append, List.nil_append, List.mem_singleton] at h
              rw [h]
            rw [this]
            exact hnew
          · exact lt_of_lt_of_le (hb e (hperm.mem_iff.2 (List.mem_append_right _ h))) hmono

theorem load_files_flat_example :
    vtfs_get_dir (empty_mount true demo_mem).root_dir 100 = some [] ∧
    0 ≤ (list_server (listing_bytes [line_perm, line_dir] ++ line_big.bytes) 100).1 ∧
    be64_to_cpu (load_int64
      (list_server (listing_bytes [line_perm, line_dir] ++ line_big.bytes) 100).2) = 0 ∧
    cstr ((list_server (listing_bytes [line_perm, line_dir] ++ line_big.bytes) 100).2.drop 8) =
      listing_bytes [line_perm, line_dir] ++ line_big.bytes ∧
    (∀ b ∈ line_big.bytes, b ≠ 10) ∧
    (listing_bytes [line_perm, line_dir]).length ≤
      payload_len (list_server (listing_bytes [line_perm, line_dir] ++ line_big.bytes) 100).1 ∧
    (∀ l ∈ [line_perm, line_dir], l.well_formed) ∧
    ([line_perm, line_dir].map (fun l => name_of_bytes l.name)).Nodup ∧
    (∀ l ∈ [line_perm, line_dir], S_ISDIR (load_mode (dec_value l.mode)) = true →
      no_listing (list_server (listing_bytes [line_perm, line_dir] ++ line_big.bytes))
        (dec_value l.ino)) ∧
    [line_perm, line_dir].map list_line.entry =
      [.mk 7 0o100644 "b" none 0 0 1, .mk 6 0o040755 "d" (some []) 0 0 1] ∧
    ∃ st1, vtfs_server_load_files
        (list_server (listing_bytes [line_perm, line_dir] ++ line_big.bytes)) (0 + 2)
        (empty_mount true demo_mem) 100 = some (st1, 0) ∧
      vtfs_get_dir st1.root_dir 100 = some ([] ++ [line_perm, line_dir].map list_line.entry) ∧
      st1.next_ino = (empty_mount true demo_mem).next_ino ∧
      st1.use_server = (empty_mount true demo_mem).use_server ∧
      st1.mem = (empty_mount true demo_mem).mem :=
  ⟨by rfl, by decide, by decide, by decide, by decide, by decide, by decide, by decide,
    by decide, by rfl,
    load_files_flat
      (list_server (listing_bytes [line_perm, line_dir] ++ line_big.bytes)) 0
      (empty_mount true demo_mem) 100 [] [line_perm, line_dir] line_big.bytes (by rfl)
      (by decide) (by decide) (by decide) (by decide) (by decide) (by decide) (by decide)
      (fun _ _ => rfl) (by decide)⟩

/-- Claim C28, evaluated: the root listing holds the well-formed line
"5,a.txt,33188,3", whose mode `S_IFREG | 0644` has the file-type bits of a regular
file.  The record hydration makes has the declared ino, name and size and no buffer,
but its mode is `S_IFDIR | 0644` and it has a child list: it is a directory.  A line
with the permission bits only ("7,b,420,0") gives a regular file, a line with
`S_IFDIR | 0755` a directory. -/
theorem C28_regular_mode_loads_as_directory :
    line_regular.well_formed ∧ dec_value line_regular.mode = 0o100644 ∧
    S_ISREG (dec_value line_regular.mode) = true ∧
    S_ISDIR (dec_value line_regular.mode) = false ∧
    (vtfs_fill_super true demo_mem (list_server (listing_bytes [line_regular])) 3).map
      (fun st => all_entries st.root_dir) = some [⟨5, 0o040644, "a.txt", true, 0, 3, 1⟩] ∧
    S_ISDIR 0o040644 = true ∧
    (vtfs_fill_super true demo_mem (list_server (listing_bytes [line_perm, line_dir])) 3).map
      (fun st => all_entries st.root_dir) =
        some [⟨7, 0o100644, "b", false, 0, 0, 1⟩, ⟨6, 0o040755, "d", true, 0, 0, 1⟩] := by
  decide

/-- Claim C30, evaluated: the root listing holds the well-formed line "500,c,420".
After the mount in remote mode the tree holds a record with the remote ino 500 while
the counter is 200.  `vtfs_create` with the same remote ino moves the counter to 501. -/
theorem C30_hydration_keeps_counter :
    line_big.well_formed ∧
    (vtfs_fill_super true demo_mem (list_server (listing_bytes [line_big])) 3).map
      (fun st => (st.use_server, st.next_ino, (all_entries st.root_dir).map (fun e => e.ino)))
      = some (true, 200, [500]) ∧
    vtfs_server_create_file 17
      [0, 0, 0, 0, 0, 0, 0, 0, 53, 48, 48, 44, 51, 51, 49, 56, 56, 0] 0 = (0, 500) ∧
    (vtfs_create (empty_mount true demo_mem) 100 "c" 0o644 (0, 500)).1.next_ino = 501 := by
  decide

/-! ## The place of a record in the tree -/

/-- The three parts of a failed lookup in a non-empty list. -/
theorem find_cons_none {x : vtfs_file} {rest : List vtfs_file} {j : Nat}
    (h : vtfs_find_file_by_ino (x :: rest) j = none) :
    x.ino ≠ j ∧ find_in_dir_data x j = none ∧ vtfs_find_file_by_ino rest j = none := by
  rw [find_cons] at h
  by_cases h1 : x.ino = j
  · simp [h1] at h
  · simp only [h1, if_false] at h
    cases h2 : find_in_dir_data x j with
    | some r => simp [h2] at h
    | none =>
      rw [h2] at h
      exact ⟨h1, rfl, h⟩

/-- The tree around the record a lookup returns, as a tree with a hole `C`: putting a
record `y` of the same ino into the hole, lookups and assignments for that ino reach
`y`, and those for an ino that occurs nowhere else go into `y`. -/
theorem find_context (t : List vtfs_file) :
    ∀ i f, vtfs_find_file_by_ino t i = some f →
      ∃ C : vtfs_file → List vtfs_file, C f = t ∧
        (∀ (g : vtfs_file → vtfs_file) y, y.ino = i →
          modify_file_by_ino g (C y) i = some (C (g y))) ∧
        (∀ y, y.ino = i → vtfs_find_file_by_ino (C y) i = some y) ∧
        (∀ y j, y.ino = i → vtfs_find_file_by_ino t j = none →
          vtfs_find_file_by_ino (C y) j = find_in_dir_data y j ∧
          ∀ h, modify_file_by_ino h (C y) j = (modify_in_dir_data h y j).map C) := by
  refine tree_induction
    (P := fun t => ∀ i f, vtfs_find_file_by_ino t i = some f →
      ∃ C : vtfs_file → List vtfs_file, C f = t ∧
        (∀ (g : vtfs_file → vtfs_file) y, y.ino = i →
          modify_file_by_ino g (C y) i = some (C (g y))) ∧
        (∀ y, y.ino = i → vtfs_find_file_by_ino (C y) i = some y) ∧
        (∀ y j, y.ino = i → vtfs_find_file_by_ino t j = none →
          vtfs_find_file_by_ino (C y) j = find_in_dir_data y j ∧
          ∀ h, modify_file_by_ino h (C y) j = (modify_in_dir_data h y j).map C))
    (Q := fun x => ∀ i f, find_in_dir_data x i = some f →
      ∃ Cx : vtfs_file → vtfs_file, Cx f = x ∧ (∀ y, (Cx y).ino = x.ino) ∧
        (∀ (g : vtfs_file → vtfs_file) y, y.ino = i →
          modify_in_dir_data g (Cx y) i = some (Cx (g y))) ∧
        (∀ y, y.ino = i → find_in_dir_data (Cx y) i = some y) ∧
        (∀ y j, y.ino = i → find_in_dir_data x j = none →
          find_in_dir_data (Cx y) j = find_in_dir_data y j ∧
          ∀ h, modify_in_dir_data h (Cx y) j = (modify_in_dir_data h y j).map Cx))
    ?_ ?_ ?_ ?_ t
  · intro i f h; simp at h
  · intro x rest hx hrest i f hfind
    rw [find_cons] at hfind
    by_cases h : x.ino = i
    · simp only [h, if_true, Option.some.injEq] at hfind
      subst hfind
      refine ⟨fun y => y :: rest, rfl, ?_, ?_, ?_⟩
      · intro g y hy
        rw [modify_cons]
        simp [hy]
      · intro y hy
        rw [find_cons]
        simp [hy]
      · intro y j hy hj
        obtain ⟨h1, -, h3⟩ := find_cons_none hj
        have hyj : y.ino ≠ j := by rw [hy, ← h]; exact h1
        refine ⟨?_, ?_⟩
        · rw [find_cons]
          simp only [hyj, if_false]
          cases find_in_dir_data y j with
          | some r => rfl
          | none => exact h3
        · intro hh
          rw [modify_cons]
          simp only [hyj, if_false]
          cases modify_in_dir_data hh y j with
          | some r => rfl
          | none => simp [modify_none hh rest j h3]
    · simp only [h, if_false] at hfind
      cases hfd : find_in_dir_data x i with
      | some f2 =>
        rw [hfd] at hfind
        simp only [Option.some.injEq] at hfind
        subst hfind
        obtain ⟨Cx, hC, hino, hb, hc, hd⟩ := hx i f2 hfd
        have hne : ∀ y, (Cx y).ino ≠ i := fun y => by rw [hino]; exact h
        refine ⟨fun y => Cx y :: rest, by simp [hC], ?_, ?_, ?_⟩
        · intro g y hy
          rw [modify_cons]
          simp only [hne y, if_false, hb g y hy]
        · intro y hy
          rw [find_cons]
          simp only [hne y, if_false, hc y hy]
        · intro y j hy hj
          obtain ⟨h1, h2, h3⟩ := find_cons_none hj
          have hnj : (Cx y).ino ≠ j := by rw [hino]; exact h1
          obtain ⟨hd1, hd2⟩ := hd y j hy h2
          refine ⟨?_, ?_⟩
          · rw [find_cons]
            simp only [hnj, if_false, hd1]
            cases find_in_dir_data y j with
            | some r => rfl
            | none => exact h3
          · intro hh
            rw [modify_cons]
            simp only [hnj, if_false, hd2 hh]
            cases modify_in_dir_data hh y j with
            | some r => rfl
            | none => simp [modify_none hh rest j h3]
      | none =>
        rw [hfd] at hfind
        simp only at hfind
        obtain ⟨C, hC, hb, hc, hd⟩ := hrest i f hfind
        refine ⟨fun y => x :: C y, by simp [hC], ?_, ?_, ?_⟩
        · intro g y hy
          rw [modify_cons]
          simp only [h, if_false, modify_in_dir_data_none g x i hfd, hb g y hy, Option.map_some']
        · intro y hy
          rw [find_cons]
          simp only [h, if_false, hfd, hc y hy]
        · intro y j hy hj
          obtain ⟨h1, h2, h3⟩ := find_cons_none hj
          obtain ⟨hd1, hd2⟩ := hd y j hy h3
          refine ⟨?_, ?_⟩
          · rw [find_cons]
            simp only [h1, if_false, h2, hd1]
          · intro hh
            rw [modify_cons]
            simp only [h1, if_false, modify_in_dir_data_none hh x j h2, hd2 hh]
            cases modify_in_dir_data hh y j with
            | some r => rfl
            | none => rfl
  · intro a m n p s l i f h; simp at h
  · intro a m n d p s l hd i f h
    simp only [find_in_dir] at h
    obtain ⟨C, hC, hb, hc, hdd⟩ := hd i f h
    refine ⟨fun y => .mk a m n (some (C y)) p s l, by simp [hC], fun y => rfl, ?_, ?_, ?_⟩
    · intro g y hy
      simp [hb g y hy]
    · intro y hy
      simp [hc y hy]
    · intro y j hy hj
      simp only [find_in_dir] at hj
      obtain ⟨hd1, hd2⟩ := hdd y j hy hj
      refine ⟨by simp [hd1], ?_⟩
      intro hh
      simp only [modify_in_dir, hd2 hh]
      cases modify_in_dir_data hh y j with
      | some r => rfl
      | none => rfl


theorem find_append_none (a b : List vtfs_file) (j : Nat)
    (h : vtfs_find_file_by_ino a j = none) :
    vtfs_find_file_by_ino (a ++ b) j = vtfs_find_file_by_ino b j := by
  induction a with
  | nil => rfl
  | cons x rest ih =>
    obtain ⟨h1, h2, h3⟩ := find_cons_none h
    rw [List.cons_append, find_cons]
    simp only [h1, if_false, h2]
    exact ih h3

theorem modify_append_none (g : vtfs_file → vtfs_file) (a b : List vtfs_file) (j : Nat)
    (h : vtfs_find_file_by_ino a j = none) :
    modify_file_by_ino g (a ++ b) j = (modify_file_by_ino g b j).map (fun r => a ++ r) := by
  induction a with
  | nil => simp
  | cons x rest ih =>
    obtain ⟨h1, h2, h3⟩ := find_cons_none h
    rw [List.cons_append, modify_cons]
    simp only [h1, if_false, modify_in_dir_data_none g x j h2, ih h3, Option.map_map]
    rfl

/-- What `vtfs_get_dir` resolves for an ino other than the root. -/
theorem get_dir_record {t : List vtfs_file} {p : Nat} {d : List vtfs_file}
    (hp : p ≠ VTFS_ROOT_INO) (h : vtfs_get_dir t p = some d) :
    ∃ f, vtfs_find_file_by_ino t p = some f ∧ S_ISDIR f.mode = true ∧ f.dir_data = some d ∧
      f.ino = p := by
  unfold vtfs_get_dir at h
  simp only [hp, if_false] at h
  cases hf : vtfs_find_file_by_ino t p with
  | none => simp [hf] at h
  | some f =>
    simp only [hf] at h
    by_cases hm : S_ISDIR f.mode = true
    · simp only [hm, if_true] at h
      exact ⟨f, rfl, hm, h, (find_mem hf).2⟩
    · simp [hm] at h

theorem set_dir_fields (f : vtfs_file) (o : Option (List vtfs_file)) :
    (f.set_dir o).ino = f.ino ∧ (f.set_dir o).mode = f.mode ∧ (f.set_dir o).dir_data = o := by
  cases f with
  | mk i m n d p s l => exact ⟨rfl, rfl, rfl⟩

theorem set_dir_set_dir (f : vtfs_file) (o1 o2 : Option (List vtfs_file)) :
    (f.set_dir o1).set_dir o2 = f.set_dir o2 := by
  cases f with
  | mk i m n d p s l => rfl

theorem set_dir_mk (a m : Nat) (n : String) (dd o : Option (List vtfs_file)) (pp s l : Nat) :
    (vtfs_file.mk a m n dd pp s l).set_dir o = .mk a m n o pp s l := rfl

theorem set_dir_same (f : vtfs_file) : f.set_dir f.dir_data = f := by
  cases f with
  | mk i m n d p s l => rfl

/-- Two mutations of the same directory are one mutation. -/
theorem modify_dir_comp (g1 g2 : List vtfs_file → List vtfs_file) (t : List vtfs_file)
    (p : Nat) (d : List vtfs_file) (h : vtfs_get_dir t p = some d) :
    modify_dir g2 (modify_dir g1 t p) p = modify_dir (fun x => g2 (g1 x)) t p := by
  by_cases hp : p = VTFS_ROOT_INO
  · simp [modify_dir, hp]
  · obtain ⟨f, hf, -, hdd, hino⟩ := get_dir_record hp h
    obtain ⟨C, hC, hb, -, -⟩ := find_context t p f hf
    unfold modify_dir
    simp only [hp, if_false]
    rw [← hC, hb _ f hino, Option.getD_some,
      hb _ _ (by rw [(set_dir_fields _ _).1]; exact hino), hb _ f hino]
    simp only [Option.getD_some, (set_dir_fields _ _).2.2, set_dir_set_dir, hdd, Option.map_some']

/-- A mutation that changes nothing leaves the tree as it is. -/
theorem modify_dir_id (g : List vtfs_file → List vtfs_file) (hg : ∀ x, g x = x)
    (t : List vtfs_file) (p : Nat) (d : List vtfs_file) (h : vtfs_get_dir t p = some d) :
    modify_dir g t p = t := by
  by_cases hp : p = VTFS_ROOT_INO
  · simp [modify_dir, hp, hg]
  · obtain ⟨f, hf, -, hdd, hino⟩ := get_dir_record hp h
    obtain ⟨C, hC, hb, -, -⟩ := find_context t p f hf
    unfold modify_dir
    simp only [hp, if_false]
    have hfix : f.set_dir (f.dir_data.map g) = f := by
      rw [hdd, Option.map_some', hg, ← hdd, set_dir_same]
    conv_lhs => rw [← hC]
    rw [hb _ f hino, Option.getD_some, hfix, hC]

/-- The records of a directory are records of the tree. -/
theorem find_none_in_dir {t : List vtfs_file} {p : Nat} {d : List vtfs_file}
    (h : vtfs_get_dir t p = some d) {q : Nat} (hq : vtfs_find_file_by_ino t q = none) :
    vtfs_find_file_by_ino d q = none := by
  obtain ⟨others, hperm, -⟩ := modify_dir_perm t p d h
  rw [find_none_iff] at hq ⊢
  intro e he
  exact hq e (hperm.mem_iff.2 (List.mem_append_left _ he))

/-- A directory record with a new ino that is appended to a directory is what
`vtfs_get_dir` resolves for that ino. -/
theorem get_dir_appended (t : List vtfs_file) (p : Nat) (d : List vtfs_file)
    (h : vtfs_get_dir t p = some d) (q : Nat) (hq : vtfs_find_file_by_ino t q = none)
    (hqr : q ≠ VTFS_ROOT_INO) (e0 : vtfs_file) (c0 : List vtfs_file) (he : e0.ino = q)
    (hm : S_ISDIR e0.mode = true) (hc : e0.dir_data = some c0) :
    vtfs_get_dir (modify_dir (fun x => x ++ [e0]) t p) q = some c0 := by
  have hsingle : vtfs_find_file_by_ino [e0] q = some e0 := by
    rw [find_cons]; simp [he]
  have hfind : vtfs_find_file_by_ino (modify_dir (fun x => x ++ [e0]) t p) q = some e0 := by
    by_cases hp : p = VTFS_ROOT_INO
    · simp only [modify_dir, hp, if_true]
      rw [find_append_none _ _ _ hq, hsingle]
    · obtain ⟨f, hf, -, hdd, hino⟩ := get_dir_record hp h
      obtain ⟨C, hC, hb, -, hd⟩ := find_context t p f hf
      unfold modify_dir
      simp only [hp, if_false]
      conv_lhs => rw [← hC]
      rw [hb _ f hino, Option.getD_some,
        (hd _ q (by rw [(set_dir_fields _ _).1]; exact hino) hq).1, hdd, Option.map_some']
      cases f with
      | mk a m n dd pp s l =>
        rw [set_dir_mk, find_in_dir, find_append_none _ _ _ (find_none_in_dir h hq), hsingle]
  unfold vtfs_get_dir
  simp only [hqr, if_false, hfind, hm, if_true, hc]

/-- A mutation of a directory that was just appended, ino new, to another one is a
single mutation: the record is appended with the changed child list. -/
theorem modify_dir_nested (t : List vtfs_file) (p : Nat) (d : List vtfs_file)
    (h : vtfs_get_dir t p = some d) (q : Nat) (hq : vtfs_find_file_by_ino t q = none)
    (hqr : q ≠ VTFS_ROOT_INO) (e0 : vtfs_file) (c0 : List vtfs_file) (he : e0.ino = q)
    (hc : e0.dir_data = some c0) (g : List vtfs_file → List vtfs_file) :
    modify_dir g (modify_dir (fun x => x ++ [e0]) t p) q =
      modify_dir (fun x => x ++ [e0.set_dir (some (g c0))]) t p := by
  have hsingle : modify_file_by_ino (fun f => f.set_dir (f.dir_data.map g)) [e0] q =
      some [e0.set_dir (some (g c0))] := by
    rw [modify_cons]; simp [he, hc]
  by_cases hp : p = VTFS_ROOT_INO
  · simp only [modify_dir, hp, if_true, hqr, if_false]
    rw [modify_append_none _ _ _ _ hq, hsingle]
    rfl
  · obtain ⟨f, hf, -, hdd, hino⟩ := get_dir_record hp h
    obtain ⟨C, hC, hb, -, hd⟩ := find_context t p f hf
    unfold modify_dir
    simp only [hp, if_false, hqr]
    conv_lhs => rw [← hC]
    conv_rhs => rw [← hC]
    rw [hb _ f hino, Option.getD_some, hb _ f hino, Option.getD_some,
      (hd _ q (by rw [(set_dir_fields _ _).1]; exact hino) hq).2, hdd, Option.map_some',
      Option.map_some']
    cases f with
    | mk a m n dd pp s l =>
      rw [set_dir_mk, set_dir_mk, modify_in_dir,
        modify_append_none _ _ _ _ (find_none_in_dir h hq), hsingle]
      rfl

/-! ## Hydration of a tree -/

/-- Induction over a forest of the remote store and its nodes at once. -/
theorem forest_induction {P : List rnode → Prop} {Q : rnode → Prop}
    (hnil : P []) (hcons : ∀ n ns, Q n → P ns → P (n :: ns))
    (hnode : ∀ l cs, P cs → Q (.mk l cs)) : ∀ t, P t := by
  intro t
  exact @rnode.rec_1 Q P hnode hnil hcons t

theorem hydrated_nil : hydrated [] = [] := by
  rw [hydrated]

theorem hydrated_cons (n : rnode) (ns : List rnode) :
    hydrated (n :: ns) = hydrated_node n :: hydrated ns := by
  rw [hydrated]

theorem hydrated_node_mk (l : list_line) (cs : List rnode) :
    hydrated_node (.mk l cs) =
      .mk (dec_value l.ino) (load_mode (dec_value l.mode)) (name_of_bytes l.name)
        (if S_ISDIR (load_mode (dec_value l.mode)) then some (hydrated cs) else none) NULL
        ((l.size.map dec_value).getD 0) 1 := by
  rw [hydrated_node]

theorem rinos_nil : rinos [] = [] := by
  rw [rinos]

theorem rinos_cons (n : rnode) (ns : List rnode) :
    rinos (n :: ns) = rinos_node n ++ rinos ns := by
  rw [rinos]

theorem rinos_node_mk (l : list_line) (cs : List rnode) :
    rinos_node (.mk l cs) = dec_value l.ino :: rinos cs := by
  rw [rinos_node]

theorem rheight_nil : rheight [] = 0 := by
  rw [rheight]

theorem rheight_cons (n : rnode) (ns : List rnode) :
    rheight (n :: ns) = max (rheight_node n) (rheight ns) := by
  rw [rheight]

theorem rheight_node_mk (l : list_line) (cs : List rnode) :
    rheight_node (.mk l cs) = rheight cs + 1 := by
  rw [rheight_node]

theorem well_listed_cons (srv : Nat → Int × List Nat) (n : rnode) (ns : List rnode) :
    well_listed srv (n :: ns) = (well_listed_node srv n && well_listed srv ns) := by
  rw [well_listed]

theorem well_listed_node_mk (srv : Nat → Int × List Nat) (l : list_line) (cs : List rnode) :
    well_listed_node srv (.mk l cs) =
      (decide l.well_formed &&
        (if S_ISDIR (load_mode (dec_value l.mode)) then
          (decide (lists srv (dec_value l.ino) cs) ||
            (decide (no_listing srv (dec_value l.ino)) && cs.isEmpty)) &&
          decide ((cs.map (fun c => name_of_bytes c.line.name)).Nodup) &&
          well_listed srv cs
        else cs.isEmpty)) := by
  rw [well_listed_node]

/-- The records made for a forest carry the inos of the forest. -/
theorem hydrated_inos (t : List rnode) :
    ∀ e ∈ all_entries (hydrated t), e.ino ∈ rinos t := by
  refine forest_induction
    (P := fun t => ∀ e ∈ all_entries (hydrated t), e.ino ∈ rinos t)
    (Q := fun n => ∀ e ∈ (hydrated_node n).info :: entries_below (hydrated_node n),
      e.ino ∈ rinos_node n) ?_ ?_ ?_ t
  · intro e he
    rw [hydrated_nil, all_entries_nil] at he
    cases he
  · intro n ns hq hp e he
    rw [hydrated_cons, all_entries_cons, List.mem_append] at he
    rw [rinos_cons, List.mem_append]
    rcases he with he | he
    · exact Or.inl (hq e he)
    · exact Or.inr (hp e he)
  · intro l cs hp e he
    rw [hydrated_node_mk] at he
    rw [rinos_node_mk]
    rcases List.mem_cons.1 he with he | he
    · rw [he]
      exact List.mem_cons_self _ _
    · by_cases hd : S_ISDIR (load_mode (dec_value l.mode)) = true
      · simp only [hd, if_true, entries_below_dir] at he
        exact List.mem_cons_of_mem _ (hp e he)
      · simp only [hd, Bool.false_eq_true, if_false, entries_below_file] at he
        cases he

/-- The inos of a node are a part of the inos of its forest. -/
theorem rinos_mem {n : rnode} {ns : List rnode} (h : n ∈ ns) :
    List.Sublist (rinos_node n) (rinos ns) := by
  induction ns with
  | nil => cases h
  | cons m ms ih =>
    rw [rinos_cons]
    rcases List.mem_cons.1 h with h | h
    · rw [h]
      exact List.sublist_append_left _ _
    · exact (ih h).trans (List.sublist_append_right _ _)

/-- A node is no higher than its forest. -/
theorem rheight_mem {n : rnode} {ns : List rnode} (h : n ∈ ns) :
    rheight_node n ≤ rheight ns := by
  induction ns with
  | nil => cases h
  | cons m ms ih =>
    rw [rheight_cons]
    rcases List.mem_cons.1 h with h | h
    · rw [h]
      exact le_max_left _ _
    · exact le_trans (ih h) (le_max_right _ _)

/-- Every node of a well-listed forest is well listed. -/
theorem well_listed_mem (srv : Nat → Int × List Nat) {n : rnode} {ns : List rnode}
    (hw : well_listed srv ns = true) (h : n ∈ ns) : well_listed_node srv n = true := by
  induction ns with
  | nil => cases h
  | cons m ms ih =>
    rw [well_listed_cons, Bool.and_eq_true] at hw
    rcases List.mem_cons.1 h with h | h
    · rw [h]
      exact hw.1
    · exact ih hw.2 h

/-- Records appended to a directory bring only their own inos into the tree. -/
theorem find_none_appended (t : List vtfs_file) (p : Nat) (d : List vtfs_file)
    (h : vtfs_get_dir t p = some d) (x : List vtfs_file) (i : Nat)
    (hi : vtfs_find_file_by_ino t i = none) (hx : ∀ e ∈ all_entries x, e.ino ≠ i) :
    vtfs_find_file_by_ino (modify_dir (fun y => y ++ x) t p) i = none := by
  obtain ⟨others, h1, h2⟩ := modify_dir_perm t p d h
  rw [find_none_iff] at hi ⊢
  intro e he
  have he2 := (h2 (fun y => y ++ x)).mem_iff.1 he
  rw [all_entries_append, List.mem_append, List.mem_append] at he2
  rcases he2 with (he2 | he2) | he2
  · exact hi e (h1.mem_iff.2 (List.mem_append_left _ he2))
  · exact hx e he2
  · exact hi e (h1.mem_iff.2 (List.mem_append_right _ he2))

/-- The tree after the loop body for a well-formed line with a new name: the record
of the line is appended to the directory. -/
theorem load_line_root (st : vtfs_fs_info) (p : Nat) (dir : List vtfs_file) (l : list_line)
    (hwf : l.well_formed) (hdir : vtfs_get_dir st.root_dir p = some dir)
    (hfree : vtfs_find_file dir (name_of_bytes l.name) = none) :
    (load_line st p l.bytes).1.root_dir =
      modify_dir (fun d => d ++ [l.entry]) st.root_dir p := by
  have hsize : strlen (name_of_bytes l.name) < VTFS_MAX_NAME := by
    rw [name_of_bytes_size]
    have := hwf.2.2.1
    unfold VTFS_MAX_NAME
    omega
  have hcreate : vtfs_create_file dir (name_of_bytes l.name) (load_mode (dec_value l.mode))
      (dec_value l.ino) = some (.mk (dec_value l.ino) (load_mode (dec_value l.mode))
        (name_of_bytes l.name)
        (if S_ISDIR (load_mode (dec_value l.mode)) then some [] else none) NULL 0 1) := by
    unfold vtfs_create_file
    rw [if_neg (by omega), hfree]
    simp
  have htarget : load_target st.root_dir p = (p, dir) := by
    unfold load_target
    rw [hdir]
  unfold load_line
  rw [sscanf_line_spec l hwf]
  simp only [htarget, hcreate]
  rfl

theorem rdirs_nil : rdirs [] = [] := by
  rw [rdirs]

theorem rdirs_cons (n : rnode) (ns : List rnode) :
    rdirs (n :: ns) = rdirs_node n ++ rdirs ns := by
  rw [rdirs]

theorem rdirs_node_mk (l : list_line) (cs : List rnode) :
    rdirs_node (.mk l cs) =
      if S_ISDIR (load_mode (dec_value l.mode)) then dec_value l.ino :: rdirs cs
      else rdirs cs := by
  rw [rdirs_node]

/-- The inos of the directories are among the inos of the forest. -/
theorem rdirs_sub (t : List rnode) : ∀ i ∈ rdirs t, i ∈ rinos t := by
  refine forest_induction
    (P := fun t => ∀ i ∈ rdirs t, i ∈ rinos t)
    (Q := fun n => ∀ i ∈ rdirs_node n, i ∈ rinos_node n) ?_ ?_ ?_ t
  · intro i hi
    rw [rdirs_nil] at hi
    cases hi
  · intro n ns hq hp i hi
    rw [rdirs_cons, List.mem_append] at hi
    rw [rinos_cons, List.mem_append]
    rcases hi with hi | hi
    · exact Or.inl (hq i hi)
    · exact Or.inr (hp i hi)
  · intro l cs hp i hi
    rw [rdirs_node_mk] at hi
    rw [rinos_node_mk]
    by_cases hd : S_ISDIR (load_mode (dec_value l.mode)) = true
    · simp only [hd, if_true] at hi
      rcases List.mem_cons.1 hi with hi | hi
      · rw [hi]
        exact List.mem_cons_self _ _
      · exact List.mem_cons_of_mem _ (hp i hi)
    · simp only [hd, Bool.false_eq_true, if_false] at hi
      exact List.mem_cons_of_mem _ (hp i hi)

/-- The directories below a node are directories of its forest. -/
theorem rdirs_mem {n : rnode} {ns : List rnode} (h : n ∈ ns) :
    ∀ i ∈ rdirs_node n, i ∈ rdirs ns := by
  induction ns with
  | nil => cases h
  | cons m ms ih =>
    intro i hi
    rw [rdirs_cons, List.mem_append]
    rcases List.mem_cons.1 h with h | h
    · rw [← h]
      exact Or.inl hi
    · exact Or.inr (ih h i hi)

/-- The directories among the children of a node are directories of the node. -/
theorem rdirs_children (l : list_line) (cs : List rnode) :
    ∀ i ∈ rdirs cs, i ∈ rdirs_node (.mk l cs) := by
  intro i hi
  rw [rdirs_node_mk]
  by_cases hd : S_ISDIR (load_mode (dec_value l.mode)) = true
  · simp only [hd, if_true]
    exact List.mem_cons_of_mem _ hi
  · simp only [hd, Bool.false_eq_true, if_false]
    exact hi


/-- The loop over the lines of one directory, given what the calls for the
directories among them do: one record per node, in order, each directory with the
records of its children. -/
theorem hydrate_fold (srv : Nat → Int × List Nat) (fuel : Nat) (p : Nat)
    (nodes : List rnode) :
    ∀ (st : vtfs_fs_info) (dir : List vtfs_file),
    vtfs_get_dir st.root_dir p = some dir →
    (∀ n ∈ nodes, n.line.well_formed) →
    (nodes.map (fun n => name_of_bytes n.line.name)).Nodup →
    (∀ n ∈ nodes, vtfs_find_file dir (name_of_bytes n.line.name) = none) →
    (∀ i ∈ rdirs nodes, (rinos nodes).count i = 1) →
    (∀ i ∈ rdirs nodes, i ≠ VTFS_ROOT_INO) →
    (∀ i ∈ rdirs nodes, vtfs_find_file_by_ino st.root_dir i = none) →
    (∀ n ∈ nodes, ¬ S_ISDIR (load_mode (dec_value n.line.mode)) = true → n.children = []) →
    (∀ n ∈ nodes, S_ISDIR (load_mode (dec_value n.line.mode)) = true →
      ∀ st2 : vtfs_fs_info,
      vtfs_get_dir st2.root_dir (dec_value n.line.ino) = some [] →
      (∀ i ∈ rdirs n.children, vtfs_find_file_by_ino st2.root_dir i = none) →
      ∃ r, vtfs_server_load_files srv fuel st2 (dec_value n.line.ino) = some r ∧
        r.1.root_dir = modify_dir (fun d => d ++ hydrated n.children) st2.root_dir
          (dec_value n.line.ino) ∧
        r.1.next_ino = st2.next_ino ∧ r.1.use_server = st2.use_server ∧
        r.1.mem = st2.mem) →
    ∃ st1, ((nodes.map rnode.line).map list_line.bytes).foldl
        (fun acc line =>
          match acc with
          | none => none
          | some st1 =>
            match (load_line st1 p line).2 with
            | none => some (load_line st1 p line).1
            | some ino =>
              (vtfs_server_load_files srv fuel (load_line st1 p line).1 ino).map
                (fun r => r.1))
        (some st) = some st1 ∧
      st1.root_dir = modify_dir (fun d => d ++ hydrated nodes) st.root_dir p ∧
      st1.next_ino = st.next_ino ∧ st1.use_server = st.use_server ∧ st1.mem = st.mem := by
  induction nodes with
  | nil =>
    intro st dir hdir _ _ _ _ _ _ _ _
    refine ⟨st, rfl, ?_, rfl, rfl, rfl⟩
    rw [modify_dir_id _ (fun x => by rw [hydrated_nil, List.append_nil]) _ _ _ hdir]
  | cons n ns ih =>
    intro st dir hdir hwf hnd hfree hin hnr hfr hleaf hrec
    cases n with
    | mk l cs =>
    have hl : l.well_formed := hwf _ (List.mem_cons_self _ _)
    have hfl : vtfs_find_file dir (name_of_bytes l.name) = none :=
      hfree _ (List.mem_cons_self _ _)
    obtain ⟨-, h2, h3, h4, h5⟩ := load_line_spec st p dir l hl hdir hfl
    have hroot := load_line_root st p dir l hl hdir hfl
    rw [rinos_cons, rinos_node_mk] at hin
    have hmem_cs : ∀ i ∈ rdirs cs, i ∈ rdirs (rnode.mk l cs :: ns) := by
      intro i hi
      rw [rdirs_cons]
      exact List.mem_append_left _ (rdirs_children l cs i hi)
    have hmem_ns : ∀ i ∈ rdirs ns, i ∈ rdirs (rnode.mk l cs :: ns) := by
      intro i hi
      rw [rdirs_cons]
      exact List.mem_append_right _ hi
    have hstep : ∃ st2, (match (load_line st p l.bytes).2 with
        | none => some (load_line st p l.bytes).1
        | some ino =>
          (vtfs_server_load_files srv fuel (load_line st p l.bytes).1 ino).map
            (fun r => r.1)) = some st2 ∧
        st2.root_dir = modify_dir (fun d => d ++ [hydrated_node (.mk l cs)]) st.root_dir p ∧
        st2.next_ino = st.next_ino ∧ st2.use_server = st.use_server ∧ st2.mem = st.mem := by
      rw [h5]
      by_cases hd : S_ISDIR (load_mode (dec_value l.mode)) = true
      · simp only [hd, if_true]
        have hdd : l.entry.dir_data = some [] := by
          simp [list_line.entry, vtfs_file.dir_data, hd]
        have hmem_q : dec_value l.ino ∈ rdirs (rnode.mk l cs :: ns) := by
          rw [rdirs_cons, rdirs_node_mk]
          simp only [hd, if_true]
          exact List.mem_append_left _ (List.mem_cons_self _ _)
        have hqr : dec_value l.ino ≠ VTFS_ROOT_INO := hnr _ hmem_q
        have hqf : vtfs_find_file_by_ino st.root_dir (dec_value l.ino) = none :=
          hfr _ hmem_q
        have hq1 : dec_value l.ino ∉ rinos cs := by
          have hc := hin _ hmem_q
          rw [List.count_append, List.count_cons_self] at hc
          exact List.count_eq_zero.1 (by omega)
        obtain ⟨r, hr, hr1, hr2, hr3, hr4⟩ := hrec _ (List.mem_cons_self _ _) hd
          (load_line st p l.bytes).1
          (by
            rw [hroot]
            exact get_dir_appended _ p dir hdir _ hqf hqr l.entry [] rfl hd hdd)
          (by
            intro i hi
            rw [hroot]
            apply find_none_appended _ p dir hdir _ _ (hfr i (hmem_cs i hi))
            intro e he
            simp only [all_entries_cons, all_entries_nil, List.append_nil,
              entries_below_eq, hdd, List.mem_singleton] at he
            rw [he]
            intro hc
            apply hq1
            have : l.entry.info.ino = dec_value l.ino := rfl
            rw [← this, hc]
            exact rdirs_sub cs i hi)
        change vtfs_server_load_files srv fuel _ (dec_value l.ino) = some r at hr
        refine ⟨r.1, by rw [hr]; rfl, ?_, by rw [hr2, h2], by rw [hr3, h3], by rw [hr4, h4]⟩
        rw [hr1, hroot]
        change modify_dir (fun d => d ++ hydrated cs) _ (dec_value l.ino) = _
        rw [modify_dir_nested _ p dir hdir _ hqf hqr l.entry [] rfl hdd]
        have he : l.entry.set_dir (some ([] ++ hydrated cs)) = hydrated_node (.mk l cs) := by
          rw [hydrated_node_mk, list_line.entry, set_dir_mk, List.nil_append]
          simp only [hd, if_true]
        rw [he]
      · simp only [hd, Bool.false_eq_true, if_false]
        have hcs : cs = [] := hleaf _ (List.mem_cons_self _ _) hd
        subst hcs
        refine ⟨_, rfl, ?_, h2, h3, h4⟩
        rw [hroot]
        have he : hydrated_node (.mk l []) = l.entry := by
          rw [hydrated_node_mk, list_line.entry]
          simp only [hd, Bool.false_eq_true, if_false]
        rw [he]
    obtain ⟨st2, hs, hs1, hs2, hs3, hs4⟩ := hstep
    have hname : (hydrated_node (.mk l cs)).name = name_of_bytes l.name := by
      rw [hydrated_node_mk]
      rfl
    have hnd1 : name_of_bytes l.name ∉ ns.map (fun n => name_of_bytes n.line.name) ∧
        (ns.map (fun n => name_of_bytes n.line.name)).Nodup := by
      rw [List.map_cons] at hnd
      exact List.nodup_cons.1 hnd
    obtain ⟨st1, hf, hg, hn, hu, hm⟩ := ih st2 (dir ++ [hydrated_node (.mk l cs)])
      (by rw [hs1]; exact get_dir_modify_dir _ _ p dir hdir)
      (fun x hx => hwf x (List.mem_cons_of_mem _ hx)) hnd1.2
      (by
        intro x hx
        apply find_file_append_none _ _ _ (hfree x (List.mem_cons_of_mem _ hx))
        simp only [List.map_cons, List.map_nil, List.mem_singleton, hname]
        intro hc
        apply hnd1.1
        rw [← hc]
        exact List.mem_map_of_mem (fun n => name_of_bytes n.line.name) hx)
      (by
        intro i hi
        have hc := hin i (hmem_ns i hi)
        have hle := (List.sublist_append_right (dec_value l.ino :: rinos cs)
          (rinos ns)).count_le i
        have hpos := List.count_pos_iff.2 (rdirs_sub ns i hi)
        omega)
      (fun i hi => hnr i (hmem_ns i hi))
      (by
        intro i hi
        rw [hs1]
        apply find_none_appended _ p dir hdir _ _ (hfr i (hmem_ns i hi))
        intro e he hc
        have hmem := hydrated_inos [.mk l cs] e (by
          rw [hydrated_cons, hydrated_nil]
          exact he)
        rw [rinos_cons, rinos_nil, List.append_nil, rinos_node_mk, hc] at hmem
        have hc1 := hin i (hmem_ns i hi)
        rw [List.count_append] at hc1
        have hp1 := List.count_pos_iff.2 hmem
        have hp2 := List.count_pos_iff.2 (rdirs_sub ns i hi)
        omega)
      (fun x hx => hleaf x (List.mem_cons_of_mem _ hx))
      (fun x hx => hrec x (List.mem_cons_of_mem _ hx))
    refine ⟨st1, ?_, ?_, by rw [hn, hs2], by rw [hu, hs3], by rw [hm, hs4]⟩
    · simp only [List.map_cons, List.foldl_cons]
      change List.foldl _ (match (load_line st p l.bytes).2 with
        | none => some (load_line st p l.bytes).1
        | some ino =>
          (vtfs_server_load_files srv fuel (load_line st p l.bytes).1 ino).map
            (fun r : vtfs_fs_info × Int => r.1)) _ = _
      rw [hs]
      exact hf
    · rw [hg, hs1, modify_dir_comp _ _ _ p dir hdir]
      congr 1
      funext x
      rw [hydrated_cons, List.append_assoc, List.singleton_append]


/-- What `well_listed_node` says of a node. -/
theorem well_listed_node_spec (srv : Nat → Int × List Nat) (l : list_line) (cs : List rnode)
    (h : well_listed_node srv (.mk l cs) = true) :
    l.well_formed ∧
    (¬ S_ISDIR (load_mode (dec_value l.mode)) = true → cs = []) ∧
    (S_ISDIR (load_mode (dec_value l.mode)) = true →
      (lists srv (dec_value l.ino) cs ∨ (no_listing srv (dec_value l.ino) ∧ cs = [])) ∧
      (cs.map (fun c => name_of_bytes c.line.name)).Nodup ∧ well_listed srv cs = true) := by
  rw [well_listed_node_mk, Bool.and_eq_true, decide_eq_true_eq] at h
  refine ⟨h.1, ?_, ?_⟩
  · intro hd
    have h2 := h.2
    simp only [hd, Bool.false_eq_true, if_false, List.isEmpty_iff] at h2
    exact h2
  · intro hd
    have h2 := h.2
    simp only [hd, if_true, Bool.and_eq_true, Bool.or_eq_true, decide_eq_true_eq,
      List.isEmpty_iff] at h2
    exact ⟨h2.1.1, h2.1.2, h2.2⟩

/-- A successful `list` call for the nodes of a directory, given what the calls for
the directories among them do. -/
theorem hydrate_listed (srv : Nat → Int × List Nat) (fuel : Nat) (p : Nat)
    (nodes : List rnode) (st : vtfs_fs_info) (dir : List vtfs_file)
    (hdir : vtfs_get_dir st.root_dir p = some dir)
    (hlist : lists srv p nodes)
    (hwf : ∀ n ∈ nodes, n.line.well_formed)
    (hnd : (nodes.map (fun n => name_of_bytes n.line.name)).Nodup)
    (hfree : ∀ n ∈ nodes, vtfs_find_file dir (name_of_bytes n.line.name) = none)
    (hin : ∀ i ∈ rdirs nodes, (rinos nodes).count i = 1)
    (hnr : ∀ i ∈ rdirs nodes, i ≠ VTFS_ROOT_INO)
    (hfr : ∀ i ∈ rdirs nodes, vtfs_find_file_by_ino st.root_dir i = none)
    (hleaf : ∀ n ∈ nodes, ¬ S_ISDIR (load_mode (dec_value n.line.mode)) = true →
      n.children = [])
    (hrec : ∀ n ∈ nodes, S_ISDIR (load_mode (dec_value n.line.mode)) = true →
      ∀ st2 : vtfs_fs_info,
      vtfs_get_dir st2.root_dir (dec_value n.line.ino) = some [] →
      (∀ i ∈ rdirs n.children, vtfs_find_file_by_ino st2.root_dir i = none) →
      ∃ r, vtfs_server_load_files srv fuel st2 (dec_value n.line.ino) = some r ∧
        r.1.root_dir = modify_dir (fun d => d ++ hydrated n.children) st2.root_dir
          (dec_value n.line.ino) ∧
        r.1.next_ino = st2.next_ino ∧ r.1.use_server = st2.use_server ∧
        r.1.mem = st2.mem) :
    ∃ st1, vtfs_server_load_files srv (fuel + 1) st p = some (st1, 0) ∧
      st1.root_dir = modify_dir (fun d => d ++ hydrated nodes) st.root_dir p ∧
      st1.next_ino = st.next_ino ∧ st1.use_server = st.use_server ∧ st1.mem = st.mem := by
  obtain ⟨st1, hf, hg, hn, hu, hm⟩ :=
    hydrate_fold srv fuel p nodes st dir hdir hwf hnd hfree hin hnr hfr hleaf hrec
  obtain ⟨hret, hstatus, htake, hdrop, hlen⟩ := hlist
  refine ⟨st1, ?_, hg, hn, hu, hm⟩
  have hpay : cstr ((srv p).2.drop 8) = listing_bytes (nodes.map rnode.line) ++
      (cstr ((srv p).2.drop 8)).drop (listing_bytes (nodes.map rnode.line)).length := by
    conv_lhs => rw [← List.take_append_drop (listing_bytes (nodes.map rnode.line)).length
      (cstr ((srv p).2.drop 8))]
    rw [htake]
  have hlines := load_lines_listing (payload_len (srv p).1) (nodes.map rnode.line)
    (by
      intro x hx
      obtain ⟨n, hn1, hn2⟩ := List.mem_map.1 hx
      rw [← hn2]
      exact hwf n hn1)
    _ hdrop 0 (by omega)
  rw [← hpay] at hlines
  rw [vtfs_server_load_files]
  rw [if_neg (by omega), if_neg (by simp [hstatus]), hlines]
  exact congrArg (Option.map (fun s => ((s, 0) : vtfs_fs_info × Int))) hf

/-- What the calls for the directories of a well-listed forest do, from what a call
with the same fuel does for a lower forest. -/
theorem hydrate_children (srv : Nat → Int × List Nat) (fuel : Nat) (nodes : List rnode)
    (hmain : ∀ (cs : List rnode) (st : vtfs_fs_info) (q : Nat) (dir : List vtfs_file),
      rheight cs < fuel →
      vtfs_get_dir st.root_dir q = some dir →
      (lists srv q cs ∨ (no_listing srv q ∧ cs = [])) →
      well_listed srv cs = true →
      (cs.map (fun n => name_of_bytes n.line.name)).Nodup →
      (∀ n ∈ cs, vtfs_find_file dir (name_of_bytes n.line.name) = none) →
      (∀ i ∈ rdirs cs, (rinos cs).count i = 1) →
      (∀ i ∈ rdirs cs, i ≠ VTFS_ROOT_INO) →
      (∀ i ∈ rdirs cs, vtfs_find_file_by_ino st.root_dir i = none) →
      ∃ r, vtfs_server_load_files srv fuel st q = some r ∧
        r.1.root_dir = modify_dir (fun d => d ++ hydrated cs) st.root_dir q ∧
        r.1.next_ino = st.next_ino ∧ r.1.use_server = st.use_server ∧ r.1.mem = st.mem)
    (hh : rheight nodes ≤ fuel) (hwl : well_listed srv nodes = true)
    (hin : ∀ i ∈ rdirs nodes, (rinos nodes).count i = 1)
    (hnr : ∀ i ∈ rdirs nodes, i ≠ VTFS_ROOT_INO) :
    (∀ n ∈ nodes, n.line.well_formed) ∧
    (∀ n ∈ nodes, ¬ S_ISDIR (load_mode (dec_value n.line.mode)) = true →
      n.children = []) ∧
    (∀ n ∈ nodes, S_ISDIR (load_mode (dec_value n.line.mode)) = true →
      ∀ st2 : vtfs_fs_info,
      vtfs_get_dir st2.root_dir (dec_value n.line.ino) = some [] →
      (∀ i ∈ rdirs n.children, vtfs_find_file_by_ino st2.root_dir i = none) →
      ∃ r, vtfs_server_load_files srv fuel st2 (dec_value n.line.ino) = some r ∧
        r.1.root_dir = modify_dir (fun d => d ++ hydrated n.children) st2.root_dir
          (dec_value n.line.ino) ∧
        r.1.next_ino = st2.next_ino ∧ r.1.use_server = st2.use_server ∧
        r.1.mem = st2.mem) := by
  refine ⟨?_, ?_, ?_⟩
  · intro n hn
    cases n with
    | mk l cs => exact (well_listed_node_spec srv l cs (well_listed_mem srv hwl hn)).1
  · intro n hn hd
    cases n with
    | mk l cs => exact (well_listed_node_spec srv l cs (well_listed_mem srv hwl hn)).2.1 hd
  · intro n hn hd st2 hdir2 hfr2
    cases n with
    | mk l cs =>
    obtain ⟨hl, hnd, hw⟩ :=
      (well_listed_node_spec srv l cs (well_listed_mem srv hwl hn)).2.2 hd
    have hsub := rinos_mem hn
    rw [rinos_node_mk] at hsub
    have hht := rheight_mem hn
    rw [rheight_node_mk] at hht
    have hup : ∀ i ∈ rdirs cs, i ∈ rdirs nodes :=
      fun i hi => rdirs_mem hn i (rdirs_children l cs i hi)
    exact hmain cs st2 (dec_value l.ino) [] (by omega) hdir2 hl hw hnd
      (fun _ _ => rfl)
      (by
        intro i hi
        have hc := hin i (hup i hi)
        have hle := ((List.sublist_cons_self (dec_value l.ino) (rinos cs)).trans
          hsub).count_le i
        have hpos := List.count_pos_iff.2 (rdirs_sub cs i hi)
        omega)
      (fun i hi => hnr i (hup i hi)) hfr2

/-- Hydration of a well-listed forest under a directory: with fuel above the height
of the forest the call returns, and the directory has received the records of the
forest. -/
theorem hydrate_spec (srv : Nat → Int × List Nat) (fuel : Nat) :
    ∀ (cs : List rnode) (st : vtfs_fs_info) (q : Nat) (dir : List vtfs_file),
      rheight cs < fuel →
      vtfs_get_dir st.root_dir q = some dir →
      (lists srv q cs ∨ (no_listing srv q ∧ cs = [])) →
      well_listed srv cs = true →
      (cs.map (fun n => name_of_bytes n.line.name)).Nodup →
      (∀ n ∈ cs, vtfs_find_file dir (name_of_bytes n.line.name) = none) →
      (∀ i ∈ rdirs cs, (rinos cs).count i = 1) →
      (∀ i ∈ rdirs cs, i ≠ VTFS_ROOT_INO) →
      (∀ i ∈ rdirs cs, vtfs_find_file_by_ino st.root_dir i = none) →
      ∃ r, vtfs_server_load_files srv fuel st q = some r ∧
        r.1.root_dir = modify_dir (fun d => d ++ hydrated cs) st.root_dir q ∧
        r.1.next_ino = st.next_ino ∧ r.1.use_server = st.use_server ∧ r.1.mem = st.mem := by
  induction fuel with
  | zero =>
    intro cs st q dir hh
    omega
  | succ d ih =>
    intro cs st q dir hh hdir hl hwl hnd hfree hin hnr hfr
    rcases hl with hl | ⟨hno, hnil⟩
    · obtain ⟨hwf, hleaf, hrec⟩ := hydrate_children srv d cs ih (by omega) hwl hin hnr
      obtain ⟨st1, h1, h2, h3, h4, h5⟩ :=
        hydrate_listed srv d q cs st dir hdir hl hwf hnd hfree hin hnr hfr hleaf hrec
      exact ⟨(st1, 0), h1, h2, h3, h4, h5⟩
    · subst hnil
      have hn := load_files_nothing srv d st q hno
      cases hr : vtfs_server_load_files srv (d + 1) st q with
      | none =>
        rw [hr] at hn
        cases hn
      | some r =>
        rw [hr, Option.map_some', Option.some.injEq] at hn
        refine ⟨r, rfl, ?_, by rw [hn], by rw [hn], by rw [hn]⟩
        rw [hn, modify_dir_id _ (fun x => by rw [hydrated_nil, List.append_nil]) _ _ _ hdir]

/-- The scalar fields of the records made for a forest are those of the lines. -/
theorem hydrated_infos (nodes : List rnode) :
    (hydrated nodes).map vtfs_file.info = nodes.map (fun n => n.line.entry.info) := by
  induction nodes with
  | nil => rw [hydrated_nil]; rfl
  | cons n ns ih =>
    cases n with
    | mk l cs =>
      rw [hydrated_cons, List.map_cons, List.map_cons, ih, hydrated_node_mk]
      congr 1
      by_cases hd : S_ISDIR (load_mode (dec_value l.mode)) = true
      · simp [rnode.line, list_line.entry, vtfs_file.info, hd, vtfs_file.ino, vtfs_file.mode,
          vtfs_file.name, vtfs_file.dir_data, vtfs_file.data, vtfs_file.data_size,
          vtfs_file.nlink]
      · simp [rnode.line, list_line.entry, vtfs_file.info, hd, vtfs_file.ino, vtfs_file.mode,
          vtfs_file.name, vtfs_file.dir_data, vtfs_file.data, vtfs_file.data_size,
          vtfs_file.nlink]

/-- Hydration of a listed tree under any directory. Take a `list` call for directory
`p` that succeeds with status
0 and a payload made of the well-formed lines of `nodes`, each followed by a newline,
and then possibly bytes without a newline (a last line that is not terminated).  Let
the same hold for the directories among the lines, with their own lines (or let their
call load nothing), down to the leaves, `depth` levels at most.  When `p` resolves, the
names of a directory are distinct and new in it, and the inos of the listed
directories are used once in the listing, differ from the root ino and are new in the
tree, `vtfs_server_load_files` returns 0 and `p` ends with one more record per
terminated line, in the order of the lines, with the fields of the line, a directory
holding the records of its own lines; the unterminated rest makes no record.  Counter,
mode and heap are unchanged. -/
theorem hydrate_tree (srv : Nat → Int × List Nat) (depth : Nat)
    (st : vtfs_fs_info) (p : Nat) (dir : List vtfs_file) (nodes : List rnode)
    (hdir : vtfs_get_dir st.root_dir p = some dir)
    (hlist : lists srv p nodes)
    (hwl : well_listed srv nodes = true)
    (hdepth : rheight nodes ≤ depth)
    (hnodup : (nodes.map (fun n => name_of_bytes n.line.name)).Nodup)
    (hfree : ∀ n ∈ nodes, vtfs_find_file dir (name_of_bytes n.line.name) = none)
    (honce : ∀ i ∈ rdirs nodes, (rinos nodes).count i = 1)
    (hroot : ∀ i ∈ rdirs nodes, i ≠ VTFS_ROOT_INO)
    (hfresh : ∀ i ∈ rdirs nodes, vtfs_find_file_by_ino st.root_dir i = none) :
    ∃ st1, vtfs_server_load_files srv (depth + 1) st p = some (st1, 0) ∧
      vtfs_get_dir st1.root_dir p = some (dir ++ hydrated nodes) ∧
      (hydrated nodes).map vtfs_file.info = nodes.map (fun n => n.line.entry.info) ∧
      st1.root_dir = modify_dir (fun d => d ++ hydrated nodes) st.root_dir p ∧
      st1.next_ino = st.next_ino ∧ st1.use_server = st.use_server ∧ st1.mem = st.mem := by
  obtain ⟨hwf, hleaf, hrec⟩ :=
    hydrate_children srv depth nodes (hydrate_spec srv depth) hdepth hwl honce hroot
  obtain ⟨st1, h1, h2, h3, h4, h5⟩ :=
    hydrate_listed srv depth p nodes st dir hdir hlist hwf hnodup hfree honce hroot hfresh
      hleaf hrec
  refine ⟨st1, h1, ?_, hydrated_infos nodes, h2, h3, h4, h5⟩
  rw [h2]
  exact get_dir_modify_dir _ _ p dir hdir

theorem hydrate_tree_example :
    vtfs_get_dir (empty_mount true demo_mem).root_dir 100 = some [] ∧
    lists forest_server 100 demo_forest ∧
    well_listed forest_server demo_forest = true ∧
    rheight demo_forest ≤ 2 ∧
    (demo_forest.map (fun n => name_of_bytes n.line.name)).Nodup ∧
    (∀ i ∈ rdirs demo_forest, (rinos demo_forest).count i = 1) ∧
    (∀ i ∈ rdirs demo_forest, i ≠ VTFS_ROOT_INO) ∧
    cstr ((forest_server 100).2.drop 8) =
      listing_bytes [line_perm, line_dir] ++ line_regular.bytes ∧
    all_entries (hydrated demo_forest) =
      [⟨7, 0o100644, "b", false, 0, 0, 1⟩, ⟨6, 0o040755, "d", true, 0, 0, 1⟩,
        ⟨500, 0o100644, "c", false, 0, 0, 1⟩] ∧
    ∃ st1, vtfs_server_load_files forest_server (2 + 1) (empty_mount true demo_mem) 100 =
        some (st1, 0) ∧
      vtfs_get_dir st1.root_dir 100 = some ([] ++ hydrated demo_forest) ∧
      (hydrated demo_forest).map vtfs_file.info =
        demo_forest.map (fun n => n.line.entry.info) ∧
      st1.root_dir = modify_dir (fun d => d ++ hydrated demo_forest)
        (empty_mount true demo_mem).root_dir 100 ∧
      st1.next_ino = (empty_mount true demo_mem).next_ino ∧
      st1.use_server = (empty_mount true demo_mem).use_server ∧
      st1.mem = (empty_mount true demo_mem).mem :=
  ⟨by rfl, by decide, by decide, by decide, by decide, by decide, by decide, by decide,
    by decide,
    hydrate_tree forest_server 2 (empty_mount true demo_mem) 100 []
      demo_forest (by rfl) (by decide) (by decide) (by decide) (by decide)
      (fun _ _ => rfl) (by decide) (by decide) (fun _ _ => rfl)⟩

/-! ## Appending writes -/

/-- A write at the end of the content appends. -/
theorem written_at_end (D B : List Nat) : written D D.length B = D ++ B := by
  simp [written]

/-- On a handle with `O_APPEND` the write is the write at the size of the record. -/
theorem write_append_eq (st : vtfs_fs_info) (i : inode) (f : vtfs_file) (flags : Nat)
    (B : List Nat) (o : Nat) (push : Int)
    (hf : vtfs_get_file_by_inode st i = some f) (happ : flags &&& O_APPEND ≠ 0) :
    vtfs_write st i flags B o push = vtfs_write st i 0 B f.data_size push := by
  have h0 : ¬ (0 &&& O_APPEND ≠ 0) := by decide
  have h1 : (if flags &&& O_APPEND ≠ 0 then f.data_size else o) = f.data_size := if_pos happ
  unfold vtfs_write
  simp only [hf, h1, h0, if_false]

/-- A write on a handle without `O_APPEND`, in terms of the content of the record. -/
theorem write_content (st : vtfs_fs_info) (i : inode) (f : vtfs_file)
    (D : List Nat) (flags : Nat) (B : List Nat) (o : Nat)
    (hf : vtfs_get_file_by_inode st i = some f) (hD : file_content st.mem f = some D)
    (happ : flags &&& O_APPEND = 0) (push : Int) :
    ∃ r f1, vtfs_write st i flags B o push = some r ∧ r.ret = (B.length : Int) ∧
      r.pos = o + B.length ∧ r.st.use_server = st.use_server ∧
      vtfs_get_file_by_inode r.st i = some f1 ∧
      file_content r.st.mem f1 = some (written D o B) ∧
      f1.data_size = max D.length (o + B.length) := by
  obtain ⟨hlen, hc⟩ := content_cases hD
  have hz : f.data = NULL → f.data_size = 0 := by
    intro hn
    rcases hc with ⟨-, hs, -⟩ | ⟨hd, -⟩
    · exact hs
    · exact absurd hn hd
  obtain ⟨base, hbase, hDb⟩ : ∃ base, ((f.data = NULL ∧ base = []) ∨
      (f.data ≠ NULL ∧ st.mem.find f.data = some base ∧ f.data_size ≤ base.length)) ∧
      D = base.take f.data_size := by
    rcases hc with ⟨hd, hs, hD0⟩ | ⟨hd, blk, hfind, hsz, hDb⟩
    · exact ⟨[], Or.inl ⟨hd, rfl⟩, by simp [hD0]⟩
    · exact ⟨blk, Or.inr ⟨hd, hfind, hsz⟩, hDb⟩
  obtain ⟨r, f1, blk1, hw, hret, hpos, -, hus, hf1, hd1, hfind1, hsz1, -, -, hcont⟩ :=
    write_spec st i f base flags B o hf hbase happ push
  obtain ⟨hsize, hD1⟩ := hcont hz
  rw [← hDb] at hD1
  refine ⟨r, f1, hw, hret, hpos, hus, hf1, ?_, by rw [hsize, hlen]⟩
  rw [content_of_block hd1 hfind1 hsz1, hD1]

/-- Appending to a file that has content `D` of length `s`: `vtfs_write` of `B` on a
handle with `O_APPEND` gives the same result for every supplied offset.  It returns
`len(B)`, leaves the offset at `s + len(B)`, and leaves the file with size
`s + len(B)` and content `D` followed by `B` (so `B` at `[s, s + len(B))` and the
bytes `[0, s)` as they were), in local and in remote mode and for every outcome of the
remote push. -/
theorem append_content (st : vtfs_fs_info) (i : inode) (f : vtfs_file)
    (D : List Nat) (flags : Nat) (B : List Nat) (push : Int)
    (hf : vtfs_get_file_by_inode st i = some f) (hD : file_content st.mem f = some D)
    (happ : flags &&& O_APPEND ≠ 0) :
    D.length = f.data_size ∧
    ∃ r f1, (∀ o, vtfs_write st i flags B o push = some r) ∧ r.ret = (B.length : Int) ∧
      r.pos = f.data_size + B.length ∧
      vtfs_get_file_by_inode r.st i = some f1 ∧
      f1.data_size = f.data_size + B.length ∧
      file_content r.st.mem f1 = some (D ++ B) ∧
      (∀ j, j < B.length → (D ++ B)[f.data_size + j]? = B[j]?) ∧
      (∀ j, j < f.data_size → (D ++ B)[j]? = D[j]?) := by
  have hlen := (content_cases hD).1
  obtain ⟨r, f1, hw, hret, hpos, -, hf1, hc, hsize⟩ :=
    write_content st i f D 0 B f.data_size hf hD (by decide) push
  rw [← hlen, written_at_end] at hc
  refine ⟨hlen, r, f1, ?_, hret, hpos, hf1, ?_, hc, ?_, ?_⟩
  · intro o
    rw [write_append_eq st i f flags B o push hf happ]
    exact hw
  · rw [hsize, hlen]
    exact max_eq_right (Nat.le_add_right _ _)
  · intro j hj
    rw [← hlen, List.getElem?_append_right (Nat.le_add_right _ _), Nat.add_sub_cancel_left]
  · intro j hj
    rw [List.getElem?_append_left (by rw [hlen]; exact hj)]

theorem append_content_example :
    vtfs_get_file_by_inode two_names_written file_ino = some written_file ∧
    file_content two_names_written.mem written_file = some hello ∧
    (0o2001 &&& O_APPEND ≠ 0) ∧
    (hello.length = written_file.data_size ∧
    ∃ r f1, (∀ o, vtfs_write two_names_written file_ino 0o2001 [88, 89] o 0 = some r) ∧
      r.ret = (([88, 89] : List Nat).length : Int) ∧
      r.pos = written_file.data_size + ([88, 89] : List Nat).length ∧
      vtfs_get_file_by_inode r.st file_ino = some f1 ∧
      f1.data_size = written_file.data_size + ([88, 89] : List Nat).length ∧
      file_content r.st.mem f1 = some (hello ++ [88, 89]) ∧
      (∀ j, j < ([88, 89] : List Nat).length →
        (hello ++ [88, 89])[written_file.data_size + j]? = ([88, 89] : List Nat)[j]?) ∧
      (∀ j, j < written_file.data_size → (hello ++ [88, 89])[j]? = hello[j]?)) :=
  ⟨by rfl, by decide, by decide,
    append_content two_names_written file_ino written_file hello 0o2001 [88, 89] 0
      (by rfl) (by decide) (by decide)⟩

/-! ## Writes on a record without buffer -/

/-- A write on a record without buffer, on a handle without `O_APPEND`: whatever
size the record had, its size becomes `o + len(B)`, less than before when the write
ends inside the old size. -/
theorem write_unbuffered (st : vtfs_fs_info) (i : inode) (f0 : vtfs_file)
    (flags : Nat) (B : List Nat) (o : Nat) (push : Int)
    (hf : vtfs_get_file_by_inode st i = some f0) (hnull : f0.data = NULL)
    (happ : flags &&& O_APPEND = 0) :
    ∃ r f1, vtfs_write st i flags B o push = some r ∧ r.ret = (B.length : Int) ∧
      r.pos = o + B.length ∧ vtfs_get_file_by_inode r.st i = some f1 ∧
      f1.data ≠ NULL ∧ f1.data_size = o + B.length ∧
      (o + B.length < f0.data_size → f1.data_size < f0.data_size) := by
  have hG : o + B.length > f0.data_size ∨ f0.data = NULL := Or.inr hnull
  by_cases hns : o + B.length = 0
  · have ho : o = 0 := by omega
    have hB : B = [] := List.length_eq_zero.1 (by omega)
    subst ho hB
    have hq : ZERO_SIZE_PTR ≠ NULL := by decide
    obtain ⟨st1, f2, f1, hws, hf2, hmem1, hus1, -, hf1, hd1, hs1⟩ :=
      write_store_spec st i f0 ZERO_SIZE_PTR 0 (st.mem.kfree f0.data) hf hq
    have hgrow : write_grow st i f0 0 (0 + ([] : List Nat).length) = some (st1, some f2) := by
      unfold write_grow
      simp only [List.length_nil, Nat.add_zero, hnull, or_true, if_true, kmem.krealloc]
      rw [← hnull]
      simp only [hnull, hq, if_false, Nat.not_lt_zero]
      rw [← hnull, hws]
    obtain ⟨r, hr, hret, hpos, hout, hus, hfr, hfindr⟩ :=
      write_finish st st1 i flags [] 0 f0 f2 f1 [] hf happ hgrow hf1 (by rw [hf2, hd1])
        (by rw [hd1]; exact hq) (by rw [hd1]; exact find_zero_size _) (by simp) push
    exact ⟨r, f1, hr, hret, hpos, hfr, by rw [hd1]; exact hq, by rw [hs1]; rfl,
      fun h => by rw [hs1]; exact h⟩
  · have hpos : 0 < o + B.length := Nat.pos_of_ne_zero hns
    obtain ⟨q, m1, ext, hk, hq, hfind1, hlen1⟩ :=
      krealloc_spec st.mem f0.data (o + B.length) [] hpos (Or.inl ⟨hnull, rfl⟩)
    have hzero : ∃ m2, (if f0.data_size < o then
          m1.store q f0.data_size (List.replicate (o - f0.data_size) 0) else some m1) = some m2 ∧
        m2.find q = some (if f0.data_size < o then
          patch ([] ++ ext) f0.data_size (List.replicate (o - f0.data_size) 0)
          else [] ++ ext) ∧
        (if f0.data_size < o then
          patch ([] ++ ext) f0.data_size (List.replicate (o - f0.data_size) 0)
          else [] ++ ext).length = ([] ++ ext).length := by
      by_cases hso : f0.data_size < o
      · have hle : f0.data_size + (List.replicate (o - f0.data_size) 0).length ≤
            ([] ++ ext).length := by
          simp only [List.length_replicate]; omega
        obtain ⟨m2, h1, h2⟩ := store_find m1 q f0.data_size _ _ hfind1 hle
        rw [if_pos hso, if_pos hso]
        exact ⟨m2, h1, h2, length_patch _ _ _ hle⟩
      · rw [if_neg hso, if_neg hso]
        exact ⟨m1, rfl, hfind1, rfl⟩
    obtain ⟨m2, hz1, hz2, hz3⟩ := hzero
    obtain ⟨st1, f2, f1, hws, hf2, hmem1, hus1, -, hf1, hd1, hs1⟩ :=
      write_store_spec st i f0 q (o + B.length) m2 hf hq
    have hgrow : write_grow st i f0 o (o + B.length) = some (st1, some f2) := by
      unfold write_grow
      simp only [hG, if_true, hk, hq, if_false, hz1, hws]
    obtain ⟨r, hr, hret, hpos1, hout, hus, hfr, hfindr⟩ :=
      write_finish st st1 i flags B o f0 f2 f1 _ hf happ hgrow hf1 (by rw [hf2, hd1])
        (by rw [hd1]; exact hq) (by rw [hd1, hmem1]; exact hz2) (by rw [hz3]; exact hlen1) push
    exact ⟨r, f1, hr, hret, hpos1, hfr, by rw [hd1]; exact hq, hs1,
      fun h => by rw [hs1]; exact h⟩

/-- Claim C32, evaluated: the root listing holds the well-formed line "7,b,420,9".
After the mount in remote mode the record of `b` has size 9 and no buffer.  A write of
the two bytes "hi" at offset 0 (0 + 2 < 9) returns 2 and leaves the record with size
2.  After a read of nine bytes has fetched the content of the file, the same write
leaves the size at 9. -/
theorem C32_write_shrinks_unbuffered_file :
    line_sized.well_formed ∧
    sized_mount.map (fun st => (st.use_server, all_entries st.root_dir)) =
      some (true, [⟨7, 0o100644, "b", false, 0, 9, 1⟩]) ∧
    (sized_mount.bind (fun st => vtfs_write st sized_ino 0 [104, 105] 0 0)).map
      (fun r => (r.ret, r.pos, (all_entries r.st.root_dir).map (fun e => e.data_size))) =
      some (2, 2, [2]) ∧
    remote_read http_nine 9 = (0, [72, 69, 76, 76, 79, 87, 79, 82, 76]) ∧
    ((sized_mount.bind (fun st => vtfs_read st sized_ino 9 0 (remote_read http_nine))).map
      (fun r => (r.out, (all_entries r.st.root_dir).map (fun e => e.data_size)))) =
      some ([72, 69, 76, 76, 79, 87, 79, 82, 76], [9]) ∧
    (((sized_mount.bind (fun st => vtfs_read st sized_ino 9 0 (remote_read http_nine))).bind
      (fun r => vtfs_write r.st sized_ino 0 [104, 105] 0 0)).map
      (fun r => (r.ret, r.pos, (all_entries r.st.root_dir).map (fun e => e.data_size)))) =
      some (2, 2, [9]) := by
  decide

/-- A write with `O_APPEND` on a record without buffer of any size `s`: the bytes land
at `[s, s + len(B))` of a new buffer, size and offset become `s + len(B)`. -/
theorem append_unbuffered (st : vtfs_fs_info) (i : inode) (f0 : vtfs_file)
    (flags : Nat) (B : List Nat) (push : Int)
    (hf : vtfs_get_file_by_inode st i = some f0) (hnull : f0.data = NULL)
    (happ : flags &&& O_APPEND ≠ 0) :
    ∃ r f1 blk1, (∀ o, vtfs_write st i flags B o push = some r) ∧
      r.ret = (B.length : Int) ∧ r.pos = f0.data_size + B.length ∧
      vtfs_get_file_by_inode r.st i = some f1 ∧ f1.data ≠ NULL ∧
      r.st.mem.find f1.data = some blk1 ∧ f1.data_size = f0.data_size + B.length ∧
      f1.data_size ≤ blk1.length ∧ (blk1.drop f0.data_size).take B.length = B := by
  obtain ⟨r, f1, blk1, hw, hret, hpos, -, -, hf1, hd1, hfind1, hsz1, -, hB, -⟩ :=
    write_spec st i f0 [] 0 B f0.data_size hf (Or.inl ⟨hnull, rfl⟩) (by decide) push
  obtain ⟨r2, f2, hw2, -, -, hf2, -, hs2, -⟩ :=
    write_unbuffered st i f0 0 B f0.data_size push hf hnull (by decide)
  rw [hw, Option.some.injEq] at hw2
  subst hw2
  rw [hf1, Option.some.injEq] at hf2
  subst hf2
  refine ⟨r, f1, blk1, ?_, hret, hpos, hf1, hd1, hfind1, hs2, hsz1, hB⟩
  intro o
  rw [write_append_eq st i f0 flags B o push hf happ]
  exact hw

/-! ## Appending to a record without buffer -/

/-- Claim C31, evaluated: the root listing holds the line "7,b,420,9", so after the
mount in remote mode the file `b` has size 9 and no buffer; a read of its 9 bytes
returns "HELLOWORL" from the remote store.  On the fresh mount, a write of "hi" on a
handle with `O_WRONLY | O_APPEND` and supplied offset 3 returns 2, leaves the offset
at 11 and the size at 11, and a read of 11 bytes at 0 then returns nine bytes that
were never written (they read 170 in this heap) followed by "hi": the bytes `[0, 9)`
of the file are not what they were.  When the 9 bytes were read before the write,
the same read returns "HELLOWORL" followed by "hi". -/
theorem C31_append_on_unbuffered_file :
    stale_mount.map (fun st => (st.use_server, all_entries st.root_dir)) =
      some (true, [⟨7, 0o100644, "b", false, 0, 9, 1⟩]) ∧
    (0o2001 &&& O_APPEND ≠ 0) ∧
    remote_read http_nine 9 = (0, [72, 69, 76, 76, 79, 87, 79, 82, 76]) ∧
    (stale_mount.bind (fun st => vtfs_read st sized_ino 9 0 (remote_read http_nine))).map
      (fun r => r.out) = some [72, 69, 76, 76, 79, 87, 79, 82, 76] ∧
    (stale_mount.bind (fun st => vtfs_write st sized_ino 0o2001 [104, 105] 3 0)).map
      (fun r => (r.ret, r.pos, (all_entries r.st.root_dir).map (fun e => e.data_size))) =
      some (2, 11, [11]) ∧
    ((stale_mount.bind (fun st => vtfs_write st sized_ino 0o2001 [104, 105] 3 0)).bind
      (fun r => vtfs_read r.st sized_ino 11 0 (remote_read http_nine))).map (fun r => r.out) =
      some [170, 170, 170, 170, 170, 170, 170, 170, 170, 104, 105] ∧
    (((stale_mount.bind (fun st => vtfs_read st sized_ino 9 0 (remote_read http_nine))).bind
      (fun r => vtfs_write r.st sized_ino 0o2001 [104, 105] 3 0)).bind
      (fun r => vtfs_read r.st sized_ino 11 0 (remote_read http_nine))).map (fun r => r.out) =
      some [72, 69, 76, 76, 79, 87, 79, 82, 76, 104, 105] := by
  decide

/-! ## One record per terminated line -/

/-- Claim C29, amended. At mount `vtfs_server_load_files` runs on the empty tree for the
root ino and calls itself for every directory it loads.  Let the `list` call for the
root succeed with status 0 and a payload made of the well-formed lines of `nodes`, each
followed by a newline, and then possibly bytes without a newline (a last line that is
not terminated); let the same hold for every line that is loaded as a directory, with
the lines of its children (or let its call load nothing: it has no children), down to
the leaves, `depth` levels at most.  When the names within one response are distinct
and the ino of a line loaded as a directory occurs in no other line of the tree and is
not the root ino, the call returns 0 and leaves the tree `hydrated nodes`: in every
directory one record per terminated line of its response, in the order of the lines,
with the fields of the line; the unterminated rest makes no record.  Counter, mode and
heap are those of the empty mount, and `vtfs_fill_super` returns this state. -/
theorem C29_one_entry_per_terminated_line (srv : Nat → Int × List Nat) (depth : Nat)
    (mem : kmem) (nodes : List rnode)
    (hlist : lists srv VTFS_ROOT_INO nodes)
    (hwl : well_listed srv nodes = true)
    (hnodup : (nodes.map (fun n => name_of_bytes n.line.name)).Nodup)
    (honce : ∀ i ∈ rdirs nodes, (rinos nodes).count i = 1)
    (hroot : ∀ i ∈ rdirs nodes, i ≠ VTFS_ROOT_INO)
    (hdepth : rheight nodes ≤ depth) :
    vtfs_server_load_files srv (depth + 1) (empty_mount true mem) VTFS_ROOT_INO =
      some (⟨hydrated nodes, 200, true, mem⟩, 0) ∧
    vtfs_fill_super true mem srv (depth + 1) = some ⟨hydrated nodes, 200, true, mem⟩ ∧
    (hydrated nodes).map vtfs_file.info = nodes.map (fun n => n.line.entry.info) ∧
    (hydrated nodes).length = nodes.length := by
  obtain ⟨st1, h1, -, h3, h4, h5, h6, h7⟩ :=
    hydrate_tree srv depth (empty_mount true mem) VTFS_ROOT_INO [] nodes (get_dir_root _)
      hlist hwl hdepth hnodup (fun _ _ => rfl) honce hroot (fun _ _ => find_nil _)
  have hst : st1 = ⟨hydrated nodes, 200, true, mem⟩ := by
    obtain ⟨rd, ni, us, m⟩ := st1
    simp only [empty_mount, modify_dir_root, List.nil_append] at h4 h5 h6 h7
    rw [h4, h5, h6, h7]
  rw [hst] at h1
  refine ⟨h1, ?_, h3, ?_⟩
  · unfold vtfs_fill_super
    rw [if_pos rfl, h1]
    rfl
  · have := congrArg List.length h3
    simpa using this

theorem C29_one_entry_per_terminated_line_witness :
    lists forest_server VTFS_ROOT_INO demo_forest ∧
    well_listed forest_server demo_forest = true ∧
    (demo_forest.map (fun n => name_of_bytes n.line.name)).Nodup ∧
    (∀ i ∈ rdirs demo_forest, (rinos demo_forest).count i = 1) ∧
    (∀ i ∈ rdirs demo_forest, i ≠ VTFS_ROOT_INO) ∧
    rheight demo_forest ≤ 2 ∧
    cstr ((forest_server 100).2.drop 8) =
      listing_bytes [line_perm, line_dir] ++ line_regular.bytes ∧
    cstr ((forest_server 6).2.drop 8) = listing_bytes [line_big] ∧
    names_two_levels (hydrated demo_forest) = [("b", []), ("d", ["c"])] ∧
    all_entries (hydrated demo_forest) =
      [⟨7, 0o100644, "b", false, 0, 0, 1⟩, ⟨6, 0o040755, "d", true, 0, 0, 1⟩,
        ⟨500, 0o100644, "c", false, 0, 0, 1⟩] ∧
    (vtfs_server_load_files forest_server (2 + 1) (empty_mount true demo_mem) VTFS_ROOT_INO =
        some (⟨hydrated demo_forest, 200, true, demo_mem⟩, 0) ∧
      vtfs_fill_super true demo_mem forest_server (2 + 1) =
        some ⟨hydrated demo_forest, 200, true, demo_mem⟩ ∧
      (hydrated demo_forest).map vtfs_file.info =
        demo_forest.map (fun n => n.line.entry.info) ∧
      (hydrated demo_forest).length = demo_forest.length) :=
  ⟨by decide, by decide, by decide, by decide, by decide, by decide, by decide, by decide,
    by decide, by decide,
    C29_one_entry_per_terminated_line forest_server 2 demo_mem demo_forest (by decide)
      (by decide) (by decide) (by decide) (by decide) (by decide)⟩

/-- Claim C29, as stated, evaluated at mount on four root listings of well-formed
lines.  "7,b,420,0", newline, "500,c,420" without a newline behind the last line: the
call returns 0 and makes one record, for the first line (two with the newline).
"7,b,420,0" and "8,b,420", both terminated: one record, the second line has the name of
the first.  The directories "6,d,16877" and "6,e,16877", both terminated, where the
response for ino 6 is the terminated line "500,c,420": `d` receives `c`, `e` nothing.
The directory "100,d,16877" with the ino of the root, and "7,b,420,0": the response
for `d` is the one of the root, and `d` receives no record. -/
theorem C29_lines_without_entry :
    (∀ l ∈ [line_perm, line_big, line_again, line_dir, line_twin, line_root],
      l.well_formed) ∧
    (vtfs_server_load_files (list_server (line_perm.bytes ++ [10] ++ line_big.bytes)) 3
        (empty_mount true demo_mem) 100).map
      (fun r => (r.2, r.1.root_dir.map vtfs_file.name)) = some (0, ["b"]) ∧
    (vtfs_server_load_files (list_server (line_perm.bytes ++ [10] ++ line_big.bytes ++ [10])) 3
        (empty_mount true demo_mem) 100).map
      (fun r => (r.2, r.1.root_dir.map vtfs_file.name)) = some (0, ["b", "c"]) ∧
    (vtfs_server_load_files (list_server (listing_bytes [line_perm, line_again])) 3
        (empty_mount true demo_mem) 100).map
      (fun r => (r.2, r.1.root_dir.map (fun f => (f.name, f.ino)))) = some (0, [("b", 7)]) ∧
    (vtfs_server_load_files twin_server 3 (empty_mount true demo_mem) 100).map
      (fun r => (r.2, names_two_levels r.1.root_dir)) = some (0, [("d", ["c"]), ("e", [])]) ∧
    (vtfs_server_load_files (list_server (listing_bytes [line_root, line_perm])) 3
        (empty_mount true demo_mem) 100).map
      (fun r => (r.2, names_two_levels r.1.root_dir)) = some (0, [("d", []), ("b", [])]) := by
  decide

end Vtfs
